import Mathlib

/-!
# Confirmation walker, indelible commit and serial-number check of the ccnode block chain

A shallow embedding of `ccnode/src/blockchain.cpp` (with the block layout of
`ccnode/src/block.hpp`).  Blocks live in a heap addressed by pointers; a `SmartBuf`
is an optional pointer.  The `BlockChain` singleton is an explicit `State`.
The collaborators the file only calls (`DbConn`, `Commitments`, the `Tx` codec,
BLAKE2b) are an environment `Env`: the return code of every external call is a
function of the calls made so far, and every call is appended to `State.trace`.
Unsigned arithmetic wraps explicitly (`uint64_t` levels, the `unsigned` counter).
Loops that the source writes as `while (true)` take a fuel argument; running out of
fuel, a failed `CCASSERT` and a null dereference are the three faults of `Except`.
-/

namespace BlockChain

/-- Modulus of `uint64_t` arithmetic, 2^64. -/
def UINT64_SIZE : Nat := 18446744073709551616

/-- Modulus of `unsigned` arithmetic, 2^32. -/
def UINT32_SIZE : Nat := 4294967296

/-- Address of a buffer (`SmartBuf::BasePtr`); a `SmartBuf` is an `Option Ptr`. -/
abbrev Ptr := Nat

/-- Object id `ccoid_t`: opaque fixed bytes compared with `memcmp`. -/
abbrev ccoid_t := Nat

/-- Packed header `BlockWireHeader` of block.hpp. -/
structure BlockWireHeader where
  signature : Nat
  prior_oid : ccoid_t
  level : Nat
  timestamp : Nat
  witness : Nat
deriving DecidableEq

/-- The `blockchain_params` member of `BlockAux`. -/
structure BlockchainParams where
  nwitnesses : Nat
  maxmal : Nat
  nconfsigs : Nat
  nseqconfsigs : Nat
  nskipconfsigs : Nat
  next_nwitnesses : Nat
  next_maxmal : Nat
  signing_keys : List Nat
deriving DecidableEq

/-- Class `BlockAux` of block.hpp, from its start to the end of `blockchain_params`
(the slice that `ParameterInsert` stores). -/
structure BlockAux where
  oid : ccoid_t
  block_hash : Nat
  announce_time : Nat
  skip : Nat
  marked_for_indelible : Bool
  blockchain_params : BlockchainParams
deriving DecidableEq

/-- One transaction record of a block payload, or a transaction object on the wire:
its object tag and its body bytes. -/
structure WireTx where
  tag : Nat
  body : List Nat
deriving DecidableEq

/-- An output of a parsed transaction (the fields `IndexTxOutputs` reads). -/
structure TxOut where
  M_address : Nat
  M_value_enc : Nat
  M_commitment : Nat
deriving DecidableEq

/-- The parsed transaction buffer `TxPay` (the fields this file reads and writes);
`input` holds `S_serialnum` of each input slot. -/
structure TxPay where
  nin : Nat
  input : List Nat
  nout : Nat
  output : List TxOut
  param_level : Nat
deriving DecidableEq

/-- A block object: wire header, aux buffer, the prior block held in
`preamble.auxp[1]`, and the transaction records of its payload. -/
structure Block where
  wire : BlockWireHeader
  aux : BlockAux
  prior : Option Ptr
  payload : List WireTx
deriving DecidableEq

/-- The messages passed to `SetFatalError` by the functions embedded here. -/
inductive FatalMsg where
  | DoConfirmations_commit
  | DoConfirmOne_level_sequence
  | SetNewlyIndelibleBlock_BeginWrite
  | SetNewlyIndelibleBlock_two_indelible_same_level
  | SetNewlyIndelibleBlock_sequence_error
  | SetNewlyIndelibleBlock_UpdateCommitTree
  | SetNewlyIndelibleBlock_BlockchainInsert
  | SetNewlyIndelibleBlock_ParameterInsert
  | IndexTxs_parse
  | IndexTxs_SerialnumInsert
  | IndexTxs_TxOutputsInsert
  | RestoreLastBlocks_retrieving_block
  | RestoreLastBlocks_SetupAuxBuf
  | RestoreLastBlocks_genesis_data
  | RestoreLastBlocks_ParameterSelect
  | RestoreLastBlocks_ValidObjsInsert
  | RestoreLastBlocks_ProcessQEnqueueValidate
deriving DecidableEq

/-- The effects recorded in program order: calls to the collaborators, accesses to
`marked_for_indelible`, assignments of the two indelible-block members, and the
fatal log line. -/
inductive Event where
  | BeginWrite
  | EndWrite (commit : Bool)
  | ReleaseMutex
  | StartCheckpoint (full : Bool)
  | tx_from_wire (tx : WireTx)
  | SerialnumInsert (serial : Nat)
  | GetNextCommitnum (reserve : Bool)
  | AddCommitment (commitnum : Nat) (commitment : Nat)
  | TxOutputsInsert (address value_enc param_level commitment commitnum : Nat)
  | UpdateCommitTree (block : Ptr) (timestamp : Nat)
  | BlockchainInsert (level : Nat) (block : Ptr)
  | ParameterInsert (key slot : Nat) (aux : BlockAux)
  | SerialnumCheck (serial : Nat)
  | TempSerialnumSelect (serial : Nat) (last_blockp : Ptr) (size : Nat)
  | ValidObjsDeleteObj (obj : Ptr)
  | ReadMarked (block : Ptr)
  | WriteMarked (block : Ptr)
  | SetNewIndelible (block : Ptr)
  | SetLastIndelible (block : Ptr)
  | Fatal (msg : FatalMsg)
  | BlockchainSelect (level : Nat)
  | SetPriorBlock (block prior : Ptr)
  | SetupAuxBuf (block : Ptr)
  | ParameterSelect (key slot : Nat)
  | ValidObjsInsert (obj : Ptr)
  | ProcessQEnqueueValidate (obj : Ptr) (prior_oid : ccoid_t) (level : Nat)
deriving DecidableEq

/-- The collaborators and build constants the embedded functions consume.
`rc hist call` is the return code of `call` after the calls `hist`. -/
structure Env where
  rc : List Event → Event → Int
  GetNextCommitnum : List Event → Nat
  TempSerialnumSelect : List Event → Nat → Ptr → Nat → Int × List Ptr
  tx_from_wire : WireTx → Option TxPay
  blake2b : List Nat → Nat
  CC_TAG_TX_WIRE : Nat
  CC_TAG_TX_BLOCK : Nat
  DB_KEY_BLOCK_AUX : Nat
  IsWitness : Bool
  witness_index : Int
  TEST_SMALL_BUFS : Bool

/-- The members of the `BlockChain` singleton, the block heap, the valid-objs
staging table and the effect trace. -/
structure State where
  heap : Ptr → Block
  m_have_fatal_error : Bool
  m_last_indelible_block : Option Ptr
  m_last_indelible_level : Nat
  m_new_indelible_block : Option Ptr
  m_startup_prune_level : Nat
  valid_objs : List Ptr
  trace : List Event

/-- Ways in which a run yields no result. -/
inductive Fault where
  | out_of_fuel
  | assertion_failed
  | null_deref
deriving DecidableEq

/-- Append effects to the trace. -/
def State.log (s : State) (es : List Event) : State :=
  { s with trace := s.trace ++ es }

/-- `BlockChain::SetFatalError`: latch the flag and log the message. -/
def SetFatalError (s : State) (msg : FatalMsg) : State :=
  { s with m_have_fatal_error := true, trace := s.trace ++ [Event.Fatal msg] }

/-- The assignment `auxp->marked_for_indelible = true` on the block at `p`. -/
def State.setMarked (s : State) (p : Ptr) : State :=
  { s with
    heap := fun q =>
      if q = p then
        { s.heap p with aux := { (s.heap p).aux with marked_for_indelible := true } }
      else s.heap q,
    trace := s.trace ++ [Event.WriteMarked p] }

/-- The assignment `m_new_indelible_block = smartobj`. -/
def State.publish (s : State) (smartobj : Ptr) : State :=
  { s with
    m_new_indelible_block := some smartobj,
    trace := s.trace ++ [Event.SetNewIndelible smartobj] }

/-- `BlockChain::CheckCreatePseudoSerialnum`: when the transaction has no input, give it
one whose serial number is the unkeyed BLAKE2b hash of the object body. -/
def CheckCreatePseudoSerialnum (env : Env) (txbuf : TxPay) (wire : WireTx) :
    Except Fault TxPay :=
  if txbuf.nin ≠ 0 then .ok txbuf
  else if wire.tag = env.CC_TAG_TX_WIRE ∨ wire.tag = env.CC_TAG_TX_BLOCK then
    .ok { txbuf with nin := 1, input := env.blake2b wire.body :: txbuf.input.tail }
  else .error Fault.assertion_failed

/-- `BlockChain::IndexTxOutputs`. -/
def IndexTxOutputs (env : Env) (s : State) (tx : TxOut) (param_level : Nat) : Bool × State :=
  let commitnum := env.GetNextCommitnum s.trace
  let s1 := s.log [Event.GetNextCommitnum true]
  let rc := env.rc s1.trace (Event.AddCommitment commitnum tx.M_commitment)
  let s2 := s1.log [Event.AddCommitment commitnum tx.M_commitment]
  if rc ≠ 0 then (true, s2)
  else
    (false, s2.log [Event.TxOutputsInsert tx.M_address tx.M_value_enc param_level
      tx.M_commitment commitnum])

/-- The loop `for (i < txbuf.nin) SerialnumInsert(input[i])` of `IndexTxs`, over the
serial numbers still to insert. -/
def IndexTxs.inputs (env : Env) : State → List Nat → Bool × State
  | s, [] => (false, s)
  | s, serial :: rest =>
    let rc := env.rc s.trace (Event.SerialnumInsert serial)
    let s1 := s.log [Event.SerialnumInsert serial]
    if rc ≠ 0 then (true, SetFatalError s1 FatalMsg.IndexTxs_SerialnumInsert)
    else IndexTxs.inputs env s1 rest

/-- The loop `for (i < txbuf.nout) IndexTxOutputs(output[i])` of `IndexTxs`. -/
def IndexTxs.outputs (env : Env) (param_level : Nat) : State → List TxOut → Bool × State
  | s, [] => (false, s)
  | s, tx :: rest =>
    let r := IndexTxOutputs env s tx param_level
    if r.1 then (true, SetFatalError r.2 FatalMsg.IndexTxs_TxOutputsInsert)
    else IndexTxs.outputs env param_level r.2 rest

/-- The slots `input[0 .. nin)` of a transaction buffer. -/
def TxPay.serialnums (txbuf : TxPay) : List Nat :=
  (List.range txbuf.nin).map (fun i => txbuf.input.getD i 0)

/-- The slots `output[0 .. nout)` of a transaction buffer. -/
def TxPay.outputs (txbuf : TxPay) : List TxOut :=
  (List.range txbuf.nout).map (fun i => txbuf.output.getD i ⟨0, 0, 0⟩)

/-- The loop `while (pdata < pend)` of `BlockChain::IndexTxs` over the records of the
payload. -/
def IndexTxs.records (env : Env) : State → List WireTx → Except Fault (Bool × State)
  | s, [] => .ok (false, s)
  | s, w :: rest =>
    let s1 := s.log [Event.tx_from_wire w]
    match env.tx_from_wire w with
    | none => .ok (true, SetFatalError s1 FatalMsg.IndexTxs_parse)
    | some parsed =>
      match CheckCreatePseudoSerialnum env parsed w with
      | .error f => .error f
      | .ok txbuf =>
        let r1 := IndexTxs.inputs env s1 txbuf.serialnums
        if r1.1 then .ok (true, r1.2)
        else
          let r2 := IndexTxs.outputs env txbuf.param_level r1.2 txbuf.outputs
          if r2.1 then .ok (true, r2.2)
          else IndexTxs.records env r2.2 rest

/-- `BlockChain::IndexTxs`. -/
def IndexTxs (env : Env) (s : State) (smartobj : Ptr) : Except Fault (Bool × State) :=
  IndexTxs.records env s (s.heap smartobj).payload

/-- The pending-or-last indelible block loaded by `SetNewlyIndelibleBlock`:
`m_new_indelible_block` if set, else `m_last_indelible_block`. -/
def State.pendingOrLast (s : State) : Option Ptr :=
  match s.m_new_indelible_block with
  | some p => some p
  | none => s.m_last_indelible_block

/-- The part of `BlockChain::SetNewlyIndelibleBlock` after the level and prior-oid check:
`IndexTxs`, `UpdateCommitTree`, `BlockchainInsert`, `ParameterInsert`, and the assignment
of `m_new_indelible_block`. -/
def SetNewlyIndelibleBlock.commit (env : Env) (s : State) (smartobj : Ptr) :
    Except Fault (Bool × State) :=
  let level := (s.heap smartobj).wire.level
  let timestamp := (s.heap smartobj).wire.timestamp
  match IndexTxs env s smartobj with
  | .error f => .error f
  | .ok (rc1, s1) =>
    if rc1 then .ok (true, s1)
    else
      let rc2 := env.rc s1.trace (Event.UpdateCommitTree smartobj timestamp)
      let s2 := s1.log [Event.UpdateCommitTree smartobj timestamp]
      if rc2 ≠ 0 then
        .ok (true, SetFatalError s2 FatalMsg.SetNewlyIndelibleBlock_UpdateCommitTree)
      else
        let rc3 := env.rc s2.trace (Event.BlockchainInsert level smartobj)
        let s3 := s2.log [Event.BlockchainInsert level smartobj]
        if rc3 ≠ 0 then
          .ok (true, SetFatalError s3 FatalMsg.SetNewlyIndelibleBlock_BlockchainInsert)
        else
          let call := Event.ParameterInsert env.DB_KEY_BLOCK_AUX (level % 64)
            (s3.heap smartobj).aux
          let rc4 := env.rc s3.trace call
          let s4 := s3.log [call]
          if rc4 ≠ 0 then
            .ok (true, SetFatalError s4 FatalMsg.SetNewlyIndelibleBlock_ParameterInsert)
          else
            .ok (false, s4.publish smartobj)

/-- `BlockChain::SetNewlyIndelibleBlock`; the result `true` is failure. -/
def SetNewlyIndelibleBlock (env : Env) (s : State) (smartobj : Ptr) :
    Except Fault (Bool × State) :=
  let level := (s.heap smartobj).wire.level
  let prior_oid := (s.heap smartobj).wire.prior_oid
  let rc0 := env.rc s.trace Event.BeginWrite
  let s0 := s.log [Event.BeginWrite]
  if rc0 < 0 then .ok (true, SetFatalError s0 FatalMsg.SetNewlyIndelibleBlock_BeginWrite)
  else
    let s1 := s0.log [Event.ReadMarked smartobj]
    if (s1.heap smartobj).aux.marked_for_indelible then .ok (true, s1)
    else
      let s2 := s1.setMarked smartobj
      match s2.pendingOrLast with
      | none =>
        if level ≠ 0 then .error Fault.assertion_failed
        else SetNewlyIndelibleBlock.commit env s2 smartobj
      | some lp =>
        let expected_level := ((s2.heap lp).wire.level + 1) % UINT64_SIZE
        if level ≠ expected_level ∨ prior_oid ≠ (s2.heap lp).aux.oid then
          let msg :=
            if level ≤ expected_level then
              FatalMsg.SetNewlyIndelibleBlock_two_indelible_same_level
            else FatalMsg.SetNewlyIndelibleBlock_sequence_error
          .ok (true, SetFatalError s2 msg)
        else SetNewlyIndelibleBlock.commit env s2 smartobj

/-- The backward walk `while (true)` of `BlockChain::DoConfirmOne`.  At the head of the
loop `block` is `lastobj` and `auxp` is its aux, so the walk carries `block` and
`nconfsigs`.  The result is the state and, unless the level check was fatal, the final
`nconfsigs` and `lastobj`. -/
def DoConfirmOne.walk : Nat → State → Ptr → Nat → Except Fault (State × Option (Nat × Ptr))
  | 0, _, _, _ => .error Fault.out_of_fuel
  | fuel + 1, s, block, nconfsigs =>
    match (s.heap block).prior with
    | none => .ok (s, some (nconfsigs, block))
    | some prior_block =>
      let expected_level := ((s.heap block).wire.level + UINT64_SIZE - 1) % UINT64_SIZE
      if (s.heap prior_block).wire.level ≠ expected_level then
        .ok (SetFatalError s FatalMsg.DoConfirmOne_level_sequence, none)
      else
        let s1 := s.log [Event.ReadMarked prior_block]
        if (s1.heap prior_block).aux.marked_for_indelible then
          .ok (s1, some (nconfsigs, block))
        else DoConfirmOne.walk fuel s1 prior_block ((nconfsigs + 1) % UINT32_SIZE)

/-- `BlockChain::DoConfirmOne`; the result `true` is "no change". -/
def DoConfirmOne (env : Env) (fuel : Nat) (s : State) (newobj : Ptr) :
    Except Fault (Bool × State) :=
  let s0 := s.log [Event.ReadMarked newobj]
  if (s0.heap newobj).aux.marked_for_indelible then .ok (true, s0)
  else
    let nseqconfsigs := (s0.heap newobj).aux.blockchain_params.nseqconfsigs
    let nskipconfsigs := (s0.heap newobj).aux.blockchain_params.nskipconfsigs
    match DoConfirmOne.walk fuel s0 newobj 1 with
    | .error f => .error f
    | .ok (s1, none) => .ok (true, s1)
    | .ok (s1, some (nconfsigs, lastobj)) =>
      if s1.m_last_indelible_block.isSome ∧
          (nconfsigs < nseqconfsigs ∨
            ((s1.heap lastobj).aux.skip ≠ 0 ∧ nconfsigs < nskipconfsigs)) then
        .ok (true, s1)
      else SetNewlyIndelibleBlock env s1 lastobj

/-- The loop `while (true)` of `BlockChain::DoConfirmationLoop`.  The result is
whether the loop returned `true` on a fatal error, the flag `have_new`, and the state. -/
def DoConfirmationLoop.iterate (env : Env) (walkfuel : Nat) :
    Nat → State → Ptr → Bool → Except Fault (Bool × Bool × State)
  | 0, _, _, _ => .error Fault.out_of_fuel
  | fuel + 1, s, newobj, have_new =>
    match DoConfirmOne env walkfuel s newobj with
    | .error f => .error f
    | .ok (rc, s1) =>
      if s1.m_have_fatal_error then .ok (true, have_new, s1)
      else if rc then .ok (false, have_new, s1)
      else DoConfirmationLoop.iterate env walkfuel fuel s1 newobj true

/-- The flag `fullcheckpoint` computed at the start of `DoConfirmationLoop`. -/
def DoConfirmationLoop.fullcheckpoint (env : Env) (s : State) (newobj : Ptr) : Bool :=
  if env.IsWitness then
    if (s.heap newobj).wire.witness ≠ (env.witness_index % (UINT32_SIZE : Int)).toNat then false
    else true
  else true

/-- `BlockChain::DoConfirmationLoop`. -/
def DoConfirmationLoop (env : Env) (fuel : Nat) (s : State) (newobj : Ptr) :
    Except Fault (Bool × State) :=
  let fullcheckpoint := DoConfirmationLoop.fullcheckpoint env s newobj
  match DoConfirmationLoop.iterate env fuel fuel s newobj false with
  | .error f => .error f
  | .ok (fatal_return, have_new, s1) =>
    if fatal_return then .ok (true, s1)
    else if !have_new then .ok (true, s1)
    else
      match s1.m_new_indelible_block with
      | none => .error Fault.assertion_failed
      | some new_block =>
        let rc := env.rc s1.trace (Event.EndWrite true)
        let s2 := s1.log [Event.EndWrite true]
        if rc ≠ 0 then .ok (true, SetFatalError s2 FatalMsg.DoConfirmations_commit)
        else
          .ok (false, { s2 with
            m_last_indelible_block := some new_block,
            m_last_indelible_level := (s2.heap new_block).wire.level,
            m_new_indelible_block := none,
            trace := s2.trace ++ [Event.SetLastIndelible new_block, Event.ReleaseMutex,
              Event.StartCheckpoint fullcheckpoint] })

/-- `BlockChain::DoConfirmations`; the result `true` is the fatal or no-change
indication.  The closing `dbconn->EndWrite()` is called with its default argument,
recorded as `EndWrite false` (no commit). -/
def DoConfirmations (env : Env) (fuel : Nat) (s : State) (newobj : Ptr) :
    Except Fault (Bool × State) :=
  if s.m_have_fatal_error then .ok (true, s)
  else
    match DoConfirmationLoop env fuel s newobj with
    | .error f => .error f
    | .ok (rc, s1) => .ok (rc, s1.log [Event.EndWrite false])

/-- Modelled from the spec: `DbConn::ValidObjsDeleteObj`, whose code is not in this
file; the transaction is removed from the valid-objs staging table. -/
def ValidObjsDeleteObj (s : State) (obj : Ptr) : State :=
  { s with
    valid_objs := s.valid_objs.filter (fun q => q ≠ obj),
    trace := s.trace ++ [Event.ValidObjsDeleteObj obj] }

/-- The page size `BLOCKARRAYSIZE` of `CheckSerialnum`. -/
def BLOCKARRAYSIZE (env : Env) : Nat := if env.TEST_SMALL_BUFS then 2 else 100

/-- The cast `(void*)(uintptr_t)type` of an `int`. -/
def uintptr_of_int (type : Int) : Ptr := (type % (UINT64_SIZE : Int)).toNat

/-- `BlockChain::BlockInChain`.  The level of `last_indelible` is read when a block
that is not `find_block` is compared with it. -/
def BlockInChain (heap : Ptr → Block) :
    Nat → Ptr → Option Ptr → Option Ptr → Except Fault Bool
  | 0, _, _, _ => .error Fault.out_of_fuel
  | _ + 1, _, none, _ => .ok false
  | fuel + 1, find_block, some bufp, last_indelible =>
    if bufp = find_block then .ok true
    else
      match last_indelible with
      | none => .error Fault.null_deref
      | some li =>
        if (heap bufp).wire.level ≤ (heap li).wire.level then .ok false
        else BlockInChain heap fuel find_block (heap bufp).prior last_indelible

/-- The loop `for (i < nblocks)` of `CheckSerialnum` over the entries of one page:
the code found, if any. -/
def CheckSerialnum.entries (heap : Ptr → Block) (fuel : Nat) (type : Int)
    (topblock last_indelible_block : Option Ptr) : List Ptr → Except Fault (Option Int)
  | [] => .ok none
  | entry :: rest =>
    if entry = uintptr_of_int type then .ok (some 2)
    else
      match BlockInChain heap fuel entry topblock last_indelible_block with
      | .error f => .error f
      | .ok true => .ok (some 3)
      | .ok false => CheckSerialnum.entries heap fuel type topblock last_indelible_block rest

/-- The loop `while (have_more)` of `CheckSerialnum` over the pages of the temp index.
`TempSerialnumSelect` overwrites the first slots of `blockparray`. -/
def CheckSerialnum.pages (env : Env) (walkfuel : Nat) (topblock : Option Ptr) (type : Int)
    (serial size : Nat) (last_indelible_block : Option Ptr) :
    Nat → State → List Ptr → Ptr → Except Fault (Int × State)
  | 0, _, _, _ => .error Fault.out_of_fuel
  | fuel + 1, s, blockparray, last_blockp =>
    let r := env.TempSerialnumSelect s.trace serial last_blockp (BLOCKARRAYSIZE env)
    let s1 := s.log [Event.TempSerialnumSelect serial last_blockp (BLOCKARRAYSIZE env)]
    if r.1 < 0 then .ok (-1, s1)
    else
      let filled := (r.2 ++ blockparray.drop r.2.length).take (BLOCKARRAYSIZE env)
      let have_more := decide (r.1 > (BLOCKARRAYSIZE env : Int))
      let nblocks := if have_more then BLOCKARRAYSIZE env else r.1.toNat
      match CheckSerialnum.entries s1.heap walkfuel type topblock last_indelible_block
          (filled.take nblocks) with
      | .error f => .error f
      | .ok (some code) => .ok (code, s1)
      | .ok none =>
        if have_more then
          CheckSerialnum.pages env walkfuel topblock type serial size last_indelible_block
            fuel s1 filled (filled.getD (BLOCKARRAYSIZE env - 1) 0)
        else .ok (0, s1)

/-- `BlockChain::CheckSerialnum`.  The local `blockparray` starts with unspecified
contents, taken as zeros. -/
def CheckSerialnum (env : Env) (fuel : Nat) (s : State) (topblock : Option Ptr) (type : Int)
    (txobj : Option Ptr) (serial size : Nat) : Except Fault (Int × State) :=
  let last_indelible_block := s.m_last_indelible_block
  let result := env.rc s.trace (Event.SerialnumCheck serial)
  let s1 := s.log [Event.SerialnumCheck serial]
  if result < 0 then .ok (-1, s1)
  else if result ≠ 0 then
    match txobj with
    | some obj => .ok (4, ValidObjsDeleteObj s1 obj)
    | none => .ok (4, s1)
  else
    CheckSerialnum.pages env fuel topblock type serial size last_indelible_block fuel s1
      (List.replicate (BLOCKARRAYSIZE env) 0) 0

/-- The loop `for (i < txbuf.nin)` of `CheckSerialnums`. -/
def CheckSerialnums.inputs (env : Env) (fuel : Nat) (topblock : Option Ptr) (type : Int)
    (txobj : Option Ptr) (size : Nat) : State → List Nat → Except Fault (Int × State)
  | s, [] => .ok (0, s)
  | s, serial :: rest =>
    match CheckSerialnum env fuel s topblock type txobj serial size with
    | .error f => .error f
    | .ok (rc, s1) =>
      if rc ≠ 0 then .ok (rc, s1)
      else CheckSerialnums.inputs env fuel topblock type txobj size s1 rest

/-- Size in bytes of `S_serialnum`, passed on to the store calls. -/
def SERIALNUM_BYTES : Nat := 32

/-- `BlockChain::CheckSerialnums`. -/
def CheckSerialnums (env : Env) (fuel : Nat) (s : State) (topblock : Option Ptr) (type : Int)
    (txobj : Option Ptr) (txwire : WireTx) : Except Fault (Int × State) :=
  let s1 := s.log [Event.tx_from_wire txwire]
  match env.tx_from_wire txwire with
  | none => .ok (-1, s1)
  | some parsed =>
    match CheckCreatePseudoSerialnum env parsed txwire with
    | .error f => .error f
    | .ok txbuf =>
      CheckSerialnums.inputs env fuel topblock type txobj SERIALNUM_BYTES s1 txbuf.serialnums

/-- `BlockChain::ComputePruneLevel`.  The product `trailing_rounds * nwitnesses` is
computed in `unsigned`; the result is a `uint64_t`. -/
def ComputePruneLevel (s : State) (min_level trailing_rounds : Nat) : Nat :=
  match s.m_last_indelible_block with
  | none => min_level
  | some last =>
    let trailing_levels :=
      (trailing_rounds * (s.heap last).aux.blockchain_params.nwitnesses) % UINT32_SIZE
    let prune_level :=
      if (s.heap last).wire.level > trailing_levels then
        (s.heap last).wire.level - trailing_levels
      else min_level
    if prune_level < s.m_startup_prune_level then s.m_startup_prune_level else prune_level

/-- `Block::HasTx`: the payload after the wire header has a positive size.  The payload
is held as the list of its records, each of a positive size. -/
def Block.HasTx (b : Block) : Bool := !b.payload.isEmpty

/-- `BlockChain::ChainHasDelibleTxs`. -/
def ChainHasDelibleTxs (heap : Ptr → Block) : Nat → Option Ptr → Nat → Except Fault Bool
  | 0, _, _ => .error Fault.out_of_fuel
  | _ + 1, none, _ => .ok false
  | fuel + 1, some bufp, last_indelible_level =>
    if (heap bufp).wire.level ≤ last_indelible_level then .ok false
    else if (heap bufp).HasTx then .ok true
    else ChainHasDelibleTxs heap fuel (heap bufp).prior last_indelible_level

/-- `MAX_NWITNESSES` of block.hpp. -/
def MAX_NWITNESSES : Nat := 21

/-- The constant `genesis_file_tag`. -/
def genesis_file_tag : Nat := 0x00474343

/-- Modulus of `uint16_t` arithmetic, 2^16. -/
def UINT16_SIZE : Nat := 65536

/-- Size in bytes of a block signing key (`array<uint8_t, 256/8>`). -/
def SIGNING_KEY_BYTES : Nat := 32

/-- Build flag `TEST_SIM_ALL_WITNESSES` of block.hpp, 0 unless redefined. -/
def TEST_SIM_ALL_WITNESSES : Bool := false

/-- Value of an object whose bytes are `bytes`, on a little-endian host. -/
def leValue : List Nat → Nat
  | [] => 0
  | b :: rest => b + 256 * leValue rest

/-- The `n` bytes of an object holding `v`, on a little-endian host. -/
def leBytes : Nat → Nat → List Nat
  | 0, _ => []
  | n + 1, v => v % 256 :: leBytes n (v / 256)

/-- The call `read(fd, &obj, n)` on a regular file, for an object of `n` bytes holding
`old`: the return value, the object afterwards and the rest of the file.  A read at
the end of the file comes short and overwrites the first bytes only. -/
def readObject (fd : List Nat) (n old : Nat) : Nat × Nat × List Nat :=
  ((fd.take n).length, leValue (fd.take n ++ (leBytes n old).drop (fd.take n).length),
    fd.drop n)

/-- Assignment to slot `i` of an array held as the list of its slots.  A slot past the
end of the list stands for the memory past the end of the array. -/
def setSlot (a : List Nat) (i v : Nat) : List Nat :=
  if i < a.length then a.set i v else a ++ List.replicate (i - a.length) 0 ++ [v]

/-- The files read and written by the genesis functions: the genesis data file and the
private key file of each witness (`none`: the file cannot be opened). -/
structure GenesisFiles where
  genesis_data_file : Option (List Nat)
  private_key_file : Nat → Option (List Nat)

/-- The loop `for (i < nwitnesses)` of `LoadGenesisDataFiles` that reads the public keys
into `signing_keys[i]`, over the iterations still to run: whether a read came short,
and the key table. -/
def LoadGenesisDataFiles.publicKeys : Nat → Nat → List Nat → List Nat → Bool × List Nat
  | 0, _, signing_keys, _ => (false, signing_keys)
  | k + 1, i, signing_keys, fd =>
    let r := readObject fd SIGNING_KEY_BYTES (signing_keys.getD i 0)
    let signing_keys1 := setSlot signing_keys i r.2.1
    if r.1 ≠ SIGNING_KEY_BYTES then (true, signing_keys1)
    else LoadGenesisDataFiles.publicKeys k (i + 1) signing_keys1 r.2.2

/-- The loop `for (i < nwitnesses)` of `LoadGenesisDataFiles` that reads the private key
of this witness into `witness_params.next_signing_private_key`: whether a file failed
to open or came short, and the private key array. -/
def LoadGenesisDataFiles.privateKeys (files : GenesisFiles) (witness_index : Int) :
    Nat → Nat → List Nat → Bool × List Nat
  | 0, _, next_signing_private_key => (false, next_signing_private_key)
  | k + 1, i, next_signing_private_key =>
    if (i : Int) = witness_index ∨ TEST_SIM_ALL_WITNESSES = true then
      match files.private_key_file i with
      | none => (true, next_signing_private_key)
      | some fd =>
        let keynum := if TEST_SIM_ALL_WITNESSES then i else 0
        let r := readObject fd SIGNING_KEY_BYTES (next_signing_private_key.getD keynum 0)
        let keys1 := setSlot next_signing_private_key keynum r.2.1
        if r.1 ≠ SIGNING_KEY_BYTES then (true, keys1)
        else LoadGenesisDataFiles.privateKeys files witness_index k (i + 1) keys1
    else LoadGenesisDataFiles.privateKeys files witness_index k (i + 1)
      next_signing_private_key

/-- `BlockChain::LoadGenesisDataFiles`: the result (`true` is an error), the aux buffer
and the array `witness_params.next_signing_private_key` afterwards.  The `uint32_t`
datum is narrowed to the `uint16_t` fields. -/
def LoadGenesisDataFiles (env : Env) (files : GenesisFiles) (auxp : BlockAux)
    (next_signing_private_key : List Nat) : Bool × BlockAux × List Nat :=
  match files.genesis_data_file with
  | none => (true, auxp, next_signing_private_key)
  | some fd =>
    let r1 := readObject fd 4 0
    if r1.1 ≠ 4 then (true, auxp, next_signing_private_key)
    else if r1.2.1 ≠ genesis_file_tag then (true, auxp, next_signing_private_key)
    else
      let r2 := readObject r1.2.2 4 r1.2.1
      if r2.1 ≠ 4 then (true, auxp, next_signing_private_key)
      else
        let aux1 := { auxp with blockchain_params := { auxp.blockchain_params with
          nwitnesses := r2.2.1 % UINT16_SIZE, next_nwitnesses := r2.2.1 % UINT16_SIZE } }
        let r3 := readObject r2.2.2 4 r2.2.1
        if r3.1 ≠ 4 then (true, aux1, next_signing_private_key)
        else
          let aux2 := { aux1 with blockchain_params := { aux1.blockchain_params with
            maxmal := r3.2.1 % UINT16_SIZE, next_maxmal := r3.2.1 % UINT16_SIZE } }
          let keys := LoadGenesisDataFiles.publicKeys aux2.blockchain_params.nwitnesses 0
            aux2.blockchain_params.signing_keys r3.2.2
          let aux3 := { aux2 with blockchain_params := { aux2.blockchain_params with
            signing_keys := keys.2 } }
          if keys.1 then (true, aux3, next_signing_private_key)
          else if env.witness_index < 0 then (false, aux3, next_signing_private_key)
          else
            let priv := LoadGenesisDataFiles.privateKeys files env.witness_index
              aux3.blockchain_params.nwitnesses 0 next_signing_private_key
            (priv.1, aux3, priv.2)

/-- `BlockChain::CreateGenesisDataFiles`: the files written, every write succeeding.
The build constants `GENESIS_NWITNESSES` and `GENESIS_MAXMAL`, the random source
`CCRandom` (the private key drawn for witness `i`) and `ed25519_publickey` are
parameters. -/
def CreateGenesisDataFiles (GENESIS_NWITNESSES GENESIS_MAXMAL : Nat) (CCRandom : Nat → Nat)
    (ed25519_publickey : Nat → Nat) : GenesisFiles :=
  { genesis_data_file := some
      (leBytes 4 genesis_file_tag ++ leBytes 4 (GENESIS_NWITNESSES % UINT32_SIZE) ++
        leBytes 4 (GENESIS_MAXMAL % UINT32_SIZE) ++
        ((List.range GENESIS_NWITNESSES).map
          (fun i => leBytes SIGNING_KEY_BYTES (ed25519_publickey (CCRandom i)))).flatten),
    private_key_file := fun i =>
      if i < GENESIS_NWITNESSES then some (leBytes SIGNING_KEY_BYTES (CCRandom i)) else none }

/-- Value of `sizeof(BlockWireHeader)` of block.hpp, a packed struct with
`ROTATE_BLOCK_SIGNING_KEYS` 0: the 64 bytes of the signature, the `oid_size` bytes of
`prior_oid` (`sizeof(ccoid_t)`, set by the object framework), 8 bytes each of `level`
and `timestamp`, and the byte of `witness`. -/
def BlockWireHeader.size (oid_size : Nat) : Nat := 64 + oid_size + 8 + 8 + 1

/-- `Block::TxDataSize` of block.hpp on the value `body_size` of `BodySize()` and the
value `header_size` of `sizeof(BlockWireHeader)`.  The subtraction is the unsigned one
of `size_t`, modulo 2^64, and the result is converted to the `unsigned` of the return
type, modulo 2^32. -/
def TxDataSize (header_size body_size : Nat) : Nat :=
  if body_size > header_size then
    ((body_size + UINT64_SIZE - header_size) % UINT64_SIZE) % UINT32_SIZE
  else 0

/-- `Block::HasTx` of block.hpp on the same two sizes: `TxDataSize() > 0`. -/
def HasTx (header_size body_size : Nat) : Bool :=
  decide (TxDataSize header_size body_size > 0)

/-- Body size of a block made of the wire header and the records of its payload, the
record `tx` taking `size tx` bytes (`IndexTxs` steps from `TxData()` to `ObjEndPtr()` by
the size of each record). -/
def Block.BodySize (header_size : Nat) (size : WireTx → Nat) (b : Block) : Nat :=
  header_size + (b.payload.map size).sum

/-- Body size of the block made by `SetupGenesisBlock`, which calls
`SetSize(sizeof(CCObject::Header) + sizeof(BlockWireHeader))`: the wire header alone
follows the object header. -/
def SetupGenesisBlock.BodySize (oid_size : Nat) : Nat := BlockWireHeader.size oid_size

/-- The persistent store as `RestoreLastBlocks` reads it, and the genesis files.
`BlockchainSelect level` is the buffer that `DbConn::BlockchainSelect` returns and the
block object in it, with the aux content that `SetupAuxBuf` then gives it (`none`: no
object is returned); `ParameterSelect key slot` is the value that
`DbConn::ParameterSelect` copies out (`none`: a nonzero return code). -/
structure Store where
  BlockchainSelect : Nat → Option (Ptr × Block)
  ParameterSelect : Nat → Nat → Option BlockAux
  files : GenesisFiles

/-- The object read by `BlockchainSelect` is held in the buffer `smartobj`. -/
def State.setBlock (s : State) (smartobj : Ptr) (obj : Block) : State :=
  { s with heap := fun q => if q = smartobj then obj else s.heap q }

/-- `Block::SetPriorBlock`: `priorobj` is stored in `preamble.auxp[1]` of `block`. -/
def State.SetPriorBlock (s : State) (block priorobj : Ptr) : State :=
  { s with
    heap := fun q => if q = block then { s.heap block with prior := some priorobj }
      else s.heap q,
    trace := s.trace ++ [Event.SetPriorBlock block priorobj] }

/-- The aux buffer of the block at `smartobj`, from its start to the end of
`blockchain_params`, is overwritten with `aux`. -/
def State.setAux (s : State) (smartobj : Ptr) (aux : BlockAux) : State :=
  { s with heap := fun q => if q = smartobj then { s.heap smartobj with aux := aux }
      else s.heap q }

/-- The value assigned to `unsigned nblocks` in `RestoreLastBlocks`:
`(next_nwitnesses - next_maxmal) / 2 + next_maxmal + 1`, computed in `int` from the
`uint16_t` fields with the division truncating toward zero, and converted to
`unsigned`. -/
def RestoreLastBlocks.nblocks (p : BlockchainParams) : Nat :=
  Int.toNat ((Int.tdiv ((p.next_nwitnesses : Int) - (p.next_maxmal : Int)) 2
    + (p.next_maxmal : Int) + 1) % (UINT32_SIZE : Int))

/-- The statement `if (nextobj) nextobj->SetPriorBlock(smartobj)` of
`RestoreLastBlocks`. -/
def RestoreLastBlocks.link (s : State) (nextobj : Option Ptr) (smartobj : Ptr) : State :=
  match nextobj with
  | some next => s.SetPriorBlock next smartobj
  | none => s

/-- The loop `for (i = 0; i < nblocks && i <= last_indelible_level; ++i)` of
`BlockChain::RestoreLastBlocks`, carrying `nblocks`, `nextobj` and `i`; a fatal error
returns from the function.  `ROTATE_BLOCK_SIGNING_KEYS` is 0, so `LoadGenesisDataFiles`
is called on every block; the array `witness_params.next_signing_private_key`, which
lies after the slice, is not kept. -/
def RestoreLastBlocks.loop (env : Env) (store : Store) (last_indelible_level : Nat) :
    Nat → State → Nat → Option Ptr → Nat → Except Fault State
  | 0, _, _, _, _ => .error Fault.out_of_fuel
  | fuel + 1, s, nblocks, nextobj, i =>
    if ¬ (i < nblocks ∧ i ≤ last_indelible_level) then .ok s
    else
      let level := (last_indelible_level + UINT64_SIZE - i) % UINT64_SIZE
      let s1 := s.log [Event.BlockchainSelect level]
      match store.BlockchainSelect level with
      | none => .ok (SetFatalError s1 FatalMsg.RestoreLastBlocks_retrieving_block)
      | some (smartobj, obj) =>
        let s2 := s1.setBlock smartobj obj
        let s3 := RestoreLastBlocks.link s2 nextobj smartobj
        let rc := env.rc s3.trace (Event.SetupAuxBuf smartobj)
        let s4 := s3.log [Event.SetupAuxBuf smartobj]
        if rc ≠ 0 then .ok (SetFatalError s4 FatalMsg.RestoreLastBlocks_SetupAuxBuf)
        else
          let r := LoadGenesisDataFiles env store.files (s4.heap smartobj).aux []
          let s5 := s4.setAux smartobj r.2.1
          if r.1 then .ok (SetFatalError s5 FatalMsg.RestoreLastBlocks_genesis_data)
          else
            let slot := (s5.heap smartobj).wire.level % 64
            let s6 := s5.log [Event.ParameterSelect env.DB_KEY_BLOCK_AUX slot]
            match store.ParameterSelect env.DB_KEY_BLOCK_AUX slot with
            | none => .ok (SetFatalError s6 FatalMsg.RestoreLastBlocks_ParameterSelect)
            | some slice =>
              let s7 := s6.setAux smartobj slice
              if i = 0 then
                let s8 := { s7 with
                  m_last_indelible_block := some smartobj,
                  m_last_indelible_level := last_indelible_level,
                  trace := s7.trace ++ [Event.SetLastIndelible smartobj] }
                let nblocks1 := RestoreLastBlocks.nblocks
                  (s8.heap smartobj).aux.blockchain_params
                let rc1 := env.rc s8.trace (Event.ValidObjsInsert smartobj)
                let s9 := s8.log [Event.ValidObjsInsert smartobj]
                if rc1 ≠ 0 then
                  .ok (SetFatalError s9 FatalMsg.RestoreLastBlocks_ValidObjsInsert)
                else if env.IsWitness then
                  let call := Event.ProcessQEnqueueValidate smartobj
                    (s9.heap smartobj).wire.prior_oid (s9.heap smartobj).wire.level
                  let rc2 := env.rc s9.trace call
                  let s10 := s9.log [call]
                  if rc2 ≠ 0 then
                    .ok (SetFatalError s10 FatalMsg.RestoreLastBlocks_ProcessQEnqueueValidate)
                  else
                    RestoreLastBlocks.loop env store last_indelible_level fuel s10 nblocks1
                      (some smartobj) ((i + 1) % UINT32_SIZE)
                else
                  RestoreLastBlocks.loop env store last_indelible_level fuel s9 nblocks1
                    (some smartobj) ((i + 1) % UINT32_SIZE)
              else
                RestoreLastBlocks.loop env store last_indelible_level fuel s7 nblocks
                  (some smartobj) ((i + 1) % UINT32_SIZE)

/-- `BlockChain::RestoreLastBlocks`: the loop entered with `nblocks = 1`, a null
`nextobj` and `i = 0`. -/
def RestoreLastBlocks (env : Env) (store : Store) (fuel : Nat) (s : State)
    (last_indelible_level : Nat) : Except Fault State :=
  RestoreLastBlocks.loop env store last_indelible_level fuel s 1 none 0

/-- Update of the fatal flag and extension of the trace: the only changes a store
call or `SetFatalError` makes to the state. -/
def State.upd (s : State) (f : Bool) (es : List Event) : State :=
  { s with m_have_fatal_error := f, trace := s.trace ++ es }

/-- The steps of the commit sequence of `SetNewlyIndelibleBlock`: transaction parsing
and indexing, the commitment tree update and the two store inserts. -/
def Event.isCommitStep : Event → Bool
  | .tx_from_wire _ => true
  | .SerialnumInsert _ => true
  | .GetNextCommitnum _ => true
  | .AddCommitment _ _ => true
  | .TxOutputsInsert _ _ _ _ _ => true
  | .UpdateCommitTree _ _ => true
  | .BlockchainInsert _ _ => true
  | .ParameterInsert _ _ _ => true
  | _ => false

/-- The fatal log line. -/
def Event.isFatal : Event → Bool
  | .Fatal _ => true
  | _ => false

/-- The blocks assigned to `m_new_indelible_block` in a trace, in order: the blocks
promoted to indelible. -/
def promoted : List Event → List Ptr
  | [] => []
  | Event.SetNewIndelible p :: es => p :: promoted es
  | _ :: es => promoted es

/-- A block with `marked_for_indelible` set. -/
def Block.mark (b : Block) : Block :=
  { b with aux := { b.aux with marked_for_indelible := true } }

/-- Outcome of a computation that only calls the store: the state changes in the fatal
flag and the trace alone, every effect is a commit step or a fatal log line, a failure
latches the flag after at least one commit step, a success leaves the flag as it was. -/
def StoreRun (s : State) (r : Bool) (t : State) : Prop :=
  ∃ f es, t = s.upd f es ∧ (∀ e ∈ es, e.isCommitStep = true ∨ e.isFatal = true) ∧
    (r = true → f = true ∧ ∃ e ∈ es, e.isCommitStep = true) ∧
    (r = false → f = s.m_have_fatal_error)

/-- Every collaborator call returns 0. -/
def Env.AllOk (env : Env) : Prop := ∀ hist call, env.rc hist call = 0

/-- Every record parses, and a record without inputs carries a transaction tag. -/
def Env.TxsOk (env : Env) (l : List WireTx) : Prop :=
  ∀ w ∈ l, ∃ tx, env.tx_from_wire w = some tx ∧
    (tx.nin ≠ 0 ∨ w.tag = env.CC_TAG_TX_WIRE ∨ w.tag = env.CC_TAG_TX_BLOCK)

/-- A block header with the given level and prior oid. -/
def sampleWire (level : Nat) (prior_oid : ccoid_t) : BlockWireHeader :=
  { signature := 0, prior_oid := prior_oid, level := level, timestamp := 0, witness := 0 }

/-- Chain parameters with the given thresholds (three witnesses, none malicious). -/
def sampleParams (nseqconfsigs nskipconfsigs : Nat) : BlockchainParams :=
  { nwitnesses := 3, maxmal := 0, nconfsigs := 2, nseqconfsigs := nseqconfsigs,
    nskipconfsigs := nskipconfsigs, next_nwitnesses := 3, next_maxmal := 0,
    signing_keys := [] }

/-- An aux buffer with the given oid, skip, mark and thresholds. -/
def sampleAux (oid : ccoid_t) (skip : Nat) (marked : Bool) (nseqconfsigs nskipconfsigs : Nat) :
    BlockAux :=
  { oid := oid, block_hash := 0, announce_time := 0, skip := skip,
    marked_for_indelible := marked,
    blockchain_params := sampleParams nseqconfsigs nskipconfsigs }

/-- An environment in which every call returns 0 and nothing parses. -/
def envOk : Env :=
  { rc := fun _ _ => 0, GetNextCommitnum := fun _ => 0,
    TempSerialnumSelect := fun _ _ _ _ => (0, []), tx_from_wire := fun _ => none,
    blake2b := fun _ => 0, CC_TAG_TX_WIRE := 1, CC_TAG_TX_BLOCK := 2, DB_KEY_BLOCK_AUX := 0,
    IsWitness := false, witness_index := -1, TEST_SMALL_BUFS := false }

/-- An environment whose persistent serial-number lookup reports a hit. -/
def envHit : Env :=
  { envOk with rc := fun _ call => match call with
    | Event.SerialnumCheck _ => 1
    | _ => 0 }

/-- A header-only block with the thresholds nseqconfsigs = 2 and nskipconfsigs = 3. -/
def sampleBlock (level : Nat) (oid prior_oid : ccoid_t) (skip : Nat) (marked : Bool)
    (prior : Option Ptr) : Block :=
  { wire := sampleWire level prior_oid, aux := sampleAux oid skip marked 2 3,
    prior := prior, payload := [] }

/-- A state after a fatal error, with the transaction object 7 staged in valid-objs. -/
def sampleFatalState : State :=
  { heap := fun _ => sampleBlock 0 100 0 0 true none,
    m_have_fatal_error := true, m_last_indelible_block := some 0,
    m_last_indelible_level := 0, m_new_indelible_block := none,
    m_startup_prune_level := 0, valid_objs := [7], trace := [] }

/-- The state of `SetNewlyIndelibleBlock` at its level and prior-oid check: the write
has begun, the mark of the block was read as clear and has been set. -/
def State.entered (s : State) (smartobj : Ptr) : State :=
  ((s.log [Event.BeginWrite]).log [Event.ReadMarked smartobj]).setMarked smartobj

/-- The check of `SetNewlyIndelibleBlock` against the pending-or-last block `a`,
passed by `b`: the level of `b` is the level of `a` plus one in `uint64_t` and the
prior oid of `b` is the oid of `a`. -/
def Linked (heap : Ptr → Block) (a b : Ptr) : Prop :=
  (heap b).wire.level = ((heap a).wire.level + 1) % UINT64_SIZE ∧
    (heap b).wire.prior_oid = (heap a).aux.oid

/-- Two heaps that differ at most in marks that were set. -/
def HeapMarks (h k : Ptr → Block) : Prop :=
  ∀ p, k p = h p ∨ k p = (h p).mark

/-- The call `SetNewlyIndelibleBlock(b)` latches the fatal flag and returns failure
before any step of the commit sequence (transaction parsing and indexing, the
commitment tree update, the store inserts). -/
def SetNewlyIndelibleBlock.fatalBeforeCommit (env : Env) (s : State) (b : Ptr) : Prop :=
  ∃ t es, SetNewlyIndelibleBlock env s b = .ok (true, t) ∧ t.m_have_fatal_error = true ∧
    t.trace = s.trace ++ es ∧ ∀ e ∈ es, e.isCommitStep = false

/-- A heap holding the listed blocks at the addresses 0, 1, 2, ... -/
def sampleHeap (blocks : List Block) : Ptr → Block :=
  fun p => blocks.getD p (sampleBlock 0 0 0 0 false none)

/-- A state whose last indelible block, at address 0, has the largest `uint64_t` level;
the block at address 1 has level 0 and names it as prior. -/
def sampleWrapState : State :=
  { heap := sampleHeap [sampleBlock 18446744073709551615 100 99 0 true none,
      sampleBlock 0 101 100 0 false (some 0)],
    m_have_fatal_error := false, m_last_indelible_block := some 0,
    m_last_indelible_level := 18446744073709551615, m_new_indelible_block := none,
    m_startup_prune_level := 0, valid_objs := [], trace := [] }

/-- The chain P <- L1 <- L2 at addresses 0, 1, 2 and levels 5, 6, 7, with P the last
indelible block, thresholds 2 and 3, and the given skips of L1 and L2. -/
def sampleChainState (skip1 skip2 : Nat) : State :=
  { heap := sampleHeap [sampleBlock 5 100 99 0 true none,
      sampleBlock 6 101 100 skip1 false (some 0),
      sampleBlock 7 102 101 skip2 false (some 1)],
    m_have_fatal_error := false, m_last_indelible_block := some 0,
    m_last_indelible_level := 5, m_new_indelible_block := none,
    m_startup_prune_level := 0, valid_objs := [], trace := [] }

/-- A second block at level 6, at address 3, competing with L1 of `sampleChainState`
after L1 became the pending indelible block. -/
def sampleForkState : State :=
  { heap := sampleHeap [sampleBlock 5 100 99 0 true none,
      sampleBlock 6 101 100 0 true (some 0),
      sampleBlock 7 102 101 0 false (some 1),
      sampleBlock 6 103 100 0 false (some 0)],
    m_have_fatal_error := false, m_last_indelible_block := some 0,
    m_last_indelible_level := 5, m_new_indelible_block := some 1,
    m_startup_prune_level := 0, valid_objs := [], trace := [] }

/-- The promoted blocks `ps` continue the indelible chain from the pending-or-last
block `start`: each passes the check of `SetNewlyIndelibleBlock` against its
predecessor; with no block to start from, the first one has level 0. -/
def ChainFrom (heap : Ptr → Block) (start : Option Ptr) (ps : List Ptr) : Prop :=
  match start with
  | some p => List.Chain (Linked heap) p ps
  | none => List.Chain' (Linked heap) ps ∧ ∀ b, ps.head? = some b → (heap b).wire.level = 0

/-- What one call of `DoConfirmOne` or `SetNewlyIndelibleBlock` with result `r` does to
the state: marks are only set, the last indelible block and level stay, and either
no block is promoted and the pending block stays (`r = true`), or exactly one block,
unmarked before and marked after, is promoted and becomes the pending block after
passing the check against the previous pending-or-last block (`r = false`). -/
def Step (s : State) (r : Bool) (t : State) : Prop :=
  HeapMarks s.heap t.heap ∧
  t.m_last_indelible_block = s.m_last_indelible_block ∧
  t.m_last_indelible_level = s.m_last_indelible_level ∧
  ∃ es, t.trace = s.trace ++ es ∧
    (r = true → promoted es = [] ∧ t.m_new_indelible_block = s.m_new_indelible_block) ∧
    (r = false → ∃ b, promoted es = [b] ∧ t.m_new_indelible_block = some b ∧
      t.m_have_fatal_error = s.m_have_fatal_error ∧
      (s.heap b).aux.marked_for_indelible = false ∧
      (t.heap b).aux.marked_for_indelible = true ∧
      ChainFrom s.heap s.pendingOrLast [b])

/-- The block reached from `p` by following `k` prior links, if the chain is that
long. -/
def ancestor (heap : Ptr → Block) : Nat → Ptr → Option Ptr
  | 0, p => some p
  | k + 1, p =>
    match (heap p).prior with
    | none => none
    | some q => ancestor heap k q

/-- No record trips the tag assertion of `CheckCreatePseudoSerialnum`: a record that
parses to a transaction without inputs carries a transaction tag. -/
def Env.TagsOk (env : Env) (l : List WireTx) : Prop :=
  ∀ w ∈ l, ∀ tx, env.tx_from_wire w = some tx →
    tx.nin ≠ 0 ∨ w.tag = env.CC_TAG_TX_WIRE ∨ w.tag = env.CC_TAG_TX_BLOCK

/-- The block `k` links below `tip` exists and is not marked. -/
def unmarkedAt (heap : Ptr → Block) (tip : Ptr) (k : Nat) : Bool :=
  match ancestor heap k tip with
  | some b => !(heap b).aux.marked_for_indelible
  | none => false

/-- The number of unmarked blocks among `tip` and its first `d - 1` ancestors. -/
def unmarkedCount (heap : Ptr → Block) (tip : Ptr) (d : Nat) : Nat :=
  (List.range d).countP (unmarkedAt heap tip)

/-- The two assertions of the commit path hold along the chain of `tip`: while there is
no pending-or-last indelible block every block of the chain has level 0 (`CCASSERTZ`
on the level of the first indelible block), and no record of a payload trips the tag
assertion. -/
def AssertionsHold (env : Env) (s : State) (tip : Ptr) : Prop :=
  (s.pendingOrLast = none →
    ∀ k b, ancestor s.heap k tip = some b → (s.heap b).wire.level = 0) ∧
  ∀ k b, ancestor s.heap k tip = some b → env.TagsOk (s.heap b).payload

/-- The level check of the walk of `DoConfirmOne`: the level of the prior block `q`
is the level of `block` minus one in `uint64_t`. -/
def PriorLevel (heap : Ptr → Block) (block q : Ptr) : Prop :=
  (heap q).wire.level = ((heap block).wire.level + UINT64_SIZE - 1) % UINT64_SIZE

/-- The blocks `below` are reached in order from `block` by prior links, each passing the
level check and unmarked; `cand` is the last of them (or `block` itself), the deepest
unmarked block; its prior is absent (`stop = none`) or is the block `stop`, which
passes the level check and is marked. -/
def WalkPath (heap : Ptr → Block) : Ptr → List Ptr → Ptr → Option Ptr → Prop
  | block, [], cand, none => cand = block ∧ (heap block).prior = none
  | block, [], cand, some q =>
    cand = block ∧ (heap block).prior = some q ∧ PriorLevel heap block q ∧
      (heap q).aux.marked_for_indelible = true
  | block, q :: rest, cand, stop =>
    (heap block).prior = some q ∧ PriorLevel heap block q ∧
      (heap q).aux.marked_for_indelible = false ∧ WalkPath heap q rest cand stop

/-- The reads of `marked_for_indelible` made by `DoConfirmOne` on the tip and along a
walk path. -/
def walkReads (tip : Ptr) (below : List Ptr) (stop : Option Ptr) : List Event :=
  Event.ReadMarked tip :: (below ++ stop.toList).map Event.ReadMarked

/-- The threshold test of `DoConfirmOne` that makes it report "no change": `n` blocks
were counted, the thresholds are those of the aux of `tip`, the skip is the one of
`cand`. -/
def belowThreshold (heap : Ptr → Block) (tip cand : Ptr) (n : Nat) : Prop :=
  n < (heap tip).aux.blockchain_params.nseqconfsigs ∨
    ((heap cand).aux.skip ≠ 0 ∧ n < (heap tip).aux.blockchain_params.nskipconfsigs)

/-- The state with the fatal flag replaced. -/
def State.setFatal (s : State) (f : Bool) : State :=
  { s with m_have_fatal_error := f }

/-- An environment whose persistent serial-number lookup reports a hit and whose codec
parses every transaction to one input with serial number 5. -/
def envParseHit : Env :=
  { envHit with
    tx_from_wire := fun _ => some (TxPay.mk 1 [5] 0 [] 0) }

/-- The block `b` lies directly below the block `a` of a chain: `b` is the prior block
of `a`, the level of `a` is the level of `b` plus one, and the prior oid of `a` is the
oid of `b`. -/
def Above (heap : Ptr → Block) (a b : Ptr) : Prop :=
  (heap a).prior = some b ∧ (heap a).wire.level = (heap b).wire.level + 1 ∧
    (heap a).wire.prior_oid = (heap b).aux.oid

/-- The state `st` reached from `s` while the loop of `DoConfirmationLoop` works down the
chain `ext` (listed from the tip down to the last indelible block): no fatal error, the
last indelible block and level of `s`, the first `v` blocks of `ext` unmarked, the
others marked, and the block at position `v` the pending-or-last indelible block. -/
def BurstInv (s : State) (ext : List Ptr) (st : State) (v : Nat) : Prop :=
  HeapMarks s.heap st.heap ∧ st.m_have_fatal_error = false ∧
  st.m_last_indelible_block = s.m_last_indelible_block ∧
  st.m_last_indelible_level = s.m_last_indelible_level ∧
  (∀ i b, ext[i]? = some b → i < v → (st.heap b).aux.marked_for_indelible = false) ∧
  (∀ i b, ext[i]? = some b → v ≤ i → (st.heap b).aux.marked_for_indelible = true) ∧
  st.pendingOrLast = ext[v]?

/-- The setting of a burst of promotions: every collaborator call succeeds, `p` is the
last indelible block, the chain `tip :: rest` lies directly above `p` with consecutive
levels and matching prior oids, the level of the tip is a `uint64_t`, every block of
the chain has skip 0 and a payload that parses, and the chain has fewer than 2^32
blocks. -/
def BurstSetup (env : Env) (s : State) (tip : Ptr) (rest : List Ptr) (p : Ptr) : Prop :=
  env.AllOk ∧ s.m_last_indelible_block = some p ∧
  List.Chain' (Above s.heap) (tip :: (rest ++ [p])) ∧
  (s.heap tip).wire.level < UINT64_SIZE ∧
  (∀ b ∈ tip :: rest, (s.heap b).aux.skip = 0 ∧ env.TxsOk (s.heap b).payload) ∧
  rest.length + 1 < UINT32_SIZE

/-- Successive calls of `CheckSerialnum` on the listed serial numbers, started in `s`,
all return 0 and end in `t`. -/
def CheckSerialnums.clean (env : Env) (fuel : Nat) (topblock : Option Ptr) (type : Int)
    (txobj : Option Ptr) (size : Nat) : State → List Nat → State → Prop
  | s, [], t => t = s
  | s, serial :: rest, t =>
    ∃ s1, CheckSerialnum env fuel s topblock type txobj serial size = .ok (0, s1) ∧
      CheckSerialnums.clean env fuel topblock type txobj size s1 rest t

/-- An environment whose codec parses every transaction to the three inputs 5, 6, 7 and
whose persistent set holds the serial number 6 alone; the temp index is empty. -/
def envSecondHit : Env :=
  { envOk with
    rc := fun _ call => match call with
      | Event.SerialnumCheck 6 => 1
      | _ => 0
    tx_from_wire := fun _ => some (TxPay.mk 3 [5, 6, 7] 0 [] 0) }

/-- Levels strictly decrease along prior links. -/
def DecreasingLevels (heap : Ptr → Block) : Prop :=
  ∀ p q, (heap p).prior = some q → (heap q).wire.level < (heap p).wire.level

/-- The block `find` is visited by the loop of `BlockInChain` started at `top`: it is
`top` or an ancestor of `top`, and every block above it on the path from `top` has a
level greater than `level`. -/
def visitedFrom (heap : Ptr → Block) (top find : Ptr) (level : Nat) : Prop :=
  ∃ k, ancestor heap k top = some find ∧
    ∀ j c, j < k → ancestor heap j top = some c → level < (heap c).wire.level

/-- Some block with a payload is met by the loop of `ChainHasDelibleTxs` started at `tip`
before a block of level at most `level`: it and every block above it on the path from
`tip` have a level greater than `level`. -/
def delibleTxFrom (heap : Ptr → Block) (tip : Ptr) (level : Nat) : Prop :=
  ∃ k c, ancestor heap k tip = some c ∧ (heap c).HasTx = true ∧
    ∀ j c2, j ≤ k → ancestor heap j tip = some c2 → level < (heap c2).wire.level

/-- A chain state like `sampleChainState` whose block L1 carries one transaction
record. -/
def samplePayloadHeap : Ptr → Block :=
  sampleHeap [sampleBlock 5 100 99 0 true none,
    { sampleBlock 6 101 100 0 false (some 0) with payload := [⟨1, [7]⟩] },
    sampleBlock 7 102 101 0 false (some 1)]

/-- The marked blocks of the chain of `tip` are closed under ancestors: every block
reached by prior links from a marked block of the chain is marked. -/
def AncestorClosed (heap : Ptr → Block) (tip : Ptr) : Prop :=
  ∀ k b, ancestor heap k tip = some b → (heap b).aux.marked_for_indelible = true →
    ∀ j c, ancestor heap j b = some c → (heap c).aux.marked_for_indelible = true

/-- The heap `k` is the heap `h` with at most the block `l` newly marked. -/
def MarksOnly (h k : Ptr → Block) (l : Ptr) : Prop :=
  HeapMarks h k ∧ ∀ p, (k p).aux.marked_for_indelible = true →
    p = l ∨ (h p).aux.marked_for_indelible = true

/-- The block `l` has no prior block or a marked one. -/
def PriorSettled (heap : Ptr → Block) (l : Ptr) : Prop :=
  (heap l).prior = none ∨ ∃ q, (heap l).prior = some q ∧ (heap q).aux.marked_for_indelible = true

/-- The call `e`, made after the calls `hist`, fails: the codec rejects the record, or
the store call `SerialnumInsert`, `AddCommitment`, `UpdateCommitTree`,
`BlockchainInsert` or `ParameterInsert` returns non-zero. -/
def Env.failed (env : Env) (hist : List Event) (e : Event) : Bool :=
  match e with
  | .tx_from_wire w => (env.tx_from_wire w).isNone
  | .SerialnumInsert _ => decide (env.rc hist e ≠ 0)
  | .AddCommitment _ _ => decide (env.rc hist e ≠ 0)
  | .UpdateCommitTree _ _ => decide (env.rc hist e ≠ 0)
  | .BlockchainInsert _ _ => decide (env.rc hist e ≠ 0)
  | .ParameterInsert _ _ _ => decide (env.rc hist e ≠ 0)
  | _ => false

/-- None of the calls `es`, made in order after the calls `hist`, fails. -/
def Env.noFailure (env : Env) : List Event → List Event → Prop
  | _, [] => True
  | hist, e :: es => env.failed hist e = false ∧ env.noFailure (hist ++ [e]) es

/-- A part of the commit sequence that ran without a failing call: the flag is as it
was and the trace grew by calls none of which failed. -/
def CommitOk (env : Env) (s t : State) : Prop :=
  ∃ es, t = s.upd s.m_have_fatal_error es ∧ env.noFailure s.trace es

/-- A part of the commit sequence that stopped at a failing call: the calls `pre` did
not fail, the call `e` failed, the fatal flag was latched and the fatal line logged,
and nothing else followed. -/
def CommitFail (env : Env) (s t : State) : Prop :=
  ∃ pre e msg, t = s.upd true (pre ++ [e, Event.Fatal msg]) ∧ env.noFailure s.trace pre ∧
    env.failed (s.trace ++ pre) e = true

/-- Outcome of a part of the commit sequence with result `r`. -/
def CommitRun (env : Env) (s : State) (r : Bool) (t : State) : Prop :=
  (r = false ∧ CommitOk env s t) ∨ (r = true ∧ CommitFail env s t)

/-- An environment in which `BlockchainInsert` fails and every other call succeeds. -/
def envInsertFails : Env :=
  { envOk with rc := fun _ call => match call with
    | Event.BlockchainInsert _ _ => 1
    | _ => 0 }

/-- A genesis data file with the count field `n`, the maxmal field `m` and `n` keys whose
32 bytes are all 1; no private key file. -/
def sampleGenesisFile (n m : Nat) : GenesisFiles :=
  { genesis_data_file := some (leBytes 4 genesis_file_tag ++ (leBytes 4 n ++ (leBytes 4 m ++
      ((List.replicate n (List.replicate SIGNING_KEY_BYTES 1)).flatten ++ [])))),
    private_key_file := fun _ => none }

/-- An aux buffer whose key table has its `MAX_NWITNESSES` slots zeroed. -/
def sampleGenesisAux : BlockAux :=
  { sampleAux 0 0 false 0 0 with
    blockchain_params := { sampleParams 0 0 with
      signing_keys := List.replicate MAX_NWITNESSES 0 } }

/-- The temp index answers `TempSerialnumSelect` for `serial` from the entry list
`entries`: a query after `last_blockp` fills the array with the entries greater than
`last_blockp`, in order, as many as fit; the count returned is their number when they
all fit, and is greater than the array size when they do not. -/
def TempIndexPaged (env : Env) (serial : Nat) (entries : List Ptr) : Prop :=
  ∀ (hist : List Event) (last_blockp : Ptr),
    (env.TempSerialnumSelect hist serial last_blockp (BLOCKARRAYSIZE env)).2
      = (entries.filter (fun e => decide (last_blockp < e))).take (BLOCKARRAYSIZE env) ∧
    ((entries.filter (fun e => decide (last_blockp < e))).length ≤ BLOCKARRAYSIZE env →
      (env.TempSerialnumSelect hist serial last_blockp (BLOCKARRAYSIZE env)).1
        = ((entries.filter (fun e => decide (last_blockp < e))).length : Int)) ∧
    (BLOCKARRAYSIZE env < (entries.filter (fun e => decide (last_blockp < e))).length →
      (BLOCKARRAYSIZE env : Int) <
        (env.TempSerialnumSelect hist serial last_blockp (BLOCKARRAYSIZE env)).1)

/-- The call `BlockInChain(entry, topblock, last_indelible)` returns true. -/
def BlockInChain.holds (heap : Ptr → Block) (fuel : Nat) (topblock last_indelible : Option Ptr)
    (entry : Ptr) : Bool :=
  match BlockInChain heap fuel entry topblock last_indelible with
  | .ok true => true
  | _ => false

/-- The code of the first entry of the list that is the sentinel (2) or in the chain
(3), if there is one. -/
def firstConflict (sentinel : Ptr) (inChain : Ptr → Bool) : List Ptr → Option Int
  | [] => none
  | e :: rest =>
    if e = sentinel then some 2
    else if inChain e then some 3
    else firstConflict sentinel inChain rest

/-- The entries of the list up to and including the first that is the sentinel or in the
chain. -/
def firstRead (sentinel : Ptr) (inChain : Ptr → Bool) : List Ptr → List Ptr
  | [] => []
  | e :: rest =>
    if e = sentinel then [e]
    else if inChain e then [e]
    else e :: firstRead sentinel inChain rest

/-- The loop `for (i < nblocks)` of `CheckSerialnum` as `CheckSerialnum.entries`, with the
entries `blockparray[i]` it reads. -/
def CheckSerialnum.entriesTraced (heap : Ptr → Block) (fuel : Nat) (type : Int)
    (topblock last_indelible_block : Option Ptr) :
    List Ptr → Except Fault (Option Int × List Ptr)
  | [] => .ok (none, [])
  | entry :: rest =>
    if entry = uintptr_of_int type then .ok (some 2, [entry])
    else
      match BlockInChain heap fuel entry topblock last_indelible_block with
      | .error f => .error f
      | .ok true => .ok (some 3, [entry])
      | .ok false =>
        match CheckSerialnum.entriesTraced heap fuel type topblock last_indelible_block rest with
        | .error f => .error f
        | .ok (code, read) => .ok (code, entry :: read)

/-- The loop `while (have_more)` of `CheckSerialnum` as `CheckSerialnum.pages`, with the
entries read by the inner loop over all the pages, in order. -/
def CheckSerialnum.pagesTraced (env : Env) (walkfuel : Nat) (topblock : Option Ptr)
    (type : Int) (serial size : Nat) (last_indelible_block : Option Ptr) :
    Nat → State → List Ptr → Ptr → Except Fault ((Int × State) × List Ptr)
  | 0, _, _, _ => .error Fault.out_of_fuel
  | fuel + 1, s, blockparray, last_blockp =>
    let r := env.TempSerialnumSelect s.trace serial last_blockp (BLOCKARRAYSIZE env)
    let s1 := s.log [Event.TempSerialnumSelect serial last_blockp (BLOCKARRAYSIZE env)]
    if r.1 < 0 then .ok ((-1, s1), [])
    else
      let filled := (r.2 ++ blockparray.drop r.2.length).take (BLOCKARRAYSIZE env)
      let have_more := decide (r.1 > (BLOCKARRAYSIZE env : Int))
      let nblocks := if have_more then BLOCKARRAYSIZE env else r.1.toNat
      match CheckSerialnum.entriesTraced s1.heap walkfuel type topblock last_indelible_block
          (filled.take nblocks) with
      | .error f => .error f
      | .ok (some code, read) => .ok ((code, s1), read)
      | .ok (none, read) =>
        if have_more then
          match CheckSerialnum.pagesTraced env walkfuel topblock type serial size
              last_indelible_block fuel s1 filled (filled.getD (BLOCKARRAYSIZE env - 1) 0) with
          | .error f => .error f
          | .ok (res, read2) => .ok (res, read ++ read2)
        else .ok ((0, s1), read)

/-- A temp index that answers from the entry list `entries` as `TempIndexPaged`
describes, with the count one above the array size when entries remain. -/
def pagedSelect (entries : List Ptr) (_hist : List Event) (_serial : Nat) (last_blockp : Ptr)
    (size : Nat) : Int × List Ptr :=
  (if size < (entries.filter (fun e => decide (last_blockp < e))).length then (size : Int) + 1
    else ((entries.filter (fun e => decide (last_blockp < e))).length : Int),
    (entries.filter (fun e => decide (last_blockp < e))).take size)

/-- An environment with pages of two entries whose temp index holds the entries 3, 4
and 9 for every serial number. -/
def envPaged : Env :=
  { envOk with TEST_SMALL_BUFS := true, TempSerialnumSelect := pagedSelect [3, 4, 9] }

/-- An environment whose hash of a body is the sum of its bytes. -/
def envSum : Env :=
  { envOk with blake2b := fun body => body.sum }

/-- The walk of `DoConfirmOne` from `block` reaches the block `x` whose prior `q` fails the
level check: the blocks `below` are reached in order from `block` by prior links, each
passing the level check and unmarked, `x` is the last of them (or `block` itself), and
the level of `q` is not the level of `x` minus one in `uint64_t`. -/
def WalkBreak (heap : Ptr → Block) : Ptr → List Ptr → Ptr → Ptr → Prop
  | block, [], x, q => x = block ∧ (heap block).prior = some q ∧ ¬ PriorLevel heap block q
  | block, p :: rest, x, q =>
    (heap block).prior = some p ∧ PriorLevel heap block p ∧
      (heap p).aux.marked_for_indelible = false ∧ WalkBreak heap p rest x q

/-- The chain P <- L1 <- L2 of `sampleChainState` with L1 at level 9 instead of 6: the
prior of L2 fails the level check. -/
def sampleGapState : State :=
  { heap := sampleHeap [sampleBlock 5 100 99 0 true none,
      sampleBlock 9 101 100 0 false (some 0),
      sampleBlock 7 102 101 0 false (some 1)],
    m_have_fatal_error := false, m_last_indelible_block := some 0,
    m_last_indelible_level := 5, m_new_indelible_block := none,
    m_startup_prune_level := 0, valid_objs := [], trace := [] }

/-- The effects that change the chain state: a write of `marked_for_indelible`, an
insert into the persistent store or the commitment tree, and the assignments of the
pending and the last indelible block. -/
def Event.isMutation : Event → Bool
  | .WriteMarked _ => true
  | .SerialnumInsert _ => true
  | .AddCommitment _ _ => true
  | .TxOutputsInsert _ _ _ _ _ => true
  | .UpdateCommitTree _ _ => true
  | .BlockchainInsert _ _ => true
  | .ParameterInsert _ _ _ => true
  | .SetNewIndelible _ => true
  | .SetLastIndelible _ => true
  | _ => false

/-- A read of `marked_for_indelible`. -/
def Event.isMarkRead : Event → Bool
  | .ReadMarked _ => true
  | _ => false

/-- A request of a persistence checkpoint. -/
def Event.isCheckpoint : Event → Bool
  | .StartCheckpoint _ => true
  | _ => false

/-- The effects of the rounds of `DoConfirmOne`: reads and writes of marks, `BeginWrite`,
the steps of the commit sequence, the assignment of the pending block and the fatal
line. -/
def Event.inRound : Event → Bool
  | .ReadMarked _ => true
  | .WriteMarked _ => true
  | .BeginWrite => true
  | .SetNewIndelible _ => true
  | .Fatal _ => true
  | e => e.isCommitStep

/-- Whether the write lock is held after the effect `e`, made after the effects `hist`
with the lock held or not: a `BeginWrite` that does not fail takes it, `ReleaseMutex`
and the closing `EndWrite()` give it up. -/
def lockStep (env : Env) (held : Bool) (hist : List Event) : Event → Bool
  | .BeginWrite => held || decide (0 ≤ env.rc hist Event.BeginWrite)
  | .ReleaseMutex => false
  | .EndWrite false => false
  | _ => held

/-- Whether the write lock is held after the effects `es`, made in order after `hist`. -/
def lockAfter (env : Env) : Bool → List Event → List Event → Bool
  | held, _, [] => held
  | held, hist, e :: es => lockAfter env (lockStep env held hist e) (hist ++ [e]) es

/-- Every effect of `es` of the kind `p` is made while the write lock is held. -/
def allUnderLock (env : Env) (p : Event → Bool) : Bool → List Event → List Event → Bool
  | _, _, [] => true
  | held, hist, e :: es =>
    (!p e || held) && allUnderLock env p (lockStep env held hist e) (hist ++ [e]) es

/-- The environment `env` with the return code of `TxOutputsInsert` replaced by `f`. -/
def Env.withTxOutputsInsert (env : Env) (f : List Event → Event → Int) : Env :=
  { env with rc := fun hist call => match call with
    | Event.TxOutputsInsert _ _ _ _ _ => f hist call
    | _ => env.rc hist call }

/-- An environment whose codec parses every record to a transaction with the input 5 and
one output, every call succeeding. -/
def envOneOutput : Env :=
  { envOk with tx_from_wire := fun _ => some (TxPay.mk 1 [5] 1 [⟨1, 2, 3⟩] 0) }

/-- The state `sampleChainState` on the heap in which L1 carries one transaction
record. -/
def samplePayloadState : State :=
  { sampleChainState 0 0 with heap := samplePayloadHeap }

/-- The block `b` meets the confirmation thresholds on the heap `heap` for the tip `tip`:
the tip is unmarked, `b` is the deepest of the `n` consecutive unmarked blocks reached
from the tip by the walk of `DoConfirmOne`, `n` is at least `nseqconfsigs`, and the skip
of `b` is 0 or `n` is at least `nskipconfsigs` (thresholds of the aux of the tip). -/
def MetThresholds (heap : Ptr → Block) (tip b : Ptr) : Prop :=
  ∃ below stop, (heap tip).aux.marked_for_indelible = false ∧
    WalkPath heap tip below b stop ∧
    (heap tip).aux.blockchain_params.nseqconfsigs ≤ below.length + 1 ∧
    ((heap b).aux.skip = 0 ∨
      (heap tip).aux.blockchain_params.nskipconfsigs ≤ below.length + 1)

/-- A state with no last indelible block and the chain G <- B1 at addresses 0, 1 and
levels 0, 1, both unmarked, with thresholds 2 and 3. -/
def sampleFreshState : State :=
  { heap := sampleHeap [sampleBlock 0 100 99 0 false none,
      sampleBlock 1 101 100 0 false (some 0)],
    m_have_fatal_error := false, m_last_indelible_block := none,
    m_last_indelible_level := 0, m_new_indelible_block := none,
    m_startup_prune_level := 0, valid_objs := [], trace := [] }

/-- Every call that `RestoreLastBlocks` makes for the first `m` blocks succeeds:
`BlockchainSelect` at the level `L - i` gives the buffer `p i` holding the object `b i`,
`SetupAuxBuf` gives an aux buffer, `LoadGenesisDataFiles` reads its files,
`ParameterSelect` at the slot of the level of `b i` gives the slice `a i`,
`ValidObjsInsert` and `ProcessQEnqueueValidate` return 0; the buffers are distinct. -/
def RestoreReads (env : Env) (store : Store) (L : Nat) (p : Nat → Ptr) (b : Nat → Block)
    (a : Nat → BlockAux) (m : Nat) : Prop :=
  (∀ i, i < m → store.BlockchainSelect (L - i) = some (p i, b i)) ∧
  (∀ i, i < m → (LoadGenesisDataFiles env store.files (b i).aux []).1 = false) ∧
  (∀ i, i < m →
    store.ParameterSelect env.DB_KEY_BLOCK_AUX ((b i).wire.level % 64) = some (a i)) ∧
  (∀ hist q, env.rc hist (Event.SetupAuxBuf q) = 0) ∧
  (∀ hist q, env.rc hist (Event.ValidObjsInsert q) = 0) ∧
  (∀ hist q o l, env.rc hist (Event.ProcessQEnqueueValidate q o l) = 0) ∧
  (∀ i j, i < m → j < m → p i = p j → i = j)

/-- The effects of iteration `i` of the loop of `RestoreLastBlocks` when its calls
succeed. -/
def RestoreLastBlocks.events (env : Env) (L : Nat) (p : Nat → Ptr) (b : Nat → Block)
    (i : Nat) : List Event :=
  if i = 0 then
    [Event.BlockchainSelect L, Event.SetupAuxBuf (p 0),
      Event.ParameterSelect env.DB_KEY_BLOCK_AUX ((b 0).wire.level % 64),
      Event.SetLastIndelible (p 0), Event.ValidObjsInsert (p 0)] ++
    (if env.IsWitness then
      [Event.ProcessQEnqueueValidate (p 0) (b 0).wire.prior_oid (b 0).wire.level]
    else [])
  else
    [Event.BlockchainSelect (L - i), Event.SetPriorBlock (p (i - 1)) (p i),
      Event.SetupAuxBuf (p i),
      Event.ParameterSelect env.DB_KEY_BLOCK_AUX ((b i).wire.level % 64)]

/-- The members of the singleton other than the heap and the trace are the same. -/
def State.sameMembers (s t : State) : Prop :=
  t.m_have_fatal_error = s.m_have_fatal_error ∧
  t.m_last_indelible_block = s.m_last_indelible_block ∧
  t.m_last_indelible_level = s.m_last_indelible_level ∧
  t.m_new_indelible_block = s.m_new_indelible_block ∧
  t.m_startup_prune_level = s.m_startup_prune_level ∧
  t.valid_objs = s.valid_objs

/-- The store read recorded by the event succeeded: `BlockchainSelect` returned an
object, `ParameterSelect` returned 0; other events are no read of the store. -/
def Store.readOk (store : Store) : Event → Bool
  | .BlockchainSelect level => (store.BlockchainSelect level).isSome
  | .ParameterSelect key slot => (store.ParameterSelect key slot).isSome
  | _ => true

/-- The level asked of `BlockchainSelect`, for an event that is such a call. -/
def Event.selectLevel : Event → Option Nat
  | .BlockchainSelect level => some level
  | _ => none

/-- The state `u` extends the trace of `s`. -/
def State.TraceExt (s u : State) : Prop := ∃ es, u.trace = s.trace ++ es

/-- The state `u` extends the trace of `s` by effects whose store reads succeeded, with
the same fatal flag. -/
def Store.Ext (store : Store) (s u : State) : Prop :=
  ∃ es, u.trace = s.trace ++ es ∧ u.m_have_fatal_error = s.m_have_fatal_error ∧
    ∀ e ∈ es, store.readOk e = true

/-- A store holding the blocks of levels 5 and 4 with their aux slices in the slots 5
and 4, and a genesis file for no witness. -/
def sampleStore : Store :=
  { BlockchainSelect := fun level =>
      if level = 5 then some (10, sampleBlock 5 105 104 0 false none)
      else if level = 4 then some (11, sampleBlock 4 104 103 0 false none)
      else none,
    ParameterSelect := fun key slot =>
      if key = 0 ∧ slot = 5 then some (sampleAux 105 0 true 2 3)
      else if key = 0 ∧ slot = 4 then some (sampleAux 104 0 true 2 3)
      else none,
    files := sampleGenesisFile 0 0 }

/-- The store `sampleStore` without the block of level 4. -/
def sampleStoreGap : Store :=
  { sampleStore with BlockchainSelect := fun level =>
      if level = 5 then some (10, sampleBlock 5 105 104 0 false none) else none }

/-- The write recorded by a `ParameterInsert` event: key, slot and slice. -/
def Event.paramInsert : Event → Option (Nat × Nat × BlockAux)
  | .ParameterInsert key slot aux => some (key, slot, aux)
  | _ => none

/-- The writes to the parameter store recorded in a trace, in order. -/
def paramInserts (es : List Event) : List (Nat × Nat × BlockAux) :=
  es.filterMap Event.paramInsert

/-- Modelled from the spec: the parameter store behind `DbConn::ParameterInsert` and
`DbConn::ParameterSelect`, whose code is not in this file, is a map from key and slot to
an aux slice; an insert replaces the value held under its key and slot. -/
def ParameterStore.write (store : Nat → Nat → Option BlockAux) (w : Nat × Nat × BlockAux) :
    Nat → Nat → Option BlockAux :=
  fun key slot => if key = w.1 ∧ slot = w.2.1 then some w.2.2 else store key slot

/-- Modelled from the spec: the parameter store after the inserts recorded in a trace,
starting from the empty store. -/
def paramStoreAfter (es : List Event) : Nat → Nat → Option BlockAux :=
  (paramInserts es).foldl ParameterStore.write (fun _ _ => none)

/-- The calls `SetNewlyIndelibleBlock(b)` for the blocks of a list in turn, up to the
first one that fails. -/
def commitAll (env : Env) : State → List Ptr → Except Fault (Bool × State)
  | s, [] => .ok (false, s)
  | s, b :: bs =>
    match SetNewlyIndelibleBlock env s b with
    | .error f => .error f
    | .ok (true, t) => .ok (true, t)
    | .ok (false, t) => commitAll env t bs

/-- The state changes in the fatal flag and the trace alone, by effects none of which is
a `ParameterInsert`. -/
def State.noParamExt (s t : State) : Prop :=
  ∃ f es, t = s.upd f es ∧ paramInserts es = []

/-- The level the next block has to have to pass the check of `SetNewlyIndelibleBlock`:
0 on a store with no indelible block, else the level of the pending-or-last block plus
one in `uint64_t`. -/
def State.nextLevel (s : State) : Nat :=
  match s.pendingOrLast with
  | none => 0
  | some p => ((s.heap p).wire.level + 1) % UINT64_SIZE

/-- The state after `SetNewlyIndelibleBlock` made the blocks 0 and 1 of
`sampleFreshState` indelible. -/
def sampleCommitted : State :=
  match commitAll envOk sampleFreshState [0, 1] with
  | .ok (_, t) => t
  | .error _ => sampleFreshState

/-- The store of a node restarted after `sampleCommitted`: the blocks of levels 1 and 0
and the parameter store written by the two commits. -/
def sampleRingStore : Store :=
  { BlockchainSelect := fun level =>
      if level = 1 then some (10, sampleBlock 1 101 100 0 false none)
      else if level = 0 then some (11, sampleBlock 0 100 99 0 false none)
      else none,
    ParameterSelect := paramStoreAfter sampleCommitted.trace,
    files := sampleGenesisFile 0 0 }

/-- The trace of `t` extends the trace of `s`, and the fatal flag of `t` is set exactly
when it was set in `s` or a fatal line is among the new effects. -/
def State.FlagTraced (s t : State) : Prop :=
  ∃ es, t.trace = s.trace ++ es ∧
    t.m_have_fatal_error = (s.m_have_fatal_error || es.any Event.isFatal)

/-- An environment in which the commit `EndWrite(true)` fails and every other call
succeeds. -/
def envCommitFails : Env :=
  { envOk with rc := fun _ call => match call with
    | Event.EndWrite true => 1
    | _ => 0 }

/-! ## Projections of the state updates -/

@[simp] theorem State.upd_heap (s : State) (f : Bool) (es : List Event) :
    (s.upd f es).heap = s.heap := rfl

@[simp] theorem State.upd_fatal (s : State) (f : Bool) (es : List Event) :
    (s.upd f es).m_have_fatal_error = f := rfl

@[simp] theorem State.upd_last (s : State) (f : Bool) (es : List Event) :
    (s.upd f es).m_last_indelible_block = s.m_last_indelible_block := rfl

@[simp] theorem State.upd_level (s : State) (f : Bool) (es : List Event) :
    (s.upd f es).m_last_indelible_level = s.m_last_indelible_level := rfl

@[simp] theorem State.upd_new (s : State) (f : Bool) (es : List Event) :
    (s.upd f es).m_new_indelible_block = s.m_new_indelible_block := rfl

@[simp] theorem State.upd_startup (s : State) (f : Bool) (es : List Event) :
    (s.upd f es).m_startup_prune_level = s.m_startup_prune_level := rfl

@[simp] theorem State.upd_valid (s : State) (f : Bool) (es : List Event) :
    (s.upd f es).valid_objs = s.valid_objs := rfl

@[simp] theorem State.upd_trace (s : State) (f : Bool) (es : List Event) :
    (s.upd f es).trace = s.trace ++ es := rfl

@[simp] theorem State.upd_upd (s : State) (f g : Bool) (es fs : List Event) :
    (s.upd f es).upd g fs = s.upd g (es ++ fs) := by
  simp [State.upd, List.append_assoc]

theorem State.log_eq_upd (s : State) (es : List Event) :
    s.log es = s.upd s.m_have_fatal_error es := rfl

theorem SetFatalError_eq_upd (s : State) (msg : FatalMsg) :
    SetFatalError s msg = s.upd true [Event.Fatal msg] := rfl

@[simp] theorem State.upd_pendingOrLast (s : State) (f : Bool) (es : List Event) :
    (s.upd f es).pendingOrLast = s.pendingOrLast := rfl

theorem State.upd_self (s : State) : s.upd s.m_have_fatal_error [] = s := by
  cases s; simp [State.upd]

/-! ## Store-only runs: `IndexTxs` and the commit sequence -/

theorem StoreRun.refl_false (s : State) : StoreRun s false s :=
  ⟨s.m_have_fatal_error, [], (State.upd_self s).symm, by simp, by simp, by simp⟩

theorem StoreRun.after_steps {s t : State} {r : Bool} (es : List Event)
    (hes : ∀ e ∈ es, e.isCommitStep = true)
    (h : StoreRun (s.upd s.m_have_fatal_error es) r t) : StoreRun s r t := by
  obtain ⟨f, fs, rfl, hall, ht, hf⟩ := h
  refine ⟨f, es ++ fs, by simp, ?_, ?_, ?_⟩
  · intro e he
    rcases List.mem_append.mp he with h1 | h1
    · exact Or.inl (hes e h1)
    · exact hall e h1
  · intro hr
    obtain ⟨h1, e, he, hc⟩ := ht hr
    exact ⟨h1, e, List.mem_append.mpr (Or.inr he), hc⟩
  · intro hr
    simpa using hf hr

theorem StoreRun.trans_runs {s s1 s2 : State} {r : Bool} (h1 : StoreRun s false s1)
    (h2 : StoreRun s1 r s2) : StoreRun s r s2 := by
  obtain ⟨f, es, rfl, hall, -, hf⟩ := h1
  obtain ⟨g, fs, rfl, hall2, ht2, hf2⟩ := h2
  refine ⟨g, es ++ fs, by simp, ?_, ?_, ?_⟩
  · intro e he
    rcases List.mem_append.mp he with h1 | h1
    · exact hall e h1
    · exact hall2 e h1
  · intro hr
    obtain ⟨h1, e, he, hc⟩ := ht2 hr
    exact ⟨h1, e, List.mem_append.mpr (Or.inr he), hc⟩
  · intro hr
    have := hf2 hr
    simp at this
    rw [this, hf rfl]

theorem StoreRun.fail (s : State) (es : List Event) (msg : FatalMsg)
    (hes : ∀ e ∈ es, e.isCommitStep = true) (hne : es ≠ []) :
    StoreRun s true (s.upd true (es ++ [Event.Fatal msg])) := by
  refine ⟨true, es ++ [Event.Fatal msg], rfl, ?_, ?_, by simp⟩
  · intro e he
    rcases List.mem_append.mp he with h1 | h1
    · exact Or.inl (hes e h1)
    · simp at h1
      subst h1
      exact Or.inr rfl
  · intro _
    obtain ⟨e, he⟩ := List.exists_mem_of_ne_nil es hne
    exact ⟨rfl, e, List.mem_append.mpr (Or.inl he), hes e he⟩

theorem StoreRun.heap {s t : State} {r : Bool} (h : StoreRun s r t) : t.heap = s.heap := by
  obtain ⟨f, es, rfl, -⟩ := h
  rfl

theorem StoreRun.fatal_of_false {s t : State} (h : StoreRun s false t) :
    t.m_have_fatal_error = s.m_have_fatal_error := by
  obtain ⟨f, es, rfl, -, -, hf⟩ := h
  simpa using hf rfl

theorem StoreRun.fatal_of_true {s t : State} (h : StoreRun s true t) :
    t.m_have_fatal_error = true := by
  obtain ⟨f, es, rfl, -, ht, -⟩ := h
  simpa using (ht rfl).1

theorem IndexTxs.inputs_spec (env : Env) (l : List Nat) :
    ∀ s : State, StoreRun s (IndexTxs.inputs env s l).1 (IndexTxs.inputs env s l).2 := by
  induction l with
  | nil => intro s; exact StoreRun.refl_false s
  | cons serial rest ih =>
    intro s
    unfold IndexTxs.inputs
    by_cases hrc : env.rc s.trace (Event.SerialnumInsert serial) ≠ 0
    · rw [if_pos hrc]
      simp only [State.log_eq_upd, SetFatalError_eq_upd, State.upd_upd]
      exact StoreRun.fail s [Event.SerialnumInsert serial] _ (by simp [Event.isCommitStep])
        (by simp)
    · rw [if_neg hrc]
      simp only [State.log_eq_upd]
      exact StoreRun.after_steps [Event.SerialnumInsert serial]
        (by simp [Event.isCommitStep]) (ih _)

theorem IndexTxs.inputs_ok (env : Env) (henv : env.AllOk) (l : List Nat) :
    ∀ s : State, (IndexTxs.inputs env s l).1 = false := by
  induction l with
  | nil => intro s; rfl
  | cons serial rest ih =>
    intro s
    unfold IndexTxs.inputs
    simp [henv _ _, ih]

theorem IndexTxs.outputs_spec (env : Env) (param_level : Nat) (l : List TxOut) :
    ∀ s : State, StoreRun s (IndexTxs.outputs env param_level s l).1
      (IndexTxs.outputs env param_level s l).2 := by
  induction l with
  | nil => intro s; exact StoreRun.refl_false s
  | cons tx rest ih =>
    intro s
    unfold IndexTxs.outputs IndexTxOutputs
    by_cases hrc : env.rc (s.log [Event.GetNextCommitnum true]).trace
        (Event.AddCommitment (env.GetNextCommitnum s.trace) tx.M_commitment) ≠ 0
    · rw [if_pos hrc]
      simp only [if_true, State.log_eq_upd, SetFatalError_eq_upd, State.upd_upd,
        State.upd_fatal]
      exact StoreRun.fail s [Event.GetNextCommitnum true,
        Event.AddCommitment (env.GetNextCommitnum s.trace) tx.M_commitment] _
        (by simp [Event.isCommitStep]) (by simp)
    · rw [if_neg hrc]
      simp only [Bool.false_eq_true, if_false, State.log_eq_upd, State.upd_upd, State.upd_fatal]
      exact StoreRun.after_steps _ (by simp [Event.isCommitStep]) (ih _)

theorem IndexTxs.outputs_ok (env : Env) (henv : env.AllOk) (param_level : Nat)
    (l : List TxOut) :
    ∀ s : State, (IndexTxs.outputs env param_level s l).1 = false := by
  induction l with
  | nil => intro s; rfl
  | cons tx rest ih =>
    intro s
    unfold IndexTxs.outputs IndexTxOutputs
    simp [henv _ _, ih]

theorem IndexTxs.records_spec (env : Env) (l : List WireTx) :
    ∀ (s : State) (r : Bool) (t : State),
      IndexTxs.records env s l = .ok (r, t) → StoreRun s r t := by
  induction l with
  | nil =>
    intro s r t h
    simp only [IndexTxs.records, Except.ok.injEq, Prod.mk.injEq] at h
    obtain ⟨rfl, rfl⟩ := h
    exact StoreRun.refl_false s
  | cons w rest ih =>
    intro s r t h
    unfold IndexTxs.records at h
    cases hp : env.tx_from_wire w with
    | none =>
      simp only [hp, Except.ok.injEq, Prod.mk.injEq, State.log_eq_upd, SetFatalError_eq_upd,
        State.upd_upd] at h
      obtain ⟨rfl, rfl⟩ := h
      exact StoreRun.fail s [Event.tx_from_wire w] _ (by simp [Event.isCommitStep]) (by simp)
    | some parsed =>
      simp only [hp] at h
      cases hc : CheckCreatePseudoSerialnum env parsed w with
      | error f => simp [hc] at h
      | ok txbuf =>
        simp only [hc] at h
        have h1 := IndexTxs.inputs_spec env txbuf.serialnums (s.log [Event.tx_from_wire w])
        have hstep : ∀ {r t}, StoreRun (s.log [Event.tx_from_wire w]) r t → StoreRun s r t :=
          fun hh => StoreRun.after_steps [Event.tx_from_wire w]
            (by simp [Event.isCommitStep]) (by simpa [State.log_eq_upd] using hh)
        cases hr1 : (IndexTxs.inputs env (s.log [Event.tx_from_wire w]) txbuf.serialnums).1 with
        | true =>
          simp only [hr1, if_true, Except.ok.injEq, Prod.mk.injEq] at h
          obtain ⟨rfl, rfl⟩ := h
          rw [hr1] at h1
          exact hstep h1
        | false =>
          simp only [hr1, Bool.false_eq_true, if_false] at h
          rw [hr1] at h1
          have h2 := IndexTxs.outputs_spec env txbuf.param_level txbuf.outputs
            (IndexTxs.inputs env (s.log [Event.tx_from_wire w]) txbuf.serialnums).2
          cases hr2 : (IndexTxs.outputs env txbuf.param_level
              (IndexTxs.inputs env (s.log [Event.tx_from_wire w]) txbuf.serialnums).2
              txbuf.outputs).1 with
          | true =>
            simp only [hr2, if_true, Except.ok.injEq, Prod.mk.injEq] at h
            obtain ⟨rfl, rfl⟩ := h
            rw [hr2] at h2
            exact hstep (StoreRun.trans_runs h1 h2)
          | false =>
            simp only [hr2, Bool.false_eq_true, if_false] at h
            rw [hr2] at h2
            exact hstep (StoreRun.trans_runs h1 (StoreRun.trans_runs h2 (ih _ _ _ h)))

theorem IndexTxs.records_ok (env : Env) (henv : env.AllOk) (l : List WireTx) :
    ∀ (s : State), env.TxsOk l → ∃ t, IndexTxs.records env s l = .ok (false, t) := by
  induction l with
  | nil => intro s _; exact ⟨s, rfl⟩
  | cons w rest ih =>
    intro s htx
    obtain ⟨tx, hp, htag⟩ := htx w (List.mem_cons_self _ _)
    have hrest : env.TxsOk rest := fun v hv => htx v (List.mem_cons_of_mem _ hv)
    have hc : ∃ txbuf, CheckCreatePseudoSerialnum env tx w = .ok txbuf := by
      unfold CheckCreatePseudoSerialnum
      by_cases hn : tx.nin ≠ 0
      · exact ⟨tx, by simp [hn]⟩
      · have ht : w.tag = env.CC_TAG_TX_WIRE ∨ w.tag = env.CC_TAG_TX_BLOCK := by
          rcases htag with h | h
          · exact absurd h hn
          · exact h
        push_neg at hn
        exact ⟨{ tx with nin := 1, input := env.blake2b w.body :: tx.input.tail },
          by rw [if_neg (by simp [hn]), if_pos ht]⟩
    obtain ⟨txbuf, hc⟩ := hc
    unfold IndexTxs.records
    simp only [hp, hc, IndexTxs.inputs_ok env henv, IndexTxs.outputs_ok env henv,
      Bool.false_eq_true, if_false]
    exact ih _ hrest

theorem promoted_append (es fs : List Event) :
    promoted (es ++ fs) = promoted es ++ promoted fs := by
  induction es with
  | nil => rfl
  | cons e es ih => cases e <;> simp [promoted, ih]

theorem promoted_of_store (es : List Event)
    (h : ∀ e ∈ es, e.isCommitStep = true ∨ e.isFatal = true) : promoted es = [] := by
  induction es with
  | nil => rfl
  | cons e es ih =>
    have he := h e (List.mem_cons_self _ _)
    have ht := ih (fun x hx => h x (List.mem_cons_of_mem _ hx))
    cases e <;> simp_all [promoted, Event.isCommitStep, Event.isFatal]

theorem SetNewlyIndelibleBlock.commit_spec (env : Env) (s : State) (smartobj : Ptr)
    (r : Bool) (t : State) (h : SetNewlyIndelibleBlock.commit env s smartobj = .ok (r, t)) :
    (r = true ∧ StoreRun s true t) ∨
      (r = false ∧ ∃ t0, StoreRun s false t0 ∧ t = t0.publish smartobj) := by
  unfold SetNewlyIndelibleBlock.commit at h
  cases hi : IndexTxs env s smartobj with
  | error f => simp [hi] at h
  | ok res =>
    obtain ⟨rc1, s1⟩ := res
    have h1 : StoreRun s rc1 s1 := IndexTxs.records_spec env _ s rc1 s1 hi
    simp only [hi] at h
    cases rc1 with
    | true =>
      simp only [if_true, Except.ok.injEq, Prod.mk.injEq] at h
      obtain ⟨rfl, rfl⟩ := h
      exact Or.inl ⟨rfl, h1⟩
    | false =>
      simp only [Bool.false_eq_true, if_false] at h
      have hf1 := h1.fatal_of_false
      by_cases h2 : env.rc s1.trace
          (Event.UpdateCommitTree smartobj (s.heap smartobj).wire.timestamp) ≠ 0
      · rw [State.log_eq_upd, if_pos (by simpa using h2)] at h
        simp only [SetFatalError_eq_upd, State.upd_upd, Except.ok.injEq, Prod.mk.injEq] at h
        obtain ⟨rfl, rfl⟩ := h
        exact Or.inl ⟨rfl, StoreRun.trans_runs h1
          (StoreRun.fail s1 [_] _ (by simp [Event.isCommitStep]) (by simp))⟩
      · rw [State.log_eq_upd, if_neg (by simpa using h2)] at h
        by_cases h3 : env.rc (s1.upd s1.m_have_fatal_error
            [Event.UpdateCommitTree smartobj (s.heap smartobj).wire.timestamp]).trace
            (Event.BlockchainInsert (s.heap smartobj).wire.level smartobj) ≠ 0
        · rw [State.log_eq_upd, if_pos (by simpa using h3)] at h
          simp only [SetFatalError_eq_upd, State.upd_upd, Except.ok.injEq, Prod.mk.injEq,
            State.upd_fatal] at h
          obtain ⟨rfl, rfl⟩ := h
          exact Or.inl ⟨rfl, StoreRun.trans_runs h1
            (StoreRun.fail s1 [_, _] _ (by simp [Event.isCommitStep]) (by simp))⟩
        · rw [State.log_eq_upd, if_neg (by simpa using h3)] at h
          simp only [State.upd_fatal, State.upd_upd, State.upd_heap] at h
          by_cases h4 : env.rc (s1.upd s1.m_have_fatal_error
              ([Event.UpdateCommitTree smartobj (s.heap smartobj).wire.timestamp] ++
                [Event.BlockchainInsert (s.heap smartobj).wire.level smartobj])).trace
              (Event.ParameterInsert env.DB_KEY_BLOCK_AUX ((s.heap smartobj).wire.level % 64)
                (s1.heap smartobj).aux) ≠ 0
          · rw [State.log_eq_upd, if_pos (by simpa using h4)] at h
            simp only [SetFatalError_eq_upd, State.upd_upd, Except.ok.injEq, Prod.mk.injEq,
              State.upd_fatal] at h
            obtain ⟨rfl, rfl⟩ := h
            exact Or.inl ⟨rfl, StoreRun.trans_runs h1
              (StoreRun.fail s1 [_, _, _] _ (by simp [Event.isCommitStep]) (by simp))⟩
          · rw [State.log_eq_upd, if_neg (by simpa using h4)] at h
            simp only [State.upd_upd, Except.ok.injEq, Prod.mk.injEq, State.upd_fatal] at h
            obtain ⟨rfl, rfl⟩ := h
            refine Or.inr ⟨rfl, _, StoreRun.trans_runs h1 ?_, rfl⟩
            exact ⟨s1.m_have_fatal_error, _, rfl, by simp [Event.isCommitStep], by simp,
              by simp⟩

@[simp] theorem State.entered_heap (s : State) (b : Ptr) :
    (s.entered b).heap = fun q => if q = b then (s.heap b).mark else s.heap q := rfl

@[simp] theorem State.entered_fatal (s : State) (b : Ptr) :
    (s.entered b).m_have_fatal_error = s.m_have_fatal_error := rfl

@[simp] theorem State.entered_last (s : State) (b : Ptr) :
    (s.entered b).m_last_indelible_block = s.m_last_indelible_block := rfl

@[simp] theorem State.entered_level (s : State) (b : Ptr) :
    (s.entered b).m_last_indelible_level = s.m_last_indelible_level := rfl

@[simp] theorem State.entered_new (s : State) (b : Ptr) :
    (s.entered b).m_new_indelible_block = s.m_new_indelible_block := rfl

@[simp] theorem State.entered_valid (s : State) (b : Ptr) :
    (s.entered b).valid_objs = s.valid_objs := rfl

@[simp] theorem State.entered_startup (s : State) (b : Ptr) :
    (s.entered b).m_startup_prune_level = s.m_startup_prune_level := rfl

@[simp] theorem State.entered_trace (s : State) (b : Ptr) :
    (s.entered b).trace
      = s.trace ++ [Event.BeginWrite, Event.ReadMarked b, Event.WriteMarked b] := by
  simp [State.entered, State.setMarked, State.log]

@[simp] theorem State.entered_pendingOrLast (s : State) (b : Ptr) :
    (s.entered b).pendingOrLast = s.pendingOrLast := rfl

@[simp] theorem State.publish_heap (s : State) (b : Ptr) : (s.publish b).heap = s.heap := rfl

@[simp] theorem State.publish_fatal (s : State) (b : Ptr) :
    (s.publish b).m_have_fatal_error = s.m_have_fatal_error := rfl

@[simp] theorem State.publish_last (s : State) (b : Ptr) :
    (s.publish b).m_last_indelible_block = s.m_last_indelible_block := rfl

@[simp] theorem State.publish_level (s : State) (b : Ptr) :
    (s.publish b).m_last_indelible_level = s.m_last_indelible_level := rfl

@[simp] theorem State.publish_new (s : State) (b : Ptr) :
    (s.publish b).m_new_indelible_block = some b := rfl

@[simp] theorem State.publish_valid (s : State) (b : Ptr) :
    (s.publish b).valid_objs = s.valid_objs := rfl

@[simp] theorem State.publish_startup (s : State) (b : Ptr) :
    (s.publish b).m_startup_prune_level = s.m_startup_prune_level := rfl

@[simp] theorem State.publish_trace (s : State) (b : Ptr) :
    (s.publish b).trace = s.trace ++ [Event.SetNewIndelible b] := rfl

@[simp] theorem State.publish_pendingOrLast (s : State) (b : Ptr) :
    (s.publish b).pendingOrLast = some b := rfl

@[simp] theorem Block.mark_wire (b : Block) : b.mark.wire = b.wire := rfl

@[simp] theorem Block.mark_prior (b : Block) : b.mark.prior = b.prior := rfl

@[simp] theorem Block.mark_payload (b : Block) : b.mark.payload = b.payload := rfl

@[simp] theorem Block.mark_oid (b : Block) : b.mark.aux.oid = b.aux.oid := rfl

@[simp] theorem Block.mark_skip (b : Block) : b.mark.aux.skip = b.aux.skip := rfl

@[simp] theorem Block.mark_params (b : Block) :
    b.mark.aux.blockchain_params = b.aux.blockchain_params := rfl

@[simp] theorem Block.mark_marked (b : Block) : b.mark.aux.marked_for_indelible = true := rfl

@[simp] theorem Block.mark_mark (b : Block) : b.mark.mark = b.mark := rfl

theorem Block.mark_of_marked (b : Block) (h : b.aux.marked_for_indelible = true) :
    b.mark = b := by
  cases b with
  | mk wire aux prior payload =>
    cases aux
    simp_all [Block.mark]

theorem HeapMarks.refl (h : Ptr → Block) : HeapMarks h h := fun _ => Or.inl rfl

theorem HeapMarks.trans_marks {h k m : Ptr → Block} (a : HeapMarks h k) (b : HeapMarks k m) :
    HeapMarks h m := by
  intro p
  rcases a p with ha | ha <;> rcases b p with hb | hb
  · exact Or.inl (hb.trans ha)
  · exact Or.inr (by rw [hb, ha])
  · exact Or.inr (hb.trans ha)
  · exact Or.inr (by rw [hb, ha, Block.mark_mark])

theorem HeapMarks.entered (s : State) (b : Ptr) : HeapMarks s.heap (s.entered b).heap := by
  intro p
  by_cases hp : p = b
  · subst hp
    exact Or.inr (by simp)
  · exact Or.inl (by simp [hp])

theorem HeapMarks.wire {h k : Ptr → Block} (a : HeapMarks h k) (p : Ptr) :
    (k p).wire = (h p).wire := by
  rcases a p with ha | ha <;> simp [ha]

theorem HeapMarks.oid {h k : Ptr → Block} (a : HeapMarks h k) (p : Ptr) :
    (k p).aux.oid = (h p).aux.oid := by
  rcases a p with ha | ha <;> simp [ha]

theorem HeapMarks.prior {h k : Ptr → Block} (a : HeapMarks h k) (p : Ptr) :
    (k p).prior = (h p).prior := by
  rcases a p with ha | ha <;> simp [ha]

theorem HeapMarks.marked {h k : Ptr → Block} (a : HeapMarks h k) (p : Ptr)
    (hm : (h p).aux.marked_for_indelible = true) : (k p).aux.marked_for_indelible = true := by
  rcases a p with ha | ha <;> simp [ha, hm]

theorem HeapMarks.linked {h k : Ptr → Block} (a : HeapMarks h k) (p q : Ptr) :
    Linked k p q ↔ Linked h p q := by
  simp [Linked, a.wire, a.oid]

theorem SetNewlyIndelibleBlock_spec (env : Env) (s : State) (b : Ptr) (r : Bool) (t : State)
    (h : SetNewlyIndelibleBlock env s b = .ok (r, t)) :
    (r = true ∧ env.rc s.trace Event.BeginWrite < 0 ∧
        t = s.upd true
          [Event.BeginWrite, Event.Fatal FatalMsg.SetNewlyIndelibleBlock_BeginWrite]) ∨
    (r = true ∧ 0 ≤ env.rc s.trace Event.BeginWrite ∧
        (s.heap b).aux.marked_for_indelible = true ∧
        t = s.upd s.m_have_fatal_error [Event.BeginWrite, Event.ReadMarked b]) ∨
    (r = true ∧ 0 ≤ env.rc s.trace Event.BeginWrite ∧
        (s.heap b).aux.marked_for_indelible = false ∧
        ∃ p msg, s.pendingOrLast = some p ∧ ¬ Linked s.heap p b ∧
          t = (s.entered b).upd true [Event.Fatal msg]) ∨
    (0 ≤ env.rc s.trace Event.BeginWrite ∧ (s.heap b).aux.marked_for_indelible = false ∧
        ((s.pendingOrLast = none ∧ (s.heap b).wire.level = 0) ∨
          ∃ p, s.pendingOrLast = some p ∧ Linked s.heap p b) ∧
        SetNewlyIndelibleBlock.commit env (s.entered b) b = .ok (r, t)) := by
  unfold SetNewlyIndelibleBlock at h
  by_cases h0 : env.rc s.trace Event.BeginWrite < 0
  · rw [if_pos h0] at h
    simp only [State.log_eq_upd, SetFatalError_eq_upd, State.upd_upd, Except.ok.injEq,
      Prod.mk.injEq] at h
    obtain ⟨rfl, rfl⟩ := h
    exact Or.inl ⟨rfl, h0, rfl⟩
  · rw [if_neg h0] at h
    push_neg at h0
    cases hm : (s.heap b).aux.marked_for_indelible with
    | true =>
      have hm2 : (((s.log [Event.BeginWrite]).log [Event.ReadMarked b]).heap b
          ).aux.marked_for_indelible = true := hm
      rw [if_pos hm2] at h
      simp only [State.log_eq_upd, State.upd_upd, Except.ok.injEq, Prod.mk.injEq,
        State.upd_fatal] at h
      obtain ⟨rfl, rfl⟩ := h
      exact Or.inr (Or.inl ⟨rfl, h0, rfl, rfl⟩)
    | false =>
      have hm2 : ¬ (((s.log [Event.BeginWrite]).log [Event.ReadMarked b]).heap b
          ).aux.marked_for_indelible = true := by
        show ¬ (s.heap b).aux.marked_for_indelible = true
        simp [hm]
      rw [if_neg hm2] at h
      change (match (s.entered b).pendingOrLast with
        | none => _
        | some lp => _) = _ at h
      rw [State.entered_pendingOrLast] at h
      cases hp : s.pendingOrLast with
      | none =>
        simp only [hp] at h
        by_cases hl : (s.heap b).wire.level ≠ 0
        · rw [if_pos hl] at h
          simp at h
        · rw [if_neg hl] at h
          push_neg at hl
          exact Or.inr (Or.inr (Or.inr ⟨h0, rfl, Or.inl ⟨rfl, hl⟩, h⟩))
      | some p =>
        simp only [hp] at h
        have hw : ((((s.log [Event.BeginWrite]).log [Event.ReadMarked b]).setMarked b).heap
            p).wire = (s.heap p).wire := (HeapMarks.entered s b).wire p
        have ho : ((((s.log [Event.BeginWrite]).log [Event.ReadMarked b]).setMarked b).heap
            p).aux.oid = (s.heap p).aux.oid := (HeapMarks.entered s b).oid p
        by_cases hd : Linked s.heap p b
        · rw [if_neg (by
            rw [hw, ho]
            rintro (hx | hx)
            · exact hx hd.1
            · exact hx hd.2)] at h
          exact Or.inr (Or.inr (Or.inr ⟨h0, rfl, Or.inr ⟨p, rfl, hd⟩, h⟩))
        · rw [if_pos (by
            rw [hw, ho]
            by_contra hc
            push_neg at hc
            exact hd ⟨hc.1, hc.2⟩)] at h
          simp only [SetFatalError_eq_upd, Except.ok.injEq, Prod.mk.injEq] at h
          obtain ⟨rfl, rfl⟩ := h
          exact Or.inr (Or.inr (Or.inl ⟨rfl, h0, rfl, p, _, rfl, hd, rfl⟩))

theorem SetNewlyIndelibleBlock.commit_ok (env : Env) (henv : env.AllOk) (s : State) (b : Ptr)
    (htx : env.TxsOk (s.heap b).payload) :
    ∃ t0, StoreRun s false t0 ∧
      SetNewlyIndelibleBlock.commit env s b = .ok (false, t0.publish b) := by
  obtain ⟨t1, h1⟩ := IndexTxs.records_ok env henv _ s htx
  have hrun := IndexTxs.records_spec env _ s false t1 h1
  refine ⟨t1.upd t1.m_have_fatal_error
    [Event.UpdateCommitTree b (s.heap b).wire.timestamp,
      Event.BlockchainInsert (s.heap b).wire.level b,
      Event.ParameterInsert env.DB_KEY_BLOCK_AUX ((s.heap b).wire.level % 64)
        (t1.heap b).aux], StoreRun.trans_runs hrun ?_, ?_⟩
  · exact ⟨t1.m_have_fatal_error, _, rfl, by simp [Event.isCommitStep], by simp, by simp⟩
  · unfold SetNewlyIndelibleBlock.commit IndexTxs
    simp only [h1, henv _ _, Bool.false_eq_true, if_false, ne_eq, not_true_eq_false,
      State.log_eq_upd, State.upd_upd, State.upd_fatal, State.upd_heap]
    rfl

theorem Linked.level_ne_self (heap : Ptr → Block) (p b : Ptr)
    (h : (heap b).wire.level = (heap p).wire.level) : ¬ Linked heap p b := by
  intro hl
  have h1 := hl.1
  rw [h] at h1
  unfold UINT64_SIZE at h1
  omega

theorem Linked.level_gt (heap : Ptr → Block) (p b : Ptr)
    (hle : (heap b).wire.level ≤ (heap p).wire.level)
    (hmax : (heap p).wire.level + 1 < UINT64_SIZE) : ¬ Linked heap p b := by
  intro hl
  have h1 := hl.1
  rw [Nat.mod_eq_of_lt hmax] at h1
  omega

/-- C3 (amended): for an unmarked block B, with BeginWrite succeeding and a
pending-or-last indelible block P, `SetNewlyIndelibleBlock` latches the fatal flag and
returns failure before any step of the commit sequence if and only if
B.level differs from P.level + 1 computed in `uint64_t` (modulo 2^64) or B.prior_oid
differs from P.oid; the state it then returns differs from the one at the check only
in the fatal flag and the fatal log line, so the pending and the last indelible block
are unchanged; otherwise the call is the commit sequence.  A block at the level of P,
or at any level up to P.level when P.level + 1 does not wrap, is refused. -/
theorem C3_SetNewlyIndelibleBlock_divergence_fatal (env : Env) (s : State) (b p : Ptr)
    (hunmarked : (s.heap b).aux.marked_for_indelible = false)
    (hbegin : 0 ≤ env.rc s.trace Event.BeginWrite)
    (hp : s.pendingOrLast = some p) :
    (SetNewlyIndelibleBlock.fatalBeforeCommit env s b ↔ ¬ Linked s.heap p b) ∧
    (¬ Linked s.heap p b →
      ∃ msg, SetNewlyIndelibleBlock env s b
          = .ok (true, (s.entered b).upd true [Event.Fatal msg]) ∧
        ((s.entered b).upd true [Event.Fatal msg]).m_new_indelible_block
          = s.m_new_indelible_block ∧
        ((s.entered b).upd true [Event.Fatal msg]).m_last_indelible_block
          = s.m_last_indelible_block) ∧
    (Linked s.heap p b →
      SetNewlyIndelibleBlock env s b = SetNewlyIndelibleBlock.commit env (s.entered b) b) ∧
    ((s.heap b).wire.level = (s.heap p).wire.level → ¬ Linked s.heap p b) ∧
    ((s.heap b).wire.level ≤ (s.heap p).wire.level →
      (s.heap p).wire.level + 1 < UINT64_SIZE → ¬ Linked s.heap p b) := by
  have hm2 : ¬ (((s.log [Event.BeginWrite]).log [Event.ReadMarked b]).heap b
      ).aux.marked_for_indelible = true := by
    show ¬ (s.heap b).aux.marked_for_indelible = true
    simp [hunmarked]
  have hw : ((s.entered b).heap p).wire = (s.heap p).wire := (HeapMarks.entered s b).wire p
  have ho : ((s.entered b).heap p).aux.oid = (s.heap p).aux.oid :=
    (HeapMarks.entered s b).oid p
  have hcall : SetNewlyIndelibleBlock env s b =
      if (s.heap b).wire.level ≠ (((s.entered b).heap p).wire.level + 1) % UINT64_SIZE ∨
          (s.heap b).wire.prior_oid ≠ ((s.entered b).heap p).aux.oid then
        .ok (true, SetFatalError (s.entered b)
          (if (s.heap b).wire.level ≤ (((s.entered b).heap p).wire.level + 1) % UINT64_SIZE
            then FatalMsg.SetNewlyIndelibleBlock_two_indelible_same_level
            else FatalMsg.SetNewlyIndelibleBlock_sequence_error))
      else SetNewlyIndelibleBlock.commit env (s.entered b) b := by
    unfold SetNewlyIndelibleBlock
    rw [if_neg (not_lt.mpr hbegin), if_neg hm2]
    change (match (s.entered b).pendingOrLast with
      | none => _
      | some lp => _) = _
    rw [State.entered_pendingOrLast, hp]
    rfl
  rw [hw, ho] at hcall
  have hfatal : ¬ Linked s.heap p b →
      ∃ msg, SetNewlyIndelibleBlock env s b
        = .ok (true, (s.entered b).upd true [Event.Fatal msg]) := by
    intro hd
    rw [hcall, if_pos (by
      by_contra hc
      push_neg at hc
      exact hd ⟨hc.1, hc.2⟩)]
    exact ⟨_, rfl⟩
  have hcommit : Linked s.heap p b →
      SetNewlyIndelibleBlock env s b = SetNewlyIndelibleBlock.commit env (s.entered b) b := by
    intro hd
    rw [hcall, if_neg (by
      rintro (hx | hx)
      · exact hx hd.1
      · exact hx hd.2)]
  refine ⟨⟨?_, ?_⟩, ?_, hcommit, Linked.level_ne_self _ _ _, Linked.level_gt _ _ _⟩
  · rintro ⟨t, es, hcall2, hf, htr, hes⟩ hd
    rw [hcommit hd] at hcall2
    rcases SetNewlyIndelibleBlock.commit_spec env _ b true t hcall2 with ⟨-, hrun⟩ | ⟨hr, -⟩
    · obtain ⟨f, fs, rfl, -, hstep, -⟩ := hrun
      obtain ⟨-, e, he, hc⟩ := hstep rfl
      simp only [State.upd_trace, State.entered_trace, List.append_assoc] at htr
      have hes2 := List.append_cancel_left htr
      have hmem : e ∈ es := by
        rw [← hes2]
        simp [he]
      rw [hes e hmem] at hc
      exact absurd hc (by simp)
    · exact absurd hr (by simp)
  · intro hd
    obtain ⟨msg, hmsg⟩ := hfatal hd
    refine ⟨_, [Event.BeginWrite, Event.ReadMarked b, Event.WriteMarked b, Event.Fatal msg],
      hmsg, rfl, by simp, ?_⟩
    intro e he
    simp only [List.mem_cons, List.mem_singleton, List.not_mem_nil, or_false] at he
    rcases he with rfl | rfl | rfl | rfl <;> rfl
  · intro hd
    obtain ⟨msg, hmsg⟩ := hfatal hd
    exact ⟨msg, hmsg, rfl, rfl⟩

/-- C3, at a concrete input: the claim as stated fails where P.level + 1 wraps.  The last
indelible block P has level 2^64 - 1, the unmarked block B has level 0 and names P as
its prior; B.level differs from P.level + 1, yet the call is not refused: it returns
success without latching the fatal flag. -/
theorem C3_counterexample_level_wrap :
    (sampleWrapState.heap 1).aux.marked_for_indelible = false ∧
    0 ≤ envOk.rc sampleWrapState.trace Event.BeginWrite ∧
    sampleWrapState.pendingOrLast = some 0 ∧
    ¬ (SetNewlyIndelibleBlock.fatalBeforeCommit envOk sampleWrapState 1 ↔
        ((sampleWrapState.heap 1).wire.level ≠ (sampleWrapState.heap 0).wire.level + 1 ∨
          (sampleWrapState.heap 1).wire.prior_oid ≠ (sampleWrapState.heap 0).aux.oid)) ∧
    (SetNewlyIndelibleBlock envOk sampleWrapState 1).toOption.map
      (fun r => (r.1, r.2.m_have_fatal_error)) = some (false, false) := by
  have hev : (SetNewlyIndelibleBlock envOk sampleWrapState 1).toOption.map
      (fun r => (r.1, r.2.m_have_fatal_error)) = some (false, false) := by decide
  refine ⟨rfl, by decide, rfl, ?_, hev⟩
  intro hiff
  obtain ⟨t, es, hcall, -⟩ := hiff.mpr (Or.inl (by decide))
  rw [hcall] at hev
  simp [Except.toOption] at hev

/-- C3, applied to the fork of the scenario E6: L1 at level 6 is the pending indelible
block and a second unmarked block at level 6 is offered; the call is refused. -/
theorem C3_witness_fork :
    (sampleForkState.heap 3).aux.marked_for_indelible = false ∧
    0 ≤ envOk.rc sampleForkState.trace Event.BeginWrite ∧
    sampleForkState.pendingOrLast = some 1 ∧
    (sampleForkState.heap 3).wire.level = (sampleForkState.heap 1).wire.level ∧
    SetNewlyIndelibleBlock.fatalBeforeCommit envOk sampleForkState 3 := by
  have h := C3_SetNewlyIndelibleBlock_divergence_fatal envOk sampleForkState 3 1 rfl
    (by decide) rfl
  exact ⟨rfl, by decide, rfl, rfl, h.1.mpr (h.2.2.2.1 rfl)⟩

theorem ChainFrom.of_heapMarks {h k : Ptr → Block} (a : HeapMarks h k) (start : Option Ptr)
    (ps : List Ptr) (hc : ChainFrom k start ps) : ChainFrom h start ps := by
  cases start with
  | some p =>
    exact List.Chain.imp (fun x y hxy => (a.linked x y).mp hxy) hc
  | none =>
    refine ⟨List.Chain'.imp (fun x y hxy => (a.linked x y).mp hxy) hc.1, ?_⟩
    intro b hb
    rw [← a.wire b]
    exact hc.2 b hb

theorem Step.of_upd {s t : State} {r : Bool} (f : Bool) (es : List Event)
    (hes : promoted es = []) (hf : r = false → f = s.m_have_fatal_error)
    (h : Step (s.upd f es) r t) : Step s r t := by
  obtain ⟨hh, hl, hv, fs, htr, ht, hfalse⟩ := h
  refine ⟨hh, hl, hv, es ++ fs, by simpa [List.append_assoc] using htr, ?_, ?_⟩
  · intro hr
    obtain ⟨h1, h2⟩ := ht hr
    exact ⟨by rw [promoted_append, hes, h1]; rfl, h2⟩
  · intro hr
    obtain ⟨b, h1, h2, h3, h4, h5, h6⟩ := hfalse hr
    refine ⟨b, by rw [promoted_append, hes, h1]; rfl, h2, ?_, h4, h5, h6⟩
    rw [h3]
    exact hf hr

theorem Step.of_true_upd (s : State) (f : Bool) (es : List Event) (hes : promoted es = []) :
    Step s true (s.upd f es) :=
  ⟨HeapMarks.refl _, rfl, rfl, es, rfl, fun _ => ⟨hes, rfl⟩, fun h => absurd h (by simp)⟩

theorem SetNewlyIndelibleBlock_step (env : Env) (s : State) (b : Ptr) (r : Bool) (t : State)
    (h : SetNewlyIndelibleBlock env s b = .ok (r, t)) :
    Step s r t ∧ (r = false → t.m_new_indelible_block = some b) := by
  rcases SetNewlyIndelibleBlock_spec env s b r t h with
    ⟨rfl, -, rfl⟩ | ⟨rfl, -, -, rfl⟩ | ⟨rfl, -, -, p, msg, -, -, rfl⟩ | ⟨-, hm, hchk, hc⟩
  · exact ⟨Step.of_true_upd s _ _ rfl, fun h => absurd h (by simp)⟩
  · exact ⟨Step.of_true_upd s _ _ rfl, fun h => absurd h (by simp)⟩
  · refine ⟨⟨HeapMarks.entered s b, rfl, rfl,
      [Event.BeginWrite, Event.ReadMarked b, Event.WriteMarked b, Event.Fatal msg],
      by simp, fun _ => ⟨rfl, rfl⟩, fun h => absurd h (by simp)⟩, fun h => absurd h (by simp)⟩
  · rcases SetNewlyIndelibleBlock.commit_spec env _ b r t hc with
      ⟨rfl, hrun⟩ | ⟨rfl, t0, hrun, rfl⟩
    · obtain ⟨f, es, rfl, hes, -, -⟩ := hrun
      refine ⟨⟨HeapMarks.entered s b, rfl, rfl,
        [Event.BeginWrite, Event.ReadMarked b, Event.WriteMarked b] ++ es,
        by simp, fun _ => ⟨?_, rfl⟩, fun h => absurd h (by simp)⟩, fun h => absurd h (by simp)⟩
      rw [promoted_append, promoted_of_store es hes]
      rfl
    · have hfat := hrun.fatal_of_false
      obtain ⟨f, es, rfl, hes, -, -⟩ := hrun
      refine ⟨⟨HeapMarks.entered s b, rfl, rfl,
        [Event.BeginWrite, Event.ReadMarked b, Event.WriteMarked b] ++ es ++
          [Event.SetNewIndelible b],
        by simp, fun h => absurd h (by simp), fun _ => ⟨b, ?_, rfl, ?_, hm, by simp, ?_⟩⟩,
        fun _ => rfl⟩
      · rw [promoted_append, promoted_append, promoted_of_store es hes]
        rfl
      · simpa using hfat
      · rcases hchk with ⟨hnone, hlev⟩ | ⟨p, hp, hlink⟩
        · rw [hnone]
          refine ⟨List.chain'_singleton _, ?_⟩
          intro c hcb
          simp only [List.head?_cons, Option.some.injEq] at hcb
          rw [← hcb]
          exact hlev
        · rw [hp]
          exact List.Chain.cons hlink List.Chain.nil

/-- C2 (amended), at a concrete input: the claim as stated fails where P.level + 1
wraps.  With the last indelible block P at level 2^64 - 1, the call on the block B at
level 0 that names P as prior returns success and makes B the pending block, while
B.level = P.level + 1 does not hold. -/
theorem C2_counterexample_level_wrap :
    sampleWrapState.pendingOrLast = some 0 ∧
    (SetNewlyIndelibleBlock envOk sampleWrapState 1).toOption.map
      (fun r => (r.1, r.2.m_new_indelible_block)) = some (false, some 1) ∧
    ¬ ((sampleWrapState.heap 1).wire.level = (sampleWrapState.heap 0).wire.level + 1 ∧
        (sampleWrapState.heap 1).wire.prior_oid = (sampleWrapState.heap 0).aux.oid) := by
  refine ⟨rfl, by decide, ?_⟩
  decide

theorem DoConfirmOne.walk_frame :
    ∀ (fuel : Nat) (s : State) (block n : Nat) (t : State) (res : Option (Nat × Ptr)),
      DoConfirmOne.walk fuel s block n = .ok (t, res) →
      ∃ f es, t = s.upd f es ∧ promoted es = [] ∧
        (res = none → f = true) ∧ (res ≠ none → f = s.m_have_fatal_error) := by
  intro fuel
  induction fuel with
  | zero =>
    intro s block n t res h
    simp [DoConfirmOne.walk] at h
  | succ fuel ih =>
    intro s block n t res h
    unfold DoConfirmOne.walk at h
    cases hp : (s.heap block).prior with
    | none =>
      simp only [hp, Except.ok.injEq, Prod.mk.injEq] at h
      obtain ⟨rfl, rfl⟩ := h
      exact ⟨s.m_have_fatal_error, [], (State.upd_self s).symm, rfl, by simp, by simp⟩
    | some prior_block =>
      simp only [hp] at h
      by_cases hl : (s.heap prior_block).wire.level ≠
          ((s.heap block).wire.level + UINT64_SIZE - 1) % UINT64_SIZE
      · rw [if_pos hl] at h
        simp only [Except.ok.injEq, Prod.mk.injEq] at h
        obtain ⟨rfl, rfl⟩ := h
        exact ⟨true, [Event.Fatal FatalMsg.DoConfirmOne_level_sequence], rfl, rfl, by simp,
          by simp⟩
      · rw [if_neg hl] at h
        cases hm : (s.heap prior_block).aux.marked_for_indelible with
        | true =>
          rw [if_pos (by simpa [State.log] using hm)] at h
          simp only [Except.ok.injEq, Prod.mk.injEq] at h
          obtain ⟨rfl, rfl⟩ := h
          exact ⟨s.m_have_fatal_error, [Event.ReadMarked prior_block], rfl, rfl, by simp,
            by simp⟩
        | false =>
          rw [if_neg (by simp [State.log, hm])] at h
          obtain ⟨f, es, rfl, hes, h1, h2⟩ := ih _ _ _ _ _ h
          refine ⟨f, [Event.ReadMarked prior_block] ++ es, by simp [State.log_eq_upd], ?_,
            h1, ?_⟩
          · rw [promoted_append, hes]
            rfl
          · intro hr
            simpa [State.log_eq_upd] using h2 hr

theorem DoConfirmOne_step (env : Env) (fuel : Nat) (s : State) (newobj : Ptr) (r : Bool)
    (t : State) (h : DoConfirmOne env fuel s newobj = .ok (r, t)) : Step s r t := by
  unfold DoConfirmOne at h
  cases hm : (s.heap newobj).aux.marked_for_indelible with
  | true =>
    rw [if_pos (by simpa [State.log] using hm)] at h
    simp only [Except.ok.injEq, Prod.mk.injEq] at h
    obtain ⟨rfl, rfl⟩ := h
    exact Step.of_true_upd s _ [Event.ReadMarked newobj] rfl
  | false =>
    rw [if_neg (by simp [State.log, hm])] at h
    cases hw : DoConfirmOne.walk fuel (s.log [Event.ReadMarked newobj]) newobj 1 with
    | error f => simp [hw] at h
    | ok res =>
      obtain ⟨s1, wres⟩ := res
      obtain ⟨f, es, rfl, hes, h1, h2⟩ := DoConfirmOne.walk_frame _ _ _ _ _ _ hw
      have hprom : promoted ([Event.ReadMarked newobj] ++ es) = [] := by
        rw [promoted_append, hes]
        rfl
      simp only [hw] at h
      cases wres with
      | none =>
        simp only [Except.ok.injEq, Prod.mk.injEq] at h
        obtain ⟨rfl, rfl⟩ := h
        rw [State.log_eq_upd, State.upd_upd]
        exact Step.of_true_upd s _ _ hprom
      | some pr =>
        obtain ⟨nconfsigs, lastobj⟩ := pr
        simp only at h
        have hf : f = s.m_have_fatal_error := by simpa [State.log_eq_upd] using h2 (by simp)
        split at h
        · simp only [Except.ok.injEq, Prod.mk.injEq] at h
          obtain ⟨rfl, rfl⟩ := h
          rw [State.log_eq_upd, State.upd_upd]
          exact Step.of_true_upd s _ _ hprom
        · have hstep := (SetNewlyIndelibleBlock_step env _ lastobj r t h).1
          rw [State.log_eq_upd, State.upd_upd] at hstep
          exact Step.of_upd f _ hprom (fun _ => hf) hstep

theorem ChainFrom.cons {heap : Ptr → Block} {start : Option Ptr} {b : Ptr} {ps : List Ptr}
    (h1 : ChainFrom heap start [b]) (h2 : ChainFrom heap (some b) ps) :
    ChainFrom heap start (b :: ps) := by
  cases start with
  | some p =>
    have hl : Linked heap p b := by
      cases h1 with
      | cons hl _ => exact hl
    exact List.Chain.cons hl h2
  | none =>
    refine ⟨?_, ?_⟩
    · exact h2
    · intro c hc
      exact h1.2 c (by simpa using hc)

theorem ChainFrom.nil (heap : Ptr → Block) (start : Option Ptr) : ChainFrom heap start [] := by
  cases start with
  | some p => exact List.Chain.nil
  | none => exact ⟨List.chain'_nil, by simp⟩

theorem DoConfirmationLoop.iterate_run (env : Env) (walkfuel : Nat) :
    ∀ (fuel : Nat) (s : State) (newobj : Ptr) (have_new fatal_return have_new2 : Bool)
      (t : State),
      s.m_have_fatal_error = false →
      DoConfirmationLoop.iterate env walkfuel fuel s newobj have_new
        = .ok (fatal_return, have_new2, t) →
      HeapMarks s.heap t.heap ∧
      t.m_last_indelible_block = s.m_last_indelible_block ∧
      t.m_last_indelible_level = s.m_last_indelible_level ∧
      fatal_return = t.m_have_fatal_error ∧
      ∃ es, t.trace = s.trace ++ es ∧ ChainFrom s.heap s.pendingOrLast (promoted es) ∧
        (promoted es = [] → t.m_new_indelible_block = s.m_new_indelible_block ∧
          have_new2 = have_new) ∧
        (promoted es ≠ [] → t.m_new_indelible_block = (promoted es).getLast? ∧
          have_new2 = true) ∧
        (∀ b ∈ promoted es, (s.heap b).aux.marked_for_indelible = false ∧
          (t.heap b).aux.marked_for_indelible = true) := by
  intro fuel
  induction fuel with
  | zero =>
    intro s newobj hn fr hn2 t _ h
    simp [DoConfirmationLoop.iterate] at h
  | succ fuel ih =>
    intro s newobj hn fr hn2 t hs h
    unfold DoConfirmationLoop.iterate at h
    cases hd : DoConfirmOne env walkfuel s newobj with
    | error f => simp [hd] at h
    | ok res =>
      obtain ⟨rc, s1⟩ := res
      have hstep := DoConfirmOne_step env walkfuel s newobj rc s1 hd
      obtain ⟨hh, hl, hv, es, htr, htrue, hfalse⟩ := hstep
      simp only [hd] at h
      cases rc with
      | true =>
        have hres : (t.m_have_fatal_error, hn, s1) = (fr, hn2, t) := by
          cases hfat : s1.m_have_fatal_error with
          | true =>
            rw [if_pos hfat] at h
            simp only [Except.ok.injEq, Prod.mk.injEq] at h
            obtain ⟨rfl, rfl, rfl⟩ := h
            rw [hfat]
          | false =>
            rw [if_neg (by simp [hfat])] at h
            simp only [if_true, Except.ok.injEq, Prod.mk.injEq] at h
            obtain ⟨rfl, rfl, rfl⟩ := h
            rw [hfat]
        simp only [Prod.mk.injEq] at hres
        obtain ⟨hx, rfl, rfl⟩ := hres
        obtain ⟨hp, hnew⟩ := htrue rfl
        refine ⟨hh, hl, hv, hx.symm, es, htr, ?_, fun _ => ⟨hnew, rfl⟩, ?_, ?_⟩
        · rw [hp]
          exact ChainFrom.nil _ _
        · intro hne
          exact absurd hp hne
        · intro b hb
          rw [hp] at hb
          simp at hb
      | false =>
        obtain ⟨b, hp, hnew, hf, hmb, hmt, hchain⟩ := hfalse rfl
        have hfat : s1.m_have_fatal_error = false := by rw [hf, hs]
        rw [if_neg (by simp [hfat])] at h
        simp only [Bool.false_eq_true, if_false] at h
        obtain ⟨hh2, hl2, hv2, hfr, es2, htr2, hc2, hnil2, hne2, hmk2⟩ :=
          ih s1 newobj true fr hn2 t hfat h
        have hpl : s1.pendingOrLast = some b := by
          simp [State.pendingOrLast, hnew]
        rw [hpl] at hc2
        refine ⟨HeapMarks.trans_marks hh hh2, hl2.trans hl, hv2.trans hv, hfr, es ++ es2,
          by rw [htr2, htr, List.append_assoc], ?_, ?_, ?_, ?_⟩
        · rw [promoted_append, hp]
          exact ChainFrom.cons hchain (ChainFrom.of_heapMarks hh _ _ hc2)
        · intro hnil
          rw [promoted_append, hp] at hnil
          simp at hnil
        · intro _
          rw [promoted_append, hp]
          by_cases hps : promoted es2 = []
          · obtain ⟨h1, h2⟩ := hnil2 hps
            rw [hps, h1, hnew, h2]
            exact ⟨rfl, rfl⟩
          · obtain ⟨h1, h2⟩ := hne2 hps
            refine ⟨?_, h2⟩
            rw [h1]
            obtain ⟨c, rest, hcr⟩ := List.exists_cons_of_ne_nil hps
            rw [hcr]
            simp [List.getLast?_cons_cons]
        · intro c hc
          rw [promoted_append, hp] at hc
          simp only [List.singleton_append, List.mem_cons] at hc
          rcases hc with rfl | hc
          · exact ⟨hmb, hh2.marked _ hmt⟩
          · obtain ⟨h1, h2⟩ := hmk2 c hc
            refine ⟨?_, h2⟩
            cases hx : (s.heap c).aux.marked_for_indelible with
            | false => rfl
            | true =>
              rw [hh.marked c hx] at h1
              exact absurd h1 (by simp)

theorem DoConfirmations_run (env : Env) (fuel : Nat) (s : State) (newobj : Ptr) (r : Bool)
    (t : State) (hs : s.m_have_fatal_error = false)
    (h : DoConfirmations env fuel s newobj = .ok (r, t)) :
    HeapMarks s.heap t.heap ∧
    ∃ es, t.trace = s.trace ++ es ∧ ChainFrom s.heap s.pendingOrLast (promoted es) ∧
      (∀ b ∈ promoted es, (s.heap b).aux.marked_for_indelible = false ∧
        (t.heap b).aux.marked_for_indelible = true) ∧
      ((r = false ∧ t.m_have_fatal_error = false ∧ promoted es ≠ [] ∧
          t.m_last_indelible_block = (promoted es).getLast? ∧
          (∀ b, t.m_last_indelible_block = some b →
            t.m_last_indelible_level = (t.heap b).wire.level) ∧
          t.m_new_indelible_block = none) ∨
        (r = true ∧ t.m_last_indelible_block = s.m_last_indelible_block ∧
          t.m_last_indelible_level = s.m_last_indelible_level ∧
          (t.m_have_fatal_error = true ∨
            (promoted es = [] ∧ t.m_new_indelible_block = s.m_new_indelible_block)))) := by
  unfold DoConfirmations at h
  rw [if_neg (by simp [hs])] at h
  unfold DoConfirmationLoop at h
  cases hi : DoConfirmationLoop.iterate env fuel fuel s newobj false with
  | error f => simp [hi] at h
  | ok res =>
    obtain ⟨fr, hn2, s1⟩ := res
    obtain ⟨hh, hl, hv, hfr, es, htr, hchain, hnil, hne, hmk⟩ :=
      DoConfirmationLoop.iterate_run env fuel fuel s newobj false fr hn2 s1 hs hi
    simp only [hi] at h
    cases fr with
    | true =>
      simp only [if_true, Except.ok.injEq, Prod.mk.injEq] at h
      obtain ⟨rfl, rfl⟩ := h
      refine ⟨hh, es ++ [Event.EndWrite false], by simp [State.log, htr], ?_, ?_, ?_⟩
      · simp only [promoted_append, promoted, List.append_nil]
        exact hchain
      · simp only [promoted_append, promoted, List.append_nil]
        exact hmk
      · exact Or.inr ⟨rfl, hl, hv, Or.inl hfr.symm⟩
    | false =>
      simp only [Bool.false_eq_true, if_false] at h
      cases hn2 with
      | false =>
        simp only [Bool.not_false, if_true, Except.ok.injEq, Prod.mk.injEq] at h
        obtain ⟨rfl, rfl⟩ := h
        have hp : promoted es = [] := by
          by_contra hc
          exact absurd (hne hc).2 (by simp)
        refine ⟨hh, es ++ [Event.EndWrite false], by simp [State.log, htr], ?_, ?_, ?_⟩
        · simp only [promoted_append, promoted, List.append_nil]
          exact hchain
        · simp only [promoted_append, promoted, List.append_nil]
          exact hmk
        · refine Or.inr ⟨rfl, hl, hv, Or.inr ⟨?_, (hnil hp).1⟩⟩
          simp only [promoted_append, promoted, List.append_nil]
          exact hp
      | true =>
        simp only [Bool.not_true, Bool.false_eq_true, if_false] at h
        have hp : promoted es ≠ [] := by
          intro hc
          exact absurd (hnil hc).2 (by simp)
        have hnew := (hne hp).1
        cases hnb : s1.m_new_indelible_block with
        | none => simp [hnb] at h
        | some new_block =>
          simp only [hnb] at h
          by_cases hrc : env.rc s1.trace (Event.EndWrite true) ≠ 0
          · rw [if_pos hrc] at h
            simp only [Except.ok.injEq, Prod.mk.injEq] at h
            obtain ⟨rfl, rfl⟩ := h
            refine ⟨hh, es ++ [Event.EndWrite true, Event.Fatal FatalMsg.DoConfirmations_commit,
              Event.EndWrite false], by simp [State.log, SetFatalError, htr], ?_, ?_, ?_⟩
            · simp only [promoted_append, promoted, List.append_nil]
              exact hchain
            · simp only [promoted_append, promoted, List.append_nil]
              exact hmk
            · exact Or.inr ⟨rfl, hl, hv, Or.inl rfl⟩
          · rw [if_neg hrc] at h
            simp only [Except.ok.injEq, Prod.mk.injEq] at h
            obtain ⟨rfl, rfl⟩ := h
            refine ⟨hh, es ++ [Event.EndWrite true, Event.SetLastIndelible new_block,
              Event.ReleaseMutex,
              Event.StartCheckpoint (DoConfirmationLoop.fullcheckpoint env s newobj),
              Event.EndWrite false], by simp [State.log, htr], ?_, ?_, ?_⟩
            · simp only [promoted_append, promoted, List.append_nil]
              exact hchain
            · simp only [promoted_append, promoted, List.append_nil]
              exact hmk
            · refine Or.inl ⟨rfl, ?_, ?_, ?_, ?_, rfl⟩
              · exact hfr.symm
              · simp only [promoted_append, promoted, List.append_nil]
                exact hp
              · simp only [promoted_append, promoted, List.append_nil]
                rw [← hnew, hnb]
                rfl
              · intro b hb
                have hb2 : some new_block = some b := hb
                simp only [Option.some.injEq] at hb2
                subst hb2
                rfl

/-- C2 (amended): if `SetNewlyIndelibleBlock(B)` returns success while a pending-or-last
indelible block P exists, then B.level = P.level + 1 computed in `uint64_t`
(modulo 2^64, so B.level = P.level + 1 whenever P.level + 1 does not wrap) and
B.prior_oid = P.oid, and afterwards the pending indelible block is B; hence in every
run of `DoConfirmations` the blocks promoted, in order, continue the chain from the
pending-or-last block: each has the level of its predecessor plus one modulo 2^64 and
names its predecessor's oid as prior oid. -/
theorem C2_chain_monotonicity (env : Env) :
    (∀ (s : State) (b p : Ptr) (t : State),
      s.pendingOrLast = some p →
      SetNewlyIndelibleBlock env s b = .ok (false, t) →
      (s.heap b).wire.level = ((s.heap p).wire.level + 1) % UINT64_SIZE ∧
      ((s.heap p).wire.level + 1 < UINT64_SIZE →
        (s.heap b).wire.level = (s.heap p).wire.level + 1) ∧
      (s.heap b).wire.prior_oid = (s.heap p).aux.oid ∧
      t.m_new_indelible_block = some b ∧ t.pendingOrLast = some b) ∧
    (∀ (fuel : Nat) (s : State) (newobj : Ptr) (r : Bool) (t : State),
      DoConfirmations env fuel s newobj = .ok (r, t) →
      ∃ es, t.trace = s.trace ++ es ∧ ChainFrom s.heap s.pendingOrLast (promoted es)) := by
  constructor
  · intro s b p t hp h
    obtain ⟨⟨-, -, -, es, -, -, hfalse⟩, hnew⟩ := SetNewlyIndelibleBlock_step env s b false t h
    obtain ⟨c, hpc, hnewc, -, -, -, hchain⟩ := hfalse rfl
    have hcb : c = b := by
      have := hnew rfl
      rw [hnewc] at this
      simpa using this
    subst hcb
    rw [hp] at hchain
    have hl : Linked s.heap p c := by
      cases hchain with
      | cons hl _ => exact hl
    refine ⟨hl.1, ?_, hl.2, hnewc, by simp [State.pendingOrLast, hnewc]⟩
    intro hlt
    rw [hl.1, Nat.mod_eq_of_lt hlt]
  · intro fuel s newobj r t h
    cases hs : s.m_have_fatal_error with
    | true =>
      unfold DoConfirmations at h
      rw [if_pos hs] at h
      simp only [Except.ok.injEq, Prod.mk.injEq] at h
      obtain ⟨rfl, rfl⟩ := h
      exact ⟨[], by simp, ChainFrom.nil _ _⟩
    | false =>
      obtain ⟨-, es, htr, hchain, -⟩ := DoConfirmations_run env fuel s newobj r t hs h
      exact ⟨es, htr, hchain⟩

/-! ## Termination: a finite chain and enough fuel give a result -/

theorem IndexTxs.records_total (env : Env) (l : List WireTx) :
    ∀ (s : State), env.TagsOk l → ∃ res, IndexTxs.records env s l = .ok res := by
  induction l with
  | nil => intro s _; exact ⟨_, rfl⟩
  | cons w rest ih =>
    intro s htag
    have hrest : env.TagsOk rest := fun v hv => htag v (List.mem_cons_of_mem _ hv)
    unfold IndexTxs.records
    cases hp : env.tx_from_wire w with
    | none => exact ⟨_, rfl⟩
    | some parsed =>
      have hc : ∃ txbuf, CheckCreatePseudoSerialnum env parsed w = .ok txbuf := by
        unfold CheckCreatePseudoSerialnum
        by_cases hn : parsed.nin ≠ 0
        · exact ⟨parsed, by rw [if_pos hn]⟩
        · have ht : w.tag = env.CC_TAG_TX_WIRE ∨ w.tag = env.CC_TAG_TX_BLOCK := by
            rcases htag w (List.mem_cons_self _ _) parsed hp with h | h
            · exact absurd h hn
            · exact h
          exact ⟨_, by rw [if_neg hn, if_pos ht]⟩
      obtain ⟨txbuf, hc⟩ := hc
      simp only [hc]
      split
      · exact ⟨_, rfl⟩
      · split
        · exact ⟨_, rfl⟩
        · exact ih _ hrest

theorem SetNewlyIndelibleBlock.commit_total (env : Env) (s : State) (b : Ptr)
    (htag : env.TagsOk (s.heap b).payload) :
    ∃ res, SetNewlyIndelibleBlock.commit env s b = .ok res := by
  obtain ⟨res, hres⟩ := IndexTxs.records_total env _ s htag
  obtain ⟨rc1, s1⟩ := res
  unfold SetNewlyIndelibleBlock.commit IndexTxs
  simp only [hres]
  split
  · exact ⟨_, rfl⟩
  · split
    · exact ⟨_, rfl⟩
    · split
      · exact ⟨_, rfl⟩
      · split
        · exact ⟨_, rfl⟩
        · exact ⟨_, rfl⟩

theorem SetNewlyIndelibleBlock_total (env : Env) (s : State) (b : Ptr)
    (hlevel : s.pendingOrLast = none → (s.heap b).wire.level = 0)
    (htag : env.TagsOk (s.heap b).payload) :
    ∃ res, SetNewlyIndelibleBlock env s b = .ok res := by
  have hc := SetNewlyIndelibleBlock.commit_total env (s.entered b) b (by simpa using htag)
  unfold SetNewlyIndelibleBlock
  by_cases h0 : env.rc s.trace Event.BeginWrite < 0
  · rw [if_pos h0]
    exact ⟨_, rfl⟩
  · rw [if_neg h0]
    by_cases hm : (((s.log [Event.BeginWrite]).log [Event.ReadMarked b]).heap b
        ).aux.marked_for_indelible = true
    · rw [if_pos hm]
      exact ⟨_, rfl⟩
    · rw [if_neg hm]
      change ∃ res, (match (s.entered b).pendingOrLast with
        | none => _
        | some lp => _) = Except.ok res
      rw [State.entered_pendingOrLast]
      cases hp : s.pendingOrLast with
      | none =>
        simp only
        rw [if_neg (by simp [hlevel hp])]
        exact hc
      | some lp =>
        simp only
        split
        · exact ⟨_, rfl⟩
        · exact hc

theorem DoConfirmOne.walk_total :
    ∀ (d fuel : Nat) (s : State) (block n : Nat),
      ancestor s.heap d block = none → d ≤ fuel →
      ∃ t res, DoConfirmOne.walk fuel s block n = .ok (t, res) ∧
        ∀ m l, res = some (m, l) → ∃ k, k < d ∧ ancestor s.heap k block = some l := by
  intro d
  induction d with
  | zero =>
    intro fuel s block n ha _
    simp [ancestor] at ha
  | succ d ih =>
    intro fuel s block n ha hfuel
    obtain ⟨fuel, rfl⟩ : ∃ f, fuel = f + 1 := ⟨fuel - 1, by omega⟩
    unfold DoConfirmOne.walk
    cases hp : (s.heap block).prior with
    | none =>
      refine ⟨_, _, rfl, ?_⟩
      intro m l hres
      simp only [Option.some.injEq, Prod.mk.injEq] at hres
      exact ⟨0, by omega, by rw [← hres.2]; rfl⟩
    | some q =>
      have haq : ancestor s.heap d q = none := by
        simpa [ancestor, hp] using ha
      simp only
      split
      · exact ⟨_, _, rfl, fun m l hres => by simp at hres⟩
      · split
        · refine ⟨_, _, rfl, ?_⟩
          intro m l hres
          simp only [Option.some.injEq, Prod.mk.injEq] at hres
          exact ⟨0, by omega, by rw [← hres.2]; rfl⟩
        · obtain ⟨t, res, hw, hres⟩ := ih fuel (s.log [Event.ReadMarked q]) q
            ((n + 1) % UINT32_SIZE) haq (by omega)
          refine ⟨t, res, hw, ?_⟩
          intro m l hml
          obtain ⟨k, hk, hak⟩ := hres m l hml
          refine ⟨k + 1, by omega, ?_⟩
          simp only [ancestor, hp]
          exact hak

theorem ancestor_heapMarks {h k : Ptr → Block} (a : HeapMarks h k) :
    ∀ (n : Nat) (p : Ptr), ancestor k n p = ancestor h n p := by
  intro n
  induction n with
  | zero => intro p; rfl
  | succ n ih =>
    intro p
    simp only [ancestor, a.prior p]
    cases (h p).prior with
    | none => rfl
    | some q => exact ih q

theorem countP_le_of_imp {α : Type} (p q : α → Bool) (l : List α)
    (h : ∀ x ∈ l, q x = true → p x = true) : l.countP q ≤ l.countP p := by
  induction l with
  | nil => simp
  | cons a l ih =>
    have ih2 := ih (fun x hx => h x (List.mem_cons_of_mem _ hx))
    have ha := h a (List.mem_cons_self _ _)
    simp only [List.countP_cons]
    cases hq : q a with
    | false =>
      simp only [Bool.false_eq_true, if_false]
      split <;> omega
    | true =>
      simp only [ha hq, if_true]
      omega

theorem countP_lt_of_imp {α : Type} (p q : α → Bool) (l : List α)
    (h : ∀ x ∈ l, q x = true → p x = true) (a : α) (ha : a ∈ l) (hpa : p a = true)
    (hqa : q a = false) : l.countP q < l.countP p := by
  induction l with
  | nil => simp at ha
  | cons b l ih =>
    have hrest : ∀ x ∈ l, q x = true → p x = true :=
      fun x hx => h x (List.mem_cons_of_mem _ hx)
    have hle := countP_le_of_imp p q l hrest
    simp only [List.countP_cons]
    rcases List.mem_cons.mp ha with rfl | hmem
    · simp only [hpa, hqa, if_true, Bool.false_eq_true, if_false]
      omega
    · have ih2 := ih hrest hmem
      have hb := h b (List.mem_cons_self _ _)
      cases hq : q b with
      | false =>
        simp only [Bool.false_eq_true, if_false]
        split <;> omega
      | true =>
        simp only [hb hq, if_true]
        omega

theorem unmarkedAt_heapMarks {h k : Ptr → Block} (a : HeapMarks h k) (tip : Ptr) (n : Nat)
    (hk : unmarkedAt k tip n = true) : unmarkedAt h tip n = true := by
  unfold unmarkedAt at hk ⊢
  rw [ancestor_heapMarks a] at hk
  cases hb : ancestor h n tip with
  | none => simp [hb] at hk
  | some b =>
    simp only [hb] at hk ⊢
    cases hm : (h b).aux.marked_for_indelible with
    | false => rfl
    | true =>
      rw [a.marked b hm] at hk
      exact absurd hk (by simp)

theorem unmarkedCount_le (heap : Ptr → Block) (tip : Ptr) (d : Nat) :
    unmarkedCount heap tip d ≤ d := by
  unfold unmarkedCount
  calc (List.range d).countP (unmarkedAt heap tip) ≤ (List.range d).length :=
        List.countP_le_length _
    _ = d := List.length_range d

theorem unmarkedCount_lt {h k : Ptr → Block} (a : HeapMarks h k) (tip : Ptr) (d n : Nat)
    (b : Ptr) (hn : n < d) (hb : ancestor h n tip = some b)
    (hm : (h b).aux.marked_for_indelible = false)
    (hm2 : (k b).aux.marked_for_indelible = true) :
    unmarkedCount k tip d < unmarkedCount h tip d := by
  unfold unmarkedCount
  refine countP_lt_of_imp _ _ _ (fun x _ hx => unmarkedAt_heapMarks a tip x hx) n
    (List.mem_range.mpr hn) ?_ ?_
  · simp [unmarkedAt, hb, hm]
  · simp [unmarkedAt, ancestor_heapMarks a, hb, hm2]

theorem DoConfirmOne_total (env : Env) (fuel d : Nat) (s : State) (newobj : Ptr)
    (ha : ancestor s.heap d newobj = none) (hd : d ≤ fuel)
    (hassert : AssertionsHold env s newobj) :
    ∃ r t, DoConfirmOne env fuel s newobj = .ok (r, t) ∧
      (r = false → ∃ k b, k < d ∧ ancestor s.heap k newobj = some b ∧
        (s.heap b).aux.marked_for_indelible = false ∧
        (t.heap b).aux.marked_for_indelible = true ∧ t.m_new_indelible_block = some b) := by
  unfold DoConfirmOne
  by_cases hm : ((s.log [Event.ReadMarked newobj]).heap newobj).aux.marked_for_indelible = true
  · rw [if_pos hm]
    exact ⟨true, _, rfl, fun h => absurd h (by simp)⟩
  · rw [if_neg hm]
    obtain ⟨t1, res, hw, hres⟩ := DoConfirmOne.walk_total d fuel
      (s.log [Event.ReadMarked newobj]) newobj 1 ha hd
    obtain ⟨f, es, rfl, -, -, -⟩ := DoConfirmOne.walk_frame _ _ _ _ _ _ hw
    simp only [hw]
    cases res with
    | none => exact ⟨true, _, rfl, fun h => absurd h (by simp)⟩
    | some pr =>
      obtain ⟨n, l⟩ := pr
      obtain ⟨k, hk, hak⟩ := hres n l rfl
      have hak2 : ancestor s.heap k newobj = some l := hak
      simp only
      split
      · exact ⟨true, _, rfl, fun h => absurd h (by simp)⟩
      · obtain ⟨⟨r, t⟩, hsn⟩ := SetNewlyIndelibleBlock_total env
          ((s.log [Event.ReadMarked newobj]).upd f es) l
          (fun hp => hassert.1 hp k l hak2) (hassert.2 k l hak2)
        refine ⟨r, t, hsn, ?_⟩
        intro hr
        subst hr
        obtain ⟨⟨-, -, -, fs, -, -, hfalse⟩, hnew⟩ :=
          SetNewlyIndelibleBlock_step env _ l false t hsn
        obtain ⟨b, -, hnb, -, hmb, hmt, -⟩ := hfalse rfl
        have hbl : b = l := by
          have := hnew rfl
          rw [hnb] at this
          simpa using this
        subst hbl
        exact ⟨k, b, hk, hak2, hmb, hmt, hnb⟩

theorem AssertionsHold.step {env : Env} {s t : State} {tip : Ptr}
    (h : AssertionsHold env s tip) (hh : HeapMarks s.heap t.heap)
    (hp : t.pendingOrLast = none → s.pendingOrLast = none) : AssertionsHold env t tip := by
  refine ⟨?_, ?_⟩
  · intro hnone k b hk
    rw [ancestor_heapMarks hh] at hk
    rw [hh.wire b]
    exact h.1 (hp hnone) k b hk
  · intro k b hk
    rw [ancestor_heapMarks hh] at hk
    have := h.2 k b hk
    rcases hh b with hb | hb <;> simpa [hb] using this

theorem DoConfirmationLoop.iterate_total (env : Env) (walkfuel d : Nat) (newobj : Ptr)
    (hd : d ≤ walkfuel) :
    ∀ (m fuel : Nat) (s : State) (have_new : Bool),
      unmarkedCount s.heap newobj d ≤ m → m + 1 ≤ fuel →
      ancestor s.heap d newobj = none → AssertionsHold env s newobj →
      ∃ res, DoConfirmationLoop.iterate env walkfuel fuel s newobj have_new = .ok res := by
  intro m
  induction m with
  | zero =>
    intro fuel s hn hcount hfuel ha hassert
    obtain ⟨fuel, rfl⟩ : ∃ f, fuel = f + 1 := ⟨fuel - 1, by omega⟩
    obtain ⟨r, t, hone, hfalse⟩ := DoConfirmOne_total env walkfuel d s newobj ha hd hassert
    have hstep := DoConfirmOne_step env walkfuel s newobj r t hone
    unfold DoConfirmationLoop.iterate
    simp only [hone]
    split
    · exact ⟨_, rfl⟩
    · cases r with
      | true => exact ⟨_, rfl⟩
      | false =>
        obtain ⟨k, b, hk, hak, hmb, hmt, -⟩ := hfalse rfl
        have hlt := unmarkedCount_lt hstep.1 newobj d k b hk hak hmb hmt
        omega
  | succ m ih =>
    intro fuel s hn hcount hfuel ha hassert
    obtain ⟨fuel, rfl⟩ : ∃ f, fuel = f + 1 := ⟨fuel - 1, by omega⟩
    obtain ⟨r, t, hone, hfalse⟩ := DoConfirmOne_total env walkfuel d s newobj ha hd hassert
    have hstep := DoConfirmOne_step env walkfuel s newobj r t hone
    unfold DoConfirmationLoop.iterate
    simp only [hone]
    split
    · exact ⟨_, rfl⟩
    · cases r with
      | true => exact ⟨_, rfl⟩
      | false =>
        obtain ⟨k, b, hk, hak, hmb, hmt, hnew⟩ := hfalse rfl
        have hlt := unmarkedCount_lt hstep.1 newobj d k b hk hak hmb hmt
        simp only [Bool.false_eq_true, if_false]
        refine ih fuel t true (by omega) (by omega) ?_ ?_
        · rw [ancestor_heapMarks hstep.1]
          exact ha
        · refine hassert.step hstep.1 ?_
          intro hnone
          simp [State.pendingOrLast, hnew] at hnone

theorem DoConfirmations_total (env : Env) (fuel d : Nat) (s : State) (newobj : Ptr)
    (ha : ancestor s.heap d newobj = none) (hd : d + 1 ≤ fuel)
    (hassert : AssertionsHold env s newobj) :
    ∃ r t, DoConfirmations env fuel s newobj = .ok (r, t) := by
  unfold DoConfirmations
  cases hs : s.m_have_fatal_error with
  | true => exact ⟨_, _, rfl⟩
  | false =>
    simp only [Bool.false_eq_true, if_false]
    obtain ⟨⟨fr, hn2, s1⟩, hi⟩ := DoConfirmationLoop.iterate_total env fuel d newobj
      (by omega) d fuel s false (unmarkedCount_le _ _ _) hd ha hassert
    obtain ⟨-, -, -, -, es, -, -, hnil, hne, -⟩ :=
      DoConfirmationLoop.iterate_run env fuel fuel s newobj false fr hn2 s1 hs hi
    unfold DoConfirmationLoop
    simp only [hi]
    cases fr with
    | true => exact ⟨_, _, rfl⟩
    | false =>
      cases hn2 with
      | false => exact ⟨_, _, rfl⟩
      | true =>
        have hp : promoted es ≠ [] := by
          intro hc
          exact absurd (hnil hc).2 (by simp)
        have hnew := (hne hp).1
        obtain ⟨c, rest, hcr⟩ := List.exists_cons_of_ne_nil hp
        cases hnb : s1.m_new_indelible_block with
        | none =>
          rw [hnb, hcr] at hnew
          cases rest <;> simp [List.getLast?] at hnew
        | some nb =>
          simp only [Bool.false_eq_true, if_false, Bool.not_true]
          by_cases hrc : env.rc s1.trace (Event.EndWrite true) ≠ 0
          · rw [if_pos hrc]
            exact ⟨_, _, rfl⟩
          · rw [if_neg hrc]
            exact ⟨_, _, rfl⟩

/-! ## The walk of `DoConfirmOne` -/

theorem State.log_nil (s : State) : s.log [] = s := by
  cases s
  simp [State.log]

theorem State.log_log (s : State) (es fs : List Event) :
    (s.log es).log fs = s.log (es ++ fs) := by
  simp [State.log, List.append_assoc]

theorem DoConfirmOne.walk_path :
    ∀ (below : List Ptr) (fuel : Nat) (s : State) (block n0 : Nat) (cand : Ptr)
      (stop : Option Ptr),
      WalkPath s.heap block below cand stop → below.length < fuel →
      n0 + below.length < UINT32_SIZE →
      DoConfirmOne.walk fuel s block n0
        = .ok (s.log ((below ++ stop.toList).map Event.ReadMarked),
            some (n0 + below.length, cand)) := by
  intro below
  induction below with
  | nil =>
    intro fuel s block n0 cand stop hpath hfuel _
    obtain ⟨fuel, rfl⟩ : ∃ f, fuel = f + 1 := ⟨fuel - 1, by simp at hfuel; omega⟩
    unfold DoConfirmOne.walk
    cases stop with
    | none =>
      obtain ⟨rfl, hprior⟩ := hpath
      simp [hprior, State.log_nil]
    | some q =>
      obtain ⟨rfl, hprior, hlevel, hmarked⟩ := hpath
      have hl : ¬ (s.heap q).wire.level ≠
          ((s.heap cand).wire.level + UINT64_SIZE - 1) % UINT64_SIZE := by
        simpa [PriorLevel] using hlevel
      simp only [hprior]
      rw [if_neg hl, if_pos (by simpa [State.log] using hmarked)]
      simp
  | cons q rest ih =>
    intro fuel s block n0 cand stop hpath hfuel hn
    obtain ⟨fuel, rfl⟩ : ∃ f, fuel = f + 1 := ⟨fuel - 1, by omega⟩
    obtain ⟨hprior, hlevel, hmarked, hrest⟩ := hpath
    have hl : ¬ (s.heap q).wire.level ≠
        ((s.heap block).wire.level + UINT64_SIZE - 1) % UINT64_SIZE := by
      simpa [PriorLevel] using hlevel
    simp only [List.length_cons] at hfuel hn
    unfold DoConfirmOne.walk
    simp only [hprior]
    rw [if_neg hl, if_neg (by simp [State.log, hmarked])]
    have hmod : (n0 + 1) % UINT32_SIZE = n0 + 1 := Nat.mod_eq_of_lt (by omega)
    have hrec := ih fuel (s.log [Event.ReadMarked q]) q (n0 + 1) cand stop hrest (by omega)
      (by omega)
    rw [hmod, hrec, State.log_log]
    have hcount : n0 + 1 + rest.length = n0 + (rest.length + 1) := by omega
    rw [hcount]
    rfl

theorem SetNewlyIndelibleBlock_trace_ne (env : Env) (s : State) (b : Ptr) (r : Bool)
    (t : State) (h : SetNewlyIndelibleBlock env s b = .ok (r, t)) : t ≠ s := by
  intro heq
  obtain ⟨-, -, -, es, htr, htrue, hfalse⟩ := (SetNewlyIndelibleBlock_step env s b r t h).1
  rcases SetNewlyIndelibleBlock_spec env s b r t h with
    ⟨-, -, rfl⟩ | ⟨-, -, -, rfl⟩ | ⟨-, -, -, p, msg, -, -, rfl⟩ | ⟨-, -, -, hc⟩
  · have := congrArg State.trace heq
    simp at this
  · have := congrArg State.trace heq
    simp at this
  · have := congrArg State.trace heq
    simp at this
  · rcases SetNewlyIndelibleBlock.commit_spec env _ b r t hc with
      ⟨-, hrun⟩ | ⟨-, t0, hrun, rfl⟩
    · obtain ⟨f, fs, rfl, -⟩ := hrun
      have := congrArg State.trace heq
      simp at this
    · obtain ⟨f, fs, rfl, -⟩ := hrun
      have := congrArg State.trace heq
      simp at this

theorem DoConfirmOne_of_path (env : Env) (fuel : Nat) (s : State) (tip : Ptr)
    (below : List Ptr) (cand : Ptr) (stop : Option Ptr)
    (htip : (s.heap tip).aux.marked_for_indelible = false)
    (hpath : WalkPath s.heap tip below cand stop)
    (hlen : below.length + 1 < UINT32_SIZE)
    (hfuel : below.length < fuel) :
    (s.m_last_indelible_block.isSome = true ∧
        belowThreshold s.heap tip cand (below.length + 1) →
      DoConfirmOne env fuel s tip = .ok (true, s.log (walkReads tip below stop))) ∧
    (¬ (s.m_last_indelible_block.isSome = true ∧
        belowThreshold s.heap tip cand (below.length + 1)) →
      DoConfirmOne env fuel s tip
        = SetNewlyIndelibleBlock env (s.log (walkReads tip below stop)) cand) := by
  have hwalk := DoConfirmOne.walk_path below fuel (s.log [Event.ReadMarked tip]) tip 1 cand
    stop hpath hfuel (by omega)
  constructor
  · intro hb
    unfold DoConfirmOne
    rw [if_neg (by simp [State.log, htip])]
    simp only [hwalk, State.log_log]
    rw [if_pos (by
      refine ⟨hb.1, ?_⟩
      rw [Nat.add_comm 1 below.length]
      exact hb.2)]
    rfl
  · intro hb
    unfold DoConfirmOne
    rw [if_neg (by simp [State.log, htip])]
    simp only [hwalk, State.log_log]
    rw [if_neg (by
      rintro ⟨hc1, hc⟩
      rw [Nat.add_comm 1 below.length] at hc
      exact hb ⟨hc1, hc⟩)]
    rfl

/-- C1: in a call of `DoConfirmOne` in which a last indelible block exists, the tip is
not marked and every walked prior has the level of its successor minus one, let
`cand` be the deepest block reached from the tip through unmarked priors and n the
number of blocks from the tip down to `cand` (fewer than 2^32, and within the fuel).
Then the call returns "no change" with no other effect than its reads of the marks,
so without calling `SetNewlyIndelibleBlock`, if and only if n < nseqconfsigs or
(cand.skip > 0 and n < nskipconfsigs), with the thresholds of the aux of the tip;
otherwise the call is `SetNewlyIndelibleBlock` on exactly `cand`. -/
theorem C1_DoConfirmOne_threshold (env : Env) (fuel : Nat) (s : State) (tip : Ptr)
    (below : List Ptr) (cand : Ptr) (stop : Option Ptr)
    (hlast : s.m_last_indelible_block.isSome = true)
    (htip : (s.heap tip).aux.marked_for_indelible = false)
    (hpath : WalkPath s.heap tip below cand stop)
    (hlen : below.length + 1 < UINT32_SIZE)
    (hfuel : below.length < fuel) :
    (DoConfirmOne env fuel s tip = .ok (true, s.log (walkReads tip below stop)) ↔
      belowThreshold s.heap tip cand (below.length + 1)) ∧
    (¬ belowThreshold s.heap tip cand (below.length + 1) →
      DoConfirmOne env fuel s tip
        = SetNewlyIndelibleBlock env (s.log (walkReads tip below stop)) cand) := by
  obtain ⟨hyes, hno⟩ := DoConfirmOne_of_path env fuel s tip below cand stop htip hpath hlen
    hfuel
  refine ⟨⟨?_, fun hb => hyes ⟨hlast, hb⟩⟩, fun hb => hno (fun hc => hb hc.2)⟩
  intro h
  by_contra hb
  rw [hno (fun hc => hb hc.2)] at h
  exact SetNewlyIndelibleBlock_trace_ne env _ cand true _ h rfl

/-- C1, applied to the chain P <- L1 <- L2 with thresholds 2 and 3 and no skip on L1:
from the tip L2 the candidate is L1 with n = 2, the thresholds are met and the call
is `SetNewlyIndelibleBlock` on L1. -/
theorem C1_witness_two_blocks :
    (sampleChainState 0 1).m_last_indelible_block.isSome = true ∧
    ((sampleChainState 0 1).heap 2).aux.marked_for_indelible = false ∧
    WalkPath (sampleChainState 0 1).heap 2 [1] 1 (some 0) ∧
    [1].length + 1 < UINT32_SIZE ∧ [1].length < 5 ∧
    ¬ belowThreshold (sampleChainState 0 1).heap 2 1 ([1].length + 1) ∧
    DoConfirmOne envOk 5 (sampleChainState 0 1) 2
      = SetNewlyIndelibleBlock envOk ((sampleChainState 0 1).log (walkReads 2 [1] (some 0))) 1 := by
  have hpath : WalkPath (sampleChainState 0 1).heap 2 [1] 1 (some 0) :=
    ⟨rfl, by unfold PriorLevel; decide, rfl, rfl, rfl, by unfold PriorLevel; decide, rfl⟩
  have hb : ¬ belowThreshold (sampleChainState 0 1).heap 2 1 ([1].length + 1) := by
    unfold belowThreshold
    decide
  exact ⟨rfl, rfl, hpath, by decide, by decide, hb,
    (C1_DoConfirmOne_threshold envOk 5 (sampleChainState 0 1) 2 [1] 1 (some 0) rfl rfl hpath
      (by decide) (by decide)).2 hb⟩

/-- C2, applied to the chain P <- L1 <- L2: promoting L1 above the last indelible block P
makes L1 the pending block, and L1.level = P.level + 1. -/
theorem C2_witness_L1 :
    (sampleChainState 0 0).pendingOrLast = some 0 ∧
    ∃ t, SetNewlyIndelibleBlock envOk (sampleChainState 0 0) 1 = .ok (false, t) ∧
      ((sampleChainState 0 0).heap 1).wire.level
        = ((sampleChainState 0 0).heap 0).wire.level + 1 ∧
      t.m_new_indelible_block = some 1 := by
  obtain ⟨t, ht⟩ : ∃ t, SetNewlyIndelibleBlock envOk (sampleChainState 0 0) 1
      = .ok (false, t) := ⟨_, rfl⟩
  have h := (C2_chain_monotonicity envOk).1 (sampleChainState 0 0) 1 0 t rfl ht
  exact ⟨rfl, t, ht, h.2.1 (by decide), h.2.2.2.1⟩

/-- C8: when the fatal flag is set at entry, `DoConfirmations` returns true and the
state is the one at entry, for every tip: no mark, no pending or last indelible block
and no level is changed, and the trace is unchanged, so that no store call, not even
`BeginWrite` or `EndWrite`, is made. -/
theorem C8_DoConfirmations_fatal_gate (env : Env) (fuel : Nat) (s : State) (newobj : Ptr)
    (hfatal : s.m_have_fatal_error = true) :
    DoConfirmations env fuel s newobj = .ok (true, s) := by
  unfold DoConfirmations
  rw [if_pos hfatal]

/-- C8, applied to a state after a fatal error. -/
theorem C8_witness_fatal_state :
    sampleFatalState.m_have_fatal_error = true ∧
    DoConfirmations envOk 3 sampleFatalState 1 = .ok (true, sampleFatalState) :=
  ⟨rfl, C8_DoConfirmations_fatal_gate envOk 3 sampleFatalState 1 rfl⟩

/-! ## The serial-number check -/

theorem CheckSerialnum.pages_frame (env : Env) (walkfuel : Nat) (topblock : Option Ptr)
    (type : Int) (serial size : Nat) (li : Option Ptr) :
    ∀ (fuel : Nat) (s : State) (arr : List Ptr) (last : Ptr) (r : Int) (t : State),
      CheckSerialnum.pages env walkfuel topblock type serial size li fuel s arr last
        = .ok (r, t) →
      t.valid_objs = s.valid_objs ∧ (r = -1 ∨ r = 0 ∨ r = 2 ∨ r = 3) := by
  intro fuel
  induction fuel with
  | zero =>
    intro s arr last r t h
    simp [CheckSerialnum.pages] at h
  | succ fuel ih =>
    intro s arr last r t h
    unfold CheckSerialnum.pages at h
    simp only at h
    split at h
    · simp only [Except.ok.injEq, Prod.mk.injEq] at h
      obtain ⟨rfl, rfl⟩ := h
      exact ⟨rfl, Or.inl rfl⟩
    · split at h
      · simp at h
      · next code hcode =>
        simp only [Except.ok.injEq, Prod.mk.injEq] at h
        obtain ⟨rfl, rfl⟩ := h
        refine ⟨rfl, ?_⟩
        have hent : ∀ (l : List Ptr) (c : Int),
            CheckSerialnum.entries (s.log [Event.TempSerialnumSelect serial last
              (BLOCKARRAYSIZE env)]).heap walkfuel type topblock li l = .ok (some c) →
            c = 2 ∨ c = 3 := by
          intro l
          induction l with
          | nil => intro c hc; simp [CheckSerialnum.entries] at hc
          | cons e rest ihl =>
            intro c hc
            unfold CheckSerialnum.entries at hc
            split at hc
            · simp only [Except.ok.injEq, Option.some.injEq] at hc
              exact Or.inl hc.symm
            · split at hc
              · simp at hc
              · simp only [Except.ok.injEq, Option.some.injEq] at hc
                exact Or.inr hc.symm
              · exact ihl c hc
        rcases hent _ _ hcode with hc | hc
        · exact Or.inr (Or.inr (Or.inl hc))
        · exact Or.inr (Or.inr (Or.inr hc))
      · split at h
        · obtain ⟨h1, h2⟩ := ih _ _ _ _ _ h
          exact ⟨h1, h2⟩
        · simp only [Except.ok.injEq, Prod.mk.injEq] at h
          obtain ⟨rfl, rfl⟩ := h
          exact ⟨rfl, Or.inr (Or.inl rfl)⟩

/-- C10: when the persistent lookup `SerialnumCheck` reports a hit, `CheckSerialnum`
returns 4 for every fuel, temp index, topblock and type, its only effects being the
lookup and, when a transaction object is given, its removal from the valid-objs
staging table (the temp index is not consulted); and a call whose result is not 4
leaves the valid-objs staging table as it was. -/
theorem C10_CheckSerialnum_code4 (env : Env) (fuel : Nat) (s : State) (topblock : Option Ptr)
    (type : Int) (txobj : Option Ptr) (serial size : Nat) :
    (0 < env.rc s.trace (Event.SerialnumCheck serial) →
      CheckSerialnum env fuel s topblock type txobj serial size
        = .ok (4, match txobj with
            | some obj => ValidObjsDeleteObj (s.log [Event.SerialnumCheck serial]) obj
            | none => s.log [Event.SerialnumCheck serial]) ∧
      ∀ obj, txobj = some obj →
        obj ∉ (ValidObjsDeleteObj (s.log [Event.SerialnumCheck serial]) obj).valid_objs ∧
        (ValidObjsDeleteObj (s.log [Event.SerialnumCheck serial]) obj).trace
          = s.trace ++ [Event.SerialnumCheck serial, Event.ValidObjsDeleteObj obj]) ∧
    (∀ r t, CheckSerialnum env fuel s topblock type txobj serial size = .ok (r, t) →
      r ≠ 4 → t.valid_objs = s.valid_objs) := by
  constructor
  · intro hhit
    constructor
    · unfold CheckSerialnum
      simp only
      rw [if_neg (by omega), if_pos (by omega)]
      cases txobj <;> rfl
    · intro obj _
      constructor
      · simp [ValidObjsDeleteObj]
      · simp [ValidObjsDeleteObj, State.log]
  · intro r t h hr
    unfold CheckSerialnum at h
    simp only at h
    split at h
    · simp only [Except.ok.injEq, Prod.mk.injEq] at h
      obtain ⟨rfl, rfl⟩ := h
      rfl
    · split at h
      · cases txobj with
        | none =>
          simp only [Except.ok.injEq, Prod.mk.injEq] at h
          exact absurd h.1.symm hr
        | some obj =>
          simp only [Except.ok.injEq, Prod.mk.injEq] at h
          exact absurd h.1.symm hr
      · exact (CheckSerialnum.pages_frame env fuel topblock type serial size _ fuel _ _ _ r t
          h).1

/-- C10, applied to the scenario E5: the serial number 5 is in the persistent set and the
transaction object 7 is staged; the result is 4 and 7 leaves the staging table. -/
theorem C10_witness_indelible_conflict :
    0 < envHit.rc sampleFatalState.trace (Event.SerialnumCheck 5) ∧
    sampleFatalState.valid_objs = [7] ∧
    (CheckSerialnum envHit 0 sampleFatalState (some 1) 0 (some 7) 5 32).toOption.map
      (fun r => (r.1, r.2.valid_objs, r.2.trace))
      = some (4, [], [Event.SerialnumCheck 5, Event.ValidObjsDeleteObj 7]) := by
  have h := (C10_CheckSerialnum_code4 envHit 0 sampleFatalState (some 1) 0 (some 7) 5 32).1
    (by decide)
  refine ⟨by decide, rfl, ?_⟩
  rw [h.1]
  decide

theorem CheckSerialnum.pages_setFatal (env : Env) (walkfuel : Nat) (topblock : Option Ptr)
    (type : Int) (serial size : Nat) (li : Option Ptr) (f : Bool) :
    ∀ (fuel : Nat) (s : State) (arr : List Ptr) (last : Ptr),
      CheckSerialnum.pages env walkfuel topblock type serial size li fuel (s.setFatal f) arr
          last
        = (CheckSerialnum.pages env walkfuel topblock type serial size li fuel s arr
            last).map (fun r => (r.1, r.2.setFatal f)) := by
  intro fuel
  induction fuel with
  | zero =>
    intro s arr last
    rfl
  | succ fuel ih =>
    intro s arr last
    unfold CheckSerialnum.pages
    have hlog : ∀ es, (s.setFatal f).log es = (s.log es).setFatal f := fun _ => rfl
    have htr : (s.setFatal f).trace = s.trace := rfl
    simp only [hlog, htr]
    have hheap : ∀ u : State, (u.setFatal f).heap = u.heap := fun _ => rfl
    simp only [hheap]
    split
    · rfl
    · split
      · rfl
      · rfl
      · split
        · exact ih _ _ _
        · rfl

theorem CheckSerialnum_setFatal (env : Env) (fuel : Nat) (s : State) (f : Bool)
    (topblock : Option Ptr) (type : Int) (txobj : Option Ptr) (serial size : Nat) :
    CheckSerialnum env fuel (s.setFatal f) topblock type txobj serial size
      = (CheckSerialnum env fuel s topblock type txobj serial size).map
          (fun r => (r.1, r.2.setFatal f)) := by
  unfold CheckSerialnum
  have hlog : ∀ es, (s.setFatal f).log es = (s.log es).setFatal f := fun _ => rfl
  have htr : (s.setFatal f).trace = s.trace := rfl
  have hlast : (s.setFatal f).m_last_indelible_block = s.m_last_indelible_block := rfl
  simp only [hlog, htr, hlast]
  split
  · rfl
  · split
    · cases txobj <;> rfl
    · exact CheckSerialnum.pages_setFatal env fuel topblock type serial size _ f fuel _ _ _

theorem CheckSerialnums.inputs_setFatal (env : Env) (fuel : Nat) (topblock : Option Ptr)
    (type : Int) (txobj : Option Ptr) (size : Nat) (f : Bool) (l : List Nat) :
    ∀ (s : State),
      CheckSerialnums.inputs env fuel topblock type txobj size (s.setFatal f) l
        = (CheckSerialnums.inputs env fuel topblock type txobj size s l).map
            (fun r => (r.1, r.2.setFatal f)) := by
  induction l with
  | nil => intro s; rfl
  | cons serial rest ih =>
    intro s
    unfold CheckSerialnums.inputs
    rw [CheckSerialnum_setFatal]
    cases CheckSerialnum env fuel s topblock type txobj serial size with
    | error e => rfl
    | ok res =>
      obtain ⟨rc, s1⟩ := res
      simp only [Except.map]
      split
      · rfl
      · exact ih s1

/-- C9 (amended): `CheckSerialnum` and `CheckSerialnums` are not gated by the fatal
flag.  Whatever the flag is set to at entry, they make the same lookups in the
persistent set and the temp index, return the same code and make the same deletion
from the valid-objs staging table, and they leave the flag as it was. -/
theorem C9_serialnum_checks_ignore_fatal_flag (env : Env) (fuel : Nat) (s : State) (f : Bool)
    (topblock : Option Ptr) (type : Int) (txobj : Option Ptr) :
    (∀ serial size : Nat,
      CheckSerialnum env fuel (s.setFatal f) topblock type txobj serial size
        = (CheckSerialnum env fuel s topblock type txobj serial size).map
            (fun r => (r.1, r.2.setFatal f))) ∧
    (∀ txwire : WireTx,
      CheckSerialnums env fuel (s.setFatal f) topblock type txobj txwire
        = (CheckSerialnums env fuel s topblock type txobj txwire).map
            (fun r => (r.1, r.2.setFatal f))) := by
  constructor
  · intro serial size
    exact CheckSerialnum_setFatal env fuel s f topblock type txobj serial size
  · intro txwire
    unfold CheckSerialnums
    cases env.tx_from_wire txwire with
    | none => rfl
    | some parsed =>
      simp only
      cases CheckCreatePseudoSerialnum env parsed txwire with
      | error e => rfl
      | ok txbuf =>
        exact CheckSerialnums.inputs_setFatal env fuel topblock type txobj SERIALNUM_BYTES f
          txbuf.serialnums (s.log [Event.tx_from_wire txwire])

/-- C9, at a concrete input: the claim as stated fails.  With the fatal flag set,
`CheckSerialnum` and `CheckSerialnums` consult the persistent set, return the conflict
code 4 and delete the staged transaction 7; and on a miss `CheckSerialnum` goes on to
the temp index and returns 0, the code of a clean transaction. -/
theorem C9_counterexample_fatal_flag_ignored :
    sampleFatalState.m_have_fatal_error = true ∧
    (CheckSerialnum envHit 3 sampleFatalState (some 1) 0 (some 7) 5 32).toOption.map
      (fun r => (r.1, r.2.valid_objs, r.2.trace))
      = some (4, [], [Event.SerialnumCheck 5, Event.ValidObjsDeleteObj 7]) ∧
    (CheckSerialnums envParseHit 3 sampleFatalState (some 1) 0 (some 7) ⟨1, []⟩).toOption.map
      (fun r => (r.1, r.2.valid_objs, r.2.trace))
      = some (4, [], [Event.tx_from_wire ⟨1, []⟩, Event.SerialnumCheck 5,
          Event.ValidObjsDeleteObj 7]) ∧
    (CheckSerialnum envOk 3 sampleFatalState (some 1) 0 (some 7) 5 32).toOption.map
      (fun r => (r.1, r.2.valid_objs, r.2.trace))
      = some (0, [7], [Event.SerialnumCheck 5, Event.TempSerialnumSelect 5 0 100]) := by
  refine ⟨rfl, ?_, ?_, ?_⟩ <;> decide

/-! ## Runs of the confirmation loop on given chains -/

theorem SetNewlyIndelibleBlock_ok (env : Env) (henv : env.AllOk) (s : State) (b : Ptr)
    (hunmarked : (s.heap b).aux.marked_for_indelible = false)
    (htx : env.TxsOk (s.heap b).payload)
    (hchk : (s.pendingOrLast = none ∧ (s.heap b).wire.level = 0) ∨
      ∃ p, s.pendingOrLast = some p ∧ Linked s.heap p b) :
    ∃ t0, StoreRun (s.entered b) false t0 ∧
      SetNewlyIndelibleBlock env s b = .ok (false, t0.publish b) := by
  obtain ⟨t0, hrun, hc⟩ := SetNewlyIndelibleBlock.commit_ok env henv (s.entered b) b
    (by simpa using htx)
  refine ⟨t0, hrun, ?_⟩
  have hm2 : ¬ (((s.log [Event.BeginWrite]).log [Event.ReadMarked b]).heap b
      ).aux.marked_for_indelible = true := by
    show ¬ (s.heap b).aux.marked_for_indelible = true
    simp [hunmarked]
  unfold SetNewlyIndelibleBlock
  rw [if_neg (by simp [henv _ _]), if_neg hm2]
  change (match (s.entered b).pendingOrLast with
    | none => _
    | some lp => _) = _
  rw [State.entered_pendingOrLast]
  rcases hchk with ⟨hnone, hlevel⟩ | ⟨p, hp, hlink⟩
  · rw [hnone]
    simp only
    rw [if_neg (by simp [hlevel])]
    exact hc
  · rw [hp]
    simp only
    have hw : ((((s.log [Event.BeginWrite]).log [Event.ReadMarked b]).setMarked b).heap
        p).wire = (s.heap p).wire := (HeapMarks.entered s b).wire p
    have ho : ((((s.log [Event.BeginWrite]).log [Event.ReadMarked b]).setMarked b).heap
        p).aux.oid = (s.heap p).aux.oid := (HeapMarks.entered s b).oid p
    rw [if_neg (by
      rw [hw, ho]
      rintro (hx | hx)
      · exact hx hlink.1
      · exact hx hlink.2)]
    exact hc

theorem DoConfirmationLoop.iterate_stop (env : Env) (walkfuel fuel : Nat) (s s1 : State)
    (newobj : Ptr) (have_new : Bool)
    (h : DoConfirmOne env walkfuel s newobj = .ok (true, s1))
    (hf : s1.m_have_fatal_error = false) :
    DoConfirmationLoop.iterate env walkfuel (fuel + 1) s newobj have_new
      = .ok (false, have_new, s1) := by
  unfold DoConfirmationLoop.iterate
  simp [h, hf]

theorem DoConfirmationLoop.iterate_continue (env : Env) (walkfuel fuel : Nat) (s s1 : State)
    (newobj : Ptr) (have_new : Bool)
    (h : DoConfirmOne env walkfuel s newobj = .ok (false, s1))
    (hf : s1.m_have_fatal_error = false) :
    DoConfirmationLoop.iterate env walkfuel (fuel + 1) s newobj have_new
      = DoConfirmationLoop.iterate env walkfuel fuel s1 newobj true := by
  conv_lhs => unfold DoConfirmationLoop.iterate
  simp [h, hf]

theorem DoConfirmOne_marked (env : Env) (fuel : Nat) (s : State) (newobj : Ptr)
    (h : (s.heap newobj).aux.marked_for_indelible = true) :
    DoConfirmOne env fuel s newobj = .ok (true, s.log [Event.ReadMarked newobj]) := by
  unfold DoConfirmOne
  rw [if_pos (by simpa [State.log] using h)]

/-- The state published by `DoConfirmationLoop` after a successful commit. -/
theorem DoConfirmations_of_iterate (env : Env) (fuel : Nat) (s s1 : State) (newobj : Ptr)
    (have_new : Bool) (hs : s.m_have_fatal_error = false)
    (h : DoConfirmationLoop.iterate env fuel fuel s newobj false = .ok (false, have_new, s1)) :
    (have_new = false →
      DoConfirmations env fuel s newobj = .ok (true, s1.log [Event.EndWrite false])) ∧
    (∀ nb, have_new = true → s1.m_new_indelible_block = some nb →
      env.rc s1.trace (Event.EndWrite true) = 0 →
      ∃ t, DoConfirmations env fuel s newobj = .ok (false, t) ∧
        t.heap = s1.heap ∧ t.m_last_indelible_block = some nb ∧
        t.m_last_indelible_level = (s1.heap nb).wire.level ∧
        t.m_new_indelible_block = none ∧
        t.m_have_fatal_error = s1.m_have_fatal_error ∧
        t.trace = s1.trace ++ [Event.EndWrite true, Event.SetLastIndelible nb,
          Event.ReleaseMutex,
          Event.StartCheckpoint (DoConfirmationLoop.fullcheckpoint env s newobj),
          Event.EndWrite false]) := by
  constructor
  · intro hn
    subst hn
    unfold DoConfirmations DoConfirmationLoop
    simp [hs, h]
  · intro nb hn hnb hrc
    subst hn
    have hcall : DoConfirmations env fuel s newobj = .ok (false,
        State.log { s1.log [Event.EndWrite true] with
          m_last_indelible_block := some nb,
          m_last_indelible_level := ((s1.log [Event.EndWrite true]).heap nb).wire.level,
          m_new_indelible_block := none,
          trace := (s1.log [Event.EndWrite true]).trace ++ [Event.SetLastIndelible nb,
            Event.ReleaseMutex,
            Event.StartCheckpoint (DoConfirmationLoop.fullcheckpoint env s newobj)] }
          [Event.EndWrite false]) := by
      unfold DoConfirmations DoConfirmationLoop
      simp [hs, h, hnb, hrc]
    exact ⟨_, hcall, rfl, rfl, rfl, rfl, rfl, by simp [State.log]⟩

/-- C4: from a state with no last and no pending indelible block and no fatal error,
`DoConfirmations` on an unmarked block of level 0 with no prior block and an empty
payload, every collaborator call succeeding, promotes the block whatever
nseqconfsigs and nskipconfsigs are: it returns false, the block is marked, it is the
only block promoted, it is the last indelible block and the last indelible level
is 0. -/
theorem C4_genesis_promotion (env : Env) (fuel : Nat) (s : State) (g : Ptr)
    (hnofatal : s.m_have_fatal_error = false)
    (hnolast : s.m_last_indelible_block = none)
    (hnonew : s.m_new_indelible_block = none)
    (hunmarked : (s.heap g).aux.marked_for_indelible = false)
    (hlevel : (s.heap g).wire.level = 0)
    (hprior : (s.heap g).prior = none)
    (hpayload : (s.heap g).payload = [])
    (henv : env.AllOk)
    (hfuel : 2 ≤ fuel) :
    ∃ t es, DoConfirmations env fuel s g = .ok (false, t) ∧
      t.trace = s.trace ++ es ∧ promoted es = [g] ∧
      (t.heap g).aux.marked_for_indelible = true ∧
      t.m_last_indelible_block = some g ∧ t.m_last_indelible_level = 0 ∧
      t.m_new_indelible_block = none ∧ t.m_have_fatal_error = false := by
  obtain ⟨fuel, rfl⟩ : ∃ f, fuel = f + 2 := ⟨fuel - 2, by omega⟩
  have hpath : WalkPath s.heap g [] g none := ⟨rfl, hprior⟩
  have hone := (DoConfirmOne_of_path env (fuel + 2) s g [] g none hunmarked hpath
    (by simp [UINT32_SIZE]) (by simp)).2 (by simp [hnolast])
  have hpl : (s.log (walkReads g [] none)).pendingOrLast = none := by
    simp [State.pendingOrLast, State.log, hnonew, hnolast]
  obtain ⟨t0, hrun, hsn⟩ := SetNewlyIndelibleBlock_ok env henv (s.log (walkReads g [] none)) g
    hunmarked (by
      show env.TxsOk (s.heap g).payload
      rw [hpayload]
      intro w hw
      simp at hw) (Or.inl ⟨hpl, hlevel⟩)
  rw [hsn] at hone
  have hfat0 := hrun.fatal_of_false
  obtain ⟨f, es, rfl, hes, -, -⟩ := hrun
  simp only [State.upd_fatal, State.entered_fatal] at hfat0
  have hf1 : ((((s.log (walkReads g [] none)).entered g).upd f es).publish
      g).m_have_fatal_error = false := by
    simp only [State.publish_fatal, State.upd_fatal]
    rw [hfat0]
    exact hnofatal
  have hmarked : (((((s.log (walkReads g [] none)).entered g).upd f es).publish
      g).heap g).aux.marked_for_indelible = true := by
    simp
  have htwo := DoConfirmOne_marked env (fuel + 2) _ g hmarked
  have hiter : DoConfirmationLoop.iterate env (fuel + 2) (fuel + 2) s g false
      = .ok (false, true,
          ((((s.log (walkReads g [] none)).entered g).upd f es).publish g).log
            [Event.ReadMarked g]) := by
    rw [DoConfirmationLoop.iterate_continue env (fuel + 2) (fuel + 1) s _ g false hone hf1]
    exact DoConfirmationLoop.iterate_stop env (fuel + 2) fuel _ _ g true htwo hf1
  obtain ⟨t, ht, hheap, hlast, hlev, hnew, hfat, htr⟩ :=
    (DoConfirmations_of_iterate env (fuel + 2) s _ g true hnofatal hiter).2 g rfl rfl
      (henv _ _)
  refine ⟨t, walkReads g [] none ++ ([Event.BeginWrite, Event.ReadMarked g,
      Event.WriteMarked g] ++ (es ++ ([Event.SetNewIndelible g] ++ ([Event.ReadMarked g] ++
      [Event.EndWrite true, Event.SetLastIndelible g, Event.ReleaseMutex,
        Event.StartCheckpoint (DoConfirmationLoop.fullcheckpoint env s g),
        Event.EndWrite false])))), ht, ?_, ?_, ?_, hlast, ?_, hnew, ?_⟩
  · rw [htr]
    simp only [State.log, State.publish_trace, State.upd_trace, State.entered_trace,
      List.append_assoc]
  · simp only [promoted_append, promoted_of_store es hes, walkReads]
    simp [promoted]
  · rw [hheap]
    exact hmarked
  · rw [hlev]
    simp [State.log, hlevel]
  · rw [hfat]
    exact hf1

/-- C4, applied to a genesis block at address 0 with thresholds 2 and 3. -/
theorem C4_witness_genesis :
    ∃ t es, DoConfirmations envOk 2
        { sampleChainState 0 0 with
          heap := sampleHeap [sampleBlock 0 100 0 0 false none],
          m_last_indelible_block := none, m_last_indelible_level := 0 } 0 = .ok (false, t) ∧
      t.trace = [] ++ es ∧ promoted es = [0] ∧
      (t.heap 0).aux.marked_for_indelible = true ∧
      t.m_last_indelible_block = some 0 ∧ t.m_last_indelible_level = 0 ∧
      t.m_new_indelible_block = none ∧ t.m_have_fatal_error = false :=
  C4_genesis_promotion envOk 2
    { sampleChainState 0 0 with
      heap := sampleHeap [sampleBlock 0 100 0 0 false none],
      m_last_indelible_block := none, m_last_indelible_level := 0 } 0
    rfl rfl rfl rfl rfl rfl rfl (fun _ _ => rfl) (by decide)

theorem PriorLevel.of_succ (heap : Ptr → Block) (a b : Ptr)
    (h : (heap a).wire.level = (heap b).wire.level + 1)
    (hrange : (heap a).wire.level < UINT64_SIZE) : PriorLevel heap a b := by
  unfold PriorLevel
  rw [h]
  have hb : (heap b).wire.level < UINT64_SIZE := by omega
  have : (heap b).wire.level + 1 + UINT64_SIZE - 1 = (heap b).wire.level + UINT64_SIZE := by
    omega
  rw [this, Nat.add_mod_right, Nat.mod_eq_of_lt hb]

/-- C6 (amended): the skip that delays promotion is the one of the candidate.  For every
chain P <- L1 <- L2 in which P is the last indelible block and is marked, L1 and L2 are
unmarked with consecutive levels, L1.skip > 0 (whatever L2.skip is) and the thresholds
of the tip are nseqconfsigs = 2 and nskipconfsigs = 3, `DoConfirmations` on the tip L2
does not promote L1: it returns true, its only effects are the three reads of the
marks and the closing `EndWrite`, and the last indelible block stays P. -/
theorem C6_candidate_skip_delays_promotion (env : Env) (fuel : Nat) (s : State)
    (p l1 l2 : Ptr)
    (hnofatal : s.m_have_fatal_error = false)
    (hlast : s.m_last_indelible_block = some p)
    (hp : (s.heap p).aux.marked_for_indelible = true)
    (h1 : (s.heap l1).aux.marked_for_indelible = false)
    (h2 : (s.heap l2).aux.marked_for_indelible = false)
    (hprior2 : (s.heap l2).prior = some l1)
    (hprior1 : (s.heap l1).prior = some p)
    (hlevel2 : (s.heap l2).wire.level = (s.heap l1).wire.level + 1)
    (hlevel1 : (s.heap l1).wire.level = (s.heap p).wire.level + 1)
    (hrange : (s.heap l2).wire.level < UINT64_SIZE)
    (hskip : 0 < (s.heap l1).aux.skip)
    (_hseq : (s.heap l2).aux.blockchain_params.nseqconfsigs = 2)
    (hskp : (s.heap l2).aux.blockchain_params.nskipconfsigs = 3)
    (hfuel : 2 ≤ fuel) :
    DoConfirmations env fuel s l2
      = .ok (true, s.log (walkReads l2 [l1] (some p) ++ [Event.EndWrite false])) ∧
    (s.log (walkReads l2 [l1] (some p) ++ [Event.EndWrite false])).m_last_indelible_block
      = some p ∧
    promoted (walkReads l2 [l1] (some p) ++ [Event.EndWrite false]) = [] := by
  obtain ⟨fuel, rfl⟩ : ∃ f, fuel = f + 2 := ⟨fuel - 2, by omega⟩
  have hpath : WalkPath s.heap l2 [l1] l1 (some p) :=
    ⟨hprior2, PriorLevel.of_succ _ _ _ hlevel2 hrange, h1, rfl, hprior1,
      PriorLevel.of_succ _ _ _ hlevel1 (by omega), hp⟩
  have hone := (DoConfirmOne_of_path env (fuel + 2) s l2 [l1] l1 (some p) h2 hpath
    (by simp [UINT32_SIZE]) (by simp)).1 ⟨by simp [hlast], Or.inr ⟨by omega, by
      rw [hskp]
      simp⟩⟩
  have hiter := DoConfirmationLoop.iterate_stop env (fuel + 2) (fuel + 1) s _ l2 false hone
    hnofatal
  refine ⟨?_, hlast, by simp [walkReads, promoted]⟩
  rw [(DoConfirmations_of_iterate env (fuel + 2) s _ l2 false hnofatal hiter).1 rfl,
    State.log_log]

/-- C6, applied to the chain P <- L1 <- L2 with L1.skip = 1 and L2.skip = 0. -/
theorem C6_witness_skip_on_candidate :
    (sampleChainState 1 0).m_have_fatal_error = false ∧
    0 < ((sampleChainState 1 0).heap 1).aux.skip ∧
    DoConfirmations envOk 2 (sampleChainState 1 0) 2
      = .ok (true, (sampleChainState 1 0).log
          (walkReads 2 [1] (some 0) ++ [Event.EndWrite false])) :=
  ⟨rfl, by decide,
    (C6_candidate_skip_delays_promotion envOk 2 (sampleChainState 1 0) 0 1 2 rfl rfl rfl rfl
      rfl rfl rfl rfl rfl (by decide) (by decide) rfl rfl (by decide)).1⟩

/-- C6, at a concrete input: the claim as stated fails.  In the chain P <- L1 <- L2 with P
the last indelible block, L1.skip = 0, L2.skip = 1 and thresholds 2 and 3,
`DoConfirmations` on the tip L2 promotes L1: it returns false and the last indelible
block becomes L1. -/
theorem C6_counterexample_tip_skip :
    (sampleChainState 0 1).m_last_indelible_block = some 0 ∧
    ((sampleChainState 0 1).heap 0).aux.marked_for_indelible = true ∧
    ((sampleChainState 0 1).heap 1).aux.marked_for_indelible = false ∧
    ((sampleChainState 0 1).heap 2).aux.marked_for_indelible = false ∧
    ((sampleChainState 0 1).heap 2).prior = some 1 ∧
    ((sampleChainState 0 1).heap 1).prior = some 0 ∧
    ((sampleChainState 0 1).heap 1).aux.skip = 0 ∧
    0 < ((sampleChainState 0 1).heap 2).aux.skip ∧
    ((sampleChainState 0 1).heap 2).aux.blockchain_params.nseqconfsigs = 2 ∧
    ((sampleChainState 0 1).heap 2).aux.blockchain_params.nskipconfsigs = 3 ∧
    (DoConfirmations envOk 5 (sampleChainState 0 1) 2).toOption.map
      (fun r => (r.1, r.2.m_last_indelible_block, r.2.m_last_indelible_level,
        (r.2.heap 1).aux.marked_for_indelible))
      = some (false, some 1, 6, true) := by
  refine ⟨rfl, rfl, rfl, rfl, rfl, rfl, rfl, by decide, rfl, rfl, ?_⟩
  decide

theorem HeapMarks.skip {h k : Ptr → Block} (a : HeapMarks h k) (p : Ptr) :
    (k p).aux.skip = (h p).aux.skip := by
  rcases a p with ha | ha <;> simp [ha]

theorem HeapMarks.params {h k : Ptr → Block} (a : HeapMarks h k) (p : Ptr) :
    (k p).aux.blockchain_params = (h p).aux.blockchain_params := by
  rcases a p with ha | ha <;> simp [ha]

theorem HeapMarks.payload {h k : Ptr → Block} (a : HeapMarks h k) (p : Ptr) :
    (k p).payload = (h p).payload := by
  rcases a p with ha | ha <;> simp [ha]

theorem HeapMarks.above {h k : Ptr → Block} (a : HeapMarks h k) (p q : Ptr) :
    Above k p q ↔ Above h p q := by
  simp [Above, a.wire, a.oid, a.prior]

theorem Above.adjacent (heap : Ptr → Block) :
    ∀ (l : List Ptr) (i : Nat) (a b : Ptr), List.Chain' (Above heap) l →
      l[i]? = some a → l[i + 1]? = some b → Above heap a b := by
  intro l
  induction l with
  | nil => intro i a b _ ha; simp at ha
  | cons x rest ih =>
    intro i a b hc ha hb
    cases rest with
    | nil => simp at hb
    | cons y rest2 =>
      rw [List.chain'_cons] at hc
      cases i with
      | zero =>
        simp only [List.getElem?_cons_zero, Option.some.injEq, zero_add,
          List.getElem?_cons_succ] at ha hb
        subst ha
        subst hb
        exact hc.1
      | succ i =>
        simp only [List.getElem?_cons_succ] at ha hb
        exact ih i a b hc.2 ha (by simpa using hb)

theorem Above.level_head (heap : Ptr → Block) :
    ∀ (l : List Ptr) (a : Ptr) (j : Nat) (b : Ptr), List.Chain' (Above heap) (a :: l) →
      (a :: l)[j]? = some b → (heap a).wire.level = (heap b).wire.level + j := by
  intro l
  induction l with
  | nil =>
    intro a j b _ hb
    cases j with
    | zero =>
      simp only [List.getElem?_cons_zero, Option.some.injEq] at hb
      subst hb
      rfl
    | succ j => simp at hb
  | cons y rest ih =>
    intro a j b hc hb
    rw [List.chain'_cons] at hc
    cases j with
    | zero =>
      simp only [List.getElem?_cons_zero, Option.some.injEq] at hb
      subst hb
      rfl
    | succ j =>
      simp only [List.getElem?_cons_succ] at hb
      have h1 := ih y j b hc.2 hb
      have h2 := hc.1.2.1
      omega

theorem Above.index_unique (heap : Ptr → Block) (l : List Ptr) (a : Ptr) (i j : Nat) (b : Ptr)
    (hc : List.Chain' (Above heap) (a :: l)) (hi : (a :: l)[i]? = some b)
    (hj : (a :: l)[j]? = some b) : i = j := by
  have h1 := Above.level_head heap l a i b hc hi
  have h2 := Above.level_head heap l a j b hc hj
  omega

theorem WalkPath.of_chain (heap : Ptr → Block) :
    ∀ (rest : List Ptr) (a : Ptr) (u : Nat) (cand sp : Ptr),
      List.Chain' (Above heap) (a :: rest) → (heap a).wire.level < UINT64_SIZE →
      (∀ i b, i < u → rest[i]? = some b → (heap b).aux.marked_for_indelible = false) →
      rest[u]? = some sp → (heap sp).aux.marked_for_indelible = true →
      (a :: rest)[u]? = some cand →
      WalkPath heap a (rest.take u) cand (some sp) := by
  intro rest
  induction rest with
  | nil => intro a u cand sp _ _ _ hsp; simp at hsp
  | cons b rest ih =>
    intro a u cand sp hc hrange hun hsp hm hcand
    rw [List.chain'_cons] at hc
    have hab := hc.1
    have hlevel : PriorLevel heap a b := PriorLevel.of_succ heap a b hab.2.1 hrange
    cases u with
    | zero =>
      simp only [List.getElem?_cons_zero, Option.some.injEq] at hsp hcand
      subst hsp
      subst hcand
      exact ⟨rfl, hab.1, hlevel, hm⟩
    | succ u =>
      simp only [List.getElem?_cons_succ] at hsp hcand
      refine ⟨hab.1, hlevel, hun 0 b (by omega) (by simp), ?_⟩
      refine ih b u cand sp hc.2 (by have := hab.2.1; omega) ?_ hsp hm hcand
      intro i c hi hic
      exact hun (i + 1) c (by omega) (by simpa using hic)

theorem promoted_reads (l : List Ptr) : promoted (l.map Event.ReadMarked) = [] := by
  induction l with
  | nil => rfl
  | cons a l ih => simpa [promoted] using ih

theorem promoted_walkReads (tip : Ptr) (below : List Ptr) (stop : Option Ptr) :
    promoted (walkReads tip below stop) = [] := by
  unfold walkReads
  simpa [promoted] using promoted_reads (below ++ stop.toList)

theorem BurstInv.log {s st : State} {ext : List Ptr} {v : Nat} (h : BurstInv s ext st v)
    (es : List Event) : BurstInv s ext (st.log es) v := h

theorem BurstSetup.mem {tip : Ptr} {rest : List Ptr} {p : Ptr}
    (i : Nat) (b : Ptr) (hi : i < rest.length + 1)
    (hb : (tip :: (rest ++ [p]))[i]? = some b) : b ∈ tip :: rest := by
  have h : (tip :: (rest ++ [p])) = (tip :: rest) ++ [p] := rfl
  rw [h, List.getElem?_append_left (by simpa using hi)] at hb
  exact List.getElem?_mem hb

theorem Burst.promote_step (env : Env) (s : State) (tip : Ptr) (rest : List Ptr) (p : Ptr)
    (hset : BurstSetup env s tip rest p) (st : State) (v walkfuel : Nat)
    (hinv : BurstInv s (tip :: (rest ++ [p])) st (v + 1)) (hv : v + 1 ≤ rest.length + 1)
    (hseq : (s.heap tip).aux.blockchain_params.nseqconfsigs ≤ v + 1) (hwf : v < walkfuel) :
    ∃ cand st2 es, (tip :: (rest ++ [p]))[v]? = some cand ∧
      DoConfirmOne env walkfuel st tip = .ok (false, st2) ∧
      st2.trace = st.trace ++ es ∧ promoted es = [cand] ∧
      BurstInv s (tip :: (rest ++ [p])) st2 v := by
  obtain ⟨henv, hlast, hchain, hrange, hblocks, hlen⟩ := hset
  obtain ⟨hheap, hfat, hl, hlv, hun, hmk, hpl⟩ := hinv
  have hext : (tip :: (rest ++ [p])).length = rest.length + 2 := by simp
  obtain ⟨cand, hcand⟩ : ∃ c, (tip :: (rest ++ [p]))[v]? = some c :=
    ⟨_, List.getElem?_eq_getElem (by omega)⟩
  obtain ⟨sp, hsp⟩ : ∃ c, (tip :: (rest ++ [p]))[v + 1]? = some c :=
    ⟨_, List.getElem?_eq_getElem (by omega)⟩
  have hchain2 : List.Chain' (Above st.heap) (tip :: (rest ++ [p])) :=
    List.Chain'.imp (fun a b hab => (hheap.above a b).mpr hab) hchain
  have htip : (st.heap tip).aux.marked_for_indelible = false :=
    hun 0 tip (by simp) (by omega)
  have hcandmem : cand ∈ tip :: rest := BurstSetup.mem v cand (by omega) hcand
  have hcandun : (st.heap cand).aux.marked_for_indelible = false := hun v cand hcand (by omega)
  have hpath : WalkPath st.heap tip ((rest ++ [p]).take v) cand (some sp) := by
    refine WalkPath.of_chain st.heap (rest ++ [p]) tip v cand sp hchain2
      (by rw [hheap.wire]; exact hrange) ?_ (by simpa using hsp)
      (hmk (v + 1) sp hsp (by omega)) hcand
    intro i b hi hb
    exact hun (i + 1) b (by simpa using hb) (by omega)
  have hblen : ((rest ++ [p]).take v).length = v := by
    simp
    omega
  have hno := (DoConfirmOne_of_path env walkfuel st tip _ cand (some sp) htip hpath
    (by rw [hblen]; omega) (by rw [hblen]; exact hwf)).2 (by
      rintro ⟨-, hb⟩
      rw [hblen] at hb
      rcases hb with hb | ⟨hb, -⟩
      · rw [hheap.params] at hb
        omega
      · rw [hheap.skip] at hb
        exact hb (hblocks cand hcandmem).1)
  have habove : Above st.heap cand sp := Above.adjacent st.heap _ v cand sp hchain2 hcand hsp
  have hcandlevel : (st.heap cand).wire.level < UINT64_SIZE := by
    have h1 := Above.level_head st.heap (rest ++ [p]) tip v cand hchain2 hcand
    have h2 : (st.heap tip).wire.level < UINT64_SIZE := by rw [hheap.wire]; exact hrange
    omega
  have hlinked : Linked st.heap sp cand := by
    refine ⟨?_, habove.2.2⟩
    rw [Nat.mod_eq_of_lt (by have := habove.2.1; omega)]
    exact habove.2.1
  obtain ⟨t0, hrun, hsn⟩ := SetNewlyIndelibleBlock_ok env henv
    (st.log (walkReads tip ((rest ++ [p]).take v) (some sp))) cand hcandun
    (by
      show env.TxsOk (st.heap cand).payload
      rw [hheap.payload]
      exact (hblocks cand hcandmem).2)
    (Or.inr ⟨sp, by
      show st.pendingOrLast = some sp
      rw [hpl, hsp], hlinked⟩)
  rw [hsn] at hno
  have hf0 := hrun.fatal_of_false
  obtain ⟨f, es0, rfl, hes0, -, -⟩ := hrun
  simp only [State.upd_fatal, State.entered_fatal] at hf0
  refine ⟨cand, _, walkReads tip ((rest ++ [p]).take v) (some sp) ++
    ([Event.BeginWrite, Event.ReadMarked cand, Event.WriteMarked cand] ++
      (es0 ++ [Event.SetNewIndelible cand])), hcand, hno, ?_, ?_, ?_⟩
  · simp [State.log, List.append_assoc]
  · simp only [promoted_append, promoted_walkReads, promoted_of_store es0 hes0]
    simp [promoted]
  · have hheap2 : HeapMarks st.heap
        ((((st.log (walkReads tip ((rest ++ [p]).take v) (some sp))).entered cand).upd f
          es0).publish cand).heap :=
      HeapMarks.entered (st.log (walkReads tip ((rest ++ [p]).take v) (some sp))) cand
    refine ⟨HeapMarks.trans_marks hheap hheap2, ?_, hl, hlv, ?_, ?_, ?_⟩
    · simp only [State.publish_fatal, State.upd_fatal]
      rw [hf0]
      exact hfat
    · intro i b hb hi
      have hne : b ≠ cand := by
        intro heq
        subst heq
        have := Above.index_unique s.heap (rest ++ [p]) tip i v b hchain hb hcand
        omega
      simp only [State.publish_heap, State.upd_heap, State.entered_heap, if_neg hne]
      exact hun i b hb (by omega)
    · intro i b hb hi
      by_cases heq : b = cand
      · subst heq
        simp
      · simp only [State.publish_heap, State.upd_heap, State.entered_heap, if_neg heq]
        refine hmk i b hb ?_
        by_contra hlt
        have hiv : i = v := by omega
        subst hiv
        rw [hcand] at hb
        exact heq (Option.some.inj hb).symm
    · simp only [State.publish_pendingOrLast]
      exact hcand.symm

theorem Burst.stop_step (env : Env) (s : State) (tip : Ptr) (rest : List Ptr) (p : Ptr)
    (hset : BurstSetup env s tip rest p) (st : State) (v walkfuel : Nat)
    (hinv : BurstInv s (tip :: (rest ++ [p])) st (v + 1)) (hv : v + 1 ≤ rest.length + 1)
    (hseq : v + 1 < (s.heap tip).aux.blockchain_params.nseqconfsigs) (hwf : v < walkfuel) :
    ∃ es, DoConfirmOne env walkfuel st tip = .ok (true, st.log es) ∧ promoted es = [] := by
  obtain ⟨henv, hlast, hchain, hrange, hblocks, hlen⟩ := hset
  obtain ⟨hheap, hfat, hl, hlv, hun, hmk, hpl⟩ := hinv
  have hext : (tip :: (rest ++ [p])).length = rest.length + 2 := by simp
  obtain ⟨cand, hcand⟩ : ∃ c, (tip :: (rest ++ [p]))[v]? = some c :=
    ⟨_, List.getElem?_eq_getElem (by omega)⟩
  obtain ⟨sp, hsp⟩ : ∃ c, (tip :: (rest ++ [p]))[v + 1]? = some c :=
    ⟨_, List.getElem?_eq_getElem (by omega)⟩
  have hchain2 : List.Chain' (Above st.heap) (tip :: (rest ++ [p])) :=
    List.Chain'.imp (fun a b hab => (hheap.above a b).mpr hab) hchain
  have htip : (st.heap tip).aux.marked_for_indelible = false :=
    hun 0 tip (by simp) (by omega)
  have hpath : WalkPath st.heap tip ((rest ++ [p]).take v) cand (some sp) := by
    refine WalkPath.of_chain st.heap (rest ++ [p]) tip v cand sp hchain2
      (by rw [hheap.wire]; exact hrange) ?_ (by simpa using hsp)
      (hmk (v + 1) sp hsp (by omega)) hcand
    intro i b hi hb
    exact hun (i + 1) b (by simpa using hb) (by omega)
  have hblen : ((rest ++ [p]).take v).length = v := by
    simp
    omega
  have hyes := (DoConfirmOne_of_path env walkfuel st tip _ cand (some sp) htip hpath
    (by rw [hblen]; omega) (by rw [hblen]; exact hwf)).1 ⟨by rw [hl, hlast]; rfl, Or.inl (by
      rw [hblen, hheap.params]
      exact hseq)⟩
  exact ⟨_, hyes, promoted_walkReads _ _ _⟩

theorem Burst.loop_run (env : Env) (s : State) (tip : Ptr) (rest : List Ptr) (p : Ptr)
    (hset : BurstSetup env s tip rest p) (walkfuel : Nat)
    (hwf : rest.length + 1 ≤ walkfuel)
    (hseq : 1 ≤ (s.heap tip).aux.blockchain_params.nseqconfsigs) :
    ∀ (v : Nat) (st : State) (have_new : Bool) (fuel : Nat),
      v ≤ rest.length + 1 → BurstInv s (tip :: (rest ++ [p])) st v →
      (v + 1 - (s.heap tip).aux.blockchain_params.nseqconfsigs) + 1 ≤ fuel →
      ∃ t es, DoConfirmationLoop.iterate env walkfuel fuel st tip have_new
          = .ok (false,
              have_new || decide ((s.heap tip).aux.blockchain_params.nseqconfsigs ≤ v), t) ∧
        t.trace = st.trace ++ es ∧
        promoted es = (((tip :: (rest ++ [p])).take v).drop
          ((s.heap tip).aux.blockchain_params.nseqconfsigs - 1)).reverse ∧
        BurstInv s (tip :: (rest ++ [p])) t
          (min v ((s.heap tip).aux.blockchain_params.nseqconfsigs - 1)) := by
  intro v
  induction v with
  | zero =>
    intro st hn fuel _ hinv hfuel
    obtain ⟨fuel, rfl⟩ : ∃ f, fuel = f + 1 := ⟨fuel - 1, by omega⟩
    have htip : (st.heap tip).aux.marked_for_indelible = true :=
      hinv.2.2.2.2.2.1 0 tip (by simp) (by omega)
    have hone := DoConfirmOne_marked env walkfuel st tip htip
    refine ⟨st.log [Event.ReadMarked tip], [Event.ReadMarked tip],
      by
        rw [DoConfirmationLoop.iterate_stop env walkfuel fuel st _ tip hn hone hinv.2.1]
        have hd : decide ((s.heap tip).aux.blockchain_params.nseqconfsigs ≤ 0) = false := by
          simp
          omega
        rw [hd, Bool.or_false],
      rfl, by simp [promoted], ?_⟩
    simpa using hinv.log [Event.ReadMarked tip]
  | succ v ih =>
    intro st hn fuel hv hinv hfuel
    obtain ⟨fuel, rfl⟩ : ∃ f, fuel = f + 1 := ⟨fuel - 1, by omega⟩
    by_cases hs : (s.heap tip).aux.blockchain_params.nseqconfsigs ≤ v + 1
    · obtain ⟨cand, st2, es, hcand, hone, htr, hprom, hinv2⟩ :=
        Burst.promote_step env s tip rest p hset st v walkfuel hinv hv hs (by omega)
      obtain ⟨t, es2, hiter, htr2, hprom2, hinv3⟩ := ih st2 true fuel (by omega) hinv2
        (by omega)
      refine ⟨t, es ++ es2, ?_, by rw [htr2, htr, List.append_assoc], ?_, ?_⟩
      · rw [DoConfirmationLoop.iterate_continue env walkfuel fuel st st2 tip hn hone hinv2.2.1,
          hiter]
        simp [hs]
      · rw [promoted_append, hprom, hprom2, List.take_succ, hcand]
        rw [List.drop_append_of_le_length (by
          simp
          omega)]
        simp
      · have hmin : min (v + 1) ((s.heap tip).aux.blockchain_params.nseqconfsigs - 1)
            = min v ((s.heap tip).aux.blockchain_params.nseqconfsigs - 1) := by omega
        rw [hmin]
        exact hinv3
    · push_neg at hs
      obtain ⟨es, hone, hprom⟩ := Burst.stop_step env s tip rest p hset st v walkfuel hinv hv hs
        (by omega)
      refine ⟨st.log es, es, ?_, rfl, ?_, ?_⟩
      · rw [DoConfirmationLoop.iterate_stop env walkfuel fuel st _ tip hn hone hinv.2.1]
        have hd : decide ((s.heap tip).aux.blockchain_params.nseqconfsigs ≤ v + 1) = false := by
          simp
          omega
        rw [hd, Bool.or_false]
      · rw [hprom, List.drop_of_length_le (by
          simp
          omega)]
        rfl
      · have hmin : min (v + 1) ((s.heap tip).aux.blockchain_params.nseqconfsigs - 1)
            = v + 1 := by omega
        rw [hmin]
        exact hinv.log es

theorem getElem?_index_lt {l : List Ptr} {i : Nat} {b : Ptr} (h : l[i]? = some b) :
    i < l.length := by
  by_contra hc
  rw [List.getElem?_eq_none (by omega)] at h
  simp at h

/-- C5: let P be the last indelible block, marked, with no pending block and no fatal
error, and let the chain of the tip consist of exactly k >= 1 unmarked blocks
`tip :: rest` directly above P with consecutive levels and matching prior oids, all with
skip 0, the thresholds of the tip having nseqconfsigs >= 1, every collaborator call
succeeding and every payload parsing, k < 2^32 and the fuel above k.  Then
`DoConfirmations` promotes exactly the deepest m = max(0, k - nseqconfsigs + 1) blocks,
deepest first, returns true exactly when m = 0, and ends with the last indelible level
at l + m and the last indelible block the last block promoted (P if none); the
nseqconfsigs - 1 blocks nearest the tip (all k if k < nseqconfsigs) stay unmarked
candidates, the others are marked. -/
theorem C5_burst_promotion (env : Env) (fuel : Nat) (s : State) (tip : Ptr)
    (rest : List Ptr) (p : Ptr)
    (hnofatal : s.m_have_fatal_error = false)
    (hlast : s.m_last_indelible_block = some p)
    (hlastlevel : s.m_last_indelible_level = (s.heap p).wire.level)
    (hnonew : s.m_new_indelible_block = none)
    (hp : (s.heap p).aux.marked_for_indelible = true)
    (hchain : List.Chain' (Above s.heap) (tip :: (rest ++ [p])))
    (hunmarked : ∀ b ∈ tip :: rest,
      (s.heap b).aux.marked_for_indelible = false ∧ (s.heap b).aux.skip = 0)
    (hrange : (s.heap tip).wire.level < UINT64_SIZE)
    (hseq : 1 ≤ (s.heap tip).aux.blockchain_params.nseqconfsigs)
    (henv : env.AllOk)
    (htx : ∀ b ∈ tip :: rest, env.TxsOk (s.heap b).payload)
    (hlen : rest.length + 1 < UINT32_SIZE)
    (hfuel : rest.length + 2 ≤ fuel) :
    ∃ t es,
      DoConfirmations env fuel s tip
        = .ok (decide (rest.length + 1 < (s.heap tip).aux.blockchain_params.nseqconfsigs),
            t) ∧
      t.trace = s.trace ++ es ∧
      promoted es = (tip :: rest).reverse.take
        (rest.length + 1 + 1 - (s.heap tip).aux.blockchain_params.nseqconfsigs) ∧
      t.m_last_indelible_level = (s.heap p).wire.level +
        (rest.length + 1 + 1 - (s.heap tip).aux.blockchain_params.nseqconfsigs) ∧
      t.m_last_indelible_block = (p :: promoted es).getLast? ∧
      (∀ (i : Nat) (b : Ptr), (tip :: rest)[i]? = some b →
        i < (s.heap tip).aux.blockchain_params.nseqconfsigs - 1 →
        (t.heap b).aux.marked_for_indelible = false) ∧
      (∀ (i : Nat) (b : Ptr), (tip :: rest)[i]? = some b →
        (s.heap tip).aux.blockchain_params.nseqconfsigs - 1 ≤ i →
        (t.heap b).aux.marked_for_indelible = true) ∧
      t.m_have_fatal_error = false := by
  have hset : BurstSetup env s tip rest p :=
    ⟨henv, hlast, hchain, hrange, fun b hb => ⟨(hunmarked b hb).2, htx b hb⟩, hlen⟩
  have hextk : (tip :: (rest ++ [p]))[rest.length + 1]? = some p := by simp
  have hdown : ∀ (i : Nat) (b : Ptr), (tip :: rest)[i]? = some b →
      (tip :: (rest ++ [p]))[i]? = some b := by
    intro i b hb
    have hi : i < (tip :: rest).length := getElem?_index_lt hb
    have h : (tip :: (rest ++ [p])) = (tip :: rest) ++ [p] := rfl
    rw [h, List.getElem?_append_left hi]
    exact hb
  have hinv : BurstInv s (tip :: (rest ++ [p])) s (rest.length + 1) := by
    refine ⟨HeapMarks.refl _, hnofatal, rfl, rfl, ?_, ?_, ?_⟩
    · intro i b hb hi
      exact (hunmarked b (BurstSetup.mem i b hi hb)).1
    · intro i b hb hi
      have hlt : i < (tip :: (rest ++ [p])).length := getElem?_index_lt hb
      simp at hlt
      have hik : i = rest.length + 1 := by omega
      subst hik
      rw [hextk] at hb
      rw [← Option.some.inj hb]
      exact hp
    · rw [hextk]
      simp [State.pendingOrLast, hnonew, hlast]
  obtain ⟨t1, es1, hiter, htr1, hprom1, hinv1⟩ :=
    Burst.loop_run env s tip rest p hset fuel (by omega) hseq (rest.length + 1) s false fuel
      (le_refl _) hinv (by omega)
  have htake : (tip :: (rest ++ [p])).take (rest.length + 1) = tip :: rest := by
    have h : (tip :: (rest ++ [p])) = (tip :: rest) ++ [p] := rfl
    rw [h, List.take_left' (by simp)]
  rw [htake, List.reverse_drop] at hprom1
  have hm : (tip :: rest).length - ((s.heap tip).aux.blockchain_params.nseqconfsigs - 1)
      = rest.length + 1 + 1 - (s.heap tip).aux.blockchain_params.nseqconfsigs := by
    simp only [List.length_cons]
    omega
  rw [hm] at hprom1
  obtain ⟨hheap1, hfat1, hl1, hlv1, hun1, hmk1, hpl1⟩ := hinv1
  simp only [Bool.false_or] at hiter
  by_cases hk : (s.heap tip).aux.blockchain_params.nseqconfsigs ≤ rest.length + 1
  · have hj : min (rest.length + 1) ((s.heap tip).aux.blockchain_params.nseqconfsigs - 1)
        = (s.heap tip).aux.blockchain_params.nseqconfsigs - 1 := by omega
    rw [hj] at hun1 hmk1 hpl1
    obtain ⟨nb, hnb⟩ : ∃ c, (tip :: (rest ++ [p]))[
        (s.heap tip).aux.blockchain_params.nseqconfsigs - 1]? = some c :=
      ⟨_, List.getElem?_eq_getElem (by simp; omega)⟩
    rw [hnb] at hpl1
    have hnew : t1.m_new_indelible_block = some nb := by
      cases hn : t1.m_new_indelible_block with
      | some c =>
        simp only [State.pendingOrLast, hn, Option.some.injEq] at hpl1
        rw [hpl1]
      | none =>
        simp only [State.pendingOrLast, hn] at hpl1
        rw [hl1, hlast] at hpl1
        have hpnb : p = nb := Option.some.inj hpl1
        subst hpnb
        have := Above.index_unique s.heap (rest ++ [p]) tip _ _ p hchain hnb hextk
        omega
    rw [decide_eq_true hk] at hiter
    obtain ⟨t, ht, hheap, hlast2, hlev2, hnew2, hfat2, htr2⟩ :=
      (DoConfirmations_of_iterate env fuel s t1 tip true hnofatal hiter).2 nb rfl hnew
        (henv _ _)
    refine ⟨t, es1 ++ [Event.EndWrite true, Event.SetLastIndelible nb, Event.ReleaseMutex,
      Event.StartCheckpoint (DoConfirmationLoop.fullcheckpoint env s tip),
      Event.EndWrite false], ?_, ?_, ?_, ?_, ?_, ?_, ?_, ?_⟩
    · rw [ht]
      have hd : decide (rest.length + 1 < (s.heap tip).aux.blockchain_params.nseqconfsigs)
          = false := by
        simp
        omega
      rw [hd]
    · rw [htr2, htr1, List.append_assoc]
    · simp only [promoted_append, promoted, List.append_nil]
      exact hprom1
    · rw [hlev2, hheap1.wire]
      have h1 := Above.level_head s.heap (rest ++ [p]) tip _ nb hchain hnb
      have h2 := Above.level_head s.heap (rest ++ [p]) tip _ p hchain hextk
      omega
    · simp only [promoted_append, promoted, List.append_nil]
      rw [hlast2, List.getLast?_cons, hprom1, ← hm, ← List.reverse_drop,
        List.getLast?_reverse, List.head?_drop]
      have hnb2 : (tip :: rest)[(s.heap tip).aux.blockchain_params.nseqconfsigs - 1]?
          = some nb := by
        have h : (tip :: (rest ++ [p])) = (tip :: rest) ++ [p] := rfl
        rw [h, List.getElem?_append_left (by simp; omega)] at hnb
        exact hnb
      rw [hnb2]
      rfl
    · intro i b hb hi
      rw [hheap]
      exact hun1 i b (hdown i b hb) hi
    · intro i b hb hi
      rw [hheap]
      exact hmk1 i b (hdown i b hb) hi
    · rw [hfat2]
      exact hfat1
  · push_neg at hk
    have hj : min (rest.length + 1) ((s.heap tip).aux.blockchain_params.nseqconfsigs - 1)
        = rest.length + 1 := by omega
    rw [hj] at hun1 hmk1 hpl1
    have hm0 : rest.length + 1 + 1 - (s.heap tip).aux.blockchain_params.nseqconfsigs = 0 := by
      omega
    rw [hm0] at hprom1
    rw [decide_eq_false (by omega)] at hiter
    have ht := (DoConfirmations_of_iterate env fuel s t1 tip false hnofatal hiter).1 rfl
    refine ⟨t1.log [Event.EndWrite false], es1 ++ [Event.EndWrite false], ?_, ?_, ?_, ?_, ?_,
      ?_, ?_, hfat1⟩
    · rw [ht, decide_eq_true hk]
    · simp [State.log, htr1]
    · simp only [promoted_append, promoted, List.append_nil, hm0]
      exact hprom1
    · rw [hm0]
      show t1.m_last_indelible_level = _
      rw [hlv1, hlastlevel]
      rfl
    · simp only [promoted_append, promoted, List.append_nil]
      rw [hprom1]
      show t1.m_last_indelible_block = _
      rw [hl1, hlast]
      rfl
    · intro i b hb hi
      have hlt : i < (tip :: rest).length := getElem?_index_lt hb
      simp only [List.length_cons] at hlt
      exact hun1 i b (hdown i b hb) hlt
    · intro i b hb hi
      have hlt : i < (tip :: rest).length := getElem?_index_lt hb
      simp only [List.length_cons] at hlt
      omega

/-- C5, applied to the scenario E2: the chain P <- L1 <- L2 at levels 5, 6, 7 with
nseqconfsigs = 2 and no skips; exactly L1 is promoted, the last indelible level becomes
6 and the tip L2 stays an unmarked candidate. -/
theorem C5_witness_two_block_seq :
    (sampleChainState 0 0).m_have_fatal_error = false ∧
    (sampleChainState 0 0).m_last_indelible_block = some 0 ∧
    1 ≤ ((sampleChainState 0 0).heap 2).aux.blockchain_params.nseqconfsigs ∧
    ∃ t es, DoConfirmations envOk 5 (sampleChainState 0 0) 2 = .ok (false, t) ∧
      t.trace = (sampleChainState 0 0).trace ++ es ∧ promoted es = [1] ∧
      t.m_last_indelible_level = 6 ∧ t.m_last_indelible_block = some 1 ∧
      (t.heap 2).aux.marked_for_indelible = false ∧
      (t.heap 1).aux.marked_for_indelible = true := by
  have h21 : Above (sampleChainState 0 0).heap 2 1 := ⟨rfl, rfl, rfl⟩
  have h10 : Above (sampleChainState 0 0).heap 1 0 := ⟨rfl, rfl, rfl⟩
  have hmem : ∀ b ∈ [2, 1], b = 2 ∨ b = 1 := by
    intro b hb
    simpa using hb
  obtain ⟨t, es, hcall, htr, hprom, hlevel, hlast, hun, hmk, -⟩ :=
    C5_burst_promotion envOk 5 (sampleChainState 0 0) 2 [1] 0 rfl rfl rfl rfl rfl
      (List.chain'_cons.2 ⟨h21, List.chain'_cons.2 ⟨h10, List.chain'_singleton _⟩⟩)
      (fun b hb => by rcases hmem b hb with rfl | rfl <;> exact ⟨rfl, rfl⟩)
      (by decide) (by decide) (fun _ _ => rfl)
      (fun b hb w hw => by rcases hmem b hb with rfl | rfl <;> simp [sampleChainState,
        sampleHeap, sampleBlock] at hw)
      (by decide) (by decide)
  have hp : promoted es = [1] := by
    rw [hprom]
    decide
  refine ⟨rfl, rfl, by decide, t, es, hcall, htr, hp, hlevel, ?_, hun 0 2 rfl (by decide),
    hmk 1 1 rfl (by decide)⟩
  rw [hlast, hp]
  rfl

/-! ## The pseudo serial number and the prune level -/

theorem CheckCreatePseudoSerialnum_nin (env : Env) (txbuf out : TxPay) (wire : WireTx)
    (h : CheckCreatePseudoSerialnum env txbuf wire = .ok out) : 1 ≤ out.nin := by
  unfold CheckCreatePseudoSerialnum at h
  by_cases hn : txbuf.nin ≠ 0
  · rw [if_pos hn] at h
    cases h
    omega
  · rw [if_neg hn] at h
    by_cases ht : wire.tag = env.CC_TAG_TX_WIRE ∨ wire.tag = env.CC_TAG_TX_BLOCK
    · rw [if_pos ht] at h
      cases h
      exact Nat.le_refl 1
    · rw [if_neg ht] at h
      cases h

theorem CheckCreatePseudoSerialnum_zero (env : Env) (txbuf : TxPay) (wire : WireTx)
    (hn : txbuf.nin = 0)
    (ht : wire.tag = env.CC_TAG_TX_WIRE ∨ wire.tag = env.CC_TAG_TX_BLOCK) :
    CheckCreatePseudoSerialnum env txbuf wire =
      .ok { txbuf with nin := 1, input := env.blake2b wire.body :: txbuf.input.tail } := by
  unfold CheckCreatePseudoSerialnum
  rw [if_neg (by simp [hn]), if_pos ht]

/-- C16: `CheckCreatePseudoSerialnum` returns the buffer unchanged when it has an input;
for a buffer without inputs (whose object carries a transaction tag) it sets `nin` to 1
and puts the unkeyed BLAKE2b hash of the body bytes in the serial number of input slot
0, leaving every other field; every buffer it returns has `nin ≥ 1`; and the serial
numbers synthesised for two objects with the same body bytes are equal, whatever the
rest of the buffers and the tags. -/
theorem C16_pseudo_serialnum (env : Env) (txbuf : TxPay) (wire : WireTx) :
    (txbuf.nin ≠ 0 → CheckCreatePseudoSerialnum env txbuf wire = .ok txbuf) ∧
    (txbuf.nin = 0 → (wire.tag = env.CC_TAG_TX_WIRE ∨ wire.tag = env.CC_TAG_TX_BLOCK) →
      CheckCreatePseudoSerialnum env txbuf wire =
        .ok { txbuf with nin := 1, input := env.blake2b wire.body :: txbuf.input.tail }) ∧
    (∀ out, CheckCreatePseudoSerialnum env txbuf wire = .ok out → 1 ≤ out.nin) ∧
    (∀ txbuf2 wire2 out out2, txbuf.nin = 0 → txbuf2.nin = 0 → wire2.body = wire.body →
      CheckCreatePseudoSerialnum env txbuf wire = .ok out →
      CheckCreatePseudoSerialnum env txbuf2 wire2 = .ok out2 →
      out.input.head? = some (env.blake2b wire.body) ∧ out2.input.head? = out.input.head?) := by
  refine ⟨?_, ?_, ?_, ?_⟩
  · intro hn
    unfold CheckCreatePseudoSerialnum
    rw [if_pos hn]
  · intro hn ht
    exact CheckCreatePseudoSerialnum_zero env txbuf wire hn ht
  · intro out h
    exact CheckCreatePseudoSerialnum_nin env txbuf out wire h
  · intro txbuf2 wire2 out out2 hn hn2 hbody h1 h2
    have tagOf : ∀ (tb o : TxPay) (w : WireTx), tb.nin = 0 →
        CheckCreatePseudoSerialnum env tb w = .ok o →
        o.input.head? = some (env.blake2b w.body) := by
      intro tb o w hz h
      unfold CheckCreatePseudoSerialnum at h
      rw [if_neg (by simp [hz])] at h
      by_cases ht : w.tag = env.CC_TAG_TX_WIRE ∨ w.tag = env.CC_TAG_TX_BLOCK
      · rw [if_pos ht] at h
        cases h
        rfl
      · rw [if_neg ht] at h
        cases h
    have e1 := tagOf txbuf out wire hn h1
    have e2 := tagOf txbuf2 out2 wire2 hn2 h2
    rw [hbody] at e2
    exact ⟨e1, e2.trans e1.symm⟩

theorem ComputePruneLevel_eq (s : State) (last min_level trailing_rounds : Nat)
    (hlast : s.m_last_indelible_block = some last) :
    ComputePruneLevel s min_level trailing_rounds =
      max s.m_startup_prune_level
        (if (trailing_rounds * (s.heap last).aux.blockchain_params.nwitnesses) % UINT32_SIZE
            < (s.heap last).wire.level then
          (s.heap last).wire.level -
            (trailing_rounds * (s.heap last).aux.blockchain_params.nwitnesses) % UINT32_SIZE
        else min_level) := by
  unfold ComputePruneLevel
  rw [hlast]
  simp only [gt_iff_lt]
  have key : ∀ x : Nat, (if x < s.m_startup_prune_level then s.m_startup_prune_level else x) =
      max s.m_startup_prune_level x := by
    intro x
    by_cases hx : x < s.m_startup_prune_level
    · rw [if_pos hx, max_eq_left (Nat.le_of_lt hx)]
    · rw [if_neg hx, max_eq_right (Nat.le_of_not_lt hx)]
  exact key _

/-- C18 (as the code has it): with a last indelible block of level `l` and `n`
witnesses, and a product `trailing_rounds * n` below 2^32, `ComputePruneLevel` returns
the larger of the startup prune level and `l - trailing_rounds * n` when
`l > trailing_rounds * n`, and the larger of the startup prune level and `min_level`
otherwise. -/
theorem C18_ComputePruneLevel_floor (s : State) (last min_level trailing_rounds : Nat)
    (hlast : s.m_last_indelible_block = some last)
    (hprod : trailing_rounds * (s.heap last).aux.blockchain_params.nwitnesses < UINT32_SIZE) :
    ComputePruneLevel s min_level trailing_rounds =
      max s.m_startup_prune_level
        (if trailing_rounds * (s.heap last).aux.blockchain_params.nwitnesses
            < (s.heap last).wire.level then
          (s.heap last).wire.level -
            trailing_rounds * (s.heap last).aux.blockchain_params.nwitnesses
        else min_level) := by
  rw [ComputePruneLevel_eq s last min_level trailing_rounds hlast, Nat.mod_eq_of_lt hprod]

/-- C18, witness: the chain state with last indelible level 5 and three witnesses, one
trailing round. -/
theorem C18_witness_one_round :
    (sampleChainState 0 0).m_last_indelible_block = some 0 ∧
    ComputePruneLevel (sampleChainState 0 0) 1 1 = 2 :=
  ⟨rfl, (C18_ComputePruneLevel_floor (sampleChainState 0 0) 0 1 1 rfl (by decide)).trans
    (by decide)⟩

/-- C18, counterexample: with last indelible level 5, three witnesses, startup prune
level 0 and two trailing rounds (6 ≥ 5 levels), `ComputePruneLevel(10, 2)` returns
`min_level` = 10, where the claimed formula gives max(0, 0) = 0. -/
theorem C18_counterexample_min_level :
    (sampleChainState 0 0).m_last_indelible_block = some 0 ∧
    ComputePruneLevel (sampleChainState 0 0) 10 2 = 10 ∧
    max (sampleChainState 0 0).m_startup_prune_level
      (((sampleChainState 0 0).heap 0).wire.level -
        2 * ((sampleChainState 0 0).heap 0).aux.blockchain_params.nwitnesses) = 0 := by
  decide

/-! ## The loop of `CheckSerialnums` over the inputs -/

theorem CheckSerialnums.inputs_iff (env : Env) (fuel : Nat) (topblock : Option Ptr)
    (type : Int) (txobj : Option Ptr) (size : Nat) :
    ∀ (l : List Nat) (s : State) (rc : Int) (t : State),
      CheckSerialnums.inputs env fuel topblock type txobj size s l = .ok (rc, t) ↔
        (rc = 0 ∧ CheckSerialnums.clean env fuel topblock type txobj size s l t) ∨
        (rc ≠ 0 ∧ ∃ pre x post s1, l = pre ++ x :: post ∧
          CheckSerialnums.clean env fuel topblock type txobj size s pre s1 ∧
          CheckSerialnum env fuel s1 topblock type txobj x size = .ok (rc, t)) := by
  intro l
  induction l with
  | nil =>
    intro s rc t
    simp only [CheckSerialnums.inputs, CheckSerialnums.clean, Except.ok.injEq, Prod.mk.injEq]
    constructor
    · rintro ⟨rfl, rfl⟩
      exact Or.inl ⟨rfl, rfl⟩
    · rintro (⟨rfl, rfl⟩ | ⟨_, pre, x, post, s1, hl, _⟩)
      · exact ⟨rfl, rfl⟩
      · exact absurd hl (by simp)
  | cons serial rest ih =>
    intro s rc t
    rw [CheckSerialnums.inputs]
    cases hcs : CheckSerialnum env fuel s topblock type txobj serial size with
    | error f =>
      simp only
      constructor
      · intro h
        cases h
      · rintro (⟨_, s1, h1, _⟩ | ⟨_, pre, x, post, s1, hl, hclean, hx⟩)
        · rw [hcs] at h1
          cases h1
        · cases pre with
          | nil =>
            simp only [List.nil_append, List.cons.injEq] at hl
            obtain ⟨rfl, rfl⟩ := hl
            simp only [CheckSerialnums.clean] at hclean
            subst hclean
            rw [hcs] at hx
            cases hx
          | cons a pre =>
            simp only [List.cons_append, List.cons.injEq] at hl
            obtain ⟨rfl, rfl⟩ := hl
            obtain ⟨s2, h2, _⟩ := hclean
            rw [hcs] at h2
            cases h2
    | ok res =>
      obtain ⟨c, s1⟩ := res
      simp only
      by_cases hc : c ≠ 0
      · rw [if_pos hc]
        simp only [Except.ok.injEq, Prod.mk.injEq]
        constructor
        · rintro ⟨rfl, rfl⟩
          exact Or.inr ⟨hc, [], serial, rest, s, rfl, rfl, hcs⟩
        · rintro (⟨_, s2, h2, _⟩ | ⟨_, pre, x, post, s2, hl, hclean, hx⟩)
          · rw [hcs] at h2
            simp only [Except.ok.injEq, Prod.mk.injEq] at h2
            exact absurd h2.1 hc
          · cases pre with
            | nil =>
              simp only [List.nil_append, List.cons.injEq] at hl
              obtain ⟨rfl, rfl⟩ := hl
              simp only [CheckSerialnums.clean] at hclean
              subst hclean
              rw [hcs] at hx
              simp only [Except.ok.injEq, Prod.mk.injEq] at hx
              exact hx
            | cons a pre =>
              simp only [List.cons_append, List.cons.injEq] at hl
              obtain ⟨rfl, rfl⟩ := hl
              obtain ⟨s3, h3, _⟩ := hclean
              rw [hcs] at h3
              simp only [Except.ok.injEq, Prod.mk.injEq] at h3
              exact absurd h3.1 hc
      · rw [if_neg hc]
        have hc0 : c = 0 := by
          by_contra h
          exact hc h
        subst hc0
        rw [ih s1 rc t]
        constructor
        · rintro (⟨h0, hclean⟩ | ⟨hne, pre, x, post, s2, hl, hclean, hx⟩)
          · exact Or.inl ⟨h0, s1, hcs, hclean⟩
          · refine Or.inr ⟨hne, serial :: pre, x, post, s2, ?_, ⟨s1, hcs, hclean⟩, hx⟩
            rw [hl]
            rfl
        · rintro (⟨h0, s2, h2, hclean⟩ | ⟨hne, pre, x, post, s2, hl, hclean, hx⟩)
          · rw [hcs] at h2
            simp only [Except.ok.injEq, Prod.mk.injEq, true_and] at h2
            subst h2
            exact Or.inl ⟨h0, hclean⟩
          · cases pre with
            | nil =>
              simp only [List.nil_append, List.cons.injEq] at hl
              obtain ⟨rfl, rfl⟩ := hl
              simp only [CheckSerialnums.clean] at hclean
              subst hclean
              rw [hcs] at hx
              simp only [Except.ok.injEq, Prod.mk.injEq] at hx
              exact absurd hx.1.symm hne
            | cons a pre =>
              simp only [List.cons_append, List.cons.injEq] at hl
              obtain ⟨rfl, rfl⟩ := hl
              obtain ⟨s3, h3, hclean3⟩ := hclean
              rw [hcs] at h3
              simp only [Except.ok.injEq, Prod.mk.injEq, true_and] at h3
              subst h3
              exact Or.inr ⟨hne, pre, x, post, s2, rfl, hclean3, hx⟩

theorem CheckSerialnum_codes (env : Env) (fuel : Nat) (s : State) (topblock : Option Ptr)
    (type : Int) (txobj : Option Ptr) (serial size : Nat) (rc : Int) (t : State)
    (h : CheckSerialnum env fuel s topblock type txobj serial size = .ok (rc, t)) :
    rc = -1 ∨ rc = 0 ∨ rc = 2 ∨ rc = 3 ∨ rc = 4 := by
  unfold CheckSerialnum at h
  simp only at h
  split at h
  · simp only [Except.ok.injEq, Prod.mk.injEq] at h
    exact Or.inl h.1.symm
  · split at h
    · cases txobj <;>
      · simp only [Except.ok.injEq, Prod.mk.injEq] at h
        exact Or.inr (Or.inr (Or.inr (Or.inr h.1.symm)))
    · rcases (CheckSerialnum.pages_frame env fuel topblock type serial size _ fuel _ _ _ rc t
        h).2 with h1 | h1 | h1 | h1
      · exact Or.inl h1
      · exact Or.inr (Or.inl h1)
      · exact Or.inr (Or.inr (Or.inl h1))
      · exact Or.inr (Or.inr (Or.inr (Or.inl h1)))

theorem CheckSerialnums.inputs_codes (env : Env) (fuel : Nat) (topblock : Option Ptr)
    (type : Int) (txobj : Option Ptr) (size : Nat) (l : List Nat) (s : State) (rc : Int)
    (t : State)
    (h : CheckSerialnums.inputs env fuel topblock type txobj size s l = .ok (rc, t)) :
    rc = -1 ∨ rc = 0 ∨ rc = 2 ∨ rc = 3 ∨ rc = 4 := by
  rcases (CheckSerialnums.inputs_iff env fuel topblock type txobj size l s rc t).mp h with
    ⟨h0, _⟩ | ⟨_, pre, x, post, s1, _, _, hx⟩
  · exact Or.inr (Or.inl h0)
  · exact CheckSerialnum_codes env fuel s1 topblock type txobj x size rc t hx

/-- C13: `CheckSerialnums` returns -1 after the parse alone, with no lookup, when
`tx_from_wire` fails.  When the transaction parses (and the pseudo serial number has
been synthesised for a buffer without inputs) it returns `rc` in state `t` exactly when
either `rc = 0` and the calls of `CheckSerialnum` on all the inputs, in index order,
returned 0, or `rc ≠ 0` and the inputs before some input `x` returned 0 and the call on
`x` returned `rc` and left the state `t` (so no later input is checked).  Every result
is one of -1, 0, 2, 3, 4. -/
theorem C13_CheckSerialnums_first_nonzero (env : Env) (fuel : Nat) (s : State)
    (topblock : Option Ptr) (type : Int) (txobj : Option Ptr) (txwire : WireTx) :
    (env.tx_from_wire txwire = none →
      CheckSerialnums env fuel s topblock type txobj txwire
        = .ok (-1, s.log [Event.tx_from_wire txwire])) ∧
    (∀ parsed txbuf, env.tx_from_wire txwire = some parsed →
      CheckCreatePseudoSerialnum env parsed txwire = .ok txbuf →
      ∀ rc t, CheckSerialnums env fuel s topblock type txobj txwire = .ok (rc, t) ↔
        (rc = 0 ∧ CheckSerialnums.clean env fuel topblock type txobj SERIALNUM_BYTES
          (s.log [Event.tx_from_wire txwire]) txbuf.serialnums t) ∨
        (rc ≠ 0 ∧ ∃ pre x post s1, txbuf.serialnums = pre ++ x :: post ∧
          CheckSerialnums.clean env fuel topblock type txobj SERIALNUM_BYTES
            (s.log [Event.tx_from_wire txwire]) pre s1 ∧
          CheckSerialnum env fuel s1 topblock type txobj x SERIALNUM_BYTES = .ok (rc, t))) ∧
    (∀ rc t, CheckSerialnums env fuel s topblock type txobj txwire = .ok (rc, t) →
      rc = -1 ∨ rc = 0 ∨ rc = 2 ∨ rc = 3 ∨ rc = 4) := by
  refine ⟨?_, ?_, ?_⟩
  · intro hnone
    unfold CheckSerialnums
    simp only [hnone]
  · intro parsed txbuf hparse hpseudo rc t
    unfold CheckSerialnums
    simp only [hparse, hpseudo]
    exact CheckSerialnums.inputs_iff env fuel topblock type txobj SERIALNUM_BYTES _ _ rc t
  · intro rc t h
    unfold CheckSerialnums at h
    simp only at h
    cases hparse : env.tx_from_wire txwire with
    | none =>
      simp only [hparse, Except.ok.injEq, Prod.mk.injEq] at h
      exact Or.inl h.1.symm
    | some parsed =>
      simp only [hparse] at h
      cases hpseudo : CheckCreatePseudoSerialnum env parsed txwire with
      | error f =>
        simp only [hpseudo] at h
        cases h
      | ok txbuf =>
        simp only [hpseudo] at h
        exact CheckSerialnums.inputs_codes env fuel topblock type txobj SERIALNUM_BYTES _ _
          rc t h

/-- C13, witness: a transaction with the inputs 5, 6, 7 of which 6 is in the persistent
set: the result is 4 and the trace holds the lookups of 5 and 6 and none of 7; and a
transaction that does not parse gives -1 with the parse as the only effect. -/
theorem C13_witness_second_input_hit :
    (CheckSerialnums envSecondHit 3 (sampleChainState 0 0) (some 2) 0 none ⟨1, []⟩).toOption.map
      (fun r => (r.1, r.2.trace))
      = some (4, [Event.tx_from_wire ⟨1, []⟩, Event.SerialnumCheck 5,
          Event.TempSerialnumSelect 5 0 100, Event.SerialnumCheck 6]) ∧
    CheckSerialnums envOk 3 (sampleChainState 0 0) (some 2) 0 none ⟨1, []⟩
      = .ok (-1, (sampleChainState 0 0).log [Event.tx_from_wire ⟨1, []⟩]) :=
  ⟨by decide,
    (C13_CheckSerialnums_first_nonzero envOk 3 (sampleChainState 0 0) (some 2) 0 none
      ⟨1, []⟩).1 rfl⟩

/-! ## Walks down the prior links: `BlockInChain` and `ChainHasDelibleTxs` -/

theorem ancestor_succ_some (heap : Ptr → Block) (k : Nat) (p q : Ptr)
    (h : (heap p).prior = some q) : ancestor heap (k + 1) p = ancestor heap k q := by
  simp only [ancestor, h]

theorem ancestor_succ_none (heap : Ptr → Block) (k : Nat) (p : Ptr)
    (h : (heap p).prior = none) : ancestor heap (k + 1) p = none := by
  simp only [ancestor, h]

theorem ancestor_add (heap : Ptr → Block) :
    ∀ (j i : Nat) (p q : Ptr), ancestor heap j p = some q →
      ancestor heap (j + i) p = ancestor heap i q := by
  intro j
  induction j with
  | zero =>
    intro i p q h
    simp only [ancestor, Option.some.injEq] at h
    subst h
    rw [Nat.zero_add]
  | succ j ih =>
    intro i p q h
    cases hp : (heap p).prior with
    | none =>
      rw [ancestor_succ_none heap j p hp] at h
      cases h
    | some r =>
      rw [ancestor_succ_some heap j p r hp] at h
      have e : j + 1 + i = (j + i) + 1 := by omega
      rw [e, ancestor_succ_some heap (j + i) p r hp]
      exact ih i r q h

theorem ancestor_prefix (heap : Ptr → Block) :
    ∀ (k j : Nat) (p q : Ptr), ancestor heap k p = some q → j ≤ k →
      ∃ c, ancestor heap j p = some c := by
  intro k
  induction k with
  | zero =>
    intro j p q _ hj
    have : j = 0 := by omega
    subst this
    exact ⟨p, rfl⟩
  | succ k ih =>
    intro j p q h hj
    cases j with
    | zero => exact ⟨p, rfl⟩
    | succ j =>
      cases hp : (heap p).prior with
      | none =>
        rw [ancestor_succ_none heap k p hp] at h
        cases h
      | some r =>
        rw [ancestor_succ_some heap k p r hp] at h
        rw [ancestor_succ_some heap j p r hp]
        exact ih j r q h (by omega)

theorem DecreasingLevels.ancestor_level {heap : Ptr → Block} (hdec : DecreasingLevels heap) :
    ∀ (k : Nat) (p q : Ptr), ancestor heap k p = some q →
      (heap q).wire.level + k ≤ (heap p).wire.level := by
  intro k
  induction k with
  | zero =>
    intro p q h
    simp only [ancestor, Option.some.injEq] at h
    subst h
    omega
  | succ k ih =>
    intro p q h
    cases hp : (heap p).prior with
    | none =>
      rw [ancestor_succ_none heap k p hp] at h
      cases h
    | some r =>
      rw [ancestor_succ_some heap k p r hp] at h
      have h1 := ih r q h
      have h2 := hdec p r hp
      omega

theorem DecreasingLevels.chain_ends {heap : Ptr → Block} (hdec : DecreasingLevels heap)
    (p : Ptr) : ancestor heap ((heap p).wire.level + 1) p = none := by
  cases h : ancestor heap ((heap p).wire.level + 1) p with
  | none => rfl
  | some q =>
    have := hdec.ancestor_level _ p q h
    omega

theorem DecreasingLevels.level_above {heap : Ptr → Block} (hdec : DecreasingLevels heap)
    (k j : Nat) (p q c : Ptr) (hq : ancestor heap k p = some q) (hj : j ≤ k)
    (hc : ancestor heap j p = some c) : (heap q).wire.level + (k - j) ≤ (heap c).wire.level := by
  have e : ancestor heap (j + (k - j)) p = ancestor heap (k - j) c :=
    ancestor_add heap j (k - j) p c hc
  have e2 : j + (k - j) = k := by omega
  rw [e2, hq] at e
  exact hdec.ancestor_level (k - j) c q e.symm

theorem visitedFrom_step (heap : Ptr → Block) (top q find : Ptr) (level : Nat)
    (hne : top ≠ find) (hp : (heap top).prior = some q)
    (hlev : level < (heap top).wire.level) :
    visitedFrom heap top find level ↔ visitedFrom heap q find level := by
  constructor
  · rintro ⟨k, hk, hall⟩
    cases k with
    | zero =>
      simp only [ancestor, Option.some.injEq] at hk
      exact absurd hk hne
    | succ k =>
      rw [ancestor_succ_some heap k top q hp] at hk
      refine ⟨k, hk, ?_⟩
      intro j c hj hc
      apply hall (j + 1) c (by omega)
      rw [ancestor_succ_some heap j top q hp]
      exact hc
  · rintro ⟨k, hk, hall⟩
    refine ⟨k + 1, ?_, ?_⟩
    · rw [ancestor_succ_some heap k top q hp]
      exact hk
    · intro j c hj hc
      cases j with
      | zero =>
        simp only [ancestor, Option.some.injEq] at hc
        subst hc
        exact hlev
      | succ j =>
        rw [ancestor_succ_some heap j top q hp] at hc
        exact hall j c (by omega) hc

theorem BlockInChain_iff (heap : Ptr → Block) (find li : Ptr) :
    ∀ (fuel : Nat) (top : Ptr) (b : Bool),
      BlockInChain heap fuel find (some top) (some li) = .ok b →
      (b = true ↔ visitedFrom heap top find (heap li).wire.level) := by
  intro fuel
  induction fuel with
  | zero =>
    intro top b h
    simp [BlockInChain] at h
  | succ fuel ih =>
    intro top b h
    rw [BlockInChain] at h
    by_cases heq : top = find
    · rw [if_pos heq] at h
      simp only [Except.ok.injEq] at h
      subst h
      simp only [true_iff]
      refine ⟨0, ?_, ?_⟩
      · rw [heq]
        rfl
      · intro j c hj
        omega
    · rw [if_neg heq] at h
      by_cases hlev : (heap top).wire.level ≤ (heap li).wire.level
      · rw [if_pos hlev] at h
        simp only [Except.ok.injEq] at h
        subst h
        simp only [Bool.false_eq_true, false_iff]
        rintro ⟨k, hk, hall⟩
        cases k with
        | zero =>
          simp only [ancestor, Option.some.injEq] at hk
          exact heq hk
        | succ k =>
          have := hall 0 top (by omega) rfl
          omega
      · rw [if_neg hlev] at h
        cases hp : (heap top).prior with
        | none =>
          rw [hp] at h
          have hb : b = false := by
            cases fuel with
            | zero => simp [BlockInChain] at h
            | succ fuel =>
              simp only [BlockInChain, Except.ok.injEq] at h
              exact h.symm
          subst hb
          simp only [Bool.false_eq_true, false_iff]
          rintro ⟨k, hk, _⟩
          cases k with
          | zero =>
            simp only [ancestor, Option.some.injEq] at hk
            exact heq hk
          | succ k =>
            rw [ancestor_succ_none heap k top hp] at hk
            cases hk
        | some q =>
          rw [hp] at h
          rw [visitedFrom_step heap top q find _ heq hp (by omega)]
          exact ih q b h

theorem BlockInChain_total (heap : Ptr → Block) (find li : Ptr) :
    ∀ (d fuel : Nat) (top : Ptr), ancestor heap d top = none → d < fuel →
      ∃ b, BlockInChain heap fuel find (some top) (some li) = .ok b := by
  intro d
  induction d with
  | zero =>
    intro fuel top h
    simp [ancestor] at h
  | succ d ih =>
    intro fuel top h hd
    obtain ⟨fuel, rfl⟩ : ∃ f, fuel = f + 1 := ⟨fuel - 1, by omega⟩
    rw [BlockInChain]
    by_cases heq : top = find
    · rw [if_pos heq]
      exact ⟨true, rfl⟩
    · rw [if_neg heq]
      by_cases hlev : (heap top).wire.level ≤ (heap li).wire.level
      · rw [if_pos hlev]
        exact ⟨false, rfl⟩
      · rw [if_neg hlev]
        cases hp : (heap top).prior with
        | none =>
          obtain ⟨fuel, rfl⟩ : ∃ f, fuel = f + 1 := ⟨fuel - 1, by omega⟩
          exact ⟨false, by simp [BlockInChain]⟩
        | some q =>
          rw [ancestor_succ_some heap d top q hp] at h
          exact ih fuel q h (by omega)

theorem delibleTxFrom_step (heap : Ptr → Block) (tip q : Ptr) (level : Nat)
    (hno : (heap tip).HasTx = false) (hp : (heap tip).prior = some q)
    (hlev : level < (heap tip).wire.level) :
    delibleTxFrom heap tip level ↔ delibleTxFrom heap q level := by
  constructor
  · rintro ⟨k, c, hk, htx, hall⟩
    cases k with
    | zero =>
      simp only [ancestor, Option.some.injEq] at hk
      subst hk
      rw [hno] at htx
      cases htx
    | succ k =>
      rw [ancestor_succ_some heap k tip q hp] at hk
      refine ⟨k, c, hk, htx, ?_⟩
      intro j c2 hj hc
      apply hall (j + 1) c2 (by omega)
      rw [ancestor_succ_some heap j tip q hp]
      exact hc
  · rintro ⟨k, c, hk, htx, hall⟩
    refine ⟨k + 1, c, ?_, htx, ?_⟩
    · rw [ancestor_succ_some heap k tip q hp]
      exact hk
    · intro j c2 hj hc
      cases j with
      | zero =>
        simp only [ancestor, Option.some.injEq] at hc
        subst hc
        exact hlev
      | succ j =>
        rw [ancestor_succ_some heap j tip q hp] at hc
        exact hall j c2 (by omega) hc

theorem ChainHasDelibleTxs_iff (heap : Ptr → Block) (level : Nat) :
    ∀ (fuel : Nat) (tip : Ptr) (b : Bool),
      ChainHasDelibleTxs heap fuel (some tip) level = .ok b →
      (b = true ↔ delibleTxFrom heap tip level) := by
  intro fuel
  induction fuel with
  | zero =>
    intro tip b h
    simp [ChainHasDelibleTxs] at h
  | succ fuel ih =>
    intro tip b h
    rw [ChainHasDelibleTxs] at h
    by_cases hlev : (heap tip).wire.level ≤ level
    · rw [if_pos hlev] at h
      simp only [Except.ok.injEq] at h
      subst h
      simp only [Bool.false_eq_true, false_iff]
      rintro ⟨k, c, _, _, hall⟩
      have := hall 0 tip (by omega) rfl
      omega
    · rw [if_neg hlev] at h
      cases htx : (heap tip).HasTx with
      | true =>
        rw [htx] at h
        simp only [if_true, Except.ok.injEq] at h
        subst h
        simp only [true_iff]
        refine ⟨0, tip, rfl, htx, ?_⟩
        intro j c2 hj hc
        have : j = 0 := by omega
        subst this
        simp only [ancestor, Option.some.injEq] at hc
        subst hc
        omega
      | false =>
        rw [htx] at h
        simp only [Bool.false_eq_true, if_false] at h
        cases hp : (heap tip).prior with
        | none =>
          rw [hp] at h
          have hb : b = false := by
            cases fuel with
            | zero => simp [ChainHasDelibleTxs] at h
            | succ fuel =>
              simp only [ChainHasDelibleTxs, Except.ok.injEq] at h
              exact h.symm
          subst hb
          simp only [Bool.false_eq_true, false_iff]
          rintro ⟨k, c, hk, hc, _⟩
          cases k with
          | zero =>
            simp only [ancestor, Option.some.injEq] at hk
            subst hk
            rw [htx] at hc
            cases hc
          | succ k =>
            rw [ancestor_succ_none heap k tip hp] at hk
            cases hk
        | some q =>
          rw [hp] at h
          rw [delibleTxFrom_step heap tip q level htx hp (by omega)]
          exact ih q b h

theorem ChainHasDelibleTxs_total (heap : Ptr → Block) (level : Nat) :
    ∀ (d fuel : Nat) (tip : Ptr), ancestor heap d tip = none → d < fuel →
      ∃ b, ChainHasDelibleTxs heap fuel (some tip) level = .ok b := by
  intro d
  induction d with
  | zero =>
    intro fuel tip h
    simp [ancestor] at h
  | succ d ih =>
    intro fuel tip h hd
    obtain ⟨fuel, rfl⟩ : ∃ f, fuel = f + 1 := ⟨fuel - 1, by omega⟩
    rw [ChainHasDelibleTxs]
    by_cases hlev : (heap tip).wire.level ≤ level
    · rw [if_pos hlev]
      exact ⟨false, rfl⟩
    · rw [if_neg hlev]
      cases htx : (heap tip).HasTx with
      | true => exact ⟨true, by simp⟩
      | false =>
        simp only [Bool.false_eq_true, if_false]
        cases hp : (heap tip).prior with
        | none =>
          obtain ⟨fuel, rfl⟩ : ∃ f, fuel = f + 1 := ⟨fuel - 1, by omega⟩
          exact ⟨false, by simp [ChainHasDelibleTxs]⟩
        | some q =>
          rw [ancestor_succ_some heap d tip q hp] at h
          exact ih fuel q h (by omega)

theorem samplePayloadHeap_decreasing : DecreasingLevels samplePayloadHeap := by
  intro p q h
  match p with
  | 0 => simp [samplePayloadHeap, sampleHeap, sampleBlock] at h
  | 1 =>
    simp [samplePayloadHeap, sampleHeap, sampleBlock] at h
    subst h
    decide
  | 2 =>
    simp [samplePayloadHeap, sampleHeap, sampleBlock] at h
    subst h
    decide
  | n + 3 => simp [samplePayloadHeap, sampleHeap, sampleBlock] at h

/-- C12 (as the code has it): on a heap whose levels strictly decrease along prior links,
with a non-null last indelible block and fuel above the level of `top`,
`BlockInChain(find, top, last_indelible)` returns, and returns true exactly when `find`
is `top` or an ancestor of `top` such that every block above it on the path from `top`
has a level greater than the last indelible level (the identity test is made before
the level test).  So every block of the path whose level is at least the last indelible
level is reported, the one at that level included; and a block is reported only if it
is on the path. -/
theorem C12_BlockInChain_visited (heap : Ptr → Block) (find li top : Ptr) (fuel : Nat)
    (hdec : DecreasingLevels heap) (hfuel : (heap top).wire.level + 1 < fuel) :
    ∃ b, BlockInChain heap fuel find (some top) (some li) = .ok b ∧
      (b = true ↔ visitedFrom heap top find (heap li).wire.level) ∧
      (∀ k, ancestor heap k top = some find →
        (heap li).wire.level ≤ (heap find).wire.level → b = true) ∧
      (b = true → ∃ k, ancestor heap k top = some find) := by
  obtain ⟨b, hb⟩ := BlockInChain_total heap find li _ fuel top (hdec.chain_ends top) hfuel
  have hiff := BlockInChain_iff heap find li fuel top b hb
  refine ⟨b, hb, hiff, ?_, ?_⟩
  · intro k hk hlev
    rw [hiff]
    refine ⟨k, hk, ?_⟩
    intro j c hj hc
    have := hdec.level_above k j top find c hk (by omega) hc
    omega
  · intro ht
    obtain ⟨k, hk, _⟩ := hiff.mp ht
    exact ⟨k, hk⟩

/-- C12, witness: on the chain P <- L1 <- L2 with P last indelible, L1 is in the chain
of L2. -/
theorem C12_witness_L1_in_chain :
    DecreasingLevels samplePayloadHeap ∧
    BlockInChain samplePayloadHeap 9 1 (some 2) (some 0) = .ok true ∧
    ∃ b, BlockInChain samplePayloadHeap 9 1 (some 2) (some 0) = .ok b ∧
      (b = true ↔ visitedFrom samplePayloadHeap 2 1 (samplePayloadHeap 0).wire.level) ∧
      (∀ k, ancestor samplePayloadHeap k 2 = some 1 →
        (samplePayloadHeap 0).wire.level ≤ (samplePayloadHeap 1).wire.level → b = true) ∧
      (b = true → ∃ k, ancestor samplePayloadHeap k 2 = some 1) :=
  ⟨samplePayloadHeap_decreasing, rfl,
    C12_BlockInChain_visited samplePayloadHeap 1 0 2 9 samplePayloadHeap_decreasing
      (by decide)⟩

/-- C12, counterexample: on the chain P <- L1 <- L2 (levels 5, 6, 7) with P the last
indelible block, `BlockInChain(P, L2, P)` returns true although the level of P is not
greater than the last indelible level; and `BlockInChain(P, P, P)` returns true as
well. -/
theorem C12_counterexample_boundary_block :
    DecreasingLevels samplePayloadHeap ∧
    ancestor samplePayloadHeap 2 2 = some 0 ∧
    BlockInChain samplePayloadHeap 9 0 (some 2) (some 0) = .ok true ∧
    BlockInChain samplePayloadHeap 9 0 (some 0) (some 0) = .ok true ∧
    ¬ ((samplePayloadHeap 0).wire.level < (samplePayloadHeap 0).wire.level) :=
  ⟨samplePayloadHeap_decreasing, rfl, rfl, rfl, by decide⟩

/-- C14: `ChainHasDelibleTxs` returns false for a null tip.  For a tip whose chain of
prior links ends (and fuel above its length) it returns, and returns true exactly when
some block with a payload is met, from the tip down the prior links, before the first
block whose level is at most `level`.  When levels strictly decrease along prior links
this is: the tip or one of its ancestors has a level greater than `level` and a
payload. -/
theorem C14_ChainHasDelibleTxs_visits (heap : Ptr → Block) (level : Nat) :
    (∀ fuel, ChainHasDelibleTxs heap (fuel + 1) none level = .ok false) ∧
    (∀ d fuel tip, ancestor heap d tip = none → d < fuel →
      ∃ b, ChainHasDelibleTxs heap fuel (some tip) level = .ok b ∧
        (b = true ↔ delibleTxFrom heap tip level)) ∧
    (DecreasingLevels heap → ∀ fuel tip, (heap tip).wire.level + 1 < fuel →
      ∃ b, ChainHasDelibleTxs heap fuel (some tip) level = .ok b ∧
        (b = true ↔ ∃ k c, ancestor heap k tip = some c ∧ level < (heap c).wire.level ∧
          (heap c).HasTx = true)) := by
  refine ⟨?_, ?_, ?_⟩
  · intro fuel
    rfl
  · intro d fuel tip hd hfuel
    obtain ⟨b, hb⟩ := ChainHasDelibleTxs_total heap level d fuel tip hd hfuel
    exact ⟨b, hb, ChainHasDelibleTxs_iff heap level fuel tip b hb⟩
  · intro hdec fuel tip hfuel
    obtain ⟨b, hb⟩ :=
      ChainHasDelibleTxs_total heap level _ fuel tip (hdec.chain_ends tip) hfuel
    refine ⟨b, hb, ?_⟩
    rw [ChainHasDelibleTxs_iff heap level fuel tip b hb]
    constructor
    · rintro ⟨k, c, hk, htx, hall⟩
      exact ⟨k, c, hk, hall k c (Nat.le_refl k) hk, htx⟩
    · rintro ⟨k, c, hk, hlev, htx⟩
      refine ⟨k, c, hk, htx, ?_⟩
      intro j c2 hj hc2
      have := hdec.level_above k j tip c c2 hk hj hc2
      omega

/-- C14, witness: on the chain P <- L1 <- L2 (levels 5, 6, 7) in which L1 alone has a
payload, the chain of L2 has delible transactions above level 5 and none above
level 6. -/
theorem C14_witness_payload_at_L1 :
    DecreasingLevels samplePayloadHeap ∧
    ChainHasDelibleTxs samplePayloadHeap 9 (some 2) 5 = .ok true ∧
    ChainHasDelibleTxs samplePayloadHeap 9 (some 2) 6 = .ok false ∧
    ∃ b, ChainHasDelibleTxs samplePayloadHeap 9 (some 2) 5 = .ok b ∧
      (b = true ↔ ∃ k c, ancestor samplePayloadHeap k 2 = some c ∧
        5 < (samplePayloadHeap c).wire.level ∧ (samplePayloadHeap c).HasTx = true) :=
  ⟨samplePayloadHeap_decreasing, rfl, rfl,
    (C14_ChainHasDelibleTxs_visits samplePayloadHeap 5).2.2 samplePayloadHeap_decreasing 9 2
      (by decide)⟩

/-! ## Marks are only set, and the marked set stays closed under ancestors -/

theorem MarksOnly.same (h : Ptr → Block) (l : Ptr) : MarksOnly h h l :=
  ⟨HeapMarks.refl h, fun _ hp => Or.inr hp⟩

theorem MarksOnly.of_entered (s : State) (b : Ptr) : MarksOnly s.heap (s.entered b).heap b := by
  refine ⟨HeapMarks.entered s b, ?_⟩
  intro p hp
  by_cases hpb : p = b
  · exact Or.inl hpb
  · right
    simpa [State.entered, State.setMarked, State.log, hpb] using hp

theorem SetNewlyIndelibleBlock_marksOnly (env : Env) (s : State) (b : Ptr) (r : Bool)
    (t : State) (h : SetNewlyIndelibleBlock env s b = .ok (r, t)) :
    MarksOnly s.heap t.heap b := by
  rcases SetNewlyIndelibleBlock_spec env s b r t h with
    ⟨-, -, rfl⟩ | ⟨-, -, -, rfl⟩ | ⟨-, -, -, p, msg, -, -, rfl⟩ | ⟨-, -, -, hc⟩
  · exact MarksOnly.same _ b
  · exact MarksOnly.same _ b
  · exact MarksOnly.of_entered s b
  · have hheap : t.heap = (s.entered b).heap := by
      rcases SetNewlyIndelibleBlock.commit_spec env _ b r t hc with ⟨-, hrun⟩ | ⟨-, t0, hrun, rfl⟩
      · exact hrun.heap
      · exact hrun.heap
    rw [hheap]
    exact MarksOnly.of_entered s b

theorem DoConfirmOne.walk_last :
    ∀ (fuel : Nat) (s : State) (block n : Nat) (t : State) (m : Nat) (l : Ptr),
      DoConfirmOne.walk fuel s block n = .ok (t, some (m, l)) →
      (∃ k, ancestor s.heap k block = some l) ∧ PriorSettled s.heap l := by
  intro fuel
  induction fuel with
  | zero =>
    intro s block n t m l h
    simp [DoConfirmOne.walk] at h
  | succ fuel ih =>
    intro s block n t m l h
    unfold DoConfirmOne.walk at h
    cases hp : (s.heap block).prior with
    | none =>
      simp only [hp, Except.ok.injEq, Prod.mk.injEq, Option.some.injEq] at h
      obtain ⟨-, -, rfl⟩ := h
      exact ⟨⟨0, rfl⟩, Or.inl hp⟩
    | some prior_block =>
      simp only [hp] at h
      by_cases hl : (s.heap prior_block).wire.level ≠
          ((s.heap block).wire.level + UINT64_SIZE - 1) % UINT64_SIZE
      · rw [if_pos hl] at h
        simp only [Except.ok.injEq, Prod.mk.injEq] at h
        exact absurd h.2 (by simp)
      · rw [if_neg hl] at h
        cases hm : (s.heap prior_block).aux.marked_for_indelible with
        | true =>
          rw [if_pos (by simpa [State.log] using hm)] at h
          simp only [Except.ok.injEq, Prod.mk.injEq, Option.some.injEq] at h
          obtain ⟨-, -, rfl⟩ := h
          exact ⟨⟨0, rfl⟩, Or.inr ⟨prior_block, hp, hm⟩⟩
        | false =>
          rw [if_neg (by simp [State.log, hm])] at h
          obtain ⟨⟨k, hk⟩, hset⟩ := ih _ _ _ _ _ _ h
          refine ⟨⟨k + 1, ?_⟩, hset⟩
          rw [ancestor_succ_some s.heap k block prior_block hp]
          exact hk

theorem DoConfirmOne_marksOnly (env : Env) (fuel : Nat) (s : State) (newobj : Ptr) (r : Bool)
    (t : State) (h : DoConfirmOne env fuel s newobj = .ok (r, t)) :
    t.heap = s.heap ∨
      ∃ l k, ancestor s.heap k newobj = some l ∧ PriorSettled s.heap l ∧
        MarksOnly s.heap t.heap l := by
  unfold DoConfirmOne at h
  cases hm : (s.heap newobj).aux.marked_for_indelible with
  | true =>
    rw [if_pos (by simpa [State.log] using hm)] at h
    simp only [Except.ok.injEq, Prod.mk.injEq] at h
    obtain ⟨rfl, rfl⟩ := h
    exact Or.inl rfl
  | false =>
    rw [if_neg (by simp [State.log, hm])] at h
    cases hw : DoConfirmOne.walk fuel (s.log [Event.ReadMarked newobj]) newobj 1 with
    | error f => simp [hw] at h
    | ok res =>
      obtain ⟨s1, wres⟩ := res
      obtain ⟨f, es, rfl, -, -, -⟩ := DoConfirmOne.walk_frame _ _ _ _ _ _ hw
      simp only [hw] at h
      cases wres with
      | none =>
        simp only [Except.ok.injEq, Prod.mk.injEq] at h
        obtain ⟨rfl, rfl⟩ := h
        exact Or.inl rfl
      | some pr =>
        obtain ⟨nconfsigs, lastobj⟩ := pr
        simp only at h
        obtain ⟨⟨k, hk⟩, hset⟩ := DoConfirmOne.walk_last _ _ _ _ _ _ _ hw
        split at h
        · simp only [Except.ok.injEq, Prod.mk.injEq] at h
          obtain ⟨rfl, rfl⟩ := h
          exact Or.inl rfl
        · exact Or.inr ⟨lastobj, k, hk, hset,
            SetNewlyIndelibleBlock_marksOnly env
              ((s.log [Event.ReadMarked newobj]).upd f es) lastobj r t h⟩

theorem AncestorClosed.mark_one {h k : Ptr → Block} {tip l : Ptr} {n : Nat}
    (hmarks : MarksOnly h k l) (hl : ancestor h n tip = some l) (hset : PriorSettled h l)
    (hclosed : AncestorClosed h tip) : AncestorClosed k tip := by
  intro i b hb hbm j c hc
  rw [ancestor_heapMarks hmarks.1] at hb hc
  rcases hmarks.2 b hbm with hbl | hbold
  · subst hbl
    cases j with
    | zero =>
      simp only [ancestor, Option.some.injEq] at hc
      subst hc
      exact hbm
    | succ j =>
      rcases hset with hnone | ⟨q, hq, hqm⟩
      · rw [ancestor_succ_none h j b hnone] at hc
        cases hc
      · rw [ancestor_succ_some h j b q hq] at hc
        have hqa : ancestor h (n + 1) tip = some q := by
          rw [ancestor_add h n 1 tip b hl, ancestor_succ_some h 0 b q hq]
          rfl
        exact hmarks.1.marked c (hclosed (n + 1) q hqa hqm j c hc)
  · exact hmarks.1.marked c (hclosed i b hb hbold j c hc)

theorem DoConfirmOne_closed (env : Env) (fuel : Nat) (s : State) (newobj : Ptr) (r : Bool)
    (t : State) (h : DoConfirmOne env fuel s newobj = .ok (r, t))
    (hclosed : AncestorClosed s.heap newobj) : AncestorClosed t.heap newobj := by
  rcases DoConfirmOne_marksOnly env fuel s newobj r t h with heq | ⟨l, k, hk, hset, hmarks⟩
  · rw [heq]
    exact hclosed
  · exact AncestorClosed.mark_one hmarks hk hset hclosed

theorem DoConfirmationLoop.iterate_closed (env : Env) (walkfuel : Nat) :
    ∀ (fuel : Nat) (s : State) (newobj : Ptr) (have_new fatal_return have_new2 : Bool)
      (t : State),
      DoConfirmationLoop.iterate env walkfuel fuel s newobj have_new
        = .ok (fatal_return, have_new2, t) →
      HeapMarks s.heap t.heap ∧ (AncestorClosed s.heap newobj → AncestorClosed t.heap newobj) := by
  intro fuel
  induction fuel with
  | zero =>
    intro s newobj hn fr hn2 t h
    simp [DoConfirmationLoop.iterate] at h
  | succ fuel ih =>
    intro s newobj hn fr hn2 t h
    unfold DoConfirmationLoop.iterate at h
    cases hone : DoConfirmOne env walkfuel s newobj with
    | error f => simp [hone] at h
    | ok res =>
      obtain ⟨rc, s1⟩ := res
      simp only [hone] at h
      have hstep := DoConfirmOne_step env walkfuel s newobj rc s1 hone
      have hcl := DoConfirmOne_closed env walkfuel s newobj rc s1 hone
      by_cases hf : s1.m_have_fatal_error = true
      · rw [if_pos hf] at h
        simp only [Except.ok.injEq, Prod.mk.injEq] at h
        obtain ⟨-, -, rfl⟩ := h
        exact ⟨hstep.1, hcl⟩
      · rw [if_neg hf] at h
        cases rc with
        | true =>
          simp only [if_true, Except.ok.injEq, Prod.mk.injEq] at h
          obtain ⟨-, -, rfl⟩ := h
          exact ⟨hstep.1, hcl⟩
        | false =>
          simp only [Bool.false_eq_true, if_false] at h
          obtain ⟨hm2, hcl2⟩ := ih s1 newobj true fr hn2 t h
          exact ⟨hstep.1.trans_marks hm2, fun hc => hcl2 (hcl hc)⟩

theorem DoConfirmations_closed (env : Env) (fuel : Nat) (s : State) (newobj : Ptr) (r : Bool)
    (t : State) (h : DoConfirmations env fuel s newobj = .ok (r, t)) :
    HeapMarks s.heap t.heap ∧ (AncestorClosed s.heap newobj → AncestorClosed t.heap newobj) := by
  unfold DoConfirmations at h
  by_cases hs : s.m_have_fatal_error = true
  · rw [if_pos hs] at h
    simp only [Except.ok.injEq, Prod.mk.injEq] at h
    obtain ⟨-, rfl⟩ := h
    exact ⟨HeapMarks.refl _, fun hc => hc⟩
  · rw [if_neg hs] at h
    unfold DoConfirmationLoop at h
    cases hi : DoConfirmationLoop.iterate env fuel fuel s newobj false with
    | error f => simp [hi] at h
    | ok res =>
      obtain ⟨fr, hn2, s1⟩ := res
      have hrun := DoConfirmationLoop.iterate_closed env fuel fuel s newobj false fr hn2 s1 hi
      simp only [hi] at h
      have hheap : t.heap = s1.heap := by
        cases fr with
        | true =>
          simp only [if_true, Except.ok.injEq, Prod.mk.injEq] at h
          obtain ⟨-, rfl⟩ := h
          rfl
        | false =>
          simp only [Bool.false_eq_true, if_false] at h
          cases hn2 with
          | false =>
            simp only [Bool.not_false, if_true, Except.ok.injEq, Prod.mk.injEq] at h
            obtain ⟨-, rfl⟩ := h
            rfl
          | true =>
            simp only [Bool.not_true, Bool.false_eq_true, if_false] at h
            cases hnb : s1.m_new_indelible_block with
            | none => simp [hnb] at h
            | some new_block =>
              simp only [hnb] at h
              by_cases hrc : env.rc s1.trace (Event.EndWrite true) ≠ 0
              · rw [if_pos hrc] at h
                simp only [Except.ok.injEq, Prod.mk.injEq] at h
                obtain ⟨-, rfl⟩ := h
                rfl
              · rw [if_neg hrc] at h
                simp only [Except.ok.injEq, Prod.mk.injEq] at h
                obtain ⟨-, rfl⟩ := h
                rfl
      rw [hheap]
      exact hrun

theorem sampleChainState_closed : AncestorClosed (sampleChainState 0 0).heap 2 := by
  intro k b hb hbm j c hc
  match k with
  | 0 =>
    simp only [ancestor, Option.some.injEq] at hb
    subst hb
    exact absurd hbm (by decide)
  | 1 =>
    have : b = 1 := by
      have e : ancestor (sampleChainState 0 0).heap 1 2 = some 1 := rfl
      rw [e] at hb
      exact (Option.some.inj hb).symm
    subst this
    exact absurd hbm (by decide)
  | 2 =>
    have : b = 0 := by
      have e : ancestor (sampleChainState 0 0).heap 2 2 = some 0 := rfl
      rw [e] at hb
      exact (Option.some.inj hb).symm
    subst this
    match j with
    | 0 =>
      simp only [ancestor, Option.some.injEq] at hc
      subst hc
      rfl
    | j + 1 =>
      have e : ancestor (sampleChainState 0 0).heap (j + 1) 0 = none := rfl
      rw [e] at hc
      cases hc
  | k + 3 =>
    have e : ancestor (sampleChainState 0 0).heap (k + 3) 2 = none := rfl
    rw [e] at hb
    cases hb

/-- C17: a block marked before a call of `SetNewlyIndelibleBlock`, `DoConfirmOne` or
`DoConfirmations` is marked after it, whatever the result and whether or not the fatal
flag was latched; and if before a call of `DoConfirmations` the marked blocks of the
chain of the tip are closed under ancestors, they are so after the call. -/
theorem C17_marks_monotone_closed (env : Env) (fuel : Nat) (s : State) (b : Ptr) (r : Bool)
    (t : State) :
    (SetNewlyIndelibleBlock env s b = .ok (r, t) →
      ∀ p, (s.heap p).aux.marked_for_indelible = true →
        (t.heap p).aux.marked_for_indelible = true) ∧
    (DoConfirmOne env fuel s b = .ok (r, t) →
      ∀ p, (s.heap p).aux.marked_for_indelible = true →
        (t.heap p).aux.marked_for_indelible = true) ∧
    (DoConfirmations env fuel s b = .ok (r, t) →
      (∀ p, (s.heap p).aux.marked_for_indelible = true →
        (t.heap p).aux.marked_for_indelible = true) ∧
      (AncestorClosed s.heap b → AncestorClosed t.heap b)) := by
  refine ⟨?_, ?_, ?_⟩
  · intro h p hp
    exact (SetNewlyIndelibleBlock_marksOnly env s b r t h).1.marked p hp
  · intro h p hp
    exact (DoConfirmOne_step env fuel s b r t h).1.marked p hp
  · intro h
    obtain ⟨hm, hc⟩ := DoConfirmations_closed env fuel s b r t h
    exact ⟨fun p hp => hm.marked p hp, hc⟩

/-- C17, witness: the run of `DoConfirmations` on the chain P <- L1 <- L2 (P marked and
last indelible) promotes L1; P stays marked, L1 is marked, and the marked blocks of the
chain are closed under ancestors before and after. -/
theorem C17_witness_chain_run :
    AncestorClosed (sampleChainState 0 0).heap 2 ∧
    ∃ t, DoConfirmations envOk 5 (sampleChainState 0 0) 2 = .ok (false, t) ∧
      (t.heap 0).aux.marked_for_indelible = true ∧
      (t.heap 1).aux.marked_for_indelible = true ∧
      AncestorClosed t.heap 2 := by
  obtain ⟨t, ht⟩ : ∃ t, DoConfirmations envOk 5 (sampleChainState 0 0) 2
      = .ok (false, t) := ⟨_, rfl⟩
  have h := (C17_marks_monotone_closed envOk 5 (sampleChainState 0 0) 2 false t).2.2 ht
  refine ⟨sampleChainState_closed, t, ht, h.1 0 rfl, ?_, h.2 sampleChainState_closed⟩
  have hev : (DoConfirmations envOk 5 (sampleChainState 0 0) 2).toOption.map
      (fun x => (x.2.heap 1).aux.marked_for_indelible) = some true := by decide
  rw [ht] at hev
  simpa [Except.toOption] using hev

/-! ## The commit sequence stops at the first failing call -/

theorem Env.noFailure_append (env : Env) :
    ∀ (a b hist : List Event),
      env.noFailure hist (a ++ b) ↔ env.noFailure hist a ∧ env.noFailure (hist ++ a) b := by
  intro a
  induction a with
  | nil =>
    intro b hist
    simp [Env.noFailure]
  | cons e a ih =>
    intro b hist
    have e1 : hist ++ e :: a = (hist ++ [e]) ++ a := by simp
    show env.failed hist e = false ∧ env.noFailure (hist ++ [e]) (a ++ b) ↔
      (env.failed hist e = false ∧ env.noFailure (hist ++ [e]) a) ∧
        env.noFailure (hist ++ e :: a) b
    rw [ih b (hist ++ [e]), e1, and_assoc]

theorem CommitOk.refl_ok (env : Env) (s : State) : CommitOk env s s :=
  ⟨[], (State.upd_self s).symm, trivial⟩

theorem CommitOk.single (env : Env) (s : State) (e : Event) (h : env.failed s.trace e = false) :
    CommitOk env s (s.log [e]) :=
  ⟨[e], rfl, h, trivial⟩

theorem CommitOk.andThen {env : Env} {s s1 t : State} (h1 : CommitOk env s s1)
    (h2 : CommitOk env s1 t) : CommitOk env s t := by
  obtain ⟨es, rfl, hes⟩ := h1
  obtain ⟨fs, rfl, hfs⟩ := h2
  refine ⟨es ++ fs, by simp, ?_⟩
  rw [Env.noFailure_append]
  exact ⟨hes, hfs⟩

theorem CommitFail.single_fail (env : Env) (s : State) (e : Event) (msg : FatalMsg)
    (h : env.failed s.trace e = true) : CommitFail env s (SetFatalError (s.log [e]) msg) :=
  ⟨[], e, msg, by simp [SetFatalError_eq_upd, State.log_eq_upd], trivial, by simpa using h⟩

theorem CommitFail.after_ok {env : Env} {s s1 t : State} (h1 : CommitOk env s s1)
    (h2 : CommitFail env s1 t) : CommitFail env s t := by
  obtain ⟨es, rfl, hes⟩ := h1
  obtain ⟨pre, e, msg, rfl, hpre, hfail⟩ := h2
  refine ⟨es ++ pre, e, msg, by simp, ?_, ?_⟩
  · rw [Env.noFailure_append]
    exact ⟨hes, hpre⟩
  · simpa [List.append_assoc] using hfail

theorem CommitRun.after_run {env : Env} {s s1 t : State} {r : Bool} (h1 : CommitOk env s s1)
    (h2 : CommitRun env s1 r t) : CommitRun env s r t := by
  rcases h2 with ⟨hr, h⟩ | ⟨hr, h⟩
  · exact Or.inl ⟨hr, h1.andThen h⟩
  · exact Or.inr ⟨hr, CommitFail.after_ok h1 h⟩

theorem IndexTxs.inputs_commitRun (env : Env) (l : List Nat) :
    ∀ s : State, CommitRun env s (IndexTxs.inputs env s l).1 (IndexTxs.inputs env s l).2 := by
  induction l with
  | nil =>
    intro s
    exact Or.inl ⟨rfl, CommitOk.refl_ok env s⟩
  | cons serial rest ih =>
    intro s
    unfold IndexTxs.inputs
    by_cases hrc : env.rc s.trace (Event.SerialnumInsert serial) ≠ 0
    · simp only [if_pos hrc]
      exact Or.inr ⟨rfl, CommitFail.single_fail env s _ _ (by simp [Env.failed, hrc])⟩
    · simp only [if_neg hrc]
      exact CommitRun.after_run (CommitOk.single env s _ (by simp [Env.failed, hrc])) (ih _)

theorem IndexTxs.outputs_commitRun (env : Env) (param_level : Nat) (l : List TxOut) :
    ∀ s : State, CommitRun env s (IndexTxs.outputs env param_level s l).1
      (IndexTxs.outputs env param_level s l).2 := by
  induction l with
  | nil =>
    intro s
    exact Or.inl ⟨rfl, CommitOk.refl_ok env s⟩
  | cons tx rest ih =>
    intro s
    unfold IndexTxs.outputs
    have h0 : CommitOk env s (s.log [Event.GetNextCommitnum true]) :=
      CommitOk.single env s _ (by simp [Env.failed])
    by_cases hrc : env.rc (s.log [Event.GetNextCommitnum true]).trace
        (Event.AddCommitment (env.GetNextCommitnum s.trace) tx.M_commitment) ≠ 0
    · simp only [IndexTxOutputs, if_pos hrc, if_true]
      exact Or.inr ⟨rfl, CommitFail.after_ok h0
        (CommitFail.single_fail env _ _ _ (by simp [Env.failed, hrc]))⟩
    · simp only [IndexTxOutputs, if_neg hrc, Bool.false_eq_true, if_false]
      refine CommitRun.after_run (h0.andThen ((CommitOk.single env _ _
        (by simp [Env.failed, hrc])).andThen (CommitOk.single env _ _ (by simp [Env.failed]))))
        (ih _)

theorem IndexTxs.records_commitRun (env : Env) (l : List WireTx) :
    ∀ (s : State) (r : Bool) (t : State),
      IndexTxs.records env s l = .ok (r, t) → CommitRun env s r t := by
  induction l with
  | nil =>
    intro s r t h
    simp only [IndexTxs.records, Except.ok.injEq, Prod.mk.injEq] at h
    obtain ⟨rfl, rfl⟩ := h
    exact Or.inl ⟨rfl, CommitOk.refl_ok env s⟩
  | cons w rest ih =>
    intro s r t h
    unfold IndexTxs.records at h
    cases hparse : env.tx_from_wire w with
    | none =>
      simp only [hparse, Except.ok.injEq, Prod.mk.injEq] at h
      obtain ⟨rfl, rfl⟩ := h
      exact Or.inr ⟨rfl, CommitFail.single_fail env s _ _ (by simp [Env.failed, hparse])⟩
    | some parsed =>
      simp only [hparse] at h
      have h0 : CommitOk env s (s.log [Event.tx_from_wire w]) :=
        CommitOk.single env s _ (by simp [Env.failed, hparse])
      cases hpseudo : CheckCreatePseudoSerialnum env parsed w with
      | error f => simp [hpseudo] at h
      | ok txbuf =>
        simp only [hpseudo] at h
        have h1 := IndexTxs.inputs_commitRun env txbuf.serialnums (s.log [Event.tx_from_wire w])
        cases hin : (IndexTxs.inputs env (s.log [Event.tx_from_wire w]) txbuf.serialnums).1 with
        | true =>
          rw [hin] at h1
          simp only [hin, if_true, Except.ok.injEq, Prod.mk.injEq] at h
          obtain ⟨rfl, rfl⟩ := h
          exact CommitRun.after_run h0 h1
        | false =>
          rw [hin] at h1
          simp only [hin, Bool.false_eq_true, if_false] at h
          have hok1 : CommitOk env s
              (IndexTxs.inputs env (s.log [Event.tx_from_wire w]) txbuf.serialnums).2 := by
            rcases h1 with ⟨-, hk⟩ | ⟨hr, -⟩
            · exact h0.andThen hk
            · cases hr
          have h2 := IndexTxs.outputs_commitRun env txbuf.param_level txbuf.outputs
            (IndexTxs.inputs env (s.log [Event.tx_from_wire w]) txbuf.serialnums).2
          cases hout : (IndexTxs.outputs env txbuf.param_level
              (IndexTxs.inputs env (s.log [Event.tx_from_wire w]) txbuf.serialnums).2
              txbuf.outputs).1 with
          | true =>
            rw [hout] at h2
            simp only [hout, if_true, Except.ok.injEq, Prod.mk.injEq] at h
            obtain ⟨rfl, rfl⟩ := h
            exact CommitRun.after_run hok1 h2
          | false =>
            rw [hout] at h2
            simp only [hout, Bool.false_eq_true, if_false] at h
            have hok2 : CommitOk env s (IndexTxs.outputs env txbuf.param_level
                (IndexTxs.inputs env (s.log [Event.tx_from_wire w]) txbuf.serialnums).2
                txbuf.outputs).2 := by
              rcases h2 with ⟨-, hk⟩ | ⟨hr, -⟩
              · exact hok1.andThen hk
              · cases hr
            exact CommitRun.after_run hok2 (ih _ r t h)

theorem SetNewlyIndelibleBlock.commit_commitRun (env : Env) (s : State) (smartobj : Ptr)
    (r : Bool) (t : State) (h : SetNewlyIndelibleBlock.commit env s smartobj = .ok (r, t)) :
    (r = true ∧ CommitFail env s t) ∨
      (r = false ∧ ∃ t0, CommitOk env s t0 ∧ t = t0.publish smartobj) := by
  unfold SetNewlyIndelibleBlock.commit at h
  cases hi : IndexTxs env s smartobj with
  | error f => simp [hi] at h
  | ok res =>
    obtain ⟨rc1, s1⟩ := res
    have h1 : CommitRun env s rc1 s1 := IndexTxs.records_commitRun env _ s rc1 s1 hi
    simp only [hi] at h
    cases rc1 with
    | true =>
      simp only [if_true, Except.ok.injEq, Prod.mk.injEq] at h
      obtain ⟨rfl, rfl⟩ := h
      rcases h1 with ⟨hr, -⟩ | ⟨-, hf⟩
      · cases hr
      · exact Or.inl ⟨rfl, hf⟩
    | false =>
      simp only [Bool.false_eq_true, if_false] at h
      have hok1 : CommitOk env s s1 := by
        rcases h1 with ⟨-, hk⟩ | ⟨hr, -⟩
        · exact hk
        · cases hr
      by_cases h2 : env.rc s1.trace
          (Event.UpdateCommitTree smartobj (s.heap smartobj).wire.timestamp) ≠ 0
      · rw [if_pos h2] at h
        simp only [Except.ok.injEq, Prod.mk.injEq] at h
        obtain ⟨rfl, rfl⟩ := h
        exact Or.inl ⟨rfl, CommitFail.after_ok hok1
          (CommitFail.single_fail env s1 _ _ (by simp [Env.failed, h2]))⟩
      · rw [if_neg h2] at h
        have hok2 := hok1.andThen (CommitOk.single env s1
          (Event.UpdateCommitTree smartobj (s.heap smartobj).wire.timestamp)
          (by simp [Env.failed, h2]))
        by_cases h3 : env.rc (s1.log
            [Event.UpdateCommitTree smartobj (s.heap smartobj).wire.timestamp]).trace
            (Event.BlockchainInsert (s.heap smartobj).wire.level smartobj) ≠ 0
        · rw [if_pos h3] at h
          simp only [Except.ok.injEq, Prod.mk.injEq] at h
          obtain ⟨rfl, rfl⟩ := h
          exact Or.inl ⟨rfl, CommitFail.after_ok hok2
            (CommitFail.single_fail env _ _ _ (by simp [Env.failed, h3]))⟩
        · rw [if_neg h3] at h
          have hok3 := hok2.andThen (CommitOk.single env _
            (Event.BlockchainInsert (s.heap smartobj).wire.level smartobj)
            (by simp [Env.failed, h3]))
          by_cases h4 : env.rc ((s1.log
              [Event.UpdateCommitTree smartobj (s.heap smartobj).wire.timestamp]).log
              [Event.BlockchainInsert (s.heap smartobj).wire.level smartobj]).trace
              (Event.ParameterInsert env.DB_KEY_BLOCK_AUX ((s.heap smartobj).wire.level % 64)
                (((s1.log
              [Event.UpdateCommitTree smartobj (s.heap smartobj).wire.timestamp]).log
              [Event.BlockchainInsert (s.heap smartobj).wire.level smartobj]).heap
                smartobj).aux) ≠ 0
          · rw [if_pos h4] at h
            simp only [Except.ok.injEq, Prod.mk.injEq] at h
            obtain ⟨rfl, rfl⟩ := h
            exact Or.inl ⟨rfl, CommitFail.after_ok hok3
              (CommitFail.single_fail env _ _ _ (by simp [Env.failed, h4]))⟩
          · rw [if_neg h4] at h
            simp only [Except.ok.injEq, Prod.mk.injEq] at h
            obtain ⟨rfl, rfl⟩ := h
            exact Or.inr ⟨rfl, _, hok3.andThen (CommitOk.single env _ _
              (by simp [Env.failed, h4])), rfl⟩

/-- C15: for an unmarked block that passes the level and prior-oid check of
`SetNewlyIndelibleBlock` (the write having begun), every result of the call is of one of
two kinds.  Failure: the result is true, the fatal flag is set, the pending indelible
block is as before, and the trace after the mark ends with a failing call (a record
rejected by `tx_from_wire`, or `SerialnumInsert`, `AddCommitment`, `UpdateCommitTree`,
`BlockchainInsert` or `ParameterInsert` returning non-zero) followed by the fatal line
alone, no call before it having failed.  Success: the result is false, the fatal flag is
as before, the pending indelible block is this block, and none of the calls made
failed.  The call does return when no record trips the tag assertion. -/
theorem C15_commit_failure_fatal (env : Env) (s : State) (b : Ptr)
    (hbegin : 0 ≤ env.rc s.trace Event.BeginWrite)
    (hunmarked : (s.heap b).aux.marked_for_indelible = false)
    (hcheck : (s.pendingOrLast = none ∧ (s.heap b).wire.level = 0) ∨
      ∃ p, s.pendingOrLast = some p ∧ Linked s.heap p b) :
    (∀ r t, SetNewlyIndelibleBlock env s b = .ok (r, t) →
      (r = true ∧ t.m_have_fatal_error = true ∧
        t.m_new_indelible_block = s.m_new_indelible_block ∧
        ∃ pre e msg,
          t.trace = s.trace ++ [Event.BeginWrite, Event.ReadMarked b, Event.WriteMarked b]
            ++ (pre ++ [e, Event.Fatal msg]) ∧
          env.noFailure
            (s.trace ++ [Event.BeginWrite, Event.ReadMarked b, Event.WriteMarked b]) pre ∧
          env.failed
            (s.trace ++ [Event.BeginWrite, Event.ReadMarked b, Event.WriteMarked b] ++ pre) e
            = true) ∨
      (r = false ∧ t.m_have_fatal_error = s.m_have_fatal_error ∧
        t.m_new_indelible_block = some b ∧
        ∃ es,
          t.trace = s.trace ++ [Event.BeginWrite, Event.ReadMarked b, Event.WriteMarked b]
            ++ (es ++ [Event.SetNewIndelible b]) ∧
          env.noFailure
            (s.trace ++ [Event.BeginWrite, Event.ReadMarked b, Event.WriteMarked b]) es)) ∧
    (env.TagsOk (s.heap b).payload → ∃ r t, SetNewlyIndelibleBlock env s b = .ok (r, t)) := by
  have htrace : (s.entered b).trace
      = s.trace ++ [Event.BeginWrite, Event.ReadMarked b, Event.WriteMarked b] := by
    simp [State.entered, State.setMarked, State.log]
  constructor
  · intro r t h
    rcases SetNewlyIndelibleBlock_spec env s b r t h with
      ⟨-, hneg, -⟩ | ⟨-, -, hm, -⟩ | ⟨-, -, -, p, msg, hp, hnl, -⟩ | ⟨-, -, -, hc⟩
    · omega
    · rw [hunmarked] at hm
      cases hm
    · rcases hcheck with ⟨hnone, -⟩ | ⟨q, hq, hl⟩
      · rw [hnone] at hp
        cases hp
      · rw [hq] at hp
        cases hp
        exact absurd hl hnl
    · rcases SetNewlyIndelibleBlock.commit_commitRun env _ b r t hc with
        ⟨hr, pre, e, msg, rfl, hpre, hfail⟩ | ⟨hr, t0, ⟨es, rfl, hes⟩, rfl⟩
      · rw [htrace] at hpre hfail
        refine Or.inl ⟨hr, rfl, rfl, pre, e, msg, ?_, hpre, hfail⟩
        simp [htrace]
      · rw [htrace] at hes
        refine Or.inr ⟨hr, rfl, rfl, es, ?_, hes⟩
        simp [htrace, State.publish]
  · intro htag
    have hlevel : s.pendingOrLast = none → (s.heap b).wire.level = 0 := by
      intro hnone
      rcases hcheck with ⟨-, h0⟩ | ⟨q, hq, -⟩
      · exact h0
      · rw [hnone] at hq
        cases hq
    obtain ⟨⟨r, t⟩, h⟩ := SetNewlyIndelibleBlock_total env s b hlevel htag
    exact ⟨r, t, h⟩

/-- C15, witness: on the chain P <- L1 <- L2 with `BlockchainInsert` failing,
`SetNewlyIndelibleBlock(L1)` returns true with the fatal flag set and no pending
indelible block; `ParameterInsert` is not called. -/
theorem C15_witness_insert_fails :
    ∃ t, SetNewlyIndelibleBlock envInsertFails (sampleChainState 0 0) 1 = .ok (true, t) ∧
      t.m_have_fatal_error = true ∧ t.m_new_indelible_block = none ∧
      t.trace = [Event.BeginWrite, Event.ReadMarked 1, Event.WriteMarked 1,
        Event.UpdateCommitTree 1 0, Event.BlockchainInsert 6 1,
        Event.Fatal FatalMsg.SetNewlyIndelibleBlock_BlockchainInsert] := by
  obtain ⟨t, ht⟩ : ∃ t, SetNewlyIndelibleBlock envInsertFails (sampleChainState 0 0) 1
      = .ok (true, t) := ⟨_, rfl⟩
  have hlinked : Linked (sampleChainState 0 0).heap 0 1 := by
    unfold Linked
    decide
  have h := (C15_commit_failure_fatal envInsertFails (sampleChainState 0 0) 1 (by decide) rfl
    (Or.inr ⟨0, rfl, hlinked⟩)).1 true t ht
  have htr : t.trace = [Event.BeginWrite, Event.ReadMarked 1, Event.WriteMarked 1,
      Event.UpdateCommitTree 1 0, Event.BlockchainInsert 6 1,
      Event.Fatal FatalMsg.SetNewlyIndelibleBlock_BlockchainInsert] := by
    have hev : (SetNewlyIndelibleBlock envInsertFails (sampleChainState 0 0) 1).toOption.map
        (fun x => x.2.trace) = some [Event.BeginWrite, Event.ReadMarked 1, Event.WriteMarked 1,
          Event.UpdateCommitTree 1 0, Event.BlockchainInsert 6 1,
          Event.Fatal FatalMsg.SetNewlyIndelibleBlock_BlockchainInsert] := by decide
    rw [ht] at hev
    simpa [Except.toOption] using hev
  rcases h with ⟨-, hf, hn, -⟩ | ⟨hr, -⟩
  · exact ⟨t, ht, hf, hn, htr⟩
  · cases hr

/-! ## The genesis data file -/

theorem leBytes_length : ∀ (n v : Nat), (leBytes n v).length = n := by
  intro n
  induction n with
  | zero => intro v; rfl
  | succ n ih =>
    intro v
    simp [leBytes, ih]

theorem leValue_leBytes : ∀ (n v : Nat), v < 256 ^ n → leValue (leBytes n v) = v := by
  intro n
  induction n with
  | zero =>
    intro v hv
    simp only [pow_zero, Nat.lt_one_iff] at hv
    subst hv
    rfl
  | succ n ih =>
    intro v hv
    have hq : v / 256 < 256 ^ n := by
      rw [Nat.div_lt_iff_lt_mul (by norm_num)]
      calc v < 256 ^ (n + 1) := hv
        _ = 256 ^ n * 256 := by ring
    simp only [leBytes, leValue, ih (v / 256) hq]
    omega

theorem readObject_full (key rest : List Nat) (n old : Nat) (hkey : key.length = n) :
    readObject (key ++ rest) n old = (n, leValue key, rest) := by
  have ht : (key ++ rest).take n = key := by
    rw [← hkey]
    exact List.take_left' rfl
  have hd : (key ++ rest).drop n = rest := by
    rw [← hkey]
    exact List.drop_left' rfl
  unfold readObject
  rw [ht, hd, hkey, List.drop_of_length_le (by rw [leBytes_length]), List.append_nil]

theorem readObject_count (fd : List Nat) (n old : Nat) :
    (readObject fd n old).1 = min n fd.length := by
  simp [readObject, List.length_take]

theorem setSlot_eq (a : List Nat) (i v : Nat) (hi : i ≤ a.length) :
    setSlot a i v = a.take i ++ v :: a.drop (i + 1) := by
  unfold setSlot
  by_cases hlt : i < a.length
  · rw [if_pos hlt, List.set_eq_take_append_cons_drop, if_pos hlt]
  · have he : i = a.length := by omega
    rw [if_neg hlt, he, List.take_length, List.drop_of_length_le (by omega)]
    simp

theorem LoadGenesisDataFiles.publicKeys_full :
    ∀ (ks : List (List Nat)) (i : Nat) (table rest : List Nat),
      (∀ k ∈ ks, k.length = SIGNING_KEY_BYTES) → i ≤ table.length →
      LoadGenesisDataFiles.publicKeys ks.length i table (ks.flatten ++ rest)
        = (false, table.take i ++ ks.map leValue ++ table.drop (i + ks.length)) := by
  intro ks
  induction ks with
  | nil =>
    intro i table rest _ hi
    simp [LoadGenesisDataFiles.publicKeys]
  | cons key ks ih =>
    intro i table rest hks hi
    have hkey : key.length = SIGNING_KEY_BYTES := hks key (List.mem_cons_self _ _)
    have hrest : ∀ k ∈ ks, k.length = SIGNING_KEY_BYTES :=
      fun k hk => hks k (List.mem_cons_of_mem _ hk)
    have hread : readObject ((key :: ks).flatten ++ rest) SIGNING_KEY_BYTES (table.getD i 0)
        = (SIGNING_KEY_BYTES, leValue key, ks.flatten ++ rest) := by
      rw [List.flatten_cons, List.append_assoc]
      exact readObject_full key _ _ _ hkey
    simp only [List.length_cons, LoadGenesisDataFiles.publicKeys, hread, ne_eq,
      not_true_eq_false, if_false]
    rw [setSlot_eq table i (leValue key) hi]
    have hlen : i + 1 ≤ (table.take i ++ leValue key :: table.drop (i + 1)).length := by
      simp [List.length_take]
      omega
    rw [ih (i + 1) _ rest hrest hlen]
    have htake : (table.take i ++ leValue key :: table.drop (i + 1)).take (i + 1)
        = table.take i ++ [leValue key] := by
      have hl : (table.take i).length = i := by simp [List.length_take, hi]
      rw [List.take_append_eq_append_take, hl]
      simp [List.take_of_length_le, hl]
    have hdrop : (table.take i ++ leValue key :: table.drop (i + 1)).drop (i + 1 + ks.length)
        = table.drop (i + (ks.length + 1)) := by
      have hl : (table.take i).length = i := by simp [List.length_take, hi]
      rw [List.drop_append_eq_append_drop, hl]
      have h1 : (table.take i).drop (i + 1 + ks.length) = [] :=
        List.drop_of_length_le (by omega)
      have h2 : i + 1 + ks.length - i = ks.length + 1 := by omega
      rw [h1, h2]
      simp only [List.nil_append, List.drop_succ_cons, List.drop_drop]
      congr 1
      omega
    rw [htake, hdrop]
    simp [List.append_assoc]

theorem LoadGenesisDataFiles.publicKeys_short :
    ∀ (k i : Nat) (table fd : List Nat), fd.length < SIGNING_KEY_BYTES * k →
      (LoadGenesisDataFiles.publicKeys k i table fd).1 = true := by
  intro k
  induction k with
  | zero =>
    intro i table fd h
    simp at h
  | succ k ih =>
    intro i table fd h
    unfold LoadGenesisDataFiles.publicKeys
    by_cases hc : (readObject fd SIGNING_KEY_BYTES (table.getD i 0)).1 ≠ SIGNING_KEY_BYTES
    · simp only [if_pos hc]
    · simp only [if_neg hc]
      apply ih
      rw [readObject_count] at hc
      have hge : SIGNING_KEY_BYTES ≤ fd.length := by
        by_contra hlt
        apply hc
        rw [Nat.min_eq_right (by omega)]
        omega
      simp only [readObject, List.length_drop]
      rw [Nat.mul_succ] at h
      omega

theorem LoadGenesisDataFiles_layout (env : Env) (files : GenesisFiles) (auxp : BlockAux)
    (next_signing_private_key : List Nat) (ks : List (List Nat)) (m : Nat)
    (extra : List Nat) (hw : env.witness_index < 0)
    (hks : ∀ k ∈ ks, k.length = SIGNING_KEY_BYTES)
    (hn : ks.length < UINT16_SIZE) (hm : m < UINT16_SIZE)
    (hfile : files.genesis_data_file = some (leBytes 4 genesis_file_tag ++
      (leBytes 4 ks.length ++ (leBytes 4 m ++ (ks.flatten ++ extra))))) :
    LoadGenesisDataFiles env files auxp next_signing_private_key =
      (false, { auxp with blockchain_params := { auxp.blockchain_params with
        nwitnesses := ks.length, next_nwitnesses := ks.length, maxmal := m,
        next_maxmal := m,
        signing_keys := ks.map leValue ++ auxp.blockchain_params.signing_keys.drop ks.length } },
        next_signing_private_key) := by
  have hn4 : ks.length < 256 ^ 4 := by
    have : UINT16_SIZE = 65536 := rfl
    omega
  have hm4 : m < 256 ^ 4 := by
    have : UINT16_SIZE = 65536 := rfl
    omega
  have h1 : ∀ rest old, readObject (leBytes 4 genesis_file_tag ++ rest) 4 old
      = (4, genesis_file_tag, rest) := by
    intro rest old
    rw [readObject_full _ _ 4 old (leBytes_length 4 _),
      leValue_leBytes 4 genesis_file_tag (by decide)]
  have h2 : ∀ rest old, readObject (leBytes 4 ks.length ++ rest) 4 old
      = (4, ks.length, rest) := by
    intro rest old
    rw [readObject_full _ _ 4 old (leBytes_length 4 _), leValue_leBytes 4 _ hn4]
  have h3 : ∀ rest old, readObject (leBytes 4 m ++ rest) 4 old = (4, m, rest) := by
    intro rest old
    rw [readObject_full _ _ 4 old (leBytes_length 4 _), leValue_leBytes 4 _ hm4]
  unfold LoadGenesisDataFiles
  simp only [hfile, h1, h2, h3, ne_eq, not_true_eq_false, if_false,
    Nat.mod_eq_of_lt hn, Nat.mod_eq_of_lt hm,
    LoadGenesisDataFiles.publicKeys_full ks 0 _ extra hks (Nat.zero_le _), if_pos hw,
    Bool.false_eq_true, List.take_zero, List.nil_append, Nat.zero_add]

theorem readObject_value (fd : List Nat) (n old : Nat) (h : n ≤ fd.length) :
    (readObject fd n old).2.1 = leValue (fd.take n) := by
  have hl : (fd.take n).length = n := by simp [List.length_take, h]
  simp only [readObject]
  rw [hl, List.drop_of_length_le (by rw [leBytes_length]), List.append_nil]

theorem readObject_rest (fd : List Nat) (n old : Nat) :
    (readObject fd n old).2.2 = fd.drop n := rfl

theorem readObject_count_eq (fd : List Nat) (n old : Nat)
    (h : ¬ (readObject fd n old).1 ≠ n) : n ≤ fd.length := by
  rw [readObject_count] at h
  by_contra hlt
  apply h
  rw [Nat.min_eq_right (by omega)]
  omega

theorem LoadGenesisDataFiles_bad_tag (env : Env) (files : GenesisFiles) (auxp : BlockAux)
    (next_signing_private_key bytes : List Nat)
    (hfile : files.genesis_data_file = some bytes)
    (hbad : bytes.length < 4 ∨ leValue (bytes.take 4) ≠ genesis_file_tag) :
    (LoadGenesisDataFiles env files auxp next_signing_private_key).1 = true := by
  unfold LoadGenesisDataFiles
  simp only [hfile]
  by_cases c1 : (readObject bytes 4 0).1 ≠ 4
  · rw [if_pos c1]
  · rw [if_neg c1]
    have hlen := readObject_count_eq bytes 4 0 c1
    have hval := readObject_value bytes 4 0 hlen
    rcases hbad with hshort | htag
    · omega
    · rw [if_pos (by rw [hval]; exact htag)]

theorem LoadGenesisDataFiles_short (env : Env) (files : GenesisFiles) (auxp : BlockAux)
    (next_signing_private_key bytes : List Nat)
    (hfile : files.genesis_data_file = some bytes)
    (hshort : bytes.length <
      12 + SIGNING_KEY_BYTES * (leValue ((bytes.drop 4).take 4) % UINT16_SIZE)) :
    (LoadGenesisDataFiles env files auxp next_signing_private_key).1 = true := by
  unfold LoadGenesisDataFiles
  simp only [hfile]
  by_cases c1 : (readObject bytes 4 0).1 ≠ 4
  · rw [if_pos c1]
  · rw [if_neg c1]
    by_cases c2 : (readObject bytes 4 0).2.1 ≠ genesis_file_tag
    · rw [if_pos c2]
    · rw [if_neg c2]
      by_cases c3 : (readObject (readObject bytes 4 0).2.2 4 (readObject bytes 4 0).2.1).1 ≠ 4
      · rw [if_pos c3]
      · rw [if_neg c3]
        by_cases c4 : (readObject (readObject (readObject bytes 4 0).2.2 4
            (readObject bytes 4 0).2.1).2.2 4
            (readObject (readObject bytes 4 0).2.2 4 (readObject bytes 4 0).2.1).2.1).1 ≠ 4
        · rw [if_pos c4]
        · rw [if_neg c4]
          have h1 := readObject_count_eq _ _ _ c1
          have h2 := readObject_count_eq _ _ _ c3
          have h3 := readObject_count_eq _ _ _ c4
          have hv := readObject_value _ 4 (readObject bytes 4 0).2.1 h2
          simp only [readObject_rest] at h2 h3 hv
          simp only [List.length_drop] at h2 h3
          have hkeys := LoadGenesisDataFiles.publicKeys_short
            (leValue ((bytes.drop 4).take 4) % UINT16_SIZE) 0
            auxp.blockchain_params.signing_keys (((bytes.drop 4).drop 4).drop 4)
            (by simp only [List.length_drop]; omega)
          simp only [readObject_rest, hv]
          rw [if_pos hkeys]

/-- C20: on a node that is not a witness, `LoadGenesisDataFiles` applied to the byte
string made of the little-endian tag 0x00474343, the `uint32_t` count `n` of keys, a
`uint32_t` value `m` below 2^16 and `n ≤ 21` keys of 32 bytes returns success with
`nwitnesses = next_nwitnesses = n`, `maxmal = next_maxmal = m` and the `i`-th key in
`signing_keys[i]`.  It returns an error when the file has fewer than four bytes or the
value of the first four is not the tag, and when the file has fewer than `12 + 32 * n`
bytes, `n` being the count field.  `CreateGenesisDataFiles` writes this layout, and
loading the file it wrote gives `GENESIS_NWITNESSES`, `GENESIS_MAXMAL` and the public
keys generated, in witness order. -/
theorem C20_genesis_file_round_trip (env : Env) (files : GenesisFiles) (auxp : BlockAux)
    (next_signing_private_key : List Nat) (hw : env.witness_index < 0) :
    (∀ (ks : List (List Nat)) (m : Nat), (∀ k ∈ ks, k.length = SIGNING_KEY_BYTES) →
      ks.length ≤ MAX_NWITNESSES → m < UINT16_SIZE →
      files.genesis_data_file = some (leBytes 4 genesis_file_tag ++ leBytes 4 ks.length ++
        leBytes 4 m ++ ks.flatten) →
      ∃ aux, LoadGenesisDataFiles env files auxp next_signing_private_key
          = (false, aux, next_signing_private_key) ∧
        aux.blockchain_params.nwitnesses = ks.length ∧
        aux.blockchain_params.next_nwitnesses = ks.length ∧
        aux.blockchain_params.maxmal = m ∧ aux.blockchain_params.next_maxmal = m ∧
        ∀ i : Nat, i < ks.length →
          aux.blockchain_params.signing_keys[i]? = ks[i]?.map leValue) ∧
    (∀ bytes, files.genesis_data_file = some bytes →
      (bytes.length < 4 ∨ leValue (bytes.take 4) ≠ genesis_file_tag) →
      (LoadGenesisDataFiles env files auxp next_signing_private_key).1 = true) ∧
    (∀ bytes, files.genesis_data_file = some bytes →
      bytes.length < 12 + SIGNING_KEY_BYTES * (leValue ((bytes.drop 4).take 4) % UINT16_SIZE) →
      (LoadGenesisDataFiles env files auxp next_signing_private_key).1 = true) ∧
    (∀ (GENESIS_NWITNESSES GENESIS_MAXMAL : Nat) (CCRandom ed25519_publickey : Nat → Nat),
      GENESIS_NWITNESSES ≤ MAX_NWITNESSES → GENESIS_MAXMAL < UINT16_SIZE →
      (∀ i, ed25519_publickey (CCRandom i) < 256 ^ SIGNING_KEY_BYTES) →
      (CreateGenesisDataFiles GENESIS_NWITNESSES GENESIS_MAXMAL CCRandom
          ed25519_publickey).genesis_data_file
        = some (leBytes 4 genesis_file_tag ++ leBytes 4 GENESIS_NWITNESSES ++
          leBytes 4 GENESIS_MAXMAL ++
          ((List.range GENESIS_NWITNESSES).map
            (fun i => leBytes SIGNING_KEY_BYTES (ed25519_publickey (CCRandom i)))).flatten) ∧
      ∃ aux, LoadGenesisDataFiles env
          (CreateGenesisDataFiles GENESIS_NWITNESSES GENESIS_MAXMAL CCRandom ed25519_publickey)
          auxp next_signing_private_key = (false, aux, next_signing_private_key) ∧
        aux.blockchain_params.nwitnesses = GENESIS_NWITNESSES ∧
        aux.blockchain_params.next_nwitnesses = GENESIS_NWITNESSES ∧
        aux.blockchain_params.maxmal = GENESIS_MAXMAL ∧
        aux.blockchain_params.next_maxmal = GENESIS_MAXMAL ∧
        ∀ i : Nat, i < GENESIS_NWITNESSES →
          aux.blockchain_params.signing_keys[i]? = some (ed25519_publickey (CCRandom i))) := by
  have h16 : UINT16_SIZE = 65536 := rfl
  have h32 : UINT32_SIZE = 4294967296 := rfl
  have hmax : MAX_NWITNESSES = 21 := rfl
  refine ⟨?_, ?_, ?_, ?_⟩
  · intro ks m hks hn hm hfile
    have hfile2 : files.genesis_data_file = some (leBytes 4 genesis_file_tag ++
        (leBytes 4 ks.length ++ (leBytes 4 m ++ (ks.flatten ++ [])))) := by
      rw [hfile]
      simp only [List.append_assoc, List.append_nil]
    refine ⟨_, LoadGenesisDataFiles_layout env files auxp next_signing_private_key ks m []
      hw hks (by omega) hm hfile2, rfl, rfl, rfl, rfl, ?_⟩
    intro i hi
    show (ks.map leValue ++ auxp.blockchain_params.signing_keys.drop ks.length)[i]? = _
    rw [List.getElem?_append_left (by simpa using hi), List.getElem?_map]
  · intro bytes hfile hbad
    exact LoadGenesisDataFiles_bad_tag env files auxp next_signing_private_key bytes hfile hbad
  · intro bytes hfile hshort
    exact LoadGenesisDataFiles_short env files auxp next_signing_private_key bytes hfile hshort
  · intro nw mm rnd pub hnw hmm hpub
    have hnw32 : nw % UINT32_SIZE = nw := Nat.mod_eq_of_lt (by omega)
    have hmm32 : mm % UINT32_SIZE = mm := Nat.mod_eq_of_lt (by omega)
    have hfile : (CreateGenesisDataFiles nw mm rnd pub).genesis_data_file
        = some (leBytes 4 genesis_file_tag ++ leBytes 4 nw ++ leBytes 4 mm ++
          ((List.range nw).map (fun i => leBytes SIGNING_KEY_BYTES (pub (rnd i)))).flatten) := by
      simp only [CreateGenesisDataFiles, hnw32, hmm32]
    refine ⟨hfile, ?_⟩
    have hlen : ((List.range nw).map
        (fun i => leBytes SIGNING_KEY_BYTES (pub (rnd i)))).length = nw := by simp
    have hfile2 : (CreateGenesisDataFiles nw mm rnd pub).genesis_data_file
        = some (leBytes 4 genesis_file_tag ++ (leBytes 4 ((List.range nw).map
            (fun i => leBytes SIGNING_KEY_BYTES (pub (rnd i)))).length ++ (leBytes 4 mm ++
          (((List.range nw).map
            (fun i => leBytes SIGNING_KEY_BYTES (pub (rnd i)))).flatten ++ [])))) := by
      rw [hfile, hlen]
      simp only [List.append_assoc, List.append_nil]
    have hks : ∀ k ∈ (List.range nw).map (fun i => leBytes SIGNING_KEY_BYTES (pub (rnd i))),
        k.length = SIGNING_KEY_BYTES := by
      intro k hk
      obtain ⟨i, -, rfl⟩ := List.mem_map.mp hk
      exact leBytes_length _ _
    have hload := LoadGenesisDataFiles_layout env (CreateGenesisDataFiles nw mm rnd pub) auxp
      next_signing_private_key _ mm [] hw hks (by rw [hlen]; omega) hmm hfile2
    refine ⟨_, hload, hlen, hlen, rfl, rfl, ?_⟩
    intro i hi
    show (((List.range nw).map (fun i => leBytes SIGNING_KEY_BYTES (pub (rnd i)))).map leValue
      ++ _)[i]? = _
    rw [List.getElem?_append_left (by simpa using hi), List.getElem?_map, List.getElem?_map,
      List.getElem?_range hi]
    simp only [Option.map_some']
    rw [leValue_leBytes _ _ (hpub i)]

theorem sampleGenesisFile_loads (n m : Nat) (hn : n < UINT16_SIZE) (hm : m < UINT16_SIZE) :
    LoadGenesisDataFiles envOk (sampleGenesisFile n m) sampleGenesisAux [] =
      (false, { sampleGenesisAux with blockchain_params :=
        { sampleGenesisAux.blockchain_params with
          nwitnesses := n, next_nwitnesses := n, maxmal := m, next_maxmal := m,
          signing_keys := (List.replicate n (List.replicate SIGNING_KEY_BYTES 1)).map leValue ++
            sampleGenesisAux.blockchain_params.signing_keys.drop n } }, []) := by
  have h := LoadGenesisDataFiles_layout envOk (sampleGenesisFile n m) sampleGenesisAux []
    (List.replicate n (List.replicate SIGNING_KEY_BYTES 1)) m [] (by decide)
    (by
      intro k hk
      rw [List.eq_of_mem_replicate hk]
      exact List.length_replicate _ _)
    (by simpa using hn) hm (by simp [sampleGenesisFile])
  simpa using h

/-- C19, at a failing input: a genesis data file whose count field is 22, followed by 22
keys, is loaded with success: `nwitnesses` is 22, above `MAX_NWITNESSES` = 21, and the
22nd key is stored in slot 21, past the end of `signing_keys`.  Files with the count 0,
and with `maxmal` = 5 and one witness, are loaded with success as well. -/
theorem C19_LoadGenesisDataFiles_no_range_check :
    MAX_NWITNESSES = 21 ∧
    sampleGenesisAux.blockchain_params.signing_keys.length = MAX_NWITNESSES ∧
    (LoadGenesisDataFiles envOk (sampleGenesisFile 22 0) sampleGenesisAux []).1 = false ∧
    (LoadGenesisDataFiles envOk (sampleGenesisFile 22 0) sampleGenesisAux
      []).2.1.blockchain_params.nwitnesses = 22 ∧
    (LoadGenesisDataFiles envOk (sampleGenesisFile 22 0) sampleGenesisAux
      []).2.1.blockchain_params.signing_keys[21]?
        = some (leValue (List.replicate SIGNING_KEY_BYTES 1)) ∧
    (LoadGenesisDataFiles envOk (sampleGenesisFile 0 0) sampleGenesisAux []).1 = false ∧
    (LoadGenesisDataFiles envOk (sampleGenesisFile 0 0) sampleGenesisAux
      []).2.1.blockchain_params.nwitnesses = 0 ∧
    (LoadGenesisDataFiles envOk (sampleGenesisFile 1 5) sampleGenesisAux []).1 = false ∧
    (LoadGenesisDataFiles envOk (sampleGenesisFile 1 5) sampleGenesisAux
      []).2.1.blockchain_params.maxmal = 5 := by
  rw [sampleGenesisFile_loads 22 0 (by decide) (by decide),
    sampleGenesisFile_loads 0 0 (by decide) (by decide),
    sampleGenesisFile_loads 1 5 (by decide) (by decide)]
  refine ⟨rfl, rfl, rfl, rfl, ?_, rfl, rfl, rfl, rfl⟩
  simp [sampleGenesisAux, MAX_NWITNESSES, List.getElem?_append_left, List.getElem?_replicate]

/-- C20, witness: the file written by `CreateGenesisDataFiles` for three witnesses is
loaded with `nwitnesses` = 3, `maxmal` = 0 and the three public keys in order. -/
theorem C20_witness_three_keys :
    envOk.witness_index < 0 ∧
    ∃ aux, LoadGenesisDataFiles envOk
        (CreateGenesisDataFiles 3 0 (fun i => i + 1) (fun k => k % 7)) sampleGenesisAux []
        = (false, aux, []) ∧
      aux.blockchain_params.nwitnesses = 3 ∧ aux.blockchain_params.next_nwitnesses = 3 ∧
      aux.blockchain_params.maxmal = 0 ∧ aux.blockchain_params.next_maxmal = 0 ∧
      ∀ i : Nat, i < 3 → aux.blockchain_params.signing_keys[i]? = some ((i + 1) % 7) :=
  ⟨by decide,
    ((C20_genesis_file_round_trip envOk (sampleGenesisFile 0 0) sampleGenesisAux []
      (by decide)).2.2.2 3 0 (fun i => i + 1) (fun k => k % 7) (by decide) (by decide)
      (fun i => Nat.lt_of_lt_of_le (Nat.mod_lt _ (by decide))
        (by norm_num [SIGNING_KEY_BYTES]))).2⟩

/-! ## The scan of the paged temp index -/

theorem CheckSerialnum.entriesTraced_fst (heap : Ptr → Block) (fuel : Nat) (type : Int)
    (topblock li : Option Ptr) :
    ∀ l : List Ptr,
      (CheckSerialnum.entriesTraced heap fuel type topblock li l).map Prod.fst
        = CheckSerialnum.entries heap fuel type topblock li l := by
  intro l
  induction l with
  | nil => rfl
  | cons entry rest ih =>
    unfold CheckSerialnum.entriesTraced CheckSerialnum.entries
    by_cases hs : entry = uintptr_of_int type
    · rw [if_pos hs, if_pos hs]
      rfl
    · rw [if_neg hs, if_neg hs]
      cases hb : BlockInChain heap fuel entry topblock li with
      | error f => rfl
      | ok b =>
        cases b with
        | true => rfl
        | false =>
          simp only
          rw [← ih]
          cases CheckSerialnum.entriesTraced heap fuel type topblock li rest with
          | error f => rfl
          | ok res => rfl

theorem CheckSerialnum.pagesTraced_fst (env : Env) (walkfuel : Nat) (topblock : Option Ptr)
    (type : Int) (serial size : Nat) (li : Option Ptr) :
    ∀ (fuel : Nat) (s : State) (arr : List Ptr) (last : Ptr),
      (CheckSerialnum.pagesTraced env walkfuel topblock type serial size li fuel s arr
        last).map Prod.fst
        = CheckSerialnum.pages env walkfuel topblock type serial size li fuel s arr last := by
  intro fuel
  induction fuel with
  | zero =>
    intro s arr last
    rfl
  | succ fuel ih =>
    intro s arr last
    unfold CheckSerialnum.pagesTraced CheckSerialnum.pages
    simp only
    split
    · rfl
    · rw [← CheckSerialnum.entriesTraced_fst]
      cases CheckSerialnum.entriesTraced
          (s.log [Event.TempSerialnumSelect serial last (BLOCKARRAYSIZE env)]).heap walkfuel
          type topblock li _ with
      | error f => rfl
      | ok res =>
        obtain ⟨code, read⟩ := res
        cases code with
        | some c => rfl
        | none =>
          by_cases hm : decide ((env.TempSerialnumSelect s.trace serial last
              (BLOCKARRAYSIZE env)).1 > (BLOCKARRAYSIZE env : Int)) = true
          · simp only [hm, if_true]
            rw [← ih]
            cases CheckSerialnum.pagesTraced env walkfuel topblock type serial size li fuel
                _ _ _ with
            | error f => rfl
            | ok res2 => rfl
          · simp only [hm, if_false]
            rfl

theorem BlockInChain_returns (heap : Ptr → Block) (fuel d : Nat) (topblock : Option Ptr)
    (li entry : Ptr) (hchain : ∀ top, topblock = some top → ancestor heap d top = none)
    (hfuel : d < fuel) :
    ∃ b, BlockInChain heap fuel entry topblock (some li) = .ok b := by
  cases topblock with
  | none =>
    obtain ⟨f, rfl⟩ : ∃ f, fuel = f + 1 := ⟨fuel - 1, by omega⟩
    exact ⟨false, rfl⟩
  | some top => exact BlockInChain_total heap entry li d fuel top (hchain top rfl) hfuel

theorem CheckSerialnum.entriesTraced_spec (heap : Ptr → Block) (fuel : Nat) (type : Int)
    (topblock li : Option Ptr)
    (hret : ∀ e, ∃ b, BlockInChain heap fuel e topblock li = .ok b) :
    ∀ l : List Ptr,
      CheckSerialnum.entriesTraced heap fuel type topblock li l
        = .ok (firstConflict (uintptr_of_int type) (BlockInChain.holds heap fuel topblock li) l,
            firstRead (uintptr_of_int type) (BlockInChain.holds heap fuel topblock li) l) := by
  intro l
  induction l with
  | nil => rfl
  | cons entry rest ih =>
    unfold CheckSerialnum.entriesTraced firstConflict firstRead
    by_cases hs : entry = uintptr_of_int type
    · rw [if_pos hs, if_pos hs, if_pos hs]
    · rw [if_neg hs, if_neg hs, if_neg hs]
      obtain ⟨b, hb⟩ := hret entry
      cases b with
      | true =>
        have hh : BlockInChain.holds heap fuel topblock li entry = true := by
          simp [BlockInChain.holds, hb]
        simp only [hb, hh, if_true]
      | false =>
        have hh : BlockInChain.holds heap fuel topblock li entry = false := by
          simp [BlockInChain.holds, hb]
        simp only [hb, hh, ih, Bool.false_eq_true, if_false]

theorem firstConflict_append_some (sentinel : Ptr) (inChain : Ptr → Bool) (c : Int) :
    ∀ (a b : List Ptr), firstConflict sentinel inChain a = some c →
      firstConflict sentinel inChain (a ++ b) = some c ∧
        firstRead sentinel inChain (a ++ b) = firstRead sentinel inChain a := by
  intro a
  induction a with
  | nil =>
    intro b h
    simp [firstConflict] at h
  | cons e a ih =>
    intro b h
    simp only [List.cons_append, firstConflict, firstRead] at h ⊢
    by_cases hs : e = sentinel
    · rw [if_pos hs] at h
      simp only [if_pos hs]
      exact ⟨h, trivial⟩
    · rw [if_neg hs] at h
      simp only [if_neg hs]
      by_cases hc : inChain e = true
      · rw [if_pos hc] at h
        simp only [if_pos hc]
        exact ⟨h, trivial⟩
      · rw [if_neg hc] at h
        simp only [if_neg hc]
        obtain ⟨h1, h2⟩ := ih b h
        exact ⟨h1, congrArg (List.cons e) h2⟩

theorem firstConflict_append_none (sentinel : Ptr) (inChain : Ptr → Bool) :
    ∀ (a b : List Ptr), firstConflict sentinel inChain a = none →
      firstConflict sentinel inChain (a ++ b) = firstConflict sentinel inChain b ∧
        firstRead sentinel inChain (a ++ b) = a ++ firstRead sentinel inChain b := by
  intro a
  induction a with
  | nil =>
    intro b _
    exact ⟨rfl, rfl⟩
  | cons e a ih =>
    intro b h
    simp only [List.cons_append, firstConflict, firstRead] at h ⊢
    by_cases hs : e = sentinel
    · rw [if_pos hs] at h
      cases h
    · rw [if_neg hs] at h
      simp only [if_neg hs]
      by_cases hc : inChain e = true
      · rw [if_pos hc] at h
        cases h
      · rw [if_neg hc] at h
        simp only [if_neg hc]
        obtain ⟨h1, h2⟩ := ih b h
        exact ⟨h1, congrArg (List.cons e) h2⟩

theorem firstRead_of_none (sentinel : Ptr) (inChain : Ptr → Bool) (a : List Ptr)
    (h : firstConflict sentinel inChain a = none) : firstRead sentinel inChain a = a := by
  have := (firstConflict_append_none sentinel inChain a [] h).2
  simpa [firstRead] using this

theorem firstRead_isPrefix (sentinel : Ptr) (inChain : Ptr → Bool) :
    ∀ l : List Ptr, firstRead sentinel inChain l <+: l := by
  intro l
  induction l with
  | nil => exact List.prefix_refl _
  | cons e l ih =>
    unfold firstRead
    by_cases hs : e = sentinel
    · rw [if_pos hs]
      exact ⟨l, rfl⟩
    · rw [if_neg hs]
      by_cases hc : inChain e = true
      · rw [if_pos hc]
        exact ⟨l, rfl⟩
      · rw [if_neg hc]
        obtain ⟨t, ht⟩ := ih
        exact ⟨t, by rw [List.cons_append, ht]⟩

theorem filter_gt_of_sorted :
    ∀ (l : List Nat) (i c : Nat), l.Pairwise (· < ·) → l[i]? = some c →
      l.filter (fun e => decide (c < e)) = l.drop (i + 1) := by
  intro l
  induction l with
  | nil =>
    intro i c _ h
    simp at h
  | cons a l ih =>
    intro i c hp h
    obtain ⟨ha, hl⟩ := List.pairwise_cons.mp hp
    cases i with
    | zero =>
      simp only [List.getElem?_cons_zero, Option.some.injEq] at h
      subst h
      rw [List.filter_cons_of_neg (by simp)]
      simp only [Nat.zero_add, List.drop_succ_cons, List.drop_zero]
      rw [List.filter_eq_self]
      intro x hx
      simpa using ha x hx
    | succ i =>
      simp only [List.getElem?_cons_succ] at h
      have hc : a < c := ha c (List.getElem?_mem h)
      rw [List.filter_cons_of_neg (by simp; omega)]
      simp only [List.drop_succ_cons]
      exact ih i c hl h

theorem BLOCKARRAYSIZE_pos (env : Env) : 1 ≤ BLOCKARRAYSIZE env := by
  unfold BLOCKARRAYSIZE
  split <;> omega

theorem CheckSerialnum.pagesTraced_spec (env : Env) (walkfuel : Nat) (topblock : Option Ptr)
    (type : Int) (serial size : Nat) (li : Option Ptr) (entries : List Ptr)
    (heap : Ptr → Block) (horacle : TempIndexPaged env serial entries)
    (hret : ∀ e, ∃ b, BlockInChain heap walkfuel e topblock li = .ok b) :
    ∀ (fuel : Nat) (s : State) (arr : List Ptr) (last : Ptr) (R : List Ptr),
      s.heap = heap → R.Pairwise (· < ·) →
      entries.filter (fun e => decide (last < e)) = R → R.length < fuel →
      ∃ es, CheckSerialnum.pagesTraced env walkfuel topblock type serial size li fuel s arr last
          = .ok (((firstConflict (uintptr_of_int type)
                (BlockInChain.holds heap walkfuel topblock li) R).getD 0, s.log es),
              firstRead (uintptr_of_int type) (BlockInChain.holds heap walkfuel topblock li) R) ∧
        ∀ e ∈ es, ∃ c, e = Event.TempSerialnumSelect serial c (BLOCKARRAYSIZE env) := by
  intro fuel
  induction fuel with
  | zero =>
    intro s arr last R _ _ _ h
    omega
  | succ fuel ih =>
    intro s arr last R hheap hsorted hfilter hfuel
    obtain ⟨hpage, hfit, hmore⟩ := horacle s.trace last
    rw [hfilter] at hpage hfit hmore
    have hB := BLOCKARRAYSIZE_pos env
    cases hr : env.TempSerialnumSelect s.trace serial last (BLOCKARRAYSIZE env) with
    | mk cnt page =>
      rw [hr] at hpage hfit hmore
      simp only at hpage hfit hmore
      subst hpage
      unfold CheckSerialnum.pagesTraced
      simp only [hr]
      have hspec := fun l => CheckSerialnum.entriesTraced_spec heap walkfuel type topblock li hret l
      have hheap1 : (s.log [Event.TempSerialnumSelect serial last (BLOCKARRAYSIZE env)]).heap
          = heap := hheap
      rw [hheap1]
      by_cases hle : R.length ≤ BLOCKARRAYSIZE env
      · have hcnt := hfit hle
        subst hcnt
        rw [if_neg (by omega)]
        have hnm : decide ((R.length : Int) > (BLOCKARRAYSIZE env : Int)) = false := by
          simp only [decide_eq_false_iff_not]
          omega
        simp only [hnm, Bool.false_eq_true, if_false, Int.toNat_ofNat]
        have htake : ((List.take (BLOCKARRAYSIZE env) R ++
            List.drop (List.take (BLOCKARRAYSIZE env) R).length arr).take
              (BLOCKARRAYSIZE env)).take R.length = R := by
          rw [List.take_of_length_le hle, List.take_take, Nat.min_eq_left hle]
          exact List.take_left' rfl
        rw [htake, hspec R]
        cases hfc : firstConflict (uintptr_of_int type)
            (BlockInChain.holds heap walkfuel topblock li) R with
        | some c =>
          exact ⟨[Event.TempSerialnumSelect serial last (BLOCKARRAYSIZE env)], rfl,
            fun e he => ⟨last, by simpa using he⟩⟩
        | none =>
          exact ⟨[Event.TempSerialnumSelect serial last (BLOCKARRAYSIZE env)], rfl,
            fun e he => ⟨last, by simpa using he⟩⟩
      · have hlt : BLOCKARRAYSIZE env < R.length := by omega
        have hcnt := hmore hlt
        rw [if_neg (by omega)]
        have hm : decide (cnt > (BLOCKARRAYSIZE env : Int)) = true := by
          simp only [decide_eq_true_eq]
          omega
        simp only [hm, if_true]
        have hlenT : (R.take (BLOCKARRAYSIZE env)).length = BLOCKARRAYSIZE env := by
          rw [List.length_take]
          omega
        have hfilled : (List.take (BLOCKARRAYSIZE env) R ++
            List.drop (List.take (BLOCKARRAYSIZE env) R).length arr).take
              (BLOCKARRAYSIZE env) = R.take (BLOCKARRAYSIZE env) := List.take_left' hlenT
        rw [hfilled, List.take_of_length_le (Nat.le_of_eq hlenT), hspec]
        cases hfc : firstConflict (uintptr_of_int type)
            (BlockInChain.holds heap walkfuel topblock li) (R.take (BLOCKARRAYSIZE env)) with
        | some c =>
          obtain ⟨h1, h2⟩ := firstConflict_append_some _ _ c (R.take (BLOCKARRAYSIZE env))
            (R.drop (BLOCKARRAYSIZE env)) hfc
          rw [List.take_append_drop] at h1 h2
          simp only [h1, h2, Option.getD_some]
          exact ⟨[Event.TempSerialnumSelect serial last (BLOCKARRAYSIZE env)], rfl,
            fun e he => ⟨last, by simpa using he⟩⟩
        | none =>
          obtain ⟨h1, h2⟩ := firstConflict_append_none _ _ (R.take (BLOCKARRAYSIZE env))
            (R.drop (BLOCKARRAYSIZE env)) hfc
          rw [List.take_append_drop] at h1 h2
          obtain ⟨c2, hidx⟩ : ∃ c2, R[BLOCKARRAYSIZE env - 1]? = some c2 :=
            ⟨_, List.getElem?_eq_getElem (by omega)⟩
          have hgetD : (R.take (BLOCKARRAYSIZE env)).getD (BLOCKARRAYSIZE env - 1) 0 = c2 := by
            rw [List.getD_eq_getElem?_getD, List.getElem?_take_of_lt (by omega), hidx]
            rfl
          have hmem : c2 ∈ R := List.getElem?_mem hidx
          have hlast : last < c2 := by
            rw [← hfilter] at hmem
            simpa using (List.mem_filter.mp hmem).2
          have hfilter2 : entries.filter (fun e => decide (c2 < e))
              = R.drop (BLOCKARRAYSIZE env) := by
            have e1 : entries.filter (fun e => decide (c2 < e))
                = (entries.filter (fun e => decide (last < e))).filter
                    (fun e => decide (c2 < e)) := by
              rw [List.filter_filter]
              apply List.filter_congr
              intro x _
              by_cases hx : c2 < x
              · simp [hx, Nat.lt_trans hlast hx]
              · simp [hx]
            rw [e1, hfilter, filter_gt_of_sorted R _ c2 hsorted hidx]
            congr 1
            omega
          obtain ⟨es, hrun, hes⟩ := ih
            (s.log [Event.TempSerialnumSelect serial last (BLOCKARRAYSIZE env)])
            (R.take (BLOCKARRAYSIZE env)) c2 (R.drop (BLOCKARRAYSIZE env)) hheap
            (hsorted.sublist (List.drop_sublist _ _)) hfilter2
            (by rw [List.length_drop]; omega)
          simp only [hgetD, hrun]
          refine ⟨Event.TempSerialnumSelect serial last (BLOCKARRAYSIZE env) :: es, ?_, ?_⟩
          · rw [h1, h2, firstRead_of_none _ _ _ hfc, State.log_log]
            rfl
          · intro e he
            rcases List.mem_cons.mp he with rfl | he2
            · exact ⟨last, rfl⟩
            · exact hes e he2

theorem firstConflict_none_iff (sentinel : Ptr) (inChain : Ptr → Bool) :
    ∀ l : List Ptr, firstConflict sentinel inChain l = none ↔
      ∀ e ∈ l, e ≠ sentinel ∧ inChain e = false := by
  intro l
  induction l with
  | nil => simp [firstConflict]
  | cons a l ih =>
    unfold firstConflict
    by_cases hs : a = sentinel
    · rw [if_pos hs]
      simp [hs]
    · rw [if_neg hs]
      cases hc : inChain a with
      | true => simp [hc]
      | false =>
        simp only [Bool.false_eq_true, if_false, ih, List.mem_cons, forall_eq_or_imp, ne_eq, hs,
          not_false_eq_true, hc, and_self, true_and]

theorem firstConflict_codes (sentinel : Ptr) (inChain : Ptr → Bool) :
    ∀ l : List Ptr, firstConflict sentinel inChain l = none ∨
      firstConflict sentinel inChain l = some 2 ∨ firstConflict sentinel inChain l = some 3 := by
  intro l
  induction l with
  | nil => exact Or.inl rfl
  | cons a l ih =>
    unfold firstConflict
    by_cases hs : a = sentinel
    · rw [if_pos hs]
      exact Or.inr (Or.inl rfl)
    · rw [if_neg hs]
      by_cases hc : inChain a = true
      · rw [if_pos hc]
        exact Or.inr (Or.inr rfl)
      · rw [if_neg hc]
        exact ih

theorem firstConflict_three (sentinel : Ptr) (inChain : Ptr → Bool) :
    ∀ l : List Ptr, (∀ e ∈ l, e ≠ sentinel) → (∃ e ∈ l, inChain e = true) →
      firstConflict sentinel inChain l = some 3 := by
  intro l
  induction l with
  | nil =>
    intro _ h
    obtain ⟨e, he, _⟩ := h
    cases he
  | cons a l ih =>
    intro hns hex
    unfold firstConflict
    rw [if_neg (hns a (List.mem_cons_self _ _))]
    by_cases hc : inChain a = true
    · rw [if_pos hc]
    · rw [if_neg hc]
      apply ih (fun e he => hns e (List.mem_cons_of_mem _ he))
      obtain ⟨e, he, hce⟩ := hex
      rcases List.mem_cons.mp he with rfl | he2
      · exact absurd hce hc
      · exact ⟨e, he2, hce⟩

theorem BlockInChain.holds_of_visited (heap : Ptr → Block) (fuel d : Nat) (top li entry : Ptr)
    (hchain : ancestor heap d top = none) (hfuel : d < fuel)
    (hv : visitedFrom heap top entry (heap li).wire.level) :
    BlockInChain.holds heap fuel (some top) (some li) entry = true := by
  obtain ⟨b, hb⟩ := BlockInChain_total heap entry li d fuel top hchain hfuel
  have hiff := BlockInChain_iff heap entry li fuel top b hb
  have hbt : b = true := hiff.mpr hv
  subst hbt
  simp [BlockInChain.holds, hb]

theorem pagedSelect_paged (env : Env) (serial : Nat) (entries : List Ptr)
    (h : env.TempSerialnumSelect = pagedSelect entries) : TempIndexPaged env serial entries := by
  intro hist last
  rw [h]
  refine ⟨rfl, ?_, ?_⟩
  · intro hle
    simp only [pagedSelect]
    rw [if_neg (by omega)]
  · intro hlt
    simp only [pagedSelect]
    rw [if_pos hlt]
    omega

/-- C11: let the persistent lookup miss, the last indelible block be set, the chain of
`topblock` end, and the temp index answer `TempSerialnumSelect` from a list `entries` of
positive, strictly ascending pointers, page by page, as `TempIndexPaged` states.  Then
`CheckSerialnum` returns, and its result is the code of the first entry of the whole
list that is the sentinel `(void*)type` (2) or passes `BlockInChain` (3), and 0 when
there is none; the code is given by the entry list alone, whatever the page size.  It
is 0 exactly when no entry is the sentinel or in the chain; when the first such entry
is the sentinel it is 2, and when it is a block in the chain it is 3; with no sentinel
among the entries, an entry visited by `BlockInChain` from `topblock` (an ancestor
above the last indelible level) gives 3.  The entries read by the scan, over all
pages and in order, are an initial part of the list, which has no repetition: no entry
is read twice.  The only effects are the lookup and the page queries. -/
theorem C11_CheckSerialnum_paged_scan (env : Env) (fuel d : Nat) (s : State)
    (topblock txobj : Option Ptr) (type : Int) (serial size : Nat) (li : Ptr)
    (entries : List Ptr)
    (hmiss : env.rc s.trace (Event.SerialnumCheck serial) = 0)
    (hli : s.m_last_indelible_block = some li)
    (horacle : TempIndexPaged env serial entries)
    (hsorted : entries.Pairwise (· < ·)) (hpos : ∀ e ∈ entries, 0 < e)
    (hchain : ∀ top, topblock = some top → ancestor s.heap d top = none)
    (hfuel : d < fuel ∧ entries.length < fuel) :
    ∃ es,
      CheckSerialnum env fuel s topblock type txobj serial size
        = .ok ((firstConflict (uintptr_of_int type)
            (BlockInChain.holds s.heap fuel topblock (some li)) entries).getD 0,
          s.log (Event.SerialnumCheck serial :: es)) ∧
      CheckSerialnum.pagesTraced env fuel topblock type serial size (some li) fuel
          (s.log [Event.SerialnumCheck serial]) (List.replicate (BLOCKARRAYSIZE env) 0) 0
        = .ok (((firstConflict (uintptr_of_int type)
            (BlockInChain.holds s.heap fuel topblock (some li)) entries).getD 0,
          s.log (Event.SerialnumCheck serial :: es)),
          firstRead (uintptr_of_int type) (BlockInChain.holds s.heap fuel topblock (some li))
            entries) ∧
      (∀ e ∈ es, ∃ c, e = Event.TempSerialnumSelect serial c (BLOCKARRAYSIZE env)) ∧
      firstRead (uintptr_of_int type) (BlockInChain.holds s.heap fuel topblock (some li))
        entries <+: entries ∧
      entries.Nodup ∧
      ((firstConflict (uintptr_of_int type)
          (BlockInChain.holds s.heap fuel topblock (some li)) entries).getD 0 = 0 ↔
        ∀ e ∈ entries, e ≠ uintptr_of_int type ∧
          BlockInChain.holds s.heap fuel topblock (some li) e = false) ∧
      (∀ pre e post, entries = pre ++ e :: post →
        (∀ x ∈ pre, x ≠ uintptr_of_int type ∧
          BlockInChain.holds s.heap fuel topblock (some li) x = false) →
        (e = uintptr_of_int type →
          (firstConflict (uintptr_of_int type)
            (BlockInChain.holds s.heap fuel topblock (some li)) entries).getD 0 = 2) ∧
        (e ≠ uintptr_of_int type →
          BlockInChain.holds s.heap fuel topblock (some li) e = true →
          (firstConflict (uintptr_of_int type)
            (BlockInChain.holds s.heap fuel topblock (some li)) entries).getD 0 = 3)) ∧
      (∀ top e, topblock = some top → e ∈ entries →
        visitedFrom s.heap top e (s.heap li).wire.level →
        (∀ x ∈ entries, x ≠ uintptr_of_int type) →
        (firstConflict (uintptr_of_int type)
          (BlockInChain.holds s.heap fuel topblock (some li)) entries).getD 0 = 3) := by
  have hret : ∀ e, ∃ b, BlockInChain s.heap fuel e topblock (some li) = .ok b :=
    fun e => BlockInChain_returns s.heap fuel d topblock li e hchain hfuel.1
  have hinit : entries.filter (fun e => decide (0 < e)) = entries := by
    rw [List.filter_eq_self]
    intro e he
    simpa using hpos e he
  obtain ⟨es, hrun, hes⟩ := CheckSerialnum.pagesTraced_spec env fuel topblock type serial size
    (some li) entries s.heap horacle hret fuel (s.log [Event.SerialnumCheck serial])
    (List.replicate (BLOCKARRAYSIZE env) 0) 0 entries rfl hsorted hinit hfuel.2
  rw [State.log_log] at hrun
  have hpages := CheckSerialnum.pagesTraced_fst env fuel topblock type serial size (some li)
    fuel (s.log [Event.SerialnumCheck serial]) (List.replicate (BLOCKARRAYSIZE env) 0) 0
  rw [hrun] at hpages
  refine ⟨es, ?_, hrun, hes, firstRead_isPrefix _ _ _,
    hsorted.imp (fun h => Nat.ne_of_lt h), ?_, ?_, ?_⟩
  · unfold CheckSerialnum
    simp only [hmiss, hli]
    rw [if_neg (by omega), if_neg (by simp)]
    exact hpages.symm
  · rw [← firstConflict_none_iff]
    rcases firstConflict_codes (uintptr_of_int type)
      (BlockInChain.holds s.heap fuel topblock (some li)) entries with h | h | h <;>
      simp [h]
  · intro pre e post hsplit hpre
    have hnone := (firstConflict_none_iff (uintptr_of_int type)
      (BlockInChain.holds s.heap fuel topblock (some li)) pre).mpr hpre
    have happ := (firstConflict_append_none (uintptr_of_int type)
      (BlockInChain.holds s.heap fuel topblock (some li)) pre (e :: post) hnone).1
    rw [hsplit, happ]
    constructor
    · intro he
      simp [firstConflict, he]
    · intro he hc
      simp [firstConflict, he, hc]
  · intro top e htop he hv hns
    subst htop
    have hh := BlockInChain.holds_of_visited s.heap fuel d top li e (hchain top rfl) hfuel.1 hv
    rw [firstConflict_three _ _ entries hns ⟨e, he, hh⟩]
    rfl

/-- C11, witness: with pages of two entries and the temp index holding 3, 4 and 9, a check
with the sentinel 9 on the chain P <- L1 <- L2 returns 2, found on the second page; the
pages are queried after 0 and after 4. -/
theorem C11_witness_sentinel_on_second_page :
    (CheckSerialnum envPaged 5 (sampleChainState 0 0) (some 2) 9 none 5 32).toOption.map
      (fun r => (r.1, r.2.trace))
      = some (2, [Event.SerialnumCheck 5, Event.TempSerialnumSelect 5 0 2,
          Event.TempSerialnumSelect 5 4 2]) ∧
    ∃ es, CheckSerialnum envPaged 5 (sampleChainState 0 0) (some 2) 9 none 5 32
        = .ok (2, (sampleChainState 0 0).log (Event.SerialnumCheck 5 :: es)) ∧
      ∀ e ∈ es, ∃ c, e = Event.TempSerialnumSelect 5 c 2 := by
  obtain ⟨es, h1, -, h3, -⟩ := C11_CheckSerialnum_paged_scan envPaged 5 3
    (sampleChainState 0 0) (some 2) none 9 5 32 0 [3, 4, 9] rfl rfl
    (pagedSelect_paged envPaged 5 [3, 4, 9] rfl) (by decide) (by decide)
    (by intro top h; cases h; rfl) ⟨by decide, by decide⟩
  have hcode : (firstConflict (uintptr_of_int 9)
      (BlockInChain.holds (sampleChainState 0 0).heap 5 (some 2) (some 0)) [3, 4, 9]).getD 0
      = 2 := by decide
  rw [hcode] at h1
  exact ⟨by decide, es, h1, h3⟩

/-- C16, witness: a transaction without inputs whose object body is 7, 8 gets one input
with the serial number 15, the hash of the body; a transaction with an input is
returned as it is. -/
theorem C16_witness_mint_body :
    CheckCreatePseudoSerialnum envSum (TxPay.mk 0 [0, 4] 0 [] 0) ⟨1, [7, 8]⟩
      = .ok (TxPay.mk 1 [15, 4] 0 [] 0) ∧
    CheckCreatePseudoSerialnum envSum (TxPay.mk 1 [9] 0 [] 0) ⟨1, [7, 8]⟩
      = .ok (TxPay.mk 1 [9] 0 [] 0) :=
  ⟨(C16_pseudo_serialnum envSum (TxPay.mk 0 [0, 4] 0 [] 0) ⟨1, [7, 8]⟩).2.1 rfl (Or.inl rfl),
    (C16_pseudo_serialnum envSum (TxPay.mk 1 [9] 0 [] 0) ⟨1, [7, 8]⟩).1 (by decide)⟩

/-! ## Outcomes of the walk of `DoConfirmOne` -/

theorem DoConfirmOne.walk_outcome :
    ∀ (fuel : Nat) (s : State) (block n : Nat) (t : State) (res : Option (Nat × Ptr)),
      n < UINT32_SIZE → DoConfirmOne.walk fuel s block n = .ok (t, res) →
      (res = none ∧ ∃ below x q, WalkBreak s.heap block below x q ∧ below.length < fuel ∧
        t = SetFatalError (s.log (below.map Event.ReadMarked))
          FatalMsg.DoConfirmOne_level_sequence) ∨
      (∃ below cand stop, WalkPath s.heap block below cand stop ∧ below.length < fuel ∧
        res = some ((n + below.length) % UINT32_SIZE, cand) ∧
        t = s.log ((below ++ stop.toList).map Event.ReadMarked)) := by
  intro fuel
  induction fuel with
  | zero =>
    intro s block n t res _ h
    simp [DoConfirmOne.walk] at h
  | succ fuel ih =>
    intro s block n t res hn h
    unfold DoConfirmOne.walk at h
    cases hp : (s.heap block).prior with
    | none =>
      simp only [hp, Except.ok.injEq, Prod.mk.injEq] at h
      obtain ⟨rfl, rfl⟩ := h
      refine Or.inr ⟨[], block, none, ⟨rfl, hp⟩, Nat.succ_pos _, ?_, ?_⟩
      · simp [Nat.mod_eq_of_lt hn]
      · simp [State.log_nil]
    | some prior_block =>
      simp only [hp] at h
      by_cases hl : (s.heap prior_block).wire.level ≠
          ((s.heap block).wire.level + UINT64_SIZE - 1) % UINT64_SIZE
      · rw [if_pos hl] at h
        simp only [Except.ok.injEq, Prod.mk.injEq] at h
        obtain ⟨rfl, rfl⟩ := h
        refine Or.inl ⟨rfl, [], block, prior_block, ⟨rfl, hp, hl⟩, Nat.succ_pos _, ?_⟩
        simp [State.log_nil]
      · rw [if_neg hl] at h
        have hlev : PriorLevel s.heap block prior_block := by
          unfold PriorLevel
          exact not_not.mp hl
        cases hm : (s.heap prior_block).aux.marked_for_indelible with
        | true =>
          rw [if_pos (by simpa [State.log] using hm)] at h
          simp only [Except.ok.injEq, Prod.mk.injEq] at h
          obtain ⟨rfl, rfl⟩ := h
          refine Or.inr ⟨[], block, some prior_block, ⟨rfl, hp, hlev, hm⟩, Nat.succ_pos _, ?_, ?_⟩
          · simp [Nat.mod_eq_of_lt hn]
          · rfl
        | false =>
          rw [if_neg (by simp [State.log, hm])] at h
          rcases ih _ _ _ _ _ (Nat.mod_lt _ (by decide)) h with
            ⟨hres, below, x, q, hbreak, hlen, ht⟩ | ⟨below, cand, stop, hpath, hlen, hres, ht⟩
          · refine Or.inl ⟨hres, prior_block :: below, x, q, ⟨hp, hlev, hm, hbreak⟩,
              by simpa using hlen, ?_⟩
            rw [ht, State.log_log]
            rfl
          · refine Or.inr ⟨prior_block :: below, cand, stop, ⟨hp, hlev, hm, hpath⟩,
              by simpa using hlen, ?_, ?_⟩
            · rw [hres, Nat.mod_add_mod]
              have e : n + 1 + below.length = n + (prior_block :: below).length := by
                simp only [List.length_cons]
                omega
              rw [e]
            · rw [ht, State.log_log]
              rfl

theorem DoConfirmOne.walk_break :
    ∀ (below : List Ptr) (fuel : Nat) (s : State) (block n : Nat) (x q : Ptr),
      WalkBreak s.heap block below x q → below.length < fuel →
      DoConfirmOne.walk fuel s block n
        = .ok (SetFatalError (s.log (below.map Event.ReadMarked))
            FatalMsg.DoConfirmOne_level_sequence, none) := by
  intro below
  induction below with
  | nil =>
    intro fuel s block n x q hb hfuel
    obtain ⟨f, rfl⟩ : ∃ f, fuel = f + 1 := ⟨fuel - 1, by omega⟩
    obtain ⟨-, hp, hl⟩ := hb
    unfold DoConfirmOne.walk
    simp only [hp]
    rw [if_pos (by unfold PriorLevel at hl; exact hl)]
    simp [State.log_nil]
  | cons p rest ih =>
    intro fuel s block n x q hb hfuel
    obtain ⟨f, rfl⟩ : ∃ f, fuel = f + 1 := ⟨fuel - 1, by omega⟩
    obtain ⟨hp, hl, hm, hrest⟩ := hb
    unfold DoConfirmOne.walk
    simp only [hp]
    rw [if_neg (by unfold PriorLevel at hl; exact not_not.mpr hl),
      if_neg (by simp [State.log, hm])]
    rw [ih f (s.log [Event.ReadMarked p]) p _ x q hrest (by simpa using hfuel), State.log_log]
    rfl

theorem DoConfirmOne.walk_path_mod :
    ∀ (below : List Ptr) (fuel : Nat) (s : State) (block n0 : Nat) (cand : Ptr)
      (stop : Option Ptr),
      WalkPath s.heap block below cand stop → below.length < fuel → n0 < UINT32_SIZE →
      DoConfirmOne.walk fuel s block n0
        = .ok (s.log ((below ++ stop.toList).map Event.ReadMarked),
            some ((n0 + below.length) % UINT32_SIZE, cand)) := by
  intro below
  induction below with
  | nil =>
    intro fuel s block n0 cand stop hpath hfuel hn
    obtain ⟨f, rfl⟩ : ∃ f, fuel = f + 1 := ⟨fuel - 1, by omega⟩
    cases stop with
    | none =>
      obtain ⟨rfl, hp⟩ := hpath
      unfold DoConfirmOne.walk
      simp [hp, State.log_nil, Nat.mod_eq_of_lt hn]
    | some q =>
      obtain ⟨rfl, hp, hl, hm⟩ := hpath
      unfold DoConfirmOne.walk
      simp only [hp]
      rw [if_neg (by unfold PriorLevel at hl; exact not_not.mpr hl),
        if_pos (by simpa [State.log] using hm)]
      simp [Nat.mod_eq_of_lt hn]
  | cons p rest ih =>
    intro fuel s block n0 cand stop hpath hfuel hn
    obtain ⟨f, rfl⟩ : ∃ f, fuel = f + 1 := ⟨fuel - 1, by omega⟩
    obtain ⟨hp, hl, hm, hrest⟩ := hpath
    unfold DoConfirmOne.walk
    simp only [hp]
    rw [if_neg (by unfold PriorLevel at hl; exact not_not.mpr hl),
      if_neg (by simp [State.log, hm])]
    rw [ih f (s.log [Event.ReadMarked p]) p _ cand stop hrest (by simpa using hfuel)
      (Nat.mod_lt _ (by decide)), State.log_log]
    have e : n0 + 1 + rest.length = n0 + (p :: rest).length := by
      simp only [List.length_cons]
      omega
    rw [Nat.mod_add_mod, e]
    rfl

theorem WalkPath.cand_unmarked (heap : Ptr → Block) :
    ∀ (below : List Ptr) (block cand : Ptr) (stop : Option Ptr),
      WalkPath heap block below cand stop → (heap block).aux.marked_for_indelible = false →
      (heap cand).aux.marked_for_indelible = false := by
  intro below
  induction below with
  | nil =>
    intro block cand stop hpath hb
    cases stop with
    | none =>
      obtain ⟨rfl, -⟩ := hpath
      exact hb
    | some q =>
      obtain ⟨rfl, -⟩ := hpath
      exact hb
  | cons p rest ih =>
    intro block cand stop hpath _
    obtain ⟨-, -, hm, hrest⟩ := hpath
    exact ih p cand stop hrest hm

/-- C24: on an unmarked tip, when the walk reaches a block whose prior fails the level
check (level of the prior = level of the block minus one in `uint64_t`; the check is
made on every prior before its mark is read, so also on the first marked one),
`DoConfirmOne` returns true in the entry state with the fatal flag set and the reads and
the fatal line logged: no block is marked and `SetNewlyIndelibleBlock` is not called.
When every prior met passes the check, down to the end of the chain or a marked prior,
the walk returns the candidate and the count with the fatal flag as it was.  Every
result of the walk is of one of these two kinds. -/
theorem C24_walk_level_sequence (env : Env) (fuel : Nat) (s : State) (tip : Ptr)
    (htip : (s.heap tip).aux.marked_for_indelible = false) :
    (∀ below x q, WalkBreak s.heap tip below x q → below.length < fuel →
      DoConfirmOne env fuel s tip
        = .ok (true, SetFatalError (s.log (Event.ReadMarked tip :: below.map Event.ReadMarked))
            FatalMsg.DoConfirmOne_level_sequence)) ∧
    (∀ below cand stop, WalkPath s.heap tip below cand stop → below.length < fuel →
      DoConfirmOne.walk fuel (s.log [Event.ReadMarked tip]) tip 1
        = .ok (s.log (walkReads tip below stop),
            some ((1 + below.length) % UINT32_SIZE, cand))) ∧
    (∀ t res, DoConfirmOne.walk fuel (s.log [Event.ReadMarked tip]) tip 1 = .ok (t, res) →
      (res = none ∧ t.m_have_fatal_error = true ∧ t.heap = s.heap ∧
        ∃ below x q, WalkBreak s.heap tip below x q) ∨
      (res ≠ none ∧ t.m_have_fatal_error = s.m_have_fatal_error ∧ t.heap = s.heap ∧
        ∃ below cand stop, WalkPath s.heap tip below cand stop)) := by
  refine ⟨?_, ?_, ?_⟩
  · intro below x q hbreak hfuel
    unfold DoConfirmOne
    rw [if_neg (by simp [State.log, htip])]
    rw [DoConfirmOne.walk_break below fuel (s.log [Event.ReadMarked tip]) tip 1 x q hbreak
      hfuel]
    simp only [State.log_log]
    rfl
  · intro below cand stop hpath hfuel
    rw [DoConfirmOne.walk_path_mod below fuel (s.log [Event.ReadMarked tip]) tip 1 cand stop
      hpath hfuel (by decide), State.log_log]
    rfl
  · intro t res h
    rcases DoConfirmOne.walk_outcome fuel _ tip 1 t res (by decide) h with
      ⟨hres, below, x, q, hbreak, -, rfl⟩ | ⟨below, cand, stop, hpath, -, hres, rfl⟩
    · exact Or.inl ⟨hres, rfl, rfl, below, x, q, hbreak⟩
    · exact Or.inr ⟨by rw [hres]; simp, rfl, rfl, below, cand, stop, hpath⟩

/-- C24, witness: on the chain P <- L1 <- L2 with levels 5, 9, 7 the prior of the tip L2
fails the level check: `DoConfirmOne` returns true with the fatal flag set, no mark set
and the read of the tip and the fatal line as only effects. -/
theorem C24_witness_level_gap :
    (sampleGapState.heap 2).aux.marked_for_indelible = false ∧
    WalkBreak sampleGapState.heap 2 [] 2 1 ∧
    DoConfirmOne envOk 5 sampleGapState 2
      = .ok (true, SetFatalError (sampleGapState.log [Event.ReadMarked 2])
          FatalMsg.DoConfirmOne_level_sequence) :=
  ⟨rfl, ⟨rfl, rfl, by unfold PriorLevel; decide⟩,
    (C24_walk_level_sequence envOk 5 sampleGapState 2 rfl).1 [] 2 1
      ⟨rfl, rfl, by unfold PriorLevel; decide⟩ (by decide)⟩

/-- C29: every result of `DoConfirmOne` either comes without a call of
`SetNewlyIndelibleBlock` (the result is true and `BeginWrite` is not called), or is the
result of `SetNewlyIndelibleBlock` on a block that is not marked at the call; that call
does not take the early return for a marked block (whose only effects are `BeginWrite`
and the read of the mark), and when it returns true the fatal flag is set. -/
theorem C29_early_return_unreachable (env : Env) (fuel : Nat) (s : State) (tip : Ptr)
    (r : Bool) (t : State) (h : DoConfirmOne env fuel s tip = .ok (r, t)) :
    (r = true ∧ ∃ f es, t = s.upd f es ∧ Event.BeginWrite ∉ es) ∨
    (∃ s1 cand, s1.heap = s.heap ∧ (s1.heap cand).aux.marked_for_indelible = false ∧
      SetNewlyIndelibleBlock env s1 cand = .ok (r, t) ∧
      t.trace ≠ s1.trace ++ [Event.BeginWrite, Event.ReadMarked cand] ∧
      (r = true → t.m_have_fatal_error = true)) := by
  unfold DoConfirmOne at h
  cases hm : (s.heap tip).aux.marked_for_indelible with
  | true =>
    rw [if_pos (by simpa [State.log] using hm)] at h
    simp only [Except.ok.injEq, Prod.mk.injEq] at h
    obtain ⟨rfl, rfl⟩ := h
    exact Or.inl ⟨rfl, s.m_have_fatal_error, [Event.ReadMarked tip], rfl, by simp⟩
  | false =>
    rw [if_neg (by simp [State.log, hm])] at h
    cases hw : DoConfirmOne.walk fuel (s.log [Event.ReadMarked tip]) tip 1 with
    | error f => simp [hw] at h
    | ok res =>
      obtain ⟨s1, wres⟩ := res
      simp only [hw] at h
      rcases DoConfirmOne.walk_outcome fuel _ tip 1 s1 wres (by decide) hw with
        ⟨hres, below, x, q, -, -, rfl⟩ | ⟨below, cand, stop, hpath, -, hres, rfl⟩
      · subst hres
        simp only [Except.ok.injEq, Prod.mk.injEq] at h
        obtain ⟨rfl, rfl⟩ := h
        refine Or.inl ⟨rfl, true,
          Event.ReadMarked tip :: below.map Event.ReadMarked ++
            [Event.Fatal FatalMsg.DoConfirmOne_level_sequence], ?_, ?_⟩
        · simp [SetFatalError_eq_upd, State.log_eq_upd]
        · simp
      · subst hres
        simp only at h
        split at h
        · simp only [Except.ok.injEq, Prod.mk.injEq] at h
          obtain ⟨rfl, rfl⟩ := h
          refine Or.inl ⟨rfl, s.m_have_fatal_error,
            Event.ReadMarked tip :: (below ++ stop.toList).map Event.ReadMarked, ?_, ?_⟩
          · simp [State.log_eq_upd]
          · simp
        · have hc : (s.heap cand).aux.marked_for_indelible = false :=
            WalkPath.cand_unmarked s.heap below tip cand stop hpath hm
          obtain ⟨s1, hs1⟩ : ∃ s1, s1 = (s.log [Event.ReadMarked tip]).log
              ((below ++ stop.toList).map Event.ReadMarked) := ⟨_, rfl⟩
          have hheap : s1.heap = s.heap := by rw [hs1]; rfl
          rw [← hs1] at h
          have hc1 : (s1.heap cand).aux.marked_for_indelible = false := by rw [hheap]; exact hc
          refine Or.inr ⟨s1, cand, hheap, hc1, h, ?_, ?_⟩
          · rcases SetNewlyIndelibleBlock_spec env s1 cand r t h with
              ⟨-, -, rfl⟩ | ⟨-, -, hmk, -⟩ | ⟨-, -, -, p, msg, -, -, rfl⟩ | ⟨-, -, -, hcm⟩
            · simp
            · rw [hc1] at hmk
              cases hmk
            · simp
            · rcases SetNewlyIndelibleBlock.commit_spec env _ cand r t hcm with
                ⟨-, f, es, rfl, -⟩ | ⟨-, t0, ⟨f, es, rfl, -⟩, rfl⟩
              · simp
              · simp
          · intro hr
            subst hr
            rcases SetNewlyIndelibleBlock_spec env s1 cand true t h with
              ⟨-, -, rfl⟩ | ⟨-, -, hmk, -⟩ | ⟨-, -, -, p, msg, -, -, rfl⟩ | ⟨-, -, -, hcm⟩
            · rfl
            · rw [hc1] at hmk
              cases hmk
            · rfl
            · rcases SetNewlyIndelibleBlock.commit_spec env _ cand true t hcm with
                ⟨-, hrun⟩ | ⟨hf, -⟩
              · exact hrun.fatal_of_true
              · cases hf

/-- C29, witness: on the chain P <- L1 <- L2 `DoConfirmOne` calls
`SetNewlyIndelibleBlock` on the unmarked L1, which is promoted. -/
theorem C29_witness_unmarked_candidate :
    ∃ t, DoConfirmOne envOk 5 (sampleChainState 0 0) 2 = .ok (false, t) ∧
      ∃ s1 cand, s1.heap = (sampleChainState 0 0).heap ∧
        (s1.heap cand).aux.marked_for_indelible = false ∧
        SetNewlyIndelibleBlock envOk s1 cand = .ok (false, t) ∧
        t.trace ≠ s1.trace ++ [Event.BeginWrite, Event.ReadMarked cand] := by
  obtain ⟨t, ht⟩ : ∃ t, DoConfirmOne envOk 5 (sampleChainState 0 0) 2
      = .ok (false, t) := ⟨_, rfl⟩
  rcases C29_early_return_unreachable envOk 5 (sampleChainState 0 0) 2 false t ht with
    ⟨hr, -⟩ | ⟨s1, cand, h1, h2, h3, h4, -⟩
  · cases hr
  · exact ⟨t, ht, s1, cand, h1, h2, h3, h4⟩

/-! ## The write lock over the trace of a run -/

theorem lockAfter_append (env : Env) :
    ∀ (a b hist : List Event) (held : Bool),
      lockAfter env held hist (a ++ b)
        = lockAfter env (lockAfter env held hist a) (hist ++ a) b := by
  intro a
  induction a with
  | nil =>
    intro b hist held
    simp [lockAfter]
  | cons e a ih =>
    intro b hist held
    have e1 : hist ++ e :: a = (hist ++ [e]) ++ a := by simp
    show lockAfter env (lockStep env held hist e) (hist ++ [e]) (a ++ b) = _
    rw [ih b (hist ++ [e]), e1]
    rfl

theorem allUnderLock_append (env : Env) (p : Event → Bool) :
    ∀ (a b hist : List Event) (held : Bool),
      allUnderLock env p held hist (a ++ b)
        = (allUnderLock env p held hist a &&
            allUnderLock env p (lockAfter env held hist a) (hist ++ a) b) := by
  intro a
  induction a with
  | nil =>
    intro b hist held
    simp [allUnderLock, lockAfter]
  | cons e a ih =>
    intro b hist held
    have e1 : hist ++ e :: a = (hist ++ [e]) ++ a := by simp
    show ((!p e || held) && allUnderLock env p (lockStep env held hist e) (hist ++ [e]) (a ++ b))
      = (((!p e || held) && allUnderLock env p (lockStep env held hist e) (hist ++ [e]) a) &&
          allUnderLock env p (lockAfter env (lockStep env held hist e) (hist ++ [e]) a)
            (hist ++ e :: a) b)
    rw [ih b (hist ++ [e]), e1, Bool.and_assoc]

theorem lockStep_true (env : Env) (hist : List Event) (e : Event) (h : e.inRound = true) :
    lockStep env true hist e = true := by
  cases e <;> simp [lockStep, Event.inRound, Event.isCommitStep] at h ⊢

theorem lock_held_round (env : Env) (p : Event → Bool) :
    ∀ (es hist : List Event), (∀ e ∈ es, e.inRound = true) →
      lockAfter env true hist es = true ∧ allUnderLock env p true hist es = true := by
  intro es
  induction es with
  | nil =>
    intro hist _
    exact ⟨rfl, rfl⟩
  | cons e es ih =>
    intro hist h
    have he := lockStep_true env hist e (h e (List.mem_cons_self _ _))
    have hrest := ih (hist ++ [e]) (fun x hx => h x (List.mem_cons_of_mem _ hx))
    simp only [lockAfter, allUnderLock, he, hrest, Bool.or_true, Bool.and_self, and_self]

theorem lock_mono (env : Env) (p : Event → Bool) :
    ∀ (es hist : List Event),
      (lockAfter env false hist es = true → lockAfter env true hist es = true) ∧
      (allUnderLock env p false hist es = true → allUnderLock env p true hist es = true) := by
  intro es
  induction es with
  | nil =>
    intro hist
    simp [lockAfter, allUnderLock]
  | cons e es ih =>
    intro hist
    have hstep : lockStep env false hist e = true → lockStep env true hist e = true := by
      cases e <;> first
        | (simp [lockStep]; done)
        | (rename_i c; cases c <;> simp [lockStep])
    cases hf : lockStep env false hist e with
    | true =>
      simp only [lockAfter, allUnderLock, hf, hstep hf, Bool.or_true, Bool.true_and,
        Bool.and_eq_true, imp_self, true_and]
      intro h
      exact h.2
    | false =>
      cases ht : lockStep env true hist e with
      | true =>
        simp only [lockAfter, allUnderLock, hf, ht, Bool.or_true, Bool.true_and,
          Bool.and_eq_true]
        exact ⟨(ih _).1, fun h => (ih _).2 h.2⟩
      | false =>
        simp only [lockAfter, allUnderLock, hf, ht, Bool.or_true, Bool.true_and,
          Bool.and_eq_true, imp_self, true_and]
        intro h
        exact h.2

theorem lock_quiet (env : Env) (p : Event → Bool) :
    ∀ (es hist : List Event) (held : Bool), (∀ e ∈ es, p e = false) →
      allUnderLock env p held hist es = true := by
  intro es
  induction es with
  | nil =>
    intro hist held _
    rfl
  | cons e es ih =>
    intro hist held h
    simp only [allUnderLock, h e (List.mem_cons_self _ _), Bool.not_false, Bool.true_or,
      Bool.true_and]
    exact ih _ _ (fun x hx => h x (List.mem_cons_of_mem _ hx))

theorem Event.inRound_of_store (e : Event) (h : e.isCommitStep = true ∨ e.isFatal = true) :
    e.inRound = true := by
  cases e <;> simp [Event.inRound, Event.isCommitStep, Event.isFatal] at h ⊢

theorem lock_begin (env : Env) (p : Event → Bool) (hist rest : List Event)
    (hp : p Event.BeginWrite = false) (hrc : 0 ≤ env.rc hist Event.BeginWrite)
    (hrest : ∀ e ∈ rest, e.inRound = true) :
    allUnderLock env p false hist (Event.BeginWrite :: rest) = true ∧
      lockAfter env false hist (Event.BeginWrite :: rest) = true := by
  have hstep : lockStep env false hist Event.BeginWrite = true := by
    simp [lockStep, hrc]
  obtain ⟨h1, h2⟩ := lock_held_round env p rest (hist ++ [Event.BeginWrite]) hrest
  simp only [allUnderLock, lockAfter, hp, hstep, h1, h2, Bool.not_false, Bool.true_or,
    Bool.and_self, and_self]

theorem SetNewlyIndelibleBlock_lock (env : Env) (s : State) (b : Ptr) (r : Bool) (t : State)
    (h : SetNewlyIndelibleBlock env s b = .ok (r, t)) :
    ∃ es, t.trace = s.trace ++ es ∧ (∀ e ∈ es, e.inRound = true) ∧
      allUnderLock env Event.isMutation false s.trace es = true ∧
      (r = false → lockAfter env false s.trace es = true) := by
  rcases SetNewlyIndelibleBlock_spec env s b r t h with
    ⟨hr, -, rfl⟩ | ⟨hr, -, -, rfl⟩ | ⟨hr, hrc, -, p, msg, -, -, rfl⟩ | ⟨hrc, -, -, hc⟩
  · refine ⟨_, rfl, by simp [Event.inRound], ?_, by simp [hr]⟩
    exact lock_quiet env _ _ _ _ (by simp [Event.isMutation])
  · refine ⟨_, rfl, by simp [Event.inRound], ?_, by simp [hr]⟩
    exact lock_quiet env _ _ _ _ (by simp [Event.isMutation])
  · refine ⟨[Event.BeginWrite, Event.ReadMarked b, Event.WriteMarked b, Event.Fatal msg],
      by simp, by simp [Event.inRound], ?_, by simp [hr]⟩
    exact (lock_begin env _ s.trace _ rfl hrc (by simp [Event.inRound])).1
  · rcases SetNewlyIndelibleBlock.commit_spec env _ b r t hc with
      ⟨hr, f, es, rfl, hes, -⟩ | ⟨hr, t0, ⟨f, es, rfl, hes, -⟩, rfl⟩
    · have hround : ∀ e ∈ [Event.ReadMarked b, Event.WriteMarked b] ++ es,
          e.inRound = true := by
        intro e he
        rcases List.mem_append.mp he with h1 | h2
        · rcases List.mem_cons.mp h1 with rfl | h1
          · rfl
          · rw [List.mem_singleton.mp h1]
            rfl
        · exact Event.inRound_of_store e (hes e h2)
      have hl := lock_begin env Event.isMutation s.trace _ rfl hrc hround
      refine ⟨Event.BeginWrite :: ([Event.ReadMarked b, Event.WriteMarked b] ++ es),
        by simp, ?_, hl.1, fun _ => hl.2⟩
      intro e he
      rcases List.mem_cons.mp he with rfl | he2
      · rfl
      · exact hround e he2
    · have hround : ∀ e ∈ [Event.ReadMarked b, Event.WriteMarked b] ++ es ++
          [Event.SetNewIndelible b], e.inRound = true := by
        intro e he
        rcases List.mem_append.mp he with h0 | h3
        · rcases List.mem_append.mp h0 with h1 | h2
          · rcases List.mem_cons.mp h1 with rfl | h1
            · rfl
            · rw [List.mem_singleton.mp h1]
              rfl
          · exact Event.inRound_of_store e (hes e h2)
        · rw [List.mem_singleton.mp h3]
          rfl
      have hl := lock_begin env Event.isMutation s.trace _ rfl hrc hround
      refine ⟨Event.BeginWrite :: ([Event.ReadMarked b, Event.WriteMarked b] ++ es ++
        [Event.SetNewIndelible b]), by simp [State.publish], ?_, hl.1, fun _ => hl.2⟩
      intro e he
      rcases List.mem_cons.mp he with rfl | he2
      · rfl
      · exact hround e he2

theorem lock_after_reads (env : Env) (p : Event → Bool) (reads es : List Event)
    (hist : List Event) (hreads : ∀ e ∈ reads, p e = false)
    (hes : allUnderLock env p false (hist ++ reads) es = true) :
    allUnderLock env p false hist (reads ++ es) = true := by
  rw [allUnderLock_append, lock_quiet env p reads hist false hreads, Bool.true_and]
  cases hl : lockAfter env false hist reads with
  | false => exact hes
  | true => exact (lock_mono env p es _).2 hes

theorem lockAfter_after (env : Env) (pre es hist : List Event)
    (hes : lockAfter env false (hist ++ pre) es = true) :
    lockAfter env false hist (pre ++ es) = true := by
  rw [lockAfter_append]
  cases hl : lockAfter env false hist pre with
  | false => exact hes
  | true => exact (lock_mono env Event.isMutation es _).1 hes

theorem DoConfirmOne_lock (env : Env) (fuel : Nat) (s : State) (tip : Ptr) (r : Bool)
    (t : State) (h : DoConfirmOne env fuel s tip = .ok (r, t)) :
    ∃ es, t.trace = s.trace ++ Event.ReadMarked tip :: es ∧ (∀ e ∈ es, e.inRound = true) ∧
      allUnderLock env Event.isMutation false s.trace (Event.ReadMarked tip :: es) = true ∧
      (r = false → lockAfter env false s.trace (Event.ReadMarked tip :: es) = true) := by
  unfold DoConfirmOne at h
  cases hm : (s.heap tip).aux.marked_for_indelible with
  | true =>
    rw [if_pos (by simpa [State.log] using hm)] at h
    simp only [Except.ok.injEq, Prod.mk.injEq] at h
    obtain ⟨rfl, rfl⟩ := h
    exact ⟨[], rfl, by simp, rfl, by simp⟩
  | false =>
    rw [if_neg (by simp [State.log, hm])] at h
    cases hw : DoConfirmOne.walk fuel (s.log [Event.ReadMarked tip]) tip 1 with
    | error f => simp [hw] at h
    | ok res =>
      obtain ⟨s1, wres⟩ := res
      simp only [hw] at h
      rcases DoConfirmOne.walk_outcome fuel _ tip 1 s1 wres (by decide) hw with
        ⟨hres, below, x, q, -, -, rfl⟩ | ⟨below, cand, stop, hpath, -, hres, rfl⟩
      · subst hres
        simp only [Except.ok.injEq, Prod.mk.injEq] at h
        obtain ⟨rfl, rfl⟩ := h
        refine ⟨below.map Event.ReadMarked ++
          [Event.Fatal FatalMsg.DoConfirmOne_level_sequence], ?_, ?_, ?_, by simp⟩
        · simp [SetFatalError, State.log]
        · intro e he
          rcases List.mem_append.mp he with h1 | h1
          · obtain ⟨b, -, rfl⟩ := List.mem_map.mp h1
            rfl
          · rw [List.mem_singleton.mp h1]
            rfl
        · apply lock_quiet
          intro e he
          rcases List.mem_cons.mp he with rfl | he
          · rfl
          · rcases List.mem_append.mp he with h1 | h1
            · obtain ⟨b, -, rfl⟩ := List.mem_map.mp h1
              rfl
            · rw [List.mem_singleton.mp h1]
              rfl
      · subst hres
        simp only at h
        have hreads : ∀ e ∈ (below ++ stop.toList).map Event.ReadMarked,
            e.inRound = true ∧ e.isMutation = false := by
          intro e he
          obtain ⟨b, -, rfl⟩ := List.mem_map.mp he
          exact ⟨rfl, rfl⟩
        split at h
        · simp only [Except.ok.injEq, Prod.mk.injEq] at h
          obtain ⟨rfl, rfl⟩ := h
          refine ⟨(below ++ stop.toList).map Event.ReadMarked, ?_,
            fun e he => (hreads e he).1, ?_, by simp⟩
          · simp [State.log]
          · apply lock_quiet
            intro e he
            rcases List.mem_cons.mp he with rfl | he
            · rfl
            · exact (hreads e he).2
        · obtain ⟨es, htr, hround, hlock, hheld⟩ :=
            SetNewlyIndelibleBlock_lock env _ cand r t h
          have htr1 : ((s.log [Event.ReadMarked tip]).log
              ((below ++ stop.toList).map Event.ReadMarked)).trace
              = s.trace ++ (Event.ReadMarked tip ::
                (below ++ stop.toList).map Event.ReadMarked) := by
            simp [State.log]
          rw [htr1] at htr hlock hheld
          refine ⟨(below ++ stop.toList).map Event.ReadMarked ++ es, ?_, ?_, ?_, ?_⟩
          · rw [htr]
            simp
          · intro e he
            rcases List.mem_append.mp he with h1 | h1
            · exact (hreads e h1).1
            · exact hround e h1
          · have := lock_after_reads env Event.isMutation
              (Event.ReadMarked tip :: (below ++ stop.toList).map Event.ReadMarked) es s.trace
              (by
                intro e he
                rcases List.mem_cons.mp he with rfl | he
                · rfl
                · exact (hreads e he).2) hlock
            simpa using this
          · intro hr
            have := lockAfter_after env
              (Event.ReadMarked tip :: (below ++ stop.toList).map Event.ReadMarked) es s.trace
              (hheld hr)
            simpa using this

theorem DoConfirmationLoop.iterate_lock (env : Env) (walkfuel : Nat) :
    ∀ (fuel : Nat) (s : State) (tip : Ptr) (have_new fatal_return have_new2 : Bool)
      (t : State),
      DoConfirmationLoop.iterate env walkfuel fuel s tip have_new
        = .ok (fatal_return, have_new2, t) →
      ∃ es, t.trace = s.trace ++ Event.ReadMarked tip :: es ∧
        (∀ e ∈ es, e.inRound = true) ∧
        allUnderLock env Event.isMutation false s.trace (Event.ReadMarked tip :: es) = true ∧
        (have_new2 = true → have_new = true ∨
          lockAfter env false s.trace (Event.ReadMarked tip :: es) = true) := by
  intro fuel
  induction fuel with
  | zero =>
    intro s tip hn fr hn2 t h
    simp [DoConfirmationLoop.iterate] at h
  | succ fuel ih =>
    intro s tip hn fr hn2 t h
    unfold DoConfirmationLoop.iterate at h
    cases hone : DoConfirmOne env walkfuel s tip with
    | error f => simp [hone] at h
    | ok res =>
      obtain ⟨rc, s1⟩ := res
      simp only [hone] at h
      obtain ⟨es1, htr1, hround1, hlock1, hheld1⟩ :=
        DoConfirmOne_lock env walkfuel s tip rc s1 hone
      by_cases hf : s1.m_have_fatal_error = true
      · rw [if_pos hf] at h
        simp only [Except.ok.injEq, Prod.mk.injEq] at h
        obtain ⟨-, rfl, rfl⟩ := h
        exact ⟨es1, htr1, hround1, hlock1, fun hh => Or.inl hh⟩
      · rw [if_neg hf] at h
        cases rc with
        | true =>
          simp only [if_true, Except.ok.injEq, Prod.mk.injEq] at h
          obtain ⟨-, rfl, rfl⟩ := h
          exact ⟨es1, htr1, hround1, hlock1, fun hh => Or.inl hh⟩
        | false =>
          simp only [Bool.false_eq_true, if_false] at h
          obtain ⟨es2, htr2, hround2, hlock2, -⟩ := ih s1 tip true fr hn2 t h
          have hheld := hheld1 rfl
          have hround2' : ∀ e ∈ Event.ReadMarked tip :: es2, e.inRound = true := by
            intro e he
            rcases List.mem_cons.mp he with rfl | he
            · rfl
            · exact hround2 e he
          have hkeep := lock_held_round env Event.isMutation (Event.ReadMarked tip :: es2)
            (s.trace ++ Event.ReadMarked tip :: es1) hround2'
          refine ⟨es1 ++ Event.ReadMarked tip :: es2, ?_, ?_, ?_, ?_⟩
          · rw [htr2, htr1]
            simp
          · intro e he
            rcases List.mem_append.mp he with h1 | h1
            · exact hround1 e h1
            · exact hround2' e h1
          · have e1 : Event.ReadMarked tip :: (es1 ++ Event.ReadMarked tip :: es2)
                = (Event.ReadMarked tip :: es1) ++ (Event.ReadMarked tip :: es2) := by simp
            rw [e1, allUnderLock_append, hlock1, hheld, hkeep.2]
            rfl
          · intro _
            right
            have e1 : Event.ReadMarked tip :: (es1 ++ Event.ReadMarked tip :: es2)
                = (Event.ReadMarked tip :: es1) ++ (Event.ReadMarked tip :: es2) := by simp
            rw [e1, lockAfter_append, hheld, hkeep.1]

theorem DoConfirmations_trace (env : Env) (fuel : Nat) (s : State) (tip : Ptr) (r : Bool)
    (t : State) (hs : s.m_have_fatal_error = false)
    (h : DoConfirmations env fuel s tip = .ok (r, t)) :
    ∃ es tail, t.trace = s.trace ++ (Event.ReadMarked tip :: es ++ tail) ∧
      (∀ e ∈ es, e.inRound = true) ∧
      allUnderLock env Event.isMutation false s.trace (Event.ReadMarked tip :: es) = true ∧
      ((r = true ∧ (tail = [Event.EndWrite false] ∨
          tail = [Event.EndWrite true, Event.Fatal FatalMsg.DoConfirmations_commit,
            Event.EndWrite false])) ∨
        (r = false ∧ lockAfter env false s.trace (Event.ReadMarked tip :: es) = true ∧
          ∃ nb, tail = [Event.EndWrite true, Event.SetLastIndelible nb, Event.ReleaseMutex,
            Event.StartCheckpoint (DoConfirmationLoop.fullcheckpoint env s tip),
            Event.EndWrite false])) := by
  unfold DoConfirmations at h
  rw [if_neg (by simp [hs])] at h
  unfold DoConfirmationLoop at h
  cases hi : DoConfirmationLoop.iterate env fuel fuel s tip false with
  | error f => simp [hi] at h
  | ok res =>
    obtain ⟨fr, hn2, s1⟩ := res
    obtain ⟨es, htr, hround, hlock, hheld⟩ :=
      DoConfirmationLoop.iterate_lock env fuel fuel s tip false fr hn2 s1 hi
    simp only [hi] at h
    cases fr with
    | true =>
      simp only [if_true, Except.ok.injEq, Prod.mk.injEq] at h
      obtain ⟨rfl, rfl⟩ := h
      exact ⟨es, [Event.EndWrite false], by simp [State.log, htr], hround, hlock,
        Or.inl ⟨rfl, Or.inl rfl⟩⟩
    | false =>
      simp only [Bool.false_eq_true, if_false] at h
      cases hn2 with
      | false =>
        simp only [Bool.not_false, if_true, Except.ok.injEq, Prod.mk.injEq] at h
        obtain ⟨rfl, rfl⟩ := h
        exact ⟨es, [Event.EndWrite false], by simp [State.log, htr], hround, hlock,
          Or.inl ⟨rfl, Or.inl rfl⟩⟩
      | true =>
        simp only [Bool.not_true, Bool.false_eq_true, if_false] at h
        have hheld2 : lockAfter env false s.trace (Event.ReadMarked tip :: es) = true := by
          rcases hheld rfl with hc | hc
          · cases hc
          · exact hc
        cases hnb : s1.m_new_indelible_block with
        | none => simp [hnb] at h
        | some new_block =>
          simp only [hnb] at h
          by_cases hrc : env.rc s1.trace (Event.EndWrite true) ≠ 0
          · rw [if_pos hrc] at h
            simp only [Except.ok.injEq, Prod.mk.injEq] at h
            obtain ⟨rfl, rfl⟩ := h
            exact ⟨es, [Event.EndWrite true, Event.Fatal FatalMsg.DoConfirmations_commit,
              Event.EndWrite false], by simp [State.log, SetFatalError, htr], hround, hlock,
              Or.inl ⟨rfl, Or.inr rfl⟩⟩
          · rw [if_neg hrc] at h
            simp only [Except.ok.injEq, Prod.mk.injEq] at h
            obtain ⟨rfl, rfl⟩ := h
            exact ⟨es, _, by simp [State.log, htr], hround, hlock,
              Or.inr ⟨rfl, hheld2, new_block, rfl⟩⟩

theorem Event.inRound_not_checkpoint (e : Event) (h : e.inRound = true) :
    e.isCheckpoint = false := by
  cases e <;> simp [Event.inRound, Event.isCommitStep, Event.isCheckpoint] at h ⊢

theorem DoConfirmationLoop.fullcheckpoint_iff (env : Env) (s : State) (tip : Ptr) :
    DoConfirmationLoop.fullcheckpoint env s tip = true ↔
      (env.IsWitness = false ∨
        (s.heap tip).wire.witness = (env.witness_index % (UINT32_SIZE : Int)).toNat) := by
  unfold DoConfirmationLoop.fullcheckpoint
  cases hw : env.IsWitness with
  | false => simp
  | true =>
    by_cases hx : (s.heap tip).wire.witness = (env.witness_index % (UINT32_SIZE : Int)).toNat
    · simp [hx]
    · simp [hx]

/-- C25 (as the code has it): a run of `DoConfirmations` requests exactly one persistence
checkpoint when it returns false, having promoted and committed at least one block, and
none when it returns true; the checkpoint requested is full unless this node is a
witness and the witness index of the tip differs from the local witness index: it is
full on a node that is not a witness and on a witness that signed the tip, incremental
on a witness that did not. -/
theorem C25_checkpoint_kind (env : Env) (fuel : Nat) (s : State) (tip : Ptr) (r : Bool)
    (t : State) (h : DoConfirmations env fuel s tip = .ok (r, t)) :
    ∃ es, t.trace = s.trace ++ es ∧
      (r = true → es.filter Event.isCheckpoint = []) ∧
      (r = false → promoted es ≠ [] ∧ es.filter Event.isCheckpoint
        = [Event.StartCheckpoint (DoConfirmationLoop.fullcheckpoint env s tip)]) ∧
      (DoConfirmationLoop.fullcheckpoint env s tip = true ↔
        (env.IsWitness = false ∨
          (s.heap tip).wire.witness = (env.witness_index % (UINT32_SIZE : Int)).toNat)) := by
  cases hs : s.m_have_fatal_error with
  | true =>
    unfold DoConfirmations at h
    rw [if_pos hs] at h
    simp only [Except.ok.injEq, Prod.mk.injEq] at h
    obtain ⟨rfl, rfl⟩ := h
    exact ⟨[], by simp, fun _ => rfl, fun hr => (by cases hr),
      DoConfirmationLoop.fullcheckpoint_iff env s tip⟩
  | false =>
    obtain ⟨es, tail, htr, hround, -, hcase⟩ := DoConfirmations_trace env fuel s tip r t hs h
    obtain ⟨-, es2, htr2, -, -, hrun⟩ := DoConfirmations_run env fuel s tip r t hs h
    have hes2 : es2 = Event.ReadMarked tip :: es ++ tail := by
      rw [htr] at htr2
      exact (List.append_cancel_left htr2).symm
    have hnone : (Event.ReadMarked tip :: es).filter Event.isCheckpoint = [] := by
      rw [List.filter_eq_nil_iff]
      intro e he
      rcases List.mem_cons.mp he with rfl | he
      · simp [Event.isCheckpoint]
      · simp [Event.inRound_not_checkpoint e (hround e he)]
    refine ⟨Event.ReadMarked tip :: es ++ tail, htr, ?_, ?_,
      DoConfirmationLoop.fullcheckpoint_iff env s tip⟩
    · intro hr
      rcases hcase with ⟨-, rfl | rfl⟩ | ⟨hf, -⟩
      · rw [List.filter_append, hnone]
        rfl
      · rw [List.filter_append, hnone]
        rfl
      · rw [hr] at hf
        cases hf
    · intro hr
      rcases hcase with ⟨hf, -⟩ | ⟨-, -, nb, rfl⟩
      · rw [hr] at hf
        cases hf
      · constructor
        · rcases hrun with ⟨-, -, hne, -⟩ | ⟨hf, -⟩
          · rw [hes2] at hne
            exact hne
          · rw [hr] at hf
            cases hf
        · rw [List.filter_append, hnone]
          rfl

/-- C25, witness: on a node that is not a witness the run on the chain P <- L1 <- L2
promotes L1 and requests one checkpoint, a full one. -/
theorem C25_witness_full_checkpoint :
    ∃ t es, DoConfirmations envOk 5 (sampleChainState 0 0) 2 = .ok (false, t) ∧
      t.trace = (sampleChainState 0 0).trace ++ es ∧
      es.filter Event.isCheckpoint = [Event.StartCheckpoint true] := by
  obtain ⟨t, ht⟩ : ∃ t, DoConfirmations envOk 5 (sampleChainState 0 0) 2
      = .ok (false, t) := ⟨_, rfl⟩
  obtain ⟨es, htr, -, hone, -⟩ :=
    C25_checkpoint_kind envOk 5 (sampleChainState 0 0) 2 false t ht
  exact ⟨t, es, ht, htr, (hone rfl).2⟩

/-- C25, counterexample: this node is not a witness, and the checkpoint requested by the
run on the chain P <- L1 <- L2 is a full one, not an incremental one. -/
theorem C25_counterexample_non_witness_full :
    envOk.IsWitness = false ∧
    (DoConfirmations envOk 5 (sampleChainState 0 0) 2).toOption.map
      (fun x => (x.1, x.2.trace.filter Event.isCheckpoint))
      = some (false, [Event.StartCheckpoint true]) := by
  refine ⟨rfl, ?_⟩
  decide

/-- C26 (as the code has it): in a run of `DoConfirmations` entered without a fatal
error and without the lock, every write of `marked_for_indelible`, every insert into
the persistent store and the commitment tree and every assignment of the pending and
the last indelible block is made after a `BeginWrite` that did not fail and before
`ReleaseMutex` and the closing `EndWrite()`; the lock is not held at the end.  The first
effect of the run is the read of the mark of the tip, made before any `BeginWrite`: the
reads of the walk are not all under the lock. -/
theorem C26_mutations_under_lock (env : Env) (fuel : Nat) (s : State) (tip : Ptr) (r : Bool)
    (t : State) (hs : s.m_have_fatal_error = false)
    (h : DoConfirmations env fuel s tip = .ok (r, t)) :
    ∃ es, t.trace = s.trace ++ Event.ReadMarked tip :: es ∧
      allUnderLock env Event.isMutation false s.trace (Event.ReadMarked tip :: es) = true ∧
      lockAfter env false s.trace (Event.ReadMarked tip :: es) = false ∧
      allUnderLock env Event.isMarkRead false s.trace (Event.ReadMarked tip :: es) = false := by
  obtain ⟨es, tail, htr, hround, hlock, hcase⟩ := DoConfirmations_trace env fuel s tip r t hs h
  refine ⟨es ++ tail, by simpa using htr, ?_, ?_, ?_⟩
  · have e1 : Event.ReadMarked tip :: (es ++ tail) = (Event.ReadMarked tip :: es) ++ tail := by
      simp
    rw [e1, allUnderLock_append, hlock, Bool.true_and]
    rcases hcase with ⟨-, rfl | rfl⟩ | ⟨-, hheld, nb, rfl⟩
    · exact lock_quiet env _ _ _ _ (by simp [Event.isMutation])
    · exact lock_quiet env _ _ _ _ (by simp [Event.isMutation])
    · rw [hheld]
      simp [allUnderLock, lockStep, Event.isMutation]
  · have e1 : Event.ReadMarked tip :: (es ++ tail) = (Event.ReadMarked tip :: es) ++ tail := by
      simp
    rw [e1, lockAfter_append]
    rcases hcase with ⟨-, rfl | rfl⟩ | ⟨-, -, nb, rfl⟩ <;>
      simp [lockAfter, lockStep]
  · simp [allUnderLock, Event.isMarkRead]

/-- C26, witness: the run on the chain P <- L1 <- L2 makes every mutation under the
lock. -/
theorem C26_witness_chain_run :
    ∃ t es, DoConfirmations envOk 5 (sampleChainState 0 0) 2 = .ok (false, t) ∧
      t.trace = (sampleChainState 0 0).trace ++ Event.ReadMarked 2 :: es ∧
      allUnderLock envOk Event.isMutation false (sampleChainState 0 0).trace
        (Event.ReadMarked 2 :: es) = true := by
  obtain ⟨t, ht⟩ : ∃ t, DoConfirmations envOk 5 (sampleChainState 0 0) 2
      = .ok (false, t) := ⟨_, rfl⟩
  obtain ⟨es, htr, hlock, -⟩ :=
    C26_mutations_under_lock envOk 5 (sampleChainState 0 0) 2 false t rfl ht
  exact ⟨t, es, ht, htr, hlock⟩

/-- C26, counterexample: in the run on the chain P <- L1 <- L2 the marks of L2, L1 and P
are read before the first `BeginWrite`; the reads of marks are not all made under the
lock. -/
theorem C26_counterexample_reads_before_lock :
    (sampleChainState 0 0).m_have_fatal_error = false ∧
    (DoConfirmations envOk 5 (sampleChainState 0 0) 2).toOption.map
      (fun x => (x.2.trace.take 4,
        allUnderLock envOk Event.isMarkRead false [] x.2.trace))
      = some ([Event.ReadMarked 2, Event.ReadMarked 1, Event.ReadMarked 0, Event.BeginWrite],
          false) := by
  refine ⟨rfl, ?_⟩
  decide

/-! ## The return code of `TxOutputsInsert` is not read -/

theorem IndexTxOutputs_withTxOutputsInsert (env : Env) (f : List Event → Event → Int)
    (s : State) (tx : TxOut) (param_level : Nat) :
    IndexTxOutputs (env.withTxOutputsInsert f) s tx param_level
      = IndexTxOutputs env s tx param_level := rfl

theorem IndexTxs.inputs_withTxOutputsInsert (env : Env) (f : List Event → Event → Int)
    (l : List Nat) :
    ∀ s : State, IndexTxs.inputs (env.withTxOutputsInsert f) s l = IndexTxs.inputs env s l := by
  induction l with
  | nil => intro s; rfl
  | cons serial rest ih =>
    intro s
    unfold IndexTxs.inputs
    simp only [ih]
    rfl

theorem IndexTxs.outputs_withTxOutputsInsert (env : Env) (f : List Event → Event → Int)
    (param_level : Nat) (l : List TxOut) :
    ∀ s : State, IndexTxs.outputs (env.withTxOutputsInsert f) param_level s l
      = IndexTxs.outputs env param_level s l := by
  induction l with
  | nil => intro s; rfl
  | cons tx rest ih =>
    intro s
    unfold IndexTxs.outputs
    simp only [IndexTxOutputs_withTxOutputsInsert, ih]

theorem IndexTxs.records_withTxOutputsInsert (env : Env) (f : List Event → Event → Int)
    (l : List WireTx) :
    ∀ s : State, IndexTxs.records (env.withTxOutputsInsert f) s l
      = IndexTxs.records env s l := by
  induction l with
  | nil => intro s; rfl
  | cons w rest ih =>
    intro s
    unfold IndexTxs.records
    have hparse : (env.withTxOutputsInsert f).tx_from_wire w = env.tx_from_wire w := rfl
    rw [hparse]
    cases env.tx_from_wire w with
    | none => rfl
    | some parsed =>
      simp only
      have hpseudo : CheckCreatePseudoSerialnum (env.withTxOutputsInsert f) parsed w
          = CheckCreatePseudoSerialnum env parsed w := rfl
      rw [hpseudo]
      cases CheckCreatePseudoSerialnum env parsed w with
      | error e => rfl
      | ok txbuf =>
        simp only [IndexTxs.inputs_withTxOutputsInsert, IndexTxs.outputs_withTxOutputsInsert, ih]

theorem SetNewlyIndelibleBlock.commit_withTxOutputsInsert (env : Env)
    (f : List Event → Event → Int) (s : State) (b : Ptr) :
    SetNewlyIndelibleBlock.commit (env.withTxOutputsInsert f) s b
      = SetNewlyIndelibleBlock.commit env s b := by
  unfold SetNewlyIndelibleBlock.commit IndexTxs
  rw [IndexTxs.records_withTxOutputsInsert]
  rfl

theorem SetNewlyIndelibleBlock_withTxOutputsInsert (env : Env)
    (f : List Event → Event → Int) (s : State) (b : Ptr) :
    SetNewlyIndelibleBlock (env.withTxOutputsInsert f) s b = SetNewlyIndelibleBlock env s b := by
  unfold SetNewlyIndelibleBlock
  simp only [SetNewlyIndelibleBlock.commit_withTxOutputsInsert]
  rfl

/-- C27: `IndexTxOutputs` reserves the next commitnum and calls `AddCommitment`; it
returns failure exactly when `AddCommitment` fails, without calling `TxOutputsInsert`;
when `AddCommitment` succeeds it calls `TxOutputsInsert` and returns success.  It never
changes the fatal flag, and whatever `TxOutputsInsert` returns, `IndexTxOutputs`,
`IndexTxs` and `SetNewlyIndelibleBlock` give the same result and state. -/
theorem C27_TxOutputsInsert_not_fatal (env : Env) (f : List Event → Event → Int) (s : State) :
    (∀ tx param_level,
      ((IndexTxOutputs env s tx param_level).1 = true ↔
        env.rc (s.trace ++ [Event.GetNextCommitnum true])
          (Event.AddCommitment (env.GetNextCommitnum s.trace) tx.M_commitment) ≠ 0) ∧
      (IndexTxOutputs env s tx param_level).2.m_have_fatal_error = s.m_have_fatal_error ∧
      (IndexTxOutputs env s tx param_level).2.trace
        = s.trace ++ (Event.GetNextCommitnum true ::
            Event.AddCommitment (env.GetNextCommitnum s.trace) tx.M_commitment ::
            (if (IndexTxOutputs env s tx param_level).1 then []
              else [Event.TxOutputsInsert tx.M_address tx.M_value_enc param_level
                tx.M_commitment (env.GetNextCommitnum s.trace)])) ∧
      IndexTxOutputs (env.withTxOutputsInsert f) s tx param_level
        = IndexTxOutputs env s tx param_level) ∧
    (∀ b, IndexTxs (env.withTxOutputsInsert f) s b = IndexTxs env s b) ∧
    (∀ b, SetNewlyIndelibleBlock (env.withTxOutputsInsert f) s b
      = SetNewlyIndelibleBlock env s b) := by
  refine ⟨?_, ?_, ?_⟩
  · intro tx param_level
    refine ⟨?_, ?_, ?_, rfl⟩
    · unfold IndexTxOutputs
      simp only [State.log]
      split <;> simp_all
    · unfold IndexTxOutputs
      simp only [State.log]
      split <;> rfl
    · unfold IndexTxOutputs
      simp only [State.log]
      split <;> simp
  · intro b
    unfold IndexTxs
    exact IndexTxs.records_withTxOutputsInsert env f _ s
  · intro b
    exact SetNewlyIndelibleBlock_withTxOutputsInsert env f s b

/-- C27, witness: with `TxOutputsInsert` failing, the block L1 with one transaction of one
output is committed: `SetNewlyIndelibleBlock` returns false, the fatal flag stays clear
and L1 becomes the pending indelible block. -/
theorem C27_witness_failing_address_index :
    (SetNewlyIndelibleBlock (envOneOutput.withTxOutputsInsert (fun _ _ => 1))
        samplePayloadState 1).toOption.map
      (fun x => (x.1, x.2.m_have_fatal_error, x.2.m_new_indelible_block, x.2.trace))
      = some (false, false, some 1,
          [Event.BeginWrite, Event.ReadMarked 1, Event.WriteMarked 1,
            Event.tx_from_wire ⟨1, [7]⟩, Event.SerialnumInsert 5,
            Event.GetNextCommitnum true, Event.AddCommitment 0 3,
            Event.TxOutputsInsert 1 2 0 3 0, Event.UpdateCommitTree 1 0,
            Event.BlockchainInsert 6 1,
            Event.ParameterInsert 0 6 (samplePayloadHeap 1).mark.aux,
            Event.SetNewIndelible 1]) ∧
    SetNewlyIndelibleBlock (envOneOutput.withTxOutputsInsert (fun _ _ => 1))
        samplePayloadState 1
      = SetNewlyIndelibleBlock envOneOutput samplePayloadState 1 :=
  ⟨by decide,
    (C27_TxOutputsInsert_not_fatal envOneOutput (fun _ _ => 1) samplePayloadState).2.2 1⟩

/-! ## The thresholds met by the promoted blocks -/

theorem DoConfirmOne_thresholds (env : Env) (fuel : Nat) (s : State) (tip : Ptr) (t : State)
    (h : DoConfirmOne env fuel s tip = .ok (false, t))
    (hlast : s.m_last_indelible_block.isSome = true) :
    ∃ b, t.m_new_indelible_block = some b ∧ MetThresholds s.heap tip b := by
  have horig := h
  unfold DoConfirmOne at h
  cases hm : (s.heap tip).aux.marked_for_indelible with
  | true =>
    rw [if_pos (by simpa [State.log] using hm)] at h
    simp at h
  | false =>
    rw [if_neg (by simp [State.log, hm])] at h
    cases hw : DoConfirmOne.walk fuel (s.log [Event.ReadMarked tip]) tip 1 with
    | error f => simp [hw] at h
    | ok res =>
      obtain ⟨s1, wres⟩ := res
      simp only [hw] at h
      rcases DoConfirmOne.walk_outcome fuel _ tip 1 s1 wres (by decide) hw with
        ⟨hres, below, x, q, -, -, rfl⟩ | ⟨below, cand, stop, hpath, -, hres, rfl⟩
      · subst hres
        simp at h
      · subst hres
        simp only at h
        split at h
        · simp at h
        · rename_i hnot
          have hnew := (SetNewlyIndelibleBlock_step env _ cand false t h).2 rfl
          have hmod : (1 + below.length) % UINT32_SIZE ≤ below.length + 1 := by
            have := Nat.mod_le (1 + below.length) UINT32_SIZE
            omega
          have hlast1 : ((s.log [Event.ReadMarked tip]).log
              ((below ++ stop.toList).map Event.ReadMarked)).m_last_indelible_block.isSome
              = true := hlast
          have hn : ¬ ((1 + below.length) % UINT32_SIZE
                < (s.heap tip).aux.blockchain_params.nseqconfsigs ∨
              ((s.heap cand).aux.skip ≠ 0 ∧ (1 + below.length) % UINT32_SIZE
                < (s.heap tip).aux.blockchain_params.nskipconfsigs)) := by
            intro hc
            exact hnot ⟨hlast1, hc⟩
          refine ⟨cand, hnew, below, stop, hm, hpath, ?_, ?_⟩
          · by_contra hlt
            exact hn (Or.inl (by omega))
          · by_cases hskip : (s.heap cand).aux.skip = 0
            · exact Or.inl hskip
            · right
              by_contra hlt
              exact hn (Or.inr ⟨hskip, by omega⟩)

theorem MetThresholds.entry (s : State) (tip b : Ptr) (heap2 : Ptr → Block)
    (hm : HeapMarks s.heap heap2) (h : ∃ heap3, HeapMarks heap2 heap3 ∧ MetThresholds heap3 tip b) :
    ∃ heap3, HeapMarks s.heap heap3 ∧ MetThresholds heap3 tip b := by
  obtain ⟨heap3, h23, hmet⟩ := h
  exact ⟨heap3, hm.trans_marks h23, hmet⟩

theorem DoConfirmationLoop.iterate_thresholds (env : Env) (walkfuel : Nat) :
    ∀ (fuel : Nat) (s : State) (tip : Ptr) (have_new fatal_return have_new2 : Bool)
      (t : State),
      DoConfirmationLoop.iterate env walkfuel fuel s tip have_new
        = .ok (fatal_return, have_new2, t) →
      s.m_last_indelible_block.isSome = true →
      ∃ es, t.trace = s.trace ++ es ∧
        ∀ b ∈ promoted es, ∃ heap2, HeapMarks s.heap heap2 ∧ MetThresholds heap2 tip b := by
  intro fuel
  induction fuel with
  | zero =>
    intro s tip hn fr hn2 t h
    simp [DoConfirmationLoop.iterate] at h
  | succ fuel ih =>
    intro s tip hn fr hn2 t h hlast
    unfold DoConfirmationLoop.iterate at h
    cases hone : DoConfirmOne env walkfuel s tip with
    | error f => simp [hone] at h
    | ok res =>
      obtain ⟨rc, s1⟩ := res
      simp only [hone] at h
      obtain ⟨hmarks, hl1, -, es1, htr1, htrue, hfalse⟩ :=
        DoConfirmOne_step env walkfuel s tip rc s1 hone
      have hprom1 : ∀ b ∈ promoted es1,
          ∃ heap2, HeapMarks s.heap heap2 ∧ MetThresholds heap2 tip b := by
        intro b hb
        cases rc with
        | true =>
          rw [(htrue rfl).1] at hb
          cases hb
        | false =>
          obtain ⟨b2, hp2, hnew2, -⟩ := hfalse rfl
          obtain ⟨b3, hnew3, hmet⟩ := DoConfirmOne_thresholds env walkfuel s tip s1 hone hlast
          rw [hp2] at hb
          rw [List.mem_singleton.mp hb]
          rw [hnew2] at hnew3
          cases hnew3
          exact ⟨s.heap, HeapMarks.refl _, hmet⟩
      by_cases hf : s1.m_have_fatal_error = true
      · rw [if_pos hf] at h
        simp only [Except.ok.injEq, Prod.mk.injEq] at h
        obtain ⟨-, -, rfl⟩ := h
        exact ⟨es1, htr1, hprom1⟩
      · rw [if_neg hf] at h
        cases rc with
        | true =>
          simp only [if_true, Except.ok.injEq, Prod.mk.injEq] at h
          obtain ⟨-, -, rfl⟩ := h
          exact ⟨es1, htr1, hprom1⟩
        | false =>
          simp only [Bool.false_eq_true, if_false] at h
          obtain ⟨es2, htr2, hprom2⟩ := ih s1 tip true fr hn2 t h (by rw [hl1]; exact hlast)
          refine ⟨es1 ++ es2, by rw [htr2, htr1, List.append_assoc], ?_⟩
          intro b hb
          rw [promoted_append] at hb
          rcases List.mem_append.mp hb with h1 | h2
          · exact hprom1 b h1
          · exact MetThresholds.entry s tip b s1.heap hmarks (hprom2 b h2)

theorem DoConfirmations_thresholds (env : Env) (fuel : Nat) (s : State) (tip : Ptr) (r : Bool)
    (t : State) (h : DoConfirmations env fuel s tip = .ok (r, t))
    (hlast : s.m_last_indelible_block.isSome = true) :
    ∃ es, t.trace = s.trace ++ es ∧
      ∀ b ∈ promoted es, ∃ heap2, HeapMarks s.heap heap2 ∧ MetThresholds heap2 tip b := by
  unfold DoConfirmations at h
  by_cases hs : s.m_have_fatal_error = true
  · rw [if_pos hs] at h
    simp only [Except.ok.injEq, Prod.mk.injEq] at h
    obtain ⟨-, rfl⟩ := h
    exact ⟨[], by simp, by simp [promoted]⟩
  · rw [if_neg hs] at h
    unfold DoConfirmationLoop at h
    cases hi : DoConfirmationLoop.iterate env fuel fuel s tip false with
    | error f => simp [hi] at h
    | ok res =>
      obtain ⟨fr, hn2, s1⟩ := res
      obtain ⟨es, htr, hprom⟩ :=
        DoConfirmationLoop.iterate_thresholds env fuel fuel s tip false fr hn2 s1 hi hlast
      simp only [hi] at h
      have key : ∀ tail : List Event, promoted tail = [] → t.trace = s1.trace ++ tail →
          ∃ es, t.trace = s.trace ++ es ∧
            ∀ b ∈ promoted es, ∃ heap2, HeapMarks s.heap heap2 ∧ MetThresholds heap2 tip b := by
        intro tail htail ht
        refine ⟨es ++ tail, by rw [ht, htr, List.append_assoc], ?_⟩
        intro b hb
        rw [promoted_append, htail, List.append_nil] at hb
        exact hprom b hb
      cases fr with
      | true =>
        simp only [if_true, Except.ok.injEq, Prod.mk.injEq] at h
        obtain ⟨-, rfl⟩ := h
        exact key [Event.EndWrite false] rfl rfl
      | false =>
        simp only [Bool.false_eq_true, if_false] at h
        cases hn2 with
        | false =>
          simp only [Bool.not_false, if_true, Except.ok.injEq, Prod.mk.injEq] at h
          obtain ⟨-, rfl⟩ := h
          exact key [Event.EndWrite false] rfl rfl
        | true =>
          simp only [Bool.not_true, Bool.false_eq_true, if_false] at h
          cases hnb : s1.m_new_indelible_block with
          | none => simp [hnb] at h
          | some new_block =>
            simp only [hnb] at h
            by_cases hrc : env.rc s1.trace (Event.EndWrite true) ≠ 0
            · rw [if_pos hrc] at h
              simp only [Except.ok.injEq, Prod.mk.injEq] at h
              obtain ⟨-, rfl⟩ := h
              exact key [Event.EndWrite true, Event.Fatal FatalMsg.DoConfirmations_commit,
                Event.EndWrite false] rfl (by simp [State.log, SetFatalError])
            · rw [if_neg hrc] at h
              simp only [Except.ok.injEq, Prod.mk.injEq] at h
              obtain ⟨-, rfl⟩ := h
              exact key [Event.EndWrite true, Event.SetLastIndelible new_block,
                Event.ReleaseMutex,
                Event.StartCheckpoint (DoConfirmationLoop.fullcheckpoint env s tip),
                Event.EndWrite false] rfl (by simp [State.log])

/-- C28 (as the code has it): in a run of `DoConfirmations` entered with a last indelible
block, every promoted block met the confirmation thresholds at its promotion: on the
heap of that moment (the entry heap with some more marks) the tip was unmarked, the
block was the deepest of `n` consecutive unmarked blocks from the tip, `n` was at least
`nseqconfsigs`, and its skip was 0 or `n` was at least `nskipconfsigs`.  In a run entered
with no last and no pending indelible block (and no fatal error) the first block
promoted has level 0. -/
theorem C28_thresholds_with_last_indelible (env : Env) (fuel : Nat) (s : State) (tip : Ptr)
    (r : Bool) (t : State) (h : DoConfirmations env fuel s tip = .ok (r, t)) :
    ∃ es, t.trace = s.trace ++ es ∧
      (s.m_last_indelible_block.isSome = true →
        ∀ b ∈ promoted es, ∃ heap2, HeapMarks s.heap heap2 ∧ MetThresholds heap2 tip b) ∧
      (s.pendingOrLast = none → s.m_have_fatal_error = false →
        ∀ b, (promoted es).head? = some b → (s.heap b).wire.level = 0) := by
  cases hs : s.m_have_fatal_error with
  | true =>
    have h2 := h
    unfold DoConfirmations at h2
    rw [if_pos hs] at h2
    simp only [Except.ok.injEq, Prod.mk.injEq] at h2
    obtain ⟨-, rfl⟩ := h2
    exact ⟨[], by simp, fun _ => by simp [promoted], fun _ hf => by cases hf⟩
  | false =>
    obtain ⟨-, es, htr, hchain, -, -⟩ := DoConfirmations_run env fuel s tip r t hs h
    refine ⟨es, htr, ?_, ?_⟩
    · intro hlast
      obtain ⟨es2, htr2, hprom⟩ := DoConfirmations_thresholds env fuel s tip r t h hlast
      have : es2 = es := by
        rw [htr] at htr2
        exact (List.append_cancel_left htr2).symm
      rw [← this]
      exact hprom
    · intro hnone _ b hb
      rw [hnone] at hchain
      exact hchain.2 b hb

/-- C28, witness: the run on the chain P <- L1 <- L2 with P the last indelible block
promotes L1, which met the thresholds with two confirmations. -/
theorem C28_witness_two_confirmations :
    ∃ t es, DoConfirmations envOk 5 (sampleChainState 0 0) 2 = .ok (false, t) ∧
      t.trace = (sampleChainState 0 0).trace ++ es ∧
      ∀ b ∈ promoted es, ∃ heap2, HeapMarks (sampleChainState 0 0).heap heap2 ∧
        MetThresholds heap2 2 b := by
  obtain ⟨t, ht⟩ : ∃ t, DoConfirmations envOk 5 (sampleChainState 0 0) 2
      = .ok (false, t) := ⟨_, rfl⟩
  obtain ⟨es, htr, hmet, -⟩ :=
    C28_thresholds_with_last_indelible envOk 5 (sampleChainState 0 0) 2 false t ht
  exact ⟨t, es, ht, htr, hmet rfl⟩

/-- C28, counterexample: with no last indelible block and the chain G <- B1 (levels 0 and
1, `nseqconfsigs` = 2), the run on the tip B1 promotes G and then B1; B1 has level 1 and
is promoted as the only unmarked block of the chain, with one confirmation. -/
theorem C28_counterexample_level_one_unconditional :
    sampleFreshState.m_last_indelible_block = none ∧
    (sampleFreshState.heap 1).wire.level = 1 ∧
    (sampleFreshState.heap 1).aux.blockchain_params.nseqconfsigs = 2 ∧
    (sampleFreshState.heap 1).prior = some 0 ∧
    (DoConfirmations envOk 5 sampleFreshState 1).toOption.map
      (fun x => (x.1, promoted x.2.trace, x.2.m_last_indelible_block))
      = some (false, [0, 1], some 1) ∧
    (DoConfirmations envOk 5 sampleFreshState 1).toOption.map
      (fun x => x.2.trace.take 12)
      = some [Event.ReadMarked 1, Event.ReadMarked 0, Event.BeginWrite, Event.ReadMarked 0,
          Event.WriteMarked 0, Event.UpdateCommitTree 0 0, Event.BlockchainInsert 0 0,
          Event.ParameterInsert 0 0 (sampleFreshState.heap 0).mark.aux,
          Event.SetNewIndelible 0, Event.ReadMarked 1, Event.ReadMarked 0,
          Event.BeginWrite] := by
  refine ⟨rfl, rfl, rfl, rfl, ?_, ?_⟩ <;> decide

/-! ## The size of the payload -/

theorem TxDataSize_of_gt (header_size body_size : Nat) (hb : body_size < UINT32_SIZE)
    (h : header_size < body_size) :
    TxDataSize header_size body_size = body_size - header_size := by
  unfold TxDataSize
  rw [if_pos h]
  have e : body_size + UINT64_SIZE - header_size = (body_size - header_size) + UINT64_SIZE := by
    omega
  rw [e, Nat.add_mod_right]
  have h64 : body_size - header_size < UINT64_SIZE := by
    unfold UINT32_SIZE at hb
    unfold UINT64_SIZE
    omega
  rw [Nat.mod_eq_of_lt h64, Nat.mod_eq_of_lt (by omega)]

theorem TxDataSize_of_le (header_size body_size : Nat) (h : body_size ≤ header_size) :
    TxDataSize header_size body_size = 0 := by
  unfold TxDataSize
  rw [if_neg (by omega)]

theorem HasTx_iff_gt (header_size body_size : Nat) (hb : body_size < UINT32_SIZE) :
    HasTx header_size body_size = true ↔ header_size < body_size := by
  unfold HasTx
  rw [decide_eq_true_iff]
  by_cases h : header_size < body_size
  · rw [TxDataSize_of_gt header_size body_size hb h]
    constructor
    · intro _
      exact h
    · intro _
      omega
  · rw [TxDataSize_of_le header_size body_size (by omega)]
    constructor
    · intro h0
      omega
    · intro h1
      exact absurd h1 h

theorem Block.sum_pos_iff (size : WireTx → Nat) :
    ∀ l : List WireTx, (∀ tx ∈ l, 0 < size tx) → (0 < (l.map size).sum ↔ l.isEmpty = false)
  | [], _ => by simp
  | tx :: l, h => by
    have := h tx (List.mem_cons_self _ _)
    simp only [List.map_cons, List.sum_cons, List.isEmpty_cons, iff_true]
    omega

/-- C23: for a block whose `BodySize()` is a value of `unsigned`, `TxDataSize()` is the
body size less `sizeof(BlockWireHeader)` when the body is larger than the header and 0
otherwise; the unsigned subtraction is only made when it does not wrap (its result is
the difference of the integers), also when the body is shorter than the header;
`HasTx()` holds exactly when `TxDataSize()` is greater than 0, which is when the body is
larger than the header; a block of the header alone, such as the one made by
`SetupGenesisBlock`, has `HasTx()` false; and on a block whose body is the header
followed by records of positive sizes `HasTx()` says that the payload has a record. -/
theorem C23_TxDataSize_HasTx (oid_size body_size : Nat) (hb : body_size < UINT32_SIZE) :
    (BlockWireHeader.size oid_size < body_size →
      TxDataSize (BlockWireHeader.size oid_size) body_size
        = body_size - BlockWireHeader.size oid_size ∧
      ((TxDataSize (BlockWireHeader.size oid_size) body_size : Nat) : Int)
        = (body_size : Int) - (BlockWireHeader.size oid_size : Int)) ∧
    (body_size ≤ BlockWireHeader.size oid_size →
      TxDataSize (BlockWireHeader.size oid_size) body_size = 0) ∧
    (HasTx (BlockWireHeader.size oid_size) body_size = true ↔
      0 < TxDataSize (BlockWireHeader.size oid_size) body_size) ∧
    (HasTx (BlockWireHeader.size oid_size) body_size = true ↔
      BlockWireHeader.size oid_size < body_size) ∧
    (body_size = SetupGenesisBlock.BodySize oid_size →
      HasTx (BlockWireHeader.size oid_size) body_size = false) ∧
    (∀ (size : WireTx → Nat) (b : Block), (∀ tx ∈ b.payload, 0 < size tx) →
      body_size = Block.BodySize (BlockWireHeader.size oid_size) size b →
      HasTx (BlockWireHeader.size oid_size) body_size = Block.HasTx b) := by
  refine ⟨?_, ?_, ?_, ?_, ?_, ?_⟩
  · intro h
    have e := TxDataSize_of_gt _ body_size hb h
    refine ⟨e, ?_⟩
    rw [e]
    omega
  · intro h
    exact TxDataSize_of_le _ body_size h
  · unfold HasTx
    rw [decide_eq_true_iff]
  · exact HasTx_iff_gt _ body_size hb
  · intro h
    have := HasTx_iff_gt (BlockWireHeader.size oid_size) body_size hb
    cases hv : HasTx (BlockWireHeader.size oid_size) body_size with
    | false => rfl
    | true =>
      have := this.mp hv
      rw [h] at this
      unfold SetupGenesisBlock.BodySize at this
      omega
  · intro size b hpos hbody
    have hiff := HasTx_iff_gt (BlockWireHeader.size oid_size) body_size hb
    have hsum := Block.sum_pos_iff size b.payload hpos
    unfold Block.HasTx
    cases hv : HasTx (BlockWireHeader.size oid_size) body_size with
    | false =>
      cases he : b.payload.isEmpty with
      | true => rfl
      | false =>
        have h1 := hsum.mpr he
        have : HasTx (BlockWireHeader.size oid_size) body_size = true := by
          apply hiff.mpr
          rw [hbody]
          unfold Block.BodySize
          omega
        rw [hv] at this
        cases this
    | true =>
      have h1 := hiff.mp hv
      rw [hbody] at h1
      unfold Block.BodySize at h1
      have h2 := hsum.mp (by omega)
      rw [h2]
      rfl

/-- C23, witness: with an object id of 16 bytes the header has 97 bytes; a body of 97
bytes has no payload and a body of 130 bytes has a payload of 33 bytes. -/
theorem C23_witness_header_97 :
    BlockWireHeader.size 16 = 97 ∧
    TxDataSize (BlockWireHeader.size 16) 130 = 33 ∧
    HasTx (BlockWireHeader.size 16) 130 = true ∧
    TxDataSize (BlockWireHeader.size 16) 97 = 0 ∧
    HasTx (BlockWireHeader.size 16) 97 = false ∧
    TxDataSize (BlockWireHeader.size 16) 40 = 0 ∧
    (HasTx (BlockWireHeader.size 16) 130 = true ↔ BlockWireHeader.size 16 < 130) :=
  ⟨rfl, by decide, by decide, by decide, by decide, by decide,
    (C23_TxDataSize_HasTx 16 130 (by decide)).2.2.2.1⟩

/-! ## The restore of the last blocks -/

theorem RestoreLastBlocks.level_eq (L i : Nat) (hL : L < UINT64_SIZE) (hi : i ≤ L) :
    (L + UINT64_SIZE - i) % UINT64_SIZE = L - i := by
  have e : L + UINT64_SIZE - i = (L - i) + UINT64_SIZE := by omega
  rw [e, Nat.add_mod_right, Nat.mod_eq_of_lt (by omega)]

theorem RestoreLastBlocks.loop_step (env : Env) (store : Store) (L : Nat) (p : Nat → Ptr)
    (b : Nat → Block) (a : Nat → BlockAux) (m : Nat) (h : RestoreReads env store L p b a m)
    (hL : L < UINT64_SIZE) (fuel : Nat) (s : State) (N i : Nat) (hi : 1 ≤ i) (him : i < m)
    (hmN : m ≤ N) (hmL : m ≤ L + 1) (hN : N < UINT32_SIZE) :
    ∃ s1, RestoreLastBlocks.loop env store L (fuel + 1) s N (some (p (i - 1))) i
        = RestoreLastBlocks.loop env store L fuel s1 N (some (p i)) (i + 1) ∧
      s1.trace = s.trace ++ RestoreLastBlocks.events env L p b i ∧
      s1.heap (p i) = { b i with aux := a i } ∧
      s1.heap (p (i - 1)) = { s.heap (p (i - 1)) with prior := some (p i) } ∧
      (∀ q, q ≠ p i → q ≠ p (i - 1) → s1.heap q = s.heap q) ∧
      s.sameMembers s1 := by
  obtain ⟨hsel, hload, hpar, hsetup, -, -, hinj⟩ := h
  have hne : p (i - 1) ≠ p i := by
    intro e
    have := hinj (i - 1) i (by omega) him e
    omega
  have hi0 : i ≠ 0 := by omega
  have hmod : (i + 1) % UINT32_SIZE = i + 1 := Nat.mod_eq_of_lt (by omega)
  rw [RestoreLastBlocks.loop]
  rw [if_neg (by simp; omega)]
  simp only [RestoreLastBlocks.level_eq L i hL (by omega), hsel i him, hsetup, ne_eq,
    not_true_eq_false, if_false, hmod, hi0, RestoreLastBlocks.link]
  have haux : (((((s.log [Event.BlockchainSelect (L - i)]).setBlock (p i) (b i)).SetPriorBlock
      (p (i - 1)) (p i)).log [Event.SetupAuxBuf (p i)]).heap (p i)).aux = (b i).aux := by
    simp [State.log, State.setBlock, State.SetPriorBlock, hne.symm]
  simp only [haux, hload i him, Bool.false_eq_true, if_false]
  have hwire : ((((((s.log [Event.BlockchainSelect (L - i)]).setBlock (p i) (b i)).SetPriorBlock
      (p (i - 1)) (p i)).log [Event.SetupAuxBuf (p i)]).setAux (p i)
      (LoadGenesisDataFiles env store.files (b i).aux []).2.1).heap (p i)).wire
      = (b i).wire := by
    simp [State.log, State.setBlock, State.SetPriorBlock, State.setAux, hne.symm]
  simp only [hwire, hpar i him]
  refine ⟨_, rfl, ?_, ?_, ?_, ?_, ?_⟩
  · simp [State.log, State.setBlock, State.SetPriorBlock, State.setAux,
      RestoreLastBlocks.events, hi0]
  · simp [State.log, State.setBlock, State.SetPriorBlock, State.setAux, hne.symm]
  · simp [State.log, State.setBlock, State.SetPriorBlock, State.setAux, hne]
  · intro q hq1 hq2
    simp [State.log, State.setBlock, State.SetPriorBlock, State.setAux, hq1, hq2]
  · simp [State.sameMembers, State.log, State.setBlock, State.SetPriorBlock, State.setAux]


theorem RestoreLastBlocks.nblocks_lt (q : BlockchainParams) :
    RestoreLastBlocks.nblocks q < UINT32_SIZE := by
  unfold RestoreLastBlocks.nblocks
  have h1 := Int.emod_lt_of_pos (Int.tdiv ((q.next_nwitnesses : Int) - (q.next_maxmal : Int)) 2
    + (q.next_maxmal : Int) + 1) (show (0 : Int) < (UINT32_SIZE : Int) by decide)
  have h2 := Int.emod_nonneg (Int.tdiv ((q.next_nwitnesses : Int) - (q.next_maxmal : Int)) 2
    + (q.next_maxmal : Int) + 1) (show ((UINT32_SIZE : Nat) : Int) ≠ 0 by decide)
  omega

theorem Store.Ext.refl_ext (store : Store) (s : State) : store.Ext s s :=
  ⟨[], by simp, rfl, by simp⟩

theorem Store.Ext.log_ext {store : Store} {s u : State} (h : store.Ext s u) (e : Event)
    (he : store.readOk e = true) : store.Ext s (u.log [e]) := by
  obtain ⟨es, h1, h2, h3⟩ := h
  refine ⟨es ++ [e], by simp [State.log, h1], h2, ?_⟩
  intro x hx
  rcases List.mem_append.mp hx with h4 | h4
  · exact h3 x h4
  · rw [List.mem_singleton.mp h4]
    exact he

theorem Store.Ext.step_ext {store : Store} {s u : State} (h : store.Ext s u) (v : State)
    (e : Event) (htr : v.trace = u.trace ++ [e])
    (hf : v.m_have_fatal_error = u.m_have_fatal_error) (he : store.readOk e = true) :
    store.Ext s v := by
  obtain ⟨es, h1, h2, h3⟩ := h
  refine ⟨es ++ [e], by rw [htr, h1, List.append_assoc], by rw [hf, h2], ?_⟩
  intro x hx
  rcases List.mem_append.mp hx with h4 | h4
  · exact h3 x h4
  · rw [List.mem_singleton.mp h4]
    exact he

theorem Store.Ext.setBlock_ext {store : Store} {s u : State} (h : store.Ext s u) (q : Ptr)
    (obj : Block) : store.Ext s (u.setBlock q obj) := h

theorem Store.Ext.setAux_ext {store : Store} {s u : State} (h : store.Ext s u) (q : Ptr)
    (aux : BlockAux) : store.Ext s (u.setAux q aux) := h

theorem Store.Ext.link_ext {store : Store} {s u : State} (h : store.Ext s u)
    (nextobj : Option Ptr) (q : Ptr) : store.Ext s (RestoreLastBlocks.link u nextobj q) := by
  cases nextobj with
  | none => exact h
  | some next => exact h.log_ext (Event.SetPriorBlock next q) rfl

theorem Store.Ext.traceExt {store : Store} {s u : State} (h : store.Ext s u) :
    s.TraceExt u := by
  obtain ⟨es, h1, -, -⟩ := h
  exact ⟨es, h1⟩

theorem State.TraceExt.log_trace {s u : State} (h : s.TraceExt u) (e : Event) :
    s.TraceExt (u.log [e]) := by
  obtain ⟨es, h1⟩ := h
  exact ⟨es ++ [e], by simp [State.log, h1]⟩

theorem RestoreLastBlocks.loop_reads (env : Env) (store : Store) (L : Nat) :
    ∀ (fuel : Nat) (s : State) (nb : Nat) (nextobj : Option Ptr) (i : Nat),
      nb < UINT32_SIZE → L + 1 - i < fuel →
      ∃ t es, RestoreLastBlocks.loop env store L fuel s nb nextobj i = .ok t ∧
        t.trace = s.trace ++ es ∧
        (t.m_have_fatal_error = false →
          s.m_have_fatal_error = false ∧ ∀ e ∈ es, store.readOk e = true) := by
  intro fuel
  induction fuel with
  | zero =>
    intro s nb nextobj i _ hf
    omega
  | succ fuel ih =>
    intro s nb nextobj i hnb hf
    have fatal : ∀ (u : State) (msg : FatalMsg), s.TraceExt u →
        ∃ t es, (Except.ok (SetFatalError u msg) : Except Fault State) = .ok t ∧
          t.trace = s.trace ++ es ∧
          (t.m_have_fatal_error = false →
            s.m_have_fatal_error = false ∧ ∀ e ∈ es, store.readOk e = true) := by
      intro u msg hext
      obtain ⟨es, hu⟩ := hext
      refine ⟨_, es ++ [Event.Fatal msg], rfl, ?_, ?_⟩
      · simp [SetFatalError, hu]
      · intro hc
        simp [SetFatalError] at hc
    have next : ∀ (u : State) (nb2 : Nat), nb2 < UINT32_SIZE →
        i < nb → i ≤ L → store.Ext s u → ∀ nx,
        ∃ t es, RestoreLastBlocks.loop env store L fuel u nb2 nx ((i + 1) % UINT32_SIZE)
            = .ok t ∧
          t.trace = s.trace ++ es ∧
          (t.m_have_fatal_error = false →
            s.m_have_fatal_error = false ∧ ∀ e ∈ es, store.readOk e = true) := by
      intro u nb2 hnb2 hi1 hi2 hext nx
      obtain ⟨es, hu, hfl, hes⟩ := hext
      have hmod : (i + 1) % UINT32_SIZE = i + 1 := Nat.mod_eq_of_lt (by omega)
      rw [hmod]
      obtain ⟨t, es2, ht, htr, hok⟩ := ih u nb2 nx (i + 1) hnb2 (by omega)
      refine ⟨t, es ++ es2, ht, by rw [htr, hu, List.append_assoc], ?_⟩
      intro hc
      obtain ⟨h1, h2⟩ := hok hc
      refine ⟨by rw [← hfl]; exact h1, ?_⟩
      intro e he
      rcases List.mem_append.mp he with h3 | h3
      · exact hes e h3
      · exact h2 e h3
    rw [RestoreLastBlocks.loop]
    by_cases hc : i < nb ∧ i ≤ L
    · rw [if_neg (not_not.mpr hc)]
      dsimp only
      have e0 : store.Ext s s := Store.Ext.refl_ext store s
      cases hsel : store.BlockchainSelect ((L + UINT64_SIZE - i) % UINT64_SIZE) with
      | none => exact fatal _ _ ⟨[_], rfl⟩
      | some r =>
        obtain ⟨smartobj, obj⟩ := r
        dsimp only
        have e1 := ((e0.log_ext (Event.BlockchainSelect ((L + UINT64_SIZE - i) % UINT64_SIZE))
          (by simp [Store.readOk, hsel])).setBlock_ext smartobj obj).link_ext nextobj smartobj
        generalize RestoreLastBlocks.link ((s.log [Event.BlockchainSelect
          ((L + UINT64_SIZE - i) % UINT64_SIZE)]).setBlock smartobj obj) nextobj smartobj
          = s3 at e1 ⊢
        have e4 := e1.log_ext (Event.SetupAuxBuf smartobj) rfl
        split
        · exact fatal _ _ e4.traceExt
        · have e5 := e4.setAux_ext smartobj (LoadGenesisDataFiles env store.files
            ((s3.log [Event.SetupAuxBuf smartobj]).heap smartobj).aux []).2.1
          split
          · exact fatal _ _ e5.traceExt
          · split
            · rename_i hpar
              exact fatal _ _ (e5.traceExt.log_trace _)
            · rename_i slice hpar
              have e7 := (e5.log_ext (Event.ParameterSelect env.DB_KEY_BLOCK_AUX
                ((((s3.log [Event.SetupAuxBuf smartobj]).setAux smartobj
                  (LoadGenesisDataFiles env store.files
                    ((s3.log [Event.SetupAuxBuf smartobj]).heap smartobj).aux []).2.1).heap
                  smartobj).wire.level % 64)) (by simp [Store.readOk, hpar])).setAux_ext
                smartobj slice
              split
              · have e8 := e7.step_ext
                  { ((((s3.log [Event.SetupAuxBuf smartobj]).setAux smartobj
                      (LoadGenesisDataFiles env store.files
                        ((s3.log [Event.SetupAuxBuf smartobj]).heap smartobj).aux []).2.1).log
                      [Event.ParameterSelect env.DB_KEY_BLOCK_AUX
                        ((((s3.log [Event.SetupAuxBuf smartobj]).setAux smartobj
                          (LoadGenesisDataFiles env store.files
                            ((s3.log [Event.SetupAuxBuf smartobj]).heap smartobj).aux
                            []).2.1).heap smartobj).wire.level % 64)]).setAux smartobj slice)
                    with
                    m_last_indelible_block := some smartobj,
                    m_last_indelible_level := L,
                    trace := ((((s3.log [Event.SetupAuxBuf smartobj]).setAux smartobj
                      (LoadGenesisDataFiles env store.files
                        ((s3.log [Event.SetupAuxBuf smartobj]).heap smartobj).aux []).2.1).log
                      [Event.ParameterSelect env.DB_KEY_BLOCK_AUX
                        ((((s3.log [Event.SetupAuxBuf smartobj]).setAux smartobj
                          (LoadGenesisDataFiles env store.files
                            ((s3.log [Event.SetupAuxBuf smartobj]).heap smartobj).aux
                            []).2.1).heap smartobj).wire.level % 64)]).setAux smartobj
                        slice).trace ++ [Event.SetLastIndelible smartobj] }
                  (Event.SetLastIndelible smartobj) rfl rfl rfl
                have e9 := e8.log_ext (Event.ValidObjsInsert smartobj) rfl
                split
                · exact fatal _ _ e9.traceExt
                · split
                  · split
                    · exact fatal _ _ (e9.traceExt.log_trace _)
                    · exact next _ _ (RestoreLastBlocks.nblocks_lt _) hc.1 hc.2
                        (e9.log_ext (Event.ProcessQEnqueueValidate _ _ _) rfl) _
                  · exact next _ _ (RestoreLastBlocks.nblocks_lt _) hc.1 hc.2 e9 _
              · exact next _ _ hnb hc.1 hc.2 e7 _
    · rw [if_pos hc]
      exact ⟨s, [], rfl, by simp, fun h => ⟨h, by simp⟩⟩

theorem RestoreLastBlocks.nblocks_spec (q : BlockchainParams)
    (h1 : q.next_nwitnesses < UINT16_SIZE) (h2 : q.next_maxmal < UINT16_SIZE) :
    ((RestoreLastBlocks.nblocks q : Nat) : Int)
      = Int.tdiv ((q.next_nwitnesses : Int) - (q.next_maxmal : Int)) 2
        + (q.next_maxmal : Int) + 1 ∧
    1 ≤ RestoreLastBlocks.nblocks q ∧
    (q.next_maxmal ≤ q.next_nwitnesses →
      RestoreLastBlocks.nblocks q
        = (q.next_nwitnesses - q.next_maxmal) / 2 + q.next_maxmal + 1) := by
  unfold UINT16_SIZE at h1 h2
  have key : ∀ v : Int, 1 ≤ v → v < 131072 →
      ((Int.toNat (v % (UINT32_SIZE : Int)) : Nat) : Int) = v := by
    intro v hv1 hv2
    have : v % (UINT32_SIZE : Int) = v :=
      Int.emod_eq_of_lt (by omega) (by unfold UINT32_SIZE; omega)
    rw [this]
    omega
  by_cases hx : (0 : Int) ≤ (q.next_nwitnesses : Int) - (q.next_maxmal : Int)
  · have e : Int.tdiv ((q.next_nwitnesses : Int) - (q.next_maxmal : Int)) 2
        = ((q.next_nwitnesses : Int) - (q.next_maxmal : Int)) / 2 :=
      Int.tdiv_eq_ediv hx (by decide)
    have hk : ((RestoreLastBlocks.nblocks q : Nat) : Int)
        = Int.tdiv ((q.next_nwitnesses : Int) - (q.next_maxmal : Int)) 2
          + (q.next_maxmal : Int) + 1 :=
      key _ (by rw [e]; omega) (by rw [e]; omega)
    refine ⟨hk, ?_, ?_⟩
    · rw [e] at hk
      omega
    · intro _
      rw [e] at hk
      omega
  · have e : Int.tdiv ((q.next_nwitnesses : Int) - (q.next_maxmal : Int)) 2
        = -(((q.next_maxmal : Int) - (q.next_nwitnesses : Int)) / 2) := by
      have e1 : (q.next_nwitnesses : Int) - (q.next_maxmal : Int)
          = -((q.next_maxmal : Int) - (q.next_nwitnesses : Int)) := by omega
      rw [e1, Int.neg_tdiv, Int.tdiv_eq_ediv (by omega) (by decide)]
    have hk : ((RestoreLastBlocks.nblocks q : Nat) : Int)
        = Int.tdiv ((q.next_nwitnesses : Int) - (q.next_maxmal : Int)) 2
          + (q.next_maxmal : Int) + 1 :=
      key _ (by rw [e]; omega) (by rw [e]; omega)
    refine ⟨hk, ?_, ?_⟩
    · rw [e] at hk
      omega
    · intro hle
      omega

theorem RestoreLastBlocks.loop_first (env : Env) (store : Store) (L : Nat) (p : Nat → Ptr)
    (b : Nat → Block) (a : Nat → BlockAux) (m : Nat) (h : RestoreReads env store L p b a m)
    (hL : L < UINT64_SIZE) (hm : 0 < m) (fuel : Nat) (s : State) :
    ∃ s1, RestoreLastBlocks.loop env store L (fuel + 1) s 1 none 0
        = RestoreLastBlocks.loop env store L fuel s1
            (RestoreLastBlocks.nblocks (s1.heap (p 0)).aux.blockchain_params) (some (p 0)) 1 ∧
      s1.trace = s.trace ++ RestoreLastBlocks.events env L p b 0 ∧
      s1.heap (p 0) = { b 0 with aux := a 0 } ∧
      (∀ q, q ≠ p 0 → s1.heap q = s.heap q) ∧
      s1.m_last_indelible_block = some (p 0) ∧
      s1.m_last_indelible_level = L ∧
      s1.m_have_fatal_error = s.m_have_fatal_error ∧
      s1.m_new_indelible_block = s.m_new_indelible_block ∧
      s1.m_startup_prune_level = s.m_startup_prune_level ∧
      s1.valid_objs = s.valid_objs := by
  obtain ⟨hsel, hload, hpar, hsetup, hvalid, hproc, -⟩ := h
  have hsel0 := hsel 0 hm
  rw [Nat.sub_zero] at hsel0
  have hmod : (0 + 1) % UINT32_SIZE = 1 := by decide
  rw [RestoreLastBlocks.loop]
  rw [if_neg (by simp)]
  have hlev : (L + UINT64_SIZE - 0) % UINT64_SIZE = L := by
    rw [RestoreLastBlocks.level_eq L 0 hL (by omega), Nat.sub_zero]
  simp only [hlev, hsel0, hsetup, ne_eq,
    not_true_eq_false, if_false, hmod, RestoreLastBlocks.link]
  have haux : ((((s.log [Event.BlockchainSelect L]).setBlock (p 0) (b 0)).log
      [Event.SetupAuxBuf (p 0)]).heap (p 0)).aux = (b 0).aux := by
    simp [State.log, State.setBlock]
  simp only [haux, hload 0 hm, Bool.false_eq_true, if_false]
  have hwire : (((((s.log [Event.BlockchainSelect L]).setBlock (p 0) (b 0)).log
      [Event.SetupAuxBuf (p 0)]).setAux (p 0)
      (LoadGenesisDataFiles env store.files (b 0).aux []).2.1).heap (p 0)).wire
      = (b 0).wire := by
    simp [State.log, State.setBlock, State.setAux]
  simp only [hwire, hpar 0 hm, if_true, hvalid, hproc, ne_eq, not_true_eq_false, if_false]
  cases hw : env.IsWitness with
  | false =>
    simp only [Bool.false_eq_true, if_false]
    refine ⟨_, rfl, ?_, ?_, ?_, ?_, ?_, ?_, ?_, ?_, ?_⟩
    · simp [State.log, State.setBlock, State.setAux, RestoreLastBlocks.events, hw]
    · simp [State.log, State.setBlock, State.setAux]
    · intro q hq
      simp [State.log, State.setBlock, State.setAux, hq]
    all_goals rfl
  | true =>
    simp only [if_true]
    refine ⟨_, rfl, ?_, ?_, ?_, ?_, ?_, ?_, ?_, ?_, ?_⟩
    · simp [State.log, State.setBlock, State.setAux, RestoreLastBlocks.events, hw]
    · simp [State.log, State.setBlock, State.setAux]
    · intro q hq
      simp [State.log, State.setBlock, State.setAux, hq]
    all_goals rfl

theorem State.sameMembers.trans_members {s u t : State} (h1 : s.sameMembers u)
    (h2 : u.sameMembers t) : s.sameMembers t := by
  obtain ⟨a1, a2, a3, a4, a5, a6⟩ := h1
  obtain ⟨b1, b2, b3, b4, b5, b6⟩ := h2
  exact ⟨by rw [b1, a1], by rw [b2, a2], by rw [b3, a3], by rw [b4, a4], by rw [b5, a5],
    by rw [b6, a6]⟩

theorem RestoreLastBlocks.loop_tail (env : Env) (store : Store) (L : Nat) (p : Nat → Ptr)
    (b : Nat → Block) (a : Nat → BlockAux) (m : Nat) (h : RestoreReads env store L p b a m)
    (hL : L < UINT64_SIZE) (N : Nat) (hmN : m ≤ N) (hmL : m ≤ L + 1) (hN : N < UINT32_SIZE)
    (hmin : m = N ∨ m = L + 1) :
    ∀ (k i fuel : Nat) (s : State), 1 ≤ i → i + k = m → k < fuel →
      ∃ t, RestoreLastBlocks.loop env store L fuel s N (some (p (i - 1))) i = .ok t ∧
        t.trace = s.trace ++ ((List.range' i k).map (RestoreLastBlocks.events env L p b)).flatten ∧
        (∀ j, i ≤ j → j < m → t.heap (p j) = { b j with
          aux := a j, prior := if j + 1 < m then some (p (j + 1)) else (b j).prior }) ∧
        t.heap (p (i - 1)) = (if i < m then { s.heap (p (i - 1)) with prior := some (p i) }
          else s.heap (p (i - 1))) ∧
        (∀ q, (∀ j, i - 1 ≤ j → j < m → q ≠ p j) → t.heap q = s.heap q) ∧
        s.sameMembers t := by
  intro k
  induction k with
  | zero =>
    intro i fuel s hi hik hf
    obtain ⟨fuel, rfl⟩ : ∃ f, fuel = f + 1 := ⟨fuel - 1, by omega⟩
    rw [RestoreLastBlocks.loop, if_pos (by omega)]
    refine ⟨s, rfl, by simp, ?_, ?_, fun _ _ => rfl, ⟨rfl, rfl, rfl, rfl, rfl, rfl⟩⟩
    · intro j h1 h2
      omega
    · rw [if_neg (by omega)]
  | succ k ih =>
    intro i fuel s hi hik hf
    obtain ⟨fuel, rfl⟩ : ∃ f, fuel = f + 1 := ⟨fuel - 1, by omega⟩
    have him : i < m := by omega
    obtain ⟨s1, hrun, htr1, hpi, hprev, hother, hsame1⟩ :=
      RestoreLastBlocks.loop_step env store L p b a m h hL fuel s N i hi him hmN hmL hN
    obtain ⟨t, ht, htr, hH1, hH2, hH3, hsame⟩ := ih (i + 1) fuel s1 (by omega) (by omega)
      (by omega)
    rw [Nat.add_sub_cancel] at ht hH2 hH3
    have hinj := h.2.2.2.2.2.2
    refine ⟨t, by rw [hrun, ht], ?_, ?_, ?_, ?_, hsame1.trans_members hsame⟩
    · rw [htr, htr1, List.range'_succ, List.map_cons, List.flatten_cons, List.append_assoc]
    · intro j h1 h2
      by_cases hj : j = i
      · subst hj
        rw [hH2, hpi]
        by_cases hlt : j + 1 < m
        · rw [if_pos hlt, if_pos hlt]
        · rw [if_neg hlt, if_neg hlt]
      · exact hH1 j (by omega) h2
    · rw [if_pos him]
      rw [hH3 (p (i - 1)) (fun j h1 h2 e => by
        have := hinj (i - 1) j (by omega) h2 e
        omega)]
      exact hprev
    · intro q hq
      rw [hH3 q (fun j h1 h2 => hq j (by omega) h2)]
      exact hother q (hq i (by omega) him) (hq (i - 1) (by omega) (by omega))

theorem RestoreLastBlocks.events_levels (env : Env) (L : Nat) (p : Nat → Ptr)
    (b : Nat → Block) :
    ∀ l : List Nat,
      ((l.map (RestoreLastBlocks.events env L p b)).flatten).filterMap Event.selectLevel
        = l.map (fun i => L - i)
  | [] => rfl
  | i :: l => by
    rw [List.map_cons, List.flatten_cons, List.filterMap_append,
      RestoreLastBlocks.events_levels env L p b l, List.map_cons]
    unfold RestoreLastBlocks.events
    by_cases hi : i = 0
    · subst hi
      cases hw : env.IsWitness <;> simp [Event.selectLevel]
    · simp [hi, Event.selectLevel]

theorem RestoreLastBlocks_run (env : Env) (store : Store) (L : Nat) (p : Nat → Ptr)
    (b : Nat → Block) (a : Nat → BlockAux) (s : State) (fuel : Nat)
    (hL : L < UINT64_SIZE)
    (hN1 : 1 ≤ RestoreLastBlocks.nblocks (a 0).blockchain_params)
    (h : RestoreReads env store L p b a
      (min (RestoreLastBlocks.nblocks (a 0).blockchain_params) (L + 1)))
    (hfuel : min (RestoreLastBlocks.nblocks (a 0).blockchain_params) (L + 1) < fuel) :
    ∃ t, RestoreLastBlocks env store fuel s L = .ok t ∧
      t.trace = s.trace ++ ((List.range
        (min (RestoreLastBlocks.nblocks (a 0).blockchain_params) (L + 1))).map
          (RestoreLastBlocks.events env L p b)).flatten ∧
      (∀ j, j < min (RestoreLastBlocks.nblocks (a 0).blockchain_params) (L + 1) →
        t.heap (p j) = { b j with
          aux := a j,
          prior := if j + 1 < min (RestoreLastBlocks.nblocks (a 0).blockchain_params) (L + 1)
            then some (p (j + 1)) else (b j).prior }) ∧
      (∀ q, (∀ j, j < min (RestoreLastBlocks.nblocks (a 0).blockchain_params) (L + 1) →
        q ≠ p j) → t.heap q = s.heap q) ∧
      t.m_last_indelible_block = some (p 0) ∧
      t.m_last_indelible_level = L ∧
      t.m_have_fatal_error = s.m_have_fatal_error ∧
      t.m_new_indelible_block = s.m_new_indelible_block := by
  obtain ⟨m, hm⟩ : ∃ m, m = min (RestoreLastBlocks.nblocks (a 0).blockchain_params) (L + 1) :=
    ⟨_, rfl⟩
  rw [← hm] at h hfuel ⊢
  have hNlt := RestoreLastBlocks.nblocks_lt (a 0).blockchain_params
  have hm0 : 0 < m := by omega
  obtain ⟨fuel, rfl⟩ : ∃ f, fuel = f + 1 := ⟨fuel - 1, by omega⟩
  obtain ⟨s1, hrun, htr1, hp0, hother1, hlast, hlevel, hfatal, hnew, -, -⟩ :=
    RestoreLastBlocks.loop_first env store L p b a m h hL hm0 fuel s
  rw [hp0] at hrun
  obtain ⟨t, ht, htr, hH1, hH2, hH3, hsame⟩ :=
    RestoreLastBlocks.loop_tail env store L p b a m h hL
      (RestoreLastBlocks.nblocks (a 0).blockchain_params) (by omega) (by omega) hNlt
      (by omega) (m - 1) 1 fuel s1 (le_refl 1) (by omega) (by omega)
  obtain ⟨c1, c2, c3, c4, -, -⟩ := hsame
  refine ⟨t, ?_, ?_, ?_, ?_, by rw [c2, hlast], by rw [c3, hlevel], by rw [c1, hfatal],
    by rw [c4, hnew]⟩
  · unfold RestoreLastBlocks
    rw [hrun]
    exact ht
  · rw [htr, htr1, List.append_assoc]
    congr 1
    have e : List.range m = 0 :: List.range' 1 (m - 1) := by
      rw [List.range_eq_range']
      obtain ⟨k, rfl⟩ : ∃ k, m = k + 1 := ⟨m - 1, by omega⟩
      rw [List.range'_succ]
      rfl
    rw [e, List.map_cons, List.flatten_cons]
  · intro j hj
    by_cases hj0 : j = 0
    · subst hj0
      have := hH2
      simp only [Nat.sub_self] at this
      rw [this, hp0]
      by_cases hlt : 1 < m
      · rw [if_pos hlt, if_pos (by omega)]
      · rw [if_neg hlt, if_neg (by omega)]
    · exact hH1 j (by omega) hj
  · intro q hq
    rw [hH3 q (fun j _ h2 => hq j h2)]
    exact hother1 q (hq 0 hm0)

/-- C21: with `L` a `uint64_t` level, `N` the value of
`(next_nwitnesses - next_maxmal) / 2 + next_maxmal + 1` (in `int`, the division
truncating) on the restored aux `a 0` of the level-`L` block, and every call made for
the first `min(N, L + 1)` blocks succeeding (`BlockchainSelect` at level `L - i` giving
the buffer `p i` with the object `b i`, `ParameterSelect` at the slot of the level of
`b i` giving the slice `a i`), `RestoreLastBlocks` returns, having asked
`BlockchainSelect` for exactly the levels `L, L - 1, ..., L - min(N, L + 1) + 1` in that
order; each loaded block keeps its wire header, has the aux slice of its own slot
(level mod 64), and has the next-older loaded block as prior; `m_last_indelible_block`
is the level-`L` block, `m_last_indelible_level` is `L`, and the fatal flag is as it
was.  For every store, the function returns within `L + 2` loop tests, and a read of
the store that failed (`BlockchainSelect` or `ParameterSelect`) leaves the fatal flag
latched.  For `next_nwitnesses = 3`, `next_maxmal = 0`, `N` is 2. -/
theorem C21_RestoreLastBlocks_block_set (env : Env) (store : Store) (L : Nat)
    (p : Nat → Ptr) (b : Nat → Block) (a : Nat → BlockAux) (s : State) (fuel : Nat)
    (hL : L < UINT64_SIZE)
    (hnw : (a 0).blockchain_params.next_nwitnesses < UINT16_SIZE)
    (hmm : (a 0).blockchain_params.next_maxmal < UINT16_SIZE)
    (h : RestoreReads env store L p b a
      (min (RestoreLastBlocks.nblocks (a 0).blockchain_params) (L + 1)))
    (hfuel : min (RestoreLastBlocks.nblocks (a 0).blockchain_params) (L + 1) < fuel) :
    ((RestoreLastBlocks.nblocks (a 0).blockchain_params : Nat) : Int)
      = Int.tdiv (((a 0).blockchain_params.next_nwitnesses : Int)
          - ((a 0).blockchain_params.next_maxmal : Int)) 2
        + ((a 0).blockchain_params.next_maxmal : Int) + 1 ∧
    (∃ t, RestoreLastBlocks env store fuel s L = .ok t ∧
      (t.trace.drop s.trace.length).filterMap Event.selectLevel
        = (List.range (min (RestoreLastBlocks.nblocks (a 0).blockchain_params) (L + 1))).map
            (fun i => L - i) ∧
      (∀ j, j < min (RestoreLastBlocks.nblocks (a 0).blockchain_params) (L + 1) →
        (t.heap (p j)).wire = (b j).wire ∧
        (t.heap (p j)).payload = (b j).payload ∧
        (t.heap (p j)).aux = a j ∧
        store.ParameterSelect env.DB_KEY_BLOCK_AUX ((t.heap (p j)).wire.level % 64)
          = some (t.heap (p j)).aux ∧
        (j + 1 < min (RestoreLastBlocks.nblocks (a 0).blockchain_params) (L + 1) →
          (t.heap (p j)).prior = some (p (j + 1)))) ∧
      (∀ q, (∀ j, j < min (RestoreLastBlocks.nblocks (a 0).blockchain_params) (L + 1) →
        q ≠ p j) → t.heap q = s.heap q) ∧
      t.m_last_indelible_block = some (p 0) ∧
      t.m_last_indelible_level = L ∧
      t.m_have_fatal_error = s.m_have_fatal_error) ∧
    (∀ (store2 : Store) (s2 : State) (fuel2 : Nat), L + 1 < fuel2 →
      ∃ t es, RestoreLastBlocks env store2 fuel2 s2 L = .ok t ∧ t.trace = s2.trace ++ es ∧
        ((∃ e ∈ es, store2.readOk e = false) → t.m_have_fatal_error = true)) ∧
    ((a 0).blockchain_params.next_nwitnesses = 3 → (a 0).blockchain_params.next_maxmal = 0 →
      RestoreLastBlocks.nblocks (a 0).blockchain_params = 2) := by
  obtain ⟨hN, hN1, hNnat⟩ := RestoreLastBlocks.nblocks_spec (a 0).blockchain_params hnw hmm
  refine ⟨hN, ?_, ?_, ?_⟩
  · obtain ⟨t, ht, htr, hheap, hother, hlast, hlevel, hfatal, -⟩ :=
      RestoreLastBlocks_run env store L p b a s fuel hL hN1 h hfuel
    refine ⟨t, ht, ?_, ?_, hother, hlast, hlevel, hfatal⟩
    · rw [htr, List.drop_left, RestoreLastBlocks.events_levels]
    · intro j hj
      have hj2 := hheap j hj
      have hpar := h.2.2.1 j hj
      refine ⟨by rw [hj2], by rw [hj2], by rw [hj2], ?_, ?_⟩
      · rw [hj2]
        exact hpar
      · intro hlt
        rw [hj2]
        simp [hlt]
  · intro store2 s2 fuel2 hf2
    obtain ⟨t, es, ht, htr, hok⟩ :=
      RestoreLastBlocks.loop_reads env store2 L fuel2 s2 1 none 0 (by decide) (by omega)
    refine ⟨t, es, ht, htr, ?_⟩
    rintro ⟨e, he, hbad⟩
    cases hfl : t.m_have_fatal_error with
    | true => rfl
    | false =>
      have := (hok hfl).2 e he
      rw [hbad] at this
      cases this
  · intro h3 h0
    have := hNnat (by omega)
    rw [this, h3, h0]

/-- C21, witness: with the last indelible level 5 and a store holding the levels 5 and
4 (three witnesses, none malicious, so `N` = 2), the two blocks are loaded into the
buffers 10 and 11, the buffer 11 is the prior of the buffer 10, and each has the slice
of its slot; with the block of level 4 missing the run ends with the fatal flag. -/
theorem C21_witness_two_blocks :
    (∃ t, RestoreLastBlocks envOk sampleStore 3 sampleFreshState 5 = .ok t ∧
      (t.trace.drop sampleFreshState.trace.length).filterMap Event.selectLevel = [5, 4] ∧
      (t.heap 10).aux = sampleAux 105 0 true 2 3 ∧
      (t.heap 11).aux = sampleAux 104 0 true 2 3 ∧
      (t.heap 10).prior = some 11 ∧
      t.m_last_indelible_block = some 10 ∧ t.m_last_indelible_level = 5 ∧
      t.m_have_fatal_error = false) ∧
    (RestoreLastBlocks envOk sampleStoreGap 3 sampleFreshState 5).toOption.map
      (fun t => (t.m_have_fatal_error, t.trace.filterMap Event.selectLevel))
      = some (true, [5, 4]) := by
  have hreads : RestoreReads envOk sampleStore 5 (fun i => 10 + i)
      (fun i => sampleBlock (5 - i) (105 - i) (104 - i) 0 false none)
      (fun i => sampleAux (105 - i) 0 true 2 3) 2 := by
    refine ⟨?_, ?_, ?_, fun _ _ => rfl, fun _ _ => rfl, fun _ _ _ _ => rfl, ?_⟩
    · intro i hi
      interval_cases i <;> rfl
    · intro i hi
      interval_cases i <;> decide
    · intro i hi
      interval_cases i <;> rfl
    · intro i j _ _ e
      simpa using e
  obtain ⟨-, ⟨t, ht, hsel, hheap, -, hlast, hlevel, hfatal⟩, -, -⟩ :=
    C21_RestoreLastBlocks_block_set envOk sampleStore 5 (fun i => 10 + i)
      (fun i => sampleBlock (5 - i) (105 - i) (104 - i) 0 false none)
      (fun i => sampleAux (105 - i) 0 true 2 3) sampleFreshState 3 (by decide) (by decide)
      (by decide) hreads (by decide)
  refine ⟨⟨t, ht, hsel, (hheap 0 (by decide)).2.2.1, (hheap 1 (by decide)).2.2.1,
    (hheap 0 (by decide)).2.2.2.2 (by decide), hlast, hlevel, hfatal⟩, ?_⟩
  decide

/-! ## The ring of aux slices -/

theorem State.noParamExt.refl_quiet (s : State) : s.noParamExt s :=
  ⟨s.m_have_fatal_error, [], by simp [State.upd], rfl⟩

theorem State.noParamExt.of_effects (s : State) (f : Bool) (es : List Event)
    (h : paramInserts es = []) : s.noParamExt (s.upd f es) := ⟨f, es, rfl, h⟩

theorem paramInserts_append (xs ys : List Event) :
    paramInserts (xs ++ ys) = paramInserts xs ++ paramInserts ys := by
  simp [paramInserts, List.filterMap_append]

theorem State.noParamExt.trans_ext {s u t : State} (h1 : s.noParamExt u)
    (h2 : u.noParamExt t) : s.noParamExt t := by
  obtain ⟨f1, es1, rfl, e1⟩ := h1
  obtain ⟨f2, es2, rfl, e2⟩ := h2
  refine ⟨f2, es1 ++ es2, by simp [State.upd_upd], ?_⟩
  rw [paramInserts_append, e1, e2]
  rfl

theorem IndexTxs.inputs_noParam (env : Env) (l : List Nat) :
    ∀ s : State, s.noParamExt (IndexTxs.inputs env s l).2 := by
  induction l with
  | nil => intro s; exact State.noParamExt.refl_quiet s
  | cons serial rest ih =>
    intro s
    unfold IndexTxs.inputs
    by_cases hrc : env.rc s.trace (Event.SerialnumInsert serial) ≠ 0
    · rw [if_pos hrc]
      simp only [State.log_eq_upd, SetFatalError_eq_upd, State.upd_upd]
      exact State.noParamExt.of_effects s _ _ (by rfl)
    · rw [if_neg hrc]
      simp only [State.log_eq_upd]
      exact (State.noParamExt.of_effects s _ [Event.SerialnumInsert serial] (by rfl)).trans_ext (ih _)

theorem IndexTxs.outputs_noParam (env : Env) (param_level : Nat) (l : List TxOut) :
    ∀ s : State, s.noParamExt (IndexTxs.outputs env param_level s l).2 := by
  induction l with
  | nil => intro s; exact State.noParamExt.refl_quiet s
  | cons tx rest ih =>
    intro s
    unfold IndexTxs.outputs IndexTxOutputs
    by_cases hrc : env.rc (s.log [Event.GetNextCommitnum true]).trace
        (Event.AddCommitment (env.GetNextCommitnum s.trace) tx.M_commitment) ≠ 0
    · rw [if_pos hrc]
      simp only [if_true, State.log_eq_upd, SetFatalError_eq_upd, State.upd_upd,
        State.upd_fatal]
      exact State.noParamExt.of_effects s _ _ (by rfl)
    · rw [if_neg hrc]
      simp only [Bool.false_eq_true, if_false, State.log_eq_upd, State.upd_upd, State.upd_fatal]
      exact (State.noParamExt.of_effects s _ _ (by rfl)).trans_ext (ih _)

theorem IndexTxs.records_noParam (env : Env) (l : List WireTx) :
    ∀ (s : State) (r : Bool) (t : State),
      IndexTxs.records env s l = .ok (r, t) → s.noParamExt t := by
  induction l with
  | nil =>
    intro s r t h
    simp only [IndexTxs.records, Except.ok.injEq, Prod.mk.injEq] at h
    obtain ⟨rfl, rfl⟩ := h
    exact State.noParamExt.refl_quiet s
  | cons w rest ih =>
    intro s r t h
    unfold IndexTxs.records at h
    cases hp : env.tx_from_wire w with
    | none =>
      simp only [hp, Except.ok.injEq, Prod.mk.injEq, State.log_eq_upd, SetFatalError_eq_upd,
        State.upd_upd] at h
      obtain ⟨rfl, rfl⟩ := h
      exact State.noParamExt.of_effects s _ _ (by rfl)
    | some parsed =>
      simp only [hp] at h
      cases hc : CheckCreatePseudoSerialnum env parsed w with
      | error f => simp [hc] at h
      | ok txbuf =>
        simp only [hc] at h
        have h0 : s.noParamExt (s.log [Event.tx_from_wire w]) := by
          rw [State.log_eq_upd]
          exact State.noParamExt.of_effects s _ _ (by rfl)
        have h1 := h0.trans_ext
          (IndexTxs.inputs_noParam env txbuf.serialnums (s.log [Event.tx_from_wire w]))
        cases hr1 : (IndexTxs.inputs env (s.log [Event.tx_from_wire w]) txbuf.serialnums).1 with
        | true =>
          simp only [hr1, if_true, Except.ok.injEq, Prod.mk.injEq] at h
          obtain ⟨rfl, rfl⟩ := h
          exact h1
        | false =>
          simp only [hr1, Bool.false_eq_true, if_false] at h
          have h2 := h1.trans_ext (IndexTxs.outputs_noParam env txbuf.param_level txbuf.outputs
            (IndexTxs.inputs env (s.log [Event.tx_from_wire w]) txbuf.serialnums).2)
          cases hr2 : (IndexTxs.outputs env txbuf.param_level
              (IndexTxs.inputs env (s.log [Event.tx_from_wire w]) txbuf.serialnums).2
              txbuf.outputs).1 with
          | true =>
            simp only [hr2, if_true, Except.ok.injEq, Prod.mk.injEq] at h
            obtain ⟨rfl, rfl⟩ := h
            exact h2
          | false =>
            simp only [hr2, Bool.false_eq_true, if_false] at h
            exact h2.trans_ext (ih _ _ _ h)

theorem SetNewlyIndelibleBlock.commit_inserts (env : Env) (s : State) (smartobj : Ptr)
    (t : State) (h : SetNewlyIndelibleBlock.commit env s smartobj = .ok (false, t)) :
    ∃ es, t.trace = s.trace ++ es ∧ t.heap = s.heap ∧
      t.m_new_indelible_block = some smartobj ∧
      paramInserts es = [(env.DB_KEY_BLOCK_AUX, (s.heap smartobj).wire.level % 64,
        (s.heap smartobj).aux)] := by
  unfold SetNewlyIndelibleBlock.commit at h
  cases hi : IndexTxs env s smartobj with
  | error f => simp [hi] at h
  | ok res =>
    obtain ⟨rc1, s1⟩ := res
    obtain ⟨f, es, rfl, hes⟩ := IndexTxs.records_noParam env _ s rc1 s1 hi
    simp only [hi] at h
    cases rc1 with
    | true => simp at h
    | false =>
      simp only [Bool.false_eq_true, if_false] at h
      split at h
      · simp at h
      · split at h
        · simp at h
        · split at h
          · simp at h
          · simp only [Except.ok.injEq, Prod.mk.injEq, true_and] at h
            subst h
            refine ⟨es ++ [Event.UpdateCommitTree smartobj (s.heap smartobj).wire.timestamp,
              Event.BlockchainInsert (s.heap smartobj).wire.level smartobj,
              Event.ParameterInsert env.DB_KEY_BLOCK_AUX ((s.heap smartobj).wire.level % 64)
                (s.heap smartobj).aux, Event.SetNewIndelible smartobj], ?_, rfl, rfl, ?_⟩
            · simp [State.publish, State.log, State.upd]
            · rw [paramInserts_append, hes]
              rfl

theorem SetNewlyIndelibleBlock_inserts (env : Env) (s : State) (b : Ptr) (t : State)
    (h : SetNewlyIndelibleBlock env s b = .ok (false, t)) :
    (s.heap b).aux.marked_for_indelible = false ∧
    (s.heap b).wire.level = s.nextLevel ∧
    t.heap = (s.entered b).heap ∧
    t.pendingOrLast = some b ∧
    ∃ es, t.trace = s.trace ++ es ∧
      paramInserts es = [(env.DB_KEY_BLOCK_AUX, (s.heap b).wire.level % 64,
        (s.heap b).mark.aux)] := by
  rcases SetNewlyIndelibleBlock_spec env s b false t h with
    ⟨hr, -⟩ | ⟨hr, -⟩ | ⟨hr, -⟩ | ⟨-, hm, hchk, hc⟩
  · cases hr
  · cases hr
  · cases hr
  · obtain ⟨es, htr, hheap, hnew, hes⟩ := SetNewlyIndelibleBlock.commit_inserts env _ b t hc
    have hb : (s.entered b).heap b = (s.heap b).mark := by
      simp [State.entered, State.setMarked, State.log, Block.mark]
    refine ⟨hm, ?_, hheap, ?_, ?_⟩
    · unfold State.nextLevel
      rcases hchk with ⟨hnone, hlev⟩ | ⟨p, hp, hlink⟩
      · rw [hnone]
        exact hlev
      · rw [hp]
        exact hlink.1
    · unfold State.pendingOrLast
      rw [hnew]
    · refine ⟨[Event.BeginWrite, Event.ReadMarked b, Event.WriteMarked b] ++ es, ?_, ?_⟩
      · rw [htr]
        simp [State.entered, State.setMarked, State.log]
      · rw [paramInserts_append, hes, hb]
        rfl

theorem commitAll_inserts (env : Env) :
    ∀ (bs : List Ptr) (s t : State), commitAll env s bs = .ok (false, t) →
      ∃ es, t.trace = s.trace ++ es ∧
        paramInserts es = bs.map (fun b => (env.DB_KEY_BLOCK_AUX,
          (s.heap b).wire.level % 64, (s.heap b).mark.aux)) ∧
        HeapMarks s.heap t.heap ∧
        (∀ b ∈ bs, t.heap b = (s.heap b).mark ∧ (s.heap b).aux.marked_for_indelible = false) ∧
        (∀ k b, bs[k]? = some b → (s.heap b).wire.level = (s.nextLevel + k) % UINT64_SIZE) := by
  intro bs
  induction bs with
  | nil =>
    intro s t h
    simp only [commitAll, Except.ok.injEq, Prod.mk.injEq, true_and] at h
    subst h
    exact ⟨[], by simp, rfl, HeapMarks.refl _, by simp, by simp⟩
  | cons b bs ih =>
    intro s t h
    unfold commitAll at h
    cases hone : SetNewlyIndelibleBlock env s b with
    | error f => simp [hone] at h
    | ok res =>
      obtain ⟨r, s1⟩ := res
      cases r with
      | true => simp [hone] at h
      | false =>
        simp only [hone] at h
        obtain ⟨hm, hlev, hheap, hpend, es1, htr1, hes1⟩ :=
          SetNewlyIndelibleBlock_inserts env s b s1 hone
        obtain ⟨es2, htr2, hes2, hmarks2, hmem2, hlev2⟩ := ih s1 t h
        have hq : ∀ q, s1.heap q = if q = b then (s.heap b).mark else s.heap q := by
          intro q
          rw [hheap, State.entered_heap]
        have hwire : ∀ q, (s1.heap q).wire = (s.heap q).wire := by
          intro q
          rw [hq q]
          by_cases e : q = b
          · rw [if_pos e, e]
            rfl
          · rw [if_neg e]
        have hmaux : ∀ q, (s1.heap q).mark = (s.heap q).mark := by
          intro q
          rw [hq q]
          by_cases e : q = b
          · rw [if_pos e, e]
            rfl
          · rw [if_neg e]
        have hm1 : HeapMarks s.heap s1.heap := by
          intro q
          rw [hq q]
          by_cases e : q = b
          · rw [if_pos e, e]
            exact Or.inr rfl
          · rw [if_neg e]
            exact Or.inl rfl
        have hnext : s1.nextLevel = (s.nextLevel + 1) % UINT64_SIZE := by
          unfold State.nextLevel
          rw [hpend]
          show ((s1.heap b).wire.level + 1) % UINT64_SIZE = _
          rw [hwire b, hlev]
          rfl
        refine ⟨es1 ++ es2, by rw [htr2, htr1, List.append_assoc], ?_,
          hm1.trans_marks hmarks2, ?_, ?_⟩
        · rw [paramInserts_append, hes1, hes2, List.map_cons]
          simp only [hwire, hmaux, List.singleton_append]
        · intro q hqmem
          rcases List.mem_cons.mp hqmem with e | hin
          · subst e
            refine ⟨?_, hm⟩
            rcases hmarks2 q with e2 | e2
            · rw [e2, hq q, if_pos rfl]
            · rw [e2, hmaux q]
          · obtain ⟨h1, h2⟩ := hmem2 q hin
            have hne : q ≠ b := by
              intro e
              rw [hq q, if_pos e] at h2
              simp [Block.mark] at h2
            rw [hq q, if_neg hne] at h2
            exact ⟨by rw [h1, hmaux q], h2⟩
        · intro k q hk
          cases k with
          | zero =>
            simp only [List.getElem?_cons_zero, Option.some.injEq] at hk
            subst hk
            rw [hlev, Nat.add_zero]
            unfold State.nextLevel
            cases s.pendingOrLast with
            | none => rfl
            | some p => exact (Nat.mod_mod _ _).symm
          | succ k =>
            simp only [List.getElem?_cons_succ] at hk
            have := hlev2 k q hk
            rw [hwire q, hnext, Nat.mod_add_mod] at this
            rw [this]
            congr 1
            omega

theorem paramStore_ring (key : Nat) (a : Nat → BlockAux) :
    ∀ n l, l < n → n ≤ l + 64 →
      (((List.range n).map (fun l => (key, l % 64, a l))).foldl ParameterStore.write
        (fun _ _ => none)) key (l % 64) = some (a l) := by
  intro n
  induction n with
  | zero =>
    intro l h1
    omega
  | succ n ih =>
    intro l h1 h2
    rw [List.range_succ, List.map_append, List.foldl_append]
    simp only [List.map_cons, List.map_nil, List.foldl_cons, List.foldl_nil]
    unfold ParameterStore.write
    by_cases e : l = n
    · subst e
      simp
    · have hne : ¬ (l % 64 = n % 64) := by omega
      simp only [hne, and_false, if_false]
      exact ih l (by omega) (by omega)

/-- C22: on a store with no indelible block, let the calls `SetNewlyIndelibleBlock` for
the blocks `blk 0, ..., blk L` all succeed, and let the parameter store be the map
written by the inserts of that trace.  Then the block `blk l` has level `l`, its commit
wrote the slot `l mod 64` under `DB_KEY_BLOCK_AUX` with its aux slice (the aux it had,
with `marked_for_indelible` set), and for every level `l` with `L - 63 <= l <= L` the
slot `l mod 64` still holds that slice.  When `next_nwitnesses <= MAX_NWITNESSES` and
`next_maxmal < next_nwitnesses` in the slice of the level-`L` block, `N` is at most 21,
which is at most 64, and `RestoreLastBlocks`, reading for each level `L - j` a block of
that level, gives every block it loads the aux slice that the block of its level had
before the restart; no other level of the last 64 shares its slot. -/
theorem C22_aux_ring_round_trip (env : Env) (s t : State) (L : Nat) (blk : Nat → Ptr)
    (store : Store) (hL : L < UINT64_SIZE) (hfresh : s.pendingOrLast = none)
    (hcommit : commitAll env s ((List.range (L + 1)).map blk) = .ok (false, t))
    (hstore : store.ParameterSelect = paramStoreAfter (t.trace.drop s.trace.length)) :
    (∀ l, l ≤ L → (s.heap (blk l)).wire.level = l ∧
      (s.heap (blk l)).aux.marked_for_indelible = false ∧
      (t.heap (blk l)).aux = { (s.heap (blk l)).aux with marked_for_indelible := true }) ∧
    paramInserts (t.trace.drop s.trace.length)
      = (List.range (L + 1)).map
          (fun l => (env.DB_KEY_BLOCK_AUX, l % 64, (t.heap (blk l)).aux)) ∧
    (∀ l, l ≤ L → L ≤ l + 63 →
      store.ParameterSelect env.DB_KEY_BLOCK_AUX (l % 64) = some (t.heap (blk l)).aux) ∧
    (∀ (p : Nat → Ptr) (b : Nat → Block) (a : Nat → BlockAux) (s2 : State) (fuel : Nat),
      (a 0).blockchain_params.next_nwitnesses ≤ MAX_NWITNESSES →
      (a 0).blockchain_params.next_maxmal < (a 0).blockchain_params.next_nwitnesses →
      RestoreReads env store L p b a
        (min (RestoreLastBlocks.nblocks (a 0).blockchain_params) (L + 1)) →
      (∀ j, j < min (RestoreLastBlocks.nblocks (a 0).blockchain_params) (L + 1) →
        (b j).wire.level = L - j) →
      min (RestoreLastBlocks.nblocks (a 0).blockchain_params) (L + 1) < fuel →
      RestoreLastBlocks.nblocks (a 0).blockchain_params ≤ MAX_NWITNESSES ∧
      MAX_NWITNESSES ≤ 64 ∧
      ∃ t2, RestoreLastBlocks env store fuel s2 L = .ok t2 ∧
        ∀ j, j < min (RestoreLastBlocks.nblocks (a 0).blockchain_params) (L + 1) →
          (t2.heap (p j)).aux = (t.heap (blk (L - j))).aux ∧
          (t2.heap (p j)).aux.marked_for_indelible = true ∧
          ∀ l, l ≤ L → L ≤ l + 63 → l % 64 = (L - j) % 64 → l = L - j) := by
  obtain ⟨es, htr, hes, -, hmem, hlev⟩ := commitAll_inserts env _ s t hcommit
  have hnext : s.nextLevel = 0 := by
    unfold State.nextLevel
    rw [hfresh]
  have hdrop : t.trace.drop s.trace.length = es := by
    rw [htr, List.drop_left]
  have hblk : ∀ l, l ≤ L → (s.heap (blk l)).wire.level = l ∧
      (s.heap (blk l)).aux.marked_for_indelible = false ∧
      t.heap (blk l) = (s.heap (blk l)).mark := by
    intro l hl
    have h1 := hmem (blk l) (List.mem_map.mpr ⟨l, List.mem_range.mpr (by omega), rfl⟩)
    have h2 := hlev l (blk l) (by
      rw [List.getElem?_map, List.getElem?_range (by omega)]
      rfl)
    rw [hnext, Nat.zero_add, Nat.mod_eq_of_lt (by omega)] at h2
    exact ⟨h2, h1.2, h1.1⟩
  have hins : paramInserts es = (List.range (L + 1)).map
      (fun l => (env.DB_KEY_BLOCK_AUX, l % 64, (t.heap (blk l)).aux)) := by
    rw [hes, List.map_map]
    apply List.map_congr_left
    intro l hl
    obtain ⟨h1, -, h3⟩ := hblk l (by have := List.mem_range.mp hl; omega)
    simp only [Function.comp, h1, h3]
  have hring : ∀ l, l ≤ L → L ≤ l + 63 →
      store.ParameterSelect env.DB_KEY_BLOCK_AUX (l % 64) = some (t.heap (blk l)).aux := by
    intro l h1 h2
    rw [hstore, hdrop]
    unfold paramStoreAfter
    rw [hins]
    exact paramStore_ring env.DB_KEY_BLOCK_AUX (fun l => (t.heap (blk l)).aux) (L + 1) l
      (by omega) (by omega)
  refine ⟨?_, by rw [hdrop]; exact hins, hring, ?_⟩
  · intro l hl
    obtain ⟨h1, h2, h3⟩ := hblk l hl
    exact ⟨h1, h2, by rw [h3]; rfl⟩
  · intro p b a s2 fuel hnw hmm hreads hlevels hfuel
    unfold MAX_NWITNESSES at hnw ⊢
    obtain ⟨-, hN1, hNnat⟩ := RestoreLastBlocks.nblocks_spec (a 0).blockchain_params
      (by unfold UINT16_SIZE; omega) (by unfold UINT16_SIZE; omega)
    have hN := hNnat (by omega)
    have hN21 : RestoreLastBlocks.nblocks (a 0).blockchain_params ≤ 21 := by
      rw [hN]
      omega
    refine ⟨hN21, by decide, ?_⟩
    obtain ⟨t2, ht2, -, hheap, -, -, -, -, -⟩ :=
      RestoreLastBlocks_run env store L p b a s2 fuel hL hN1 hreads hfuel
    refine ⟨t2, ht2, ?_⟩
    intro j hj
    have hpar := hreads.2.2.1 j hj
    rw [hlevels j hj, hring (L - j) (by omega) (by omega)] at hpar
    have haux : (t2.heap (p j)).aux = (t.heap (blk (L - j))).aux := by
      rw [hheap j hj]
      exact (Option.some.inj hpar).symm
    refine ⟨haux, ?_, ?_⟩
    · rw [haux, (hblk (L - j) (by omega)).2.2]
      rfl
    · intro l h1 h2 h3
      omega

/-- C22, witness: after the commits of the blocks of levels 0 and 1 on a fresh store, the
slots 0 and 1 hold their marked aux slices; the restarted node loads the two blocks
into the buffers 10 and 11 and gives each the slice of its level. -/
theorem C22_witness_two_levels :
    commitAll envOk sampleFreshState ((List.range (1 + 1)).map (fun l => l))
      = .ok (false, sampleCommitted) ∧
    sampleRingStore.ParameterSelect 0 1 = some (sampleAux 101 0 true 2 3) ∧
    sampleRingStore.ParameterSelect 0 0 = some (sampleAux 100 0 true 2 3) ∧
    ∃ t2, RestoreLastBlocks envOk sampleRingStore 3 sampleFreshState 1 = .ok t2 ∧
      (t2.heap 10).aux = (sampleCommitted.heap 1).aux ∧
      (t2.heap 11).aux = (sampleCommitted.heap 0).aux := by
  have hcommit : commitAll envOk sampleFreshState ((List.range (1 + 1)).map (fun l => l))
      = .ok (false, sampleCommitted) := rfl
  have hreads : RestoreReads envOk sampleRingStore 1 (fun i => 10 + i)
      (fun i => sampleBlock (1 - i) (101 - i) (100 - i) 0 false none)
      (fun i => sampleAux (101 - i) 0 true 2 3) 2 := by
    refine ⟨?_, ?_, ?_, fun _ _ => rfl, fun _ _ => rfl, fun _ _ _ _ => rfl, ?_⟩
    · intro i hi
      interval_cases i <;> rfl
    · intro i hi
      interval_cases i <;> decide
    · intro i hi
      interval_cases i <;> rfl
    · intro i j _ _ e
      simpa using e
  obtain ⟨-, -, hring, hrestore⟩ :=
    C22_aux_ring_round_trip envOk sampleFreshState sampleCommitted 1 (fun l => l)
      sampleRingStore (by decide) rfl hcommit rfl
  obtain ⟨-, -, t2, ht2, haux⟩ := hrestore (fun i => 10 + i)
    (fun i => sampleBlock (1 - i) (101 - i) (100 - i) 0 false none)
    (fun i => sampleAux (101 - i) 0 true 2 3) sampleFreshState 3 (by decide) (by decide)
    hreads (by intro j hj; have hj2 : j < 2 := hj; interval_cases j <;> rfl) (by decide)
  exact ⟨hcommit, rfl, rfl, t2, ht2, (haux 0 (by decide)).1, (haux 1 (by decide)).1⟩

/-! ## The fatal flag and the fatal line -/

theorem State.FlagTraced.refl_flag (s : State) : s.FlagTraced s :=
  ⟨[], by simp, by simp⟩

theorem State.FlagTraced.trans_flag {s u t : State} (h1 : s.FlagTraced u)
    (h2 : u.FlagTraced t) : s.FlagTraced t := by
  obtain ⟨es1, a1, b1⟩ := h1
  obtain ⟨es2, a2, b2⟩ := h2
  refine ⟨es1 ++ es2, by rw [a2, a1, List.append_assoc], ?_⟩
  rw [b2, b1, List.any_append, Bool.or_assoc]

theorem State.FlagTraced.of_quiet (s t : State) (es : List Event)
    (htr : t.trace = s.trace ++ es) (hf : t.m_have_fatal_error = s.m_have_fatal_error)
    (hes : es.any Event.isFatal = false) : s.FlagTraced t :=
  ⟨es, htr, by rw [hf, hes, Bool.or_false]⟩

theorem State.FlagTraced.of_fatal (s t : State) (es : List Event)
    (htr : t.trace = s.trace ++ es) (hf : t.m_have_fatal_error = true)
    (hes : es.any Event.isFatal = true) : s.FlagTraced t :=
  ⟨es, htr, by rw [hf, hes, Bool.or_true]⟩

theorem IndexTxs.inputs_flag (env : Env) (l : List Nat) :
    ∀ s : State, s.FlagTraced (IndexTxs.inputs env s l).2 := by
  induction l with
  | nil => intro s; exact State.FlagTraced.refl_flag s
  | cons serial rest ih =>
    intro s
    unfold IndexTxs.inputs
    by_cases hrc : env.rc s.trace (Event.SerialnumInsert serial) ≠ 0
    · rw [if_pos hrc]
      exact State.FlagTraced.of_fatal s _
        [Event.SerialnumInsert serial, Event.Fatal FatalMsg.IndexTxs_SerialnumInsert]
        (by simp [State.log, SetFatalError]) rfl rfl
    · rw [if_neg hrc]
      have h0 : s.FlagTraced (s.log [Event.SerialnumInsert serial]) :=
        State.FlagTraced.of_quiet s _ [Event.SerialnumInsert serial] rfl rfl rfl
      exact h0.trans_flag (ih _)

theorem IndexTxs.outputs_flag (env : Env) (param_level : Nat) (l : List TxOut) :
    ∀ s : State, s.FlagTraced (IndexTxs.outputs env param_level s l).2 := by
  induction l with
  | nil => intro s; exact State.FlagTraced.refl_flag s
  | cons tx rest ih =>
    intro s
    unfold IndexTxs.outputs IndexTxOutputs
    by_cases hrc : env.rc (s.log [Event.GetNextCommitnum true]).trace
        (Event.AddCommitment (env.GetNextCommitnum s.trace) tx.M_commitment) ≠ 0
    · rw [if_pos hrc]
      simp only [if_true]
      exact State.FlagTraced.of_fatal s _
        [Event.GetNextCommitnum true,
          Event.AddCommitment (env.GetNextCommitnum s.trace) tx.M_commitment,
          Event.Fatal FatalMsg.IndexTxs_TxOutputsInsert]
        (by simp [State.log, SetFatalError]) rfl rfl
    · rw [if_neg hrc]
      simp only [Bool.false_eq_true, if_false]
      have h0 : s.FlagTraced (((s.log [Event.GetNextCommitnum true]).log
          [Event.AddCommitment (env.GetNextCommitnum s.trace) tx.M_commitment]).log
          [Event.TxOutputsInsert tx.M_address tx.M_value_enc param_level tx.M_commitment
            (env.GetNextCommitnum s.trace)]) :=
        State.FlagTraced.of_quiet s _
          [Event.GetNextCommitnum true,
            Event.AddCommitment (env.GetNextCommitnum s.trace) tx.M_commitment,
            Event.TxOutputsInsert tx.M_address tx.M_value_enc param_level tx.M_commitment
              (env.GetNextCommitnum s.trace)]
          (by simp [State.log]) rfl rfl
      exact h0.trans_flag (ih _)

theorem IndexTxs.records_flag (env : Env) (l : List WireTx) :
    ∀ (s : State) (r : Bool) (t : State),
      IndexTxs.records env s l = .ok (r, t) → s.FlagTraced t := by
  induction l with
  | nil =>
    intro s r t h
    simp only [IndexTxs.records, Except.ok.injEq, Prod.mk.injEq] at h
    obtain ⟨rfl, rfl⟩ := h
    exact State.FlagTraced.refl_flag s
  | cons w rest ih =>
    intro s r t h
    unfold IndexTxs.records at h
    cases hp : env.tx_from_wire w with
    | none =>
      simp only [hp, Except.ok.injEq, Prod.mk.injEq] at h
      obtain ⟨rfl, rfl⟩ := h
      exact State.FlagTraced.of_fatal s _
        [Event.tx_from_wire w, Event.Fatal FatalMsg.IndexTxs_parse]
        (by simp [State.log, SetFatalError]) rfl rfl
    | some parsed =>
      simp only [hp] at h
      cases hc : CheckCreatePseudoSerialnum env parsed w with
      | error f => simp [hc] at h
      | ok txbuf =>
        simp only [hc] at h
        have h0 : s.FlagTraced (s.log [Event.tx_from_wire w]) :=
          State.FlagTraced.of_quiet s _ [Event.tx_from_wire w] rfl rfl rfl
        have h1 := h0.trans_flag
          (IndexTxs.inputs_flag env txbuf.serialnums (s.log [Event.tx_from_wire w]))
        cases hr1 : (IndexTxs.inputs env (s.log [Event.tx_from_wire w]) txbuf.serialnums).1 with
        | true =>
          simp only [hr1, if_true, Except.ok.injEq, Prod.mk.injEq] at h
          obtain ⟨rfl, rfl⟩ := h
          exact h1
        | false =>
          simp only [hr1, Bool.false_eq_true, if_false] at h
          have h2 := h1.trans_flag (IndexTxs.outputs_flag env txbuf.param_level txbuf.outputs
            (IndexTxs.inputs env (s.log [Event.tx_from_wire w]) txbuf.serialnums).2)
          cases hr2 : (IndexTxs.outputs env txbuf.param_level
              (IndexTxs.inputs env (s.log [Event.tx_from_wire w]) txbuf.serialnums).2
              txbuf.outputs).1 with
          | true =>
            simp only [hr2, if_true, Except.ok.injEq, Prod.mk.injEq] at h
            obtain ⟨rfl, rfl⟩ := h
            exact h2
          | false =>
            simp only [hr2, Bool.false_eq_true, if_false] at h
            exact h2.trans_flag (ih _ _ _ h)

theorem SetNewlyIndelibleBlock.commit_flag (env : Env) (s : State) (smartobj : Ptr)
    (r : Bool) (t : State) (h : SetNewlyIndelibleBlock.commit env s smartobj = .ok (r, t)) :
    s.FlagTraced t := by
  unfold SetNewlyIndelibleBlock.commit at h
  cases hi : IndexTxs env s smartobj with
  | error f => simp [hi] at h
  | ok res =>
    obtain ⟨rc1, s1⟩ := res
    have h1 := IndexTxs.records_flag env _ s rc1 s1 hi
    simp only [hi] at h
    cases rc1 with
    | true =>
      simp only [if_true, Except.ok.injEq, Prod.mk.injEq] at h
      obtain ⟨-, rfl⟩ := h
      exact h1
    | false =>
      simp only [Bool.false_eq_true, if_false] at h
      split at h
      · simp only [Except.ok.injEq, Prod.mk.injEq] at h
        obtain ⟨-, rfl⟩ := h
        exact h1.trans_flag (State.FlagTraced.of_fatal s1 _
          [Event.UpdateCommitTree smartobj (s.heap smartobj).wire.timestamp,
            Event.Fatal FatalMsg.SetNewlyIndelibleBlock_UpdateCommitTree]
          (by simp [State.log, SetFatalError]) rfl rfl)
      · split at h
        · simp only [Except.ok.injEq, Prod.mk.injEq] at h
          obtain ⟨-, rfl⟩ := h
          exact h1.trans_flag (State.FlagTraced.of_fatal s1 _
            [Event.UpdateCommitTree smartobj (s.heap smartobj).wire.timestamp,
              Event.BlockchainInsert (s.heap smartobj).wire.level smartobj,
              Event.Fatal FatalMsg.SetNewlyIndelibleBlock_BlockchainInsert]
            (by simp [State.log, SetFatalError]) rfl rfl)
        · split at h
          · simp only [Except.ok.injEq, Prod.mk.injEq] at h
            obtain ⟨-, rfl⟩ := h
            exact h1.trans_flag (State.FlagTraced.of_fatal s1 _
              [Event.UpdateCommitTree smartobj (s.heap smartobj).wire.timestamp,
                Event.BlockchainInsert (s.heap smartobj).wire.level smartobj,
                Event.ParameterInsert env.DB_KEY_BLOCK_AUX ((s.heap smartobj).wire.level % 64)
                  (s1.heap smartobj).aux,
                Event.Fatal FatalMsg.SetNewlyIndelibleBlock_ParameterInsert]
              (by simp [State.log, SetFatalError]) rfl rfl)
          · simp only [Except.ok.injEq, Prod.mk.injEq] at h
            obtain ⟨-, rfl⟩ := h
            exact h1.trans_flag (State.FlagTraced.of_quiet s1 _
              [Event.UpdateCommitTree smartobj (s.heap smartobj).wire.timestamp,
                Event.BlockchainInsert (s.heap smartobj).wire.level smartobj,
                Event.ParameterInsert env.DB_KEY_BLOCK_AUX ((s.heap smartobj).wire.level % 64)
                  (s1.heap smartobj).aux,
                Event.SetNewIndelible smartobj]
              (by simp [State.log, State.publish]) rfl rfl)

theorem SetNewlyIndelibleBlock_flag (env : Env) (s : State) (b : Ptr) (r : Bool) (t : State)
    (h : SetNewlyIndelibleBlock env s b = .ok (r, t)) : s.FlagTraced t := by
  have hent : s.FlagTraced (s.entered b) :=
    State.FlagTraced.of_quiet s _ [Event.BeginWrite, Event.ReadMarked b, Event.WriteMarked b]
      (by simp [State.entered, State.setMarked, State.log]) rfl rfl
  rcases SetNewlyIndelibleBlock_spec env s b r t h with
    ⟨-, -, rfl⟩ | ⟨-, -, -, rfl⟩ | ⟨-, -, -, p, msg, -, -, rfl⟩ | ⟨-, -, -, hc⟩
  · exact State.FlagTraced.of_fatal s _ _ rfl rfl rfl
  · exact State.FlagTraced.of_quiet s _ _ rfl rfl rfl
  · exact hent.trans_flag (State.FlagTraced.of_fatal _ _ [Event.Fatal msg] rfl rfl rfl)
  · exact hent.trans_flag (SetNewlyIndelibleBlock.commit_flag env _ b r t hc)

theorem DoConfirmOne.walk_flag :
    ∀ (fuel : Nat) (s : State) (block : Ptr) (n : Nat) (t : State) (res : Option (Nat × Ptr)),
      DoConfirmOne.walk fuel s block n = .ok (t, res) → s.FlagTraced t := by
  intro fuel
  induction fuel with
  | zero =>
    intro s block n t res h
    simp [DoConfirmOne.walk] at h
  | succ fuel ih =>
    intro s block n t res h
    unfold DoConfirmOne.walk at h
    split at h
    · simp only [Except.ok.injEq, Prod.mk.injEq] at h
      obtain ⟨rfl, -⟩ := h
      exact State.FlagTraced.refl_flag s
    · rename_i prior_block hprior
      dsimp only at h
      split at h
      · simp only [Except.ok.injEq, Prod.mk.injEq] at h
        obtain ⟨rfl, -⟩ := h
        exact State.FlagTraced.of_fatal s _ [Event.Fatal FatalMsg.DoConfirmOne_level_sequence]
          rfl rfl rfl
      · have h0 : s.FlagTraced (s.log [Event.ReadMarked prior_block]) :=
          State.FlagTraced.of_quiet s _ [Event.ReadMarked prior_block] rfl rfl rfl
        split at h
        · simp only [Except.ok.injEq, Prod.mk.injEq] at h
          obtain ⟨rfl, -⟩ := h
          exact h0
        · exact h0.trans_flag (ih _ _ _ _ _ h)

theorem DoConfirmOne_flag (env : Env) (fuel : Nat) (s : State) (tip : Ptr) (r : Bool)
    (t : State) (h : DoConfirmOne env fuel s tip = .ok (r, t)) : s.FlagTraced t := by
  unfold DoConfirmOne at h
  have h0 : s.FlagTraced (s.log [Event.ReadMarked tip]) :=
    State.FlagTraced.of_quiet s _ [Event.ReadMarked tip] rfl rfl rfl
  dsimp only at h
  split at h
  · simp only [Except.ok.injEq, Prod.mk.injEq] at h
    obtain ⟨-, rfl⟩ := h
    exact h0
  · split at h
    · simp at h
    · rename_i s1 hw
      simp only [Except.ok.injEq, Prod.mk.injEq] at h
      obtain ⟨-, rfl⟩ := h
      exact h0.trans_flag (DoConfirmOne.walk_flag _ _ _ _ _ _ hw)
    · rename_i s1 nconfsigs lastobj hw
      have h1 := h0.trans_flag (DoConfirmOne.walk_flag _ _ _ _ _ _ hw)
      split at h
      · simp only [Except.ok.injEq, Prod.mk.injEq] at h
        obtain ⟨-, rfl⟩ := h
        exact h1
      · exact h1.trans_flag (SetNewlyIndelibleBlock_flag env _ _ r t h)

theorem DoConfirmationLoop.iterate_flag (env : Env) (walkfuel : Nat) :
    ∀ (fuel : Nat) (s : State) (tip : Ptr) (have_new fatal_return have_new2 : Bool)
      (t : State),
      DoConfirmationLoop.iterate env walkfuel fuel s tip have_new
        = .ok (fatal_return, have_new2, t) → s.FlagTraced t := by
  intro fuel
  induction fuel with
  | zero =>
    intro s tip hn fr hn2 t h
    simp [DoConfirmationLoop.iterate] at h
  | succ fuel ih =>
    intro s tip hn fr hn2 t h
    unfold DoConfirmationLoop.iterate at h
    cases hone : DoConfirmOne env walkfuel s tip with
    | error f => simp [hone] at h
    | ok res =>
      obtain ⟨rc, s1⟩ := res
      have h1 := DoConfirmOne_flag env walkfuel s tip rc s1 hone
      simp only [hone] at h
      split at h
      · simp only [Except.ok.injEq, Prod.mk.injEq] at h
        obtain ⟨-, -, rfl⟩ := h
        exact h1
      · split at h
        · simp only [Except.ok.injEq, Prod.mk.injEq] at h
          obtain ⟨-, -, rfl⟩ := h
          exact h1
        · exact h1.trans_flag (ih _ _ _ _ _ _ h)

theorem DoConfirmations_commit_cases (env : Env) (fuel : Nat) (s : State) (tip : Ptr)
    (r : Bool) (t : State) (hs : s.m_have_fatal_error = false)
    (h : DoConfirmations env fuel s tip = .ok (r, t)) :
    ∃ pre, (∀ e ∈ pre, e ≠ Event.EndWrite true) ∧
      ((t.trace = s.trace ++ (pre ++ [Event.EndWrite false]) ∧ r = true ∧
          t.m_have_fatal_error = pre.any Event.isFatal ∧
          (pre.any Event.isFatal = true ∨ promoted pre = []) ∧
          t.m_last_indelible_block = s.m_last_indelible_block ∧
          t.m_last_indelible_level = s.m_last_indelible_level) ∨
        (promoted pre ≠ [] ∧ pre.any Event.isFatal = false ∧
          env.rc (s.trace ++ pre) (Event.EndWrite true) ≠ 0 ∧
          t.trace = s.trace ++ (pre ++ [Event.EndWrite true,
            Event.Fatal FatalMsg.DoConfirmations_commit, Event.EndWrite false]) ∧
          r = true ∧ t.m_have_fatal_error = true ∧
          t.m_last_indelible_block = s.m_last_indelible_block ∧
          t.m_last_indelible_level = s.m_last_indelible_level) ∨
        (promoted pre ≠ [] ∧ pre.any Event.isFatal = false ∧
          env.rc (s.trace ++ pre) (Event.EndWrite true) = 0 ∧
          ∃ nb, (promoted pre).getLast? = some nb ∧
            t.trace = s.trace ++ (pre ++ [Event.EndWrite true, Event.SetLastIndelible nb,
              Event.ReleaseMutex,
              Event.StartCheckpoint (DoConfirmationLoop.fullcheckpoint env s tip),
              Event.EndWrite false]) ∧
            r = false ∧ t.m_have_fatal_error = false ∧
            t.m_last_indelible_block = some nb ∧
            t.m_last_indelible_level = (t.heap nb).wire.level ∧
            t.m_new_indelible_block = none)) := by
  unfold DoConfirmations at h
  rw [if_neg (by simp [hs])] at h
  unfold DoConfirmationLoop at h
  cases hi : DoConfirmationLoop.iterate env fuel fuel s tip false with
  | error f => simp [hi] at h
  | ok res =>
    obtain ⟨fr, hn2, s1⟩ := res
    obtain ⟨-, hlast, hlevel, hfr, pre, htr, -, hnil, hcons, -⟩ :=
      DoConfirmationLoop.iterate_run env fuel fuel s tip false fr hn2 s1 hs hi
    obtain ⟨pre2, htr2, hflag⟩ := DoConfirmationLoop.iterate_flag env fuel fuel s tip false
      fr hn2 s1 hi
    obtain ⟨es3, htr3, hround, -, -⟩ := DoConfirmationLoop.iterate_lock env fuel fuel s tip
      false fr hn2 s1 hi
    have e2 : pre2 = pre := by
      rw [htr] at htr2
      exact (List.append_cancel_left htr2).symm
    have e3 : pre = Event.ReadMarked tip :: es3 := by
      rw [htr] at htr3
      exact List.append_cancel_left htr3
    rw [e2, hs, Bool.false_or] at hflag
    have hno : ∀ e ∈ pre, e ≠ Event.EndWrite true := by
      intro e he hc
      rw [e3] at he
      rcases List.mem_cons.mp he with h1 | h1
      · rw [hc] at h1
        cases h1
      · have := hround e h1
        rw [hc] at this
        cases this
    refine ⟨pre, hno, ?_⟩
    simp only [hi] at h
    cases fr with
    | true =>
      simp only [if_true, Except.ok.injEq, Prod.mk.injEq] at h
      obtain ⟨rfl, rfl⟩ := h
      refine Or.inl ⟨by simp [State.log, htr], rfl, hflag, Or.inl ?_, hlast, hlevel⟩
      rw [← hflag, ← hfr]
    | false =>
      have hquiet : pre.any Event.isFatal = false := by rw [← hflag, ← hfr]
      simp only [Bool.false_eq_true, if_false] at h
      cases hn2 with
      | false =>
        simp only [Bool.not_false, if_true, Except.ok.injEq, Prod.mk.injEq] at h
        obtain ⟨rfl, rfl⟩ := h
        have hp : promoted pre = [] := by
          by_contra hne
          have := (hcons hne).2
          cases this
        exact Or.inl ⟨by simp [State.log, htr], rfl, hflag, Or.inr hp, hlast, hlevel⟩
      | true =>
        simp only [Bool.not_true, Bool.false_eq_true, if_false] at h
        have hp : promoted pre ≠ [] := by
          intro hne
          have := (hnil hne).2
          cases this
        have hnew := (hcons hp).1
        cases hnb : s1.m_new_indelible_block with
        | none => simp [hnb] at h
        | some nb =>
          simp only [hnb] at h
          rw [hnb] at hnew
          by_cases hrc : env.rc s1.trace (Event.EndWrite true) ≠ 0
          · rw [if_pos hrc] at h
            simp only [Except.ok.injEq, Prod.mk.injEq] at h
            obtain ⟨rfl, rfl⟩ := h
            rw [htr] at hrc
            exact Or.inr (Or.inl ⟨hp, hquiet, hrc,
              by simp [State.log, SetFatalError, htr], rfl, rfl, hlast, hlevel⟩)
          · rw [if_neg hrc] at h
            simp only [Except.ok.injEq, Prod.mk.injEq] at h
            obtain ⟨rfl, rfl⟩ := h
            rw [htr] at hrc
            exact Or.inr (Or.inr ⟨hp, hquiet, not_not.mp hrc, nb, hnew.symm,
              by simp [State.log, htr], rfl, hfr.symm, rfl, rfl, rfl⟩)

/-- C7: for a call of `DoConfirmations` entered without a fatal error and returning `r`
in state `t`, the effects `es` of the call are the effects `pre` of the loop, which
hold no `EndWrite(true)` and all the promotions, followed by a tail.  The commit
`EndWrite(true)` is called, as first effect of the tail, exactly when at least one
block was promoted and no fatal line was logged in the loop.  (a) If at least one block
was promoted, no fatal line was logged in the loop and the commit `EndWrite(true)`
returns 0, then `r` is false, the fatal flag is clear, the last indelible block is the
last block promoted, the last indelible level is the level of that block, and the
pending block is cleared.  (b) If no block was promoted, `r` is true and the last
indelible block and level are unchanged.  (c) If a fatal line was logged in the loop,
or the commit returns non-zero, the fatal flag is set, `r` is true and the last
indelible block and level are unchanged; after a failed commit the tail is the commit,
its fatal line and the closing `EndWrite()`.  The same three results are also given
on the final fatal flag.  The call does return when the chain of the tip is finite,
the fuel exceeds its length and the assertions of the commit path hold. -/
theorem C7_DoConfirmations_publishes (env : Env) (fuel : Nat) (s : State) (newobj : Ptr)
    (hs : s.m_have_fatal_error = false) :
    (∀ r t, DoConfirmations env fuel s newobj = .ok (r, t) →
      ∃ es, t.trace = s.trace ++ es ∧
        (promoted es ≠ [] → t.m_have_fatal_error = false →
          r = false ∧ t.m_last_indelible_block = (promoted es).getLast? ∧
          (∀ b, (promoted es).getLast? = some b →
            t.m_last_indelible_level = (t.heap b).wire.level) ∧
          t.m_new_indelible_block = none) ∧
        (promoted es = [] →
          r = true ∧ t.m_last_indelible_block = s.m_last_indelible_block ∧
          t.m_last_indelible_level = s.m_last_indelible_level) ∧
        (t.m_have_fatal_error = true →
          r = true ∧ t.m_last_indelible_block = s.m_last_indelible_block ∧
          t.m_last_indelible_level = s.m_last_indelible_level) ∧
        ∃ pre tail, es = pre ++ tail ∧ (∀ e ∈ pre, e ≠ Event.EndWrite true) ∧
          promoted es = promoted pre ∧
          (tail.head? = some (Event.EndWrite true) ↔
            (promoted pre ≠ [] ∧ pre.any Event.isFatal = false)) ∧
          (promoted pre ≠ [] → pre.any Event.isFatal = false →
            env.rc (s.trace ++ pre) (Event.EndWrite true) = 0 →
            r = false ∧ t.m_have_fatal_error = false ∧
            t.m_last_indelible_block = (promoted es).getLast? ∧
            (∀ b, (promoted es).getLast? = some b →
              t.m_last_indelible_level = (t.heap b).wire.level) ∧
            t.m_new_indelible_block = none) ∧
          (pre.any Event.isFatal = true →
            t.m_have_fatal_error = true ∧ r = true ∧
            t.m_last_indelible_block = s.m_last_indelible_block ∧
            t.m_last_indelible_level = s.m_last_indelible_level ∧
            tail = [Event.EndWrite false]) ∧
          (promoted pre ≠ [] → pre.any Event.isFatal = false →
            env.rc (s.trace ++ pre) (Event.EndWrite true) ≠ 0 →
            t.m_have_fatal_error = true ∧ r = true ∧
            t.m_last_indelible_block = s.m_last_indelible_block ∧
            t.m_last_indelible_level = s.m_last_indelible_level ∧
            tail = [Event.EndWrite true, Event.Fatal FatalMsg.DoConfirmations_commit,
              Event.EndWrite false]) ∧
          (promoted pre = [] → pre.any Event.isFatal = false →
            t.m_have_fatal_error = false ∧ tail = [Event.EndWrite false])) ∧
    (∀ d, ancestor s.heap d newobj = none → d + 1 ≤ fuel → AssertionsHold env s newobj →
      ∃ r t, DoConfirmations env fuel s newobj = .ok (r, t)) := by
  refine ⟨?_, fun d ha hd hassert => DoConfirmations_total env fuel d s newobj ha hd hassert⟩
  intro r t h
  obtain ⟨-, es, htr, -, -, hcase⟩ := DoConfirmations_run env fuel s newobj r t hs h
  refine ⟨es, htr, ?_, ?_, ?_, ?_⟩
  · intro hp hf
    rcases hcase with ⟨hr, -, -, hlast, hlevel, hnew⟩ | ⟨-, -, -, hfat | ⟨hnil, -⟩⟩
    · refine ⟨hr, hlast, ?_, hnew⟩
      intro b hb
      exact hlevel b (hlast.trans hb)
    · rw [hf] at hfat
      exact absurd hfat (by simp)
    · exact absurd hnil hp
  · intro hp
    rcases hcase with ⟨-, -, hne, -⟩ | ⟨hr, hlast, hlevel, -⟩
    · exact absurd hp hne
    · exact ⟨hr, hlast, hlevel⟩
  · intro hf
    rcases hcase with ⟨-, hnf, -⟩ | ⟨hr, hlast, hlevel, -⟩
    · rw [hf] at hnf
      exact absurd hnf (by simp)
    · exact ⟨hr, hlast, hlevel⟩
  · obtain ⟨pre, hno, hcases⟩ := DoConfirmations_commit_cases env fuel s newobj r t hs h
    rcases hcases with ⟨htr2, hr, hflag, hwhy, hlast, hlevel⟩ |
      ⟨hp, hquiet, hrc, htr2, hr, hfat, hlast, hlevel⟩ |
      ⟨hp, hquiet, hrc, nb, hnb, htr2, hr, hfat, hlast, hlevel, hnew⟩
    · have hes : es = pre ++ [Event.EndWrite false] := by
        rw [htr] at htr2
        exact List.append_cancel_left htr2
      have hprom : promoted es = promoted pre := by
        rw [hes, promoted_append]
        exact List.append_nil _
      refine ⟨pre, [Event.EndWrite false], hes, hno, hprom, ?_, ?_, ?_, ?_, ?_⟩
      · constructor
        · intro hc
          simp at hc
        · rintro ⟨h1, h2⟩
          rcases hwhy with h3 | h3
          · rw [h2] at h3
            cases h3
          · exact absurd h3 h1
      · intro h1 h2 _
        rcases hwhy with h3 | h3
        · rw [h2] at h3
          cases h3
        · exact absurd h3 h1
      · intro h1
        exact ⟨by rw [hflag, h1], hr, hlast, hlevel, rfl⟩
      · intro h1 h2 _
        rcases hwhy with h3 | h3
        · rw [h2] at h3
          cases h3
        · exact absurd h3 h1
      · intro _ h2
        exact ⟨by rw [hflag, h2], rfl⟩
    · have hes : es = pre ++ [Event.EndWrite true,
          Event.Fatal FatalMsg.DoConfirmations_commit, Event.EndWrite false] := by
        rw [htr] at htr2
        exact List.append_cancel_left htr2
      have hprom : promoted es = promoted pre := by
        rw [hes, promoted_append]
        exact List.append_nil _
      refine ⟨pre, _, hes, hno, hprom, ?_, ?_, ?_, ?_, ?_⟩
      · exact ⟨fun _ => ⟨hp, hquiet⟩, fun _ => rfl⟩
      · intro _ _ h0
        exact absurd h0 hrc
      · intro h1
        rw [hquiet] at h1
        cases h1
      · intro _ _ _
        exact ⟨hfat, hr, hlast, hlevel, rfl⟩
      · intro h1
        exact absurd h1 hp
    · have hes : es = pre ++ [Event.EndWrite true, Event.SetLastIndelible nb,
          Event.ReleaseMutex,
          Event.StartCheckpoint (DoConfirmationLoop.fullcheckpoint env s newobj),
          Event.EndWrite false] := by
        rw [htr] at htr2
        exact List.append_cancel_left htr2
      have hprom : promoted es = promoted pre := by
        rw [hes, promoted_append]
        exact List.append_nil _
      refine ⟨pre, _, hes, hno, hprom, ?_, ?_, ?_, ?_, ?_⟩
      · exact ⟨fun _ => ⟨hp, hquiet⟩, fun _ => rfl⟩
      · intro _ _ _
        refine ⟨hr, hfat, by rw [hprom, hnb, hlast], ?_, hnew⟩
        intro b hb
        rw [hprom, hnb] at hb
        cases hb
        exact hlevel
      · intro h1
        rw [hquiet] at h1
        cases h1
      · intro _ _ h0
        exact absurd hrc h0
      · intro h1
        exact absurd h1 hp

/-- C7, applied to the chain P <- L1 <- L2 with tip L2 and fuel 5: the call returns false
having promoted L1, which becomes the last indelible block at level 6; when the commit
`EndWrite(true)` fails, the call returns true with the fatal flag set, P still the last
indelible block at level 5, and the commit followed by its fatal line in the trace. -/
theorem C7_witness_two_blocks :
    (sampleChainState 0 0).m_have_fatal_error = false ∧
    (∃ t es, DoConfirmations envOk 5 (sampleChainState 0 0) 2 = .ok (false, t) ∧
      t.trace = (sampleChainState 0 0).trace ++ es ∧ promoted es = [1] ∧
      t.m_last_indelible_block = some 1 ∧ t.m_last_indelible_level = 6 ∧
      t.m_new_indelible_block = none) ∧
    (DoConfirmations envCommitFails 5 (sampleChainState 0 0) 2).toOption.map
      (fun x => (x.1, x.2.m_have_fatal_error, x.2.m_last_indelible_block,
        x.2.m_last_indelible_level, promoted x.2.trace, x.2.trace.drop 12))
      = some (true, true, some 0, 5, [1],
          [Event.EndWrite true, Event.Fatal FatalMsg.DoConfirmations_commit,
            Event.EndWrite false]) := by
  obtain ⟨t, ht⟩ : ∃ t, DoConfirmations envOk 5 (sampleChainState 0 0) 2
      = .ok (false, t) := ⟨_, rfl⟩
  obtain ⟨es, htr, ha, -, -, -⟩ :=
    (C7_DoConfirmations_publishes envOk 5 (sampleChainState 0 0) 2 rfl).1 false t ht
  have hlast : t.m_last_indelible_block = some 1 := by
    have hev : (DoConfirmations envOk 5 (sampleChainState 0 0) 2).toOption.map
        (fun x => x.2.m_last_indelible_block) = some (some 1) := by decide
    rw [ht] at hev
    simpa [Except.toOption] using hev
  have hfat : t.m_have_fatal_error = false := by
    have hev : (DoConfirmations envOk 5 (sampleChainState 0 0) 2).toOption.map
        (fun x => x.2.m_have_fatal_error) = some false := by decide
    rw [ht] at hev
    simpa [Except.toOption] using hev
  have hes : es = t.trace := by simpa [sampleChainState] using htr.symm
  have hprom : promoted es = [1] := by
    have hev : (DoConfirmations envOk 5 (sampleChainState 0 0) 2).toOption.map
        (fun x => promoted x.2.trace) = some [1] := by decide
    rw [ht] at hev
    rw [hes]
    simpa [Except.toOption] using hev
  obtain ⟨-, -, hlevel, hnew⟩ := ha (by rw [hprom]; simp) hfat
  refine ⟨rfl, ⟨t, es, ht, htr, hprom, hlast, ?_, hnew⟩, rfl⟩
  rw [hlevel 1 (by rw [hprom]; rfl)]
  have hev : (DoConfirmations envOk 5 (sampleChainState 0 0) 2).toOption.map
      (fun x => (x.2.heap 1).wire.level) = some 6 := by decide
  rw [ht] at hev
  simpa [Except.toOption] using hev

end BlockChain
